import Mathlib

/-!
# The cabana DBC database: parser, generator, error reporting and the manager of open files

A shallow embedding of `tools/cabana/dbc/dbcfile.cc`, `dbcfile.h`, `dbc.h` and `dbcmanager.cc`.

* Text (`QString`, `std::string`) is a list of characters.
* The Qt library functions the parser calls (`trimmed`, `startsWith`, `indexOf`, `mid`,
  `replace`, `arg`, `toUInt`, `QTextStream::readLine`, `QRegularExpression`) are modelled
  from their documented behaviour; each regular expression of the source is written out as a
  value of `Re` and run by a backtracking matcher that lists the matches in the order in which
  the PCRE engine explores them.
* A `double` is stored as its 64-bit pattern; converting text to a double and printing a double
  are library functions taken as parameters (`LibC`), so the theorems about the parser and the
  generator hold for all of them. Where a statement is about the conversions themselves, they
  are the instance `ieeeLibC`: IEEE 754 binary64 with rounding to nearest, ties to even.
* An exception thrown by the C++ code is the `Except.error` result, carrying `what()`.
* The shared pointers of `DBCManager` are indices into the list of the objects constructed.
* The C library functions `MessageId` calls (`snprintf` with `%u` and `%X`, `std::stoul`,
  `std::string::find`) are modelled from the C and C++ standards.
-/

set_option linter.unusedVariables false
set_option linter.deprecated false

/-- Text: the characters of a `QString` or `std::string`. -/
abbrev Str := List Char

/-! ## Qt string functions -/

namespace Qt

/-- Qt `QChar::isSpace`: the ASCII white space characters `\t \n \v \f \r` and the blank, the
next-line and no-break-space characters, and the Unicode separators (categories Zs, Zl, Zp). -/
def isSpace (c : Char) : Bool :=
  let n := c.toNat
  n == 32 || (9 ≤ n && n ≤ 13) || n == 0x85 || n == 0xA0 || n == 0x1680 ||
  (0x2000 ≤ n && n ≤ 0x200A) || n == 0x2028 || n == 0x2029 || n == 0x202F ||
  n == 0x205F || n == 0x3000

/-- Qt `QString::trimmed`: white space removed from both ends. -/
def trimmed (s : Str) : Str :=
  ((s.dropWhile isSpace).reverse.dropWhile isSpace).reverse

/-- Qt `QString::startsWith`. -/
def startsWith (s p : Str) : Bool := p.isPrefixOf s

/-- Qt `QString::endsWith`. -/
def endsWith (s p : Str) : Bool := p.reverse.isPrefixOf s.reverse

/-- First offset `i` with `p` a prefix of the text dropped by `i`, counted from `base`. -/
def findFrom (p : Str) : Str → Nat → Option Nat
  | [], base => if p.isEmpty then some base else none
  | c :: t, base => if p.isPrefixOf (c :: t) then some base else findFrom p t (base + 1)

/-- Qt `QString::indexOf(p, from)`: the index of the first occurrence of `p` at or after `from`,
or `-1`. A negative `from` counts from the end. -/
def indexOf (s p : Str) (frm : Int) : Int :=
  let l : Int := s.length
  let sl : Int := p.length
  let f := if frm < 0 then frm + l else frm
  if f < 0 ∨ sl + f > l then -1
  else
    match findFrom p (s.drop f.toNat) f.toNat with
    | some i => i
    | none => -1

/-- Qt `QString::mid(position, n)`: `n` characters from `position`; everything from `position`
when `n` is negative or reaches past the end. -/
def mid (s : Str) (position n : Int) : Str :=
  let len : Int := s.length
  if position > len then []
  else if position < 0 then
    if n < 0 ∨ n + position ≥ len then s
    else if n + position ≤ 0 then []
    else s.take (n + position).toNat
  else if n < 0 ∨ n > len - position then s.drop position.toNat
  else (s.drop position.toNat).take n.toNat

/-- Worker of `replace`: `skip` counts the characters of an occurrence still to be dropped. -/
def replaceAux (before after : Str) : Nat → Str → Str
  | _, [] => []
  | skip + 1, _ :: t => replaceAux before after skip t
  | 0, c :: t =>
    if before.isPrefixOf (c :: t) then after ++ replaceAux before after (before.length - 1) t
    else c :: replaceAux before after 0 t

/-- Qt `QString::replace(before, after)` for a non-empty `before`: every occurrence, found from
left to right without overlap, is replaced. -/
def replace (s before after : Str) : Str := replaceAux before after 0 s

/-- Qt `QString::split(sep)`: the pieces between the separators, empty pieces kept. -/
def split (sep : Char) : Str → List Str
  | [] => [[]]
  | c :: t =>
    if c = sep then [] :: split sep t
    else
      match split sep t with
      | [] => [[c]]
      | p :: ps => (c :: p) :: ps

/-- Value of an ASCII decimal digit. -/
def digitValue (c : Char) : Option Nat :=
  if 48 ≤ c.toNat ∧ c.toNat ≤ 57 then some (c.toNat - 48) else none

/-- Value of a text made of decimal digits only (at least one), read from the left. -/
def digitsValue : Str → Nat → Option Nat
  | [], acc => some acc
  | c :: t, acc =>
    match digitValue c with
    | some d => digitsValue t (acc * 10 + d)
    | none => none

/-- An unsigned decimal number: optional `+`, then digits only. -/
def unsignedValue (s : Str) : Option Nat :=
  match trimmed s with
  | [] => none
  | c :: t =>
    if c = '+' then (if t.isEmpty then none else digitsValue t 0)
    else digitsValue (c :: t) 0

/-- A signed decimal number: optional sign, then digits only. -/
def signedValue (s : Str) : Option Int :=
  match trimmed s with
  | [] => none
  | c :: t =>
    if c = '-' then (if t.isEmpty then none else (digitsValue t 0).map (fun v => -(v : Int)))
    else (unsignedValue (c :: t)).map (fun v => (v : Int))

/-- Qt `QString::toUInt()`: the decimal value when the text is a number below `2^32`, else `0`. -/
def toUInt (s : Str) : Nat :=
  match unsignedValue s with
  | some v => if v < 2 ^ 32 then v else 0
  | none => 0

/-- Qt `QString::toULong()` (64-bit `unsigned long`): the value when below `2^64`, else `0`. -/
def toULong (s : Str) : Nat :=
  match unsignedValue s with
  | some v => if v < 2 ^ 64 then v else 0
  | none => 0

/-- Qt `QString::toInt()`: the value when it fits a 32-bit `int`, else `0`. -/
def toInt (s : Str) : Int :=
  match signedValue s with
  | some v => if -(2 ^ 31 : Int) ≤ v ∧ v < 2 ^ 31 then v else 0
  | none => 0

/-- Decimal digits of `n`, most significant first, in front of `acc` (`fuel > n` suffices). -/
def decimalAux : Nat → Nat → Str → Str
  | 0, _, acc => acc
  | fuel + 1, n, acc =>
    if n < 10 then Char.ofNat (48 + n) :: acc
    else decimalAux fuel (n / 10) (Char.ofNat (48 + n % 10) :: acc)

/-- Decimal text of an unsigned number: `std::to_string` and `QString::arg` of an unsigned or
non-negative integer. -/
def decimal (n : Nat) : Str := decimalAux (n + 1) n []

/-- Decimal text of a signed number (`std::to_string(int)`). -/
def decimalInt (i : Int) : Str :=
  if i < 0 then '-' :: decimal i.natAbs else decimal i.toNat

/-- A piece of a format text: a plain character, or a place marker `%n` / `%Ln` with its
number and its own text. -/
inductive ArgTok where
  | chr (c : Char)
  | marker (n : Nat) (text : Str)

/-- A place marker at the head of the text: a `%`, an optional `L`, one digit and an optional
second digit. Gives the marker's number and its length in characters. -/
def markerAt (s : Str) : Option (Nat × Nat) :=
  match s with
  | [] => none
  | c :: rest =>
    if c = '%' then
      let l : Nat := if rest.head? = some 'L' then 1 else 0
      match rest.drop l with
      | [] => none
      | d1 :: r1 =>
        match digitValue d1 with
        | none => none
        | some v1 =>
          match r1.head?.bind digitValue with
          | some v2 => some (10 * v1 + v2, 3 + l)
          | none => some (v1, 2 + l)
    else none

/-- The scan of `QString::arg` for place markers (`findArgEscapes`), from left to right; a `%`
that starts no marker is plain text. `skip` counts the characters of a marker still to be
passed over. -/
def argTokensAux : Nat → Str → List ArgTok
  | _, [] => []
  | skip + 1, _ :: t => argTokensAux skip t
  | 0, c :: t =>
    match markerAt (c :: t) with
    | some (n, len) => .marker n ((c :: t).take len) :: argTokensAux (len - 1) t
    | none => .chr c :: argTokensAux 0 t

/-- The pieces of a format text. -/
def argTokens (s : Str) : List ArgTok := argTokensAux 0 s

/-- The lowest marker number of a token list. -/
def minMarker : List ArgTok → Option Nat
  | [] => none
  | .chr _ :: ts => minMarker ts
  | .marker n _ :: ts =>
    match minMarker ts with
    | some m => some (min n m)
    | none => some n

/-- Substitution of `a` for the markers numbered `m`. -/
def substMarker (m : Nat) (a : Str) : List ArgTok → Str
  | [] => []
  | .chr c :: ts => c :: substMarker m a ts
  | .marker n text :: ts => (if n = m then a else text) ++ substMarker m a ts

/-- Qt `QString::arg(a)`: every occurrence of the lowest-numbered place marker of the text is
replaced by `a`; a text without a marker is returned as it is. -/
def arg (s a : Str) : Str :=
  match minMarker (argTokens s) with
  | some m => substMarker m a (argTokens s)
  | none => s

/-- Qt `QTextStream::readLine` run to the end of the text: every line without its terminator,
each paired with the number of characters its terminator took (`\n` is 1, `\r\n` is 2; at the
end of the text without a final `\n`, 0, or 1 for a final `\r`, which is dropped too).
`acc` is the current line so far, reversed. -/
def scanLines : Str → Str → List (Str × Nat)
  | [], [] => []
  | [], a :: acc => if a = '\r' then [(acc.reverse, 1)] else [((a :: acc).reverse, 0)]
  | c :: t, acc =>
    if c = '\n' then
      (match acc with
       | [] => ([], 1)
       | a :: acc1 => if a = '\r' then (acc1.reverse, 2) else ((a :: acc1).reverse, 1))
        :: scanLines t []
    else scanLines t (c :: acc)

end Qt

/-! ## Regular expressions (`QRegularExpression`, PCRE) -/

/-- The constructs of the patterns of `dbcfile.cc`. -/
inductive Re where
  /-- one given character -/
  | lit (c : Char)
  /-- one character of a class -/
  | cls (p : Char → Bool)
  /-- Pattern `ab` -/
  | seq (a b : Re)
  /-- Pattern `a|b`, the left branch tried first -/
  | alt (a b : Re)
  /-- Pattern `a*`, greedy -/
  | star (a : Re)
  /-- Pattern `a*?`, lazy -/
  | lazyStar (a : Re)
  /-- Pattern `(a)`, capture group number `n` -/
  | group (n : Nat) (a : Re)
  /-- Pattern `^`, the start of the subject -/
  | bos
  /-- the empty pattern -/
  | eps

/-- The captured groups, the latest in front. -/
abbrev Caps := List (Nat × Str)

/-- The outcomes of running a pattern: the rest of the subject and the groups, in the order in
which the backtracking matcher reaches them. -/
abbrev Outcomes := List (Str × Caps)

namespace Re

/-- Pattern `a+`. -/
def plus (a : Re) : Re := .seq a (.star a)

/-- Pattern `a?`, greedy. -/
def opt (a : Re) : Re := .alt a .eps

/-- A literal text. -/
def lits : Str → Re
  | [] => .eps
  | c :: cs => .seq (.lit c) (lits cs)

/-- Greedy repetition of `f`: one more round first, stopping last. A round that consumes
nothing ends the repetition. -/
def starRun (f : Str → Caps → Outcomes) : Nat → Str → Caps → Outcomes
  | 0, s, c => [(s, c)]
  | fuel + 1, s, c =>
    (f s c).bind (fun r => if r.1.length < s.length then starRun f fuel r.1 r.2 else [])
      ++ [(s, c)]

/-- Lazy repetition of `f`: stopping first, one more round last. -/
def lazyStarRun (f : Str → Caps → Outcomes) : Nat → Str → Caps → Outcomes
  | 0, s, c => [(s, c)]
  | fuel + 1, s, c =>
    (s, c) ::
      (f s c).bind (fun r => if r.1.length < s.length then lazyStarRun f fuel r.1 r.2 else [])

/-- All the ways pattern `r` matches a prefix of `s`, in backtracking order. `atStart` tells
whether `s` is the whole subject. -/
def run : Re → Bool → Str → Caps → Outcomes
  | .lit c, _, s, caps =>
    match s with
    | [] => []
    | d :: t => if d = c then [(t, caps)] else []
  | .cls p, _, s, caps =>
    match s with
    | [] => []
    | d :: t => if p d then [(t, caps)] else []
  | .seq a b, atStart, s, caps =>
    (run a atStart s caps).bind
      (fun r => run b (atStart && decide (r.1.length = s.length)) r.1 r.2)
  | .alt a b, atStart, s, caps => run a atStart s caps ++ run b atStart s caps
  | .star a, _, s, caps => starRun (fun s1 c1 => run a false s1 c1) s.length s caps
  | .lazyStar a, _, s, caps => lazyStarRun (fun s1 c1 => run a false s1 c1) s.length s caps
  | .group n a, atStart, s, caps =>
    (run a atStart s caps).map
      (fun r => (r.1, (n, s.take (s.length - r.1.length)) :: r.2))
  | .bos, atStart, s, caps => if atStart then [(s, caps)] else []
  | .eps, _, s, caps => [(s, caps)]

/-- The first match of `r` that starts at the head of `s`. -/
def matchHere (r : Re) (atStart : Bool) (s : Str) : Option Caps :=
  ((run r atStart s []).head?).map (fun o => o.2)

/-- Worker of `search`. -/
def searchFrom (r : Re) : Bool → Str → Option Caps
  | atStart, [] => matchHere r atStart []
  | atStart, c :: t =>
    match matchHere r atStart (c :: t) with
    | some caps => some caps
    | none => searchFrom r false t

/-- Qt `QRegularExpression::match(subject)`: the first match at the leftmost offset that has one;
`none` when `hasMatch()` is false. -/
def search (r : Re) (subject : Str) : Option Caps := searchFrom r true subject

end Re

/-- Qt `QRegularExpressionMatch::captured(n)`: the text of group `n`, empty if it took no part. -/
def captured (caps : Caps) (n : Nat) : Str := (caps.lookup n).getD []

/-! ### Character classes -/

/-- Pattern `\w`: ASCII letters, digits and the underscore. -/
def isWordChar (c : Char) : Bool :=
  let n := c.toNat
  (48 ≤ n && n ≤ 57) || (65 ≤ n && n ≤ 90) || (97 ≤ n && n ≤ 122) || n == 95

/-- Pattern `\d`: ASCII digits. -/
def isDigitChar (c : Char) : Bool := 48 ≤ c.toNat && c.toNat ≤ 57

/-- Pattern `\s`: blank, `\t`, `\n`, `\v`, `\f`, `\r`. -/
def isReSpace (c : Char) : Bool := c.toNat == 32 || (9 ≤ c.toNat && c.toNat ≤ 13)

/-- Pattern `.`: any character but the newline. -/
def isDot (c : Char) : Bool := c != '\n'

/-- Pattern `[^"\\]`. -/
def isPlainCommentChar (c : Char) : Bool := c != '"' && c != '\\'

/-- Pattern `[\+|\-]`: plus, bar or minus. -/
def isSignChar (c : Char) : Bool := c == '+' || c == '|' || c == '-'

/-- Pattern `[0-9.+\-eE]`. -/
def isNumberChar (c : Char) : Bool :=
  isDigitChar c || c == '.' || c == '+' || c == '-' || c == 'e' || c == 'E'

/-- Pattern `[-+]`. -/
def isPlusMinus (c : Char) : Bool := c == '-' || c == '+'

/-- Pattern `[^;]`. -/
def isNotSemicolon (c : Char) : Bool := c != ';'

/-- A sequence of patterns. -/
def Re.seqs : List Re → Re
  | [] => .eps
  | [r] => r
  | r :: rs => .seq r (Re.seqs rs)

/-! ### The patterns of the source -/

/-- Pattern `(?:[^"\\]|\\.)*`, the body of a quoted comment. -/
def commentBody : Re :=
  .star (.alt (.cls isPlainCommentChar) (.seq (.lit '\\') (.cls isDot)))

/-- Pattern `bo_regexp`:
`^BO_ (?<address>\w+) (?<name>\w+) *: (?<size>\w+) (?<transmitter>\w+)`. -/
def bo_regexp : Re :=
  Re.seqs [.bos, Re.lits "BO_ ".toList, .group 1 (Re.plus (.cls isWordChar)), .lit ' ',
    .group 2 (Re.plus (.cls isWordChar)), .star (.lit ' '), Re.lits ": ".toList,
    .group 3 (Re.plus (.cls isWordChar)), .lit ' ', .group 4 (Re.plus (.cls isWordChar))]

/-- Pattern `msg_comment_regexp`:
`^CM_ BO_ *(?<address>\w+) *\"(?<comment>(?:[^"\\]|\\.)*)\"\s*;`. -/
def msg_comment_regexp : Re :=
  Re.seqs [.bos, Re.lits "CM_ BO_".toList, .star (.lit ' '),
    .group 1 (Re.plus (.cls isWordChar)), .star (.lit ' '), .lit '"',
    .group 2 commentBody, .lit '"', .star (.cls isReSpace), .lit ';']

/-- The part shared by `sg_regexp` and `sgm_regexp`, from the colon on, with its groups
numbered from `k + 2`:
` *: (\d+)\|(\d+)@(\d+)([\+|\-]) \(([0-9.+\-eE]+),([0-9.+\-eE]+)\) \[([0-9.+\-eE]+)\|([0-9.+\-eE]+)\] \"(.*)\" (.*)`. -/
def sgTail (k : Nat) : List Re :=
  [.star (.lit ' '), Re.lits ": ".toList,
    .group (k + 2) (Re.plus (.cls isDigitChar)), .lit '|',
    .group (k + 3) (Re.plus (.cls isDigitChar)), .lit '@',
    .group (k + 4) (Re.plus (.cls isDigitChar)),
    .group (k + 5) (.cls isSignChar), Re.lits " (".toList,
    .group (k + 6) (Re.plus (.cls isNumberChar)), .lit ',',
    .group (k + 7) (Re.plus (.cls isNumberChar)), Re.lits ") [".toList,
    .group (k + 8) (Re.plus (.cls isNumberChar)), .lit '|',
    .group (k + 9) (Re.plus (.cls isNumberChar)), Re.lits "] \"".toList,
    .group (k + 10) (.star (.cls isDot)), Re.lits "\" ".toList,
    .group (k + 11) (.star (.cls isDot))]

/-- Pattern `sg_regexp`: `^SG_ (\w+) *: ...`, a signal without multiplexer indicator. -/
def sg_regexp : Re :=
  Re.seqs ([.bos, Re.lits "SG_ ".toList, .group 1 (Re.plus (.cls isWordChar))] ++ sgTail 0)

/-- Pattern `sgm_regexp`: `^SG_ (\w+) (\w+) *: ...`, a signal with multiplexer indicator. -/
def sgm_regexp : Re :=
  Re.seqs ([.bos, Re.lits "SG_ ".toList, .group 1 (Re.plus (.cls isWordChar)), .lit ' ',
    .group 2 (Re.plus (.cls isWordChar))] ++ sgTail 1)

/-- Pattern `sg_comment_regexp`: `^CM_ SG_ *(\w+) *(\w+) *\"((?:[^"\\]|\\.)*)\"\s*;`. -/
def sg_comment_regexp : Re :=
  Re.seqs [.bos, Re.lits "CM_ SG_".toList, .star (.lit ' '),
    .group 1 (Re.plus (.cls isWordChar)), .star (.lit ' '),
    .group 2 (Re.plus (.cls isWordChar)), .star (.lit ' '), .lit '"',
    .group 3 commentBody, .lit '"', .star (.cls isReSpace), .lit ';']

/-- Pattern `val_regexp`: `VAL_ (\w+) (\w+) (\s*[-+]?[0-9]+\s+\".+?\"[^;]*)`, not anchored. -/
def val_regexp : Re :=
  Re.seqs [Re.lits "VAL_ ".toList, .group 1 (Re.plus (.cls isWordChar)), .lit ' ',
    .group 2 (Re.plus (.cls isWordChar)), .lit ' ',
    .group 3 (Re.seqs [.star (.cls isReSpace), Re.opt (.cls isPlusMinus),
      Re.plus (.cls isDigitChar), Re.plus (.cls isReSpace), .lit '"',
      .seq (.cls isDot) (.lazyStar (.cls isDot)), .lit '"', .star (.cls isNotSemicolon)])]

/-! ## The data model (`dbc.h`) -/

/-- A `double`, as its 64-bit pattern. -/
structure Double where
  bits : Nat
deriving DecidableEq, Repr

/-- The floating-point conversions of the C and Qt libraries, taken as parameters. -/
structure LibC where
  /-- Qt `QString::toDouble()` -/
  toDouble : Str → Double
  /-- Pattern `snprintf(buf, 64, "%.*g", std::numeric_limits<double>::digits10, value)` -/
  printG15 : Double → Str
  /-- Pattern `snprintf(buf, 64, "%g", value)` -/
  printG : Double → Str

/-- Source `DEFAULT_NODE_NAME`. -/
def DEFAULT_NODE_NAME : Str := "XXX".toList

/-- Source `CAN_MAX_DATA_BYTES`. -/
def CAN_MAX_DATA_BYTES : Nat := 64

/-- Source `flipBitPos` (`int` arithmetic: division truncates towards zero). -/
def flipBitPos (start_bit : Int) : Int :=
  8 * (Int.tdiv start_bit 8) + 7 - Int.tmod start_bit 8

/-- Source `MessageId`: an 8-bit source and a 32-bit address. -/
structure MessageId where
  source : Nat := 0
  address : Nat := 0
deriving DecidableEq, Repr

namespace cabana

/-- Source `Signal::Type`. -/
inductive SignalType where
  | Normal
  | Multiplexed
  | Multiplexor
deriving DecidableEq, Repr

/-- Source `cabana::Signal`, with the values `Signal s{}` gives its members. The display members
`precision` and `color` are left out; the `multiplexor` pointer is the name of the signal it
points to. -/
structure Signal where
  type : SignalType := .Normal
  name : Str := []
  start_bit : Int := 0
  msb : Int := 0
  lsb : Int := 0
  size : Int := 0
  factor : Double := ⟨0x3FF0000000000000⟩
  offset : Double := ⟨0⟩
  is_signed : Bool := false
  is_little_endian : Bool := false
  min : Double := ⟨0⟩
  max : Double := ⟨0⟩
  unit : Str := []
  comment : Str := []
  receiver_name : Str := []
  val_desc : List (Double × Str) := []
  multiplex_value : Int := 0
  multiplexor : Option Str := none
deriving DecidableEq, Repr

/-- Source `cabana::Msg`, with the values a map insertion gives its members. `mask` holds one overlap
flag per payload bit; the `multiplexor` pointer is the name of the signal it points to. -/
structure Msg where
  address : Nat := 0
  name : Str := []
  size : Nat := 0
  comment : Str := []
  transmitter : Str := []
  sigs : List Signal := []
  mask : List Bool := []
  multiplexor : Option Str := none
deriving DecidableEq, Repr

/-- Modelled from the spec: `Msg::sig` is defined in `dbc.cc`, which is not among the sources.
The spec calls it `lookupByName`: the signal of the message that carries the name, if any. -/
def Msg.sig (m : Msg) (sig_name : Str) : Option Signal :=
  m.sigs.find? (fun s => s.name = sig_name)

/-- Modelled from the spec: `normalize` of the spec's BitLayout (`updateMsbLsb` of `dbc.cc`,
not among the sources). Little-endian: `lsb = start_bit`, `msb = start_bit + size - 1`;
big-endian: `msb = flip(start_bit)`, `lsb = msb - size + 1`. -/
def normalize (start_bit size : Int) (is_little_endian : Bool) : Int × Int :=
  if is_little_endian then (start_bit + size - 1, start_bit)
  else (flipBitPos start_bit, flipBitPos start_bit - size + 1)

/-- Modelled from the spec: `computeMask` (`dbc.cc` is not among the sources). One flag per
payload bit, set when the normalized spans of two or more signals cover the bit. -/
def computeMask (m : Msg) : List Bool :=
  (List.range (8 * m.size)).map (fun i =>
    decide (2 ≤ (m.sigs.filter (fun s => decide (s.lsb ≤ (i : Int) ∧ (i : Int) ≤ s.msb))).length))

/-- Modelled from the spec: `Msg::update` (`dbc.cc` is not among the sources) recomputes the
derived state: the bit layout of every signal, the multiplexor linkage and the overlap mask.
The declared members are left as they are. -/
def Msg.update (m : Msg) : Msg :=
  let mux : Option Str := (m.sigs.find? (fun s => s.type = .Multiplexor)).map (fun s => s.name)
  let sigs := m.sigs.map (fun s =>
    { s with
      msb := (normalize s.start_bit s.size s.is_little_endian).1
      lsb := (normalize s.start_bit s.size s.is_little_endian).2
      multiplexor := if s.type = .Multiplexed then mux else none })
  let m1 : Msg := { m with sigs := sigs, multiplexor := mux }
  { m1 with mask := computeMask m1 }

end cabana

/-! ## `std::map<uint32_t, cabana::Msg>` -/

/-- The messages of a database, in ascending order of address. -/
abbrev Msgs := List (Nat × cabana.Msg)

/-- Map operation `msgs.find(address)`. -/
def mapFind (msgs : Msgs) (address : Nat) : Option cabana.Msg :=
  (msgs.find? (fun e => e.1 = address)).map (fun e => e.2)

/-- Map operation `msgs[address] = m`: the entry is replaced, or inserted at its place in the order. -/
def mapInsert : Msgs → Nat → cabana.Msg → Msgs
  | [], a, m => [(a, m)]
  | (k, v) :: t, a, m =>
    if a < k then (a, m) :: (k, v) :: t
    else if a = k then (a, m) :: t
    else (k, v) :: mapInsert t a m

/-- Map operation `msgs.erase(address)`. -/
def mapErase (msgs : Msgs) (address : Nat) : Msgs :=
  msgs.filter (fun e => e.1 ≠ address)

/-- The first signal named `sig_name` rewritten by `f`: an assignment through the pointer that
`Msg::sig` returns. -/
def modifySig (f : cabana.Signal → cabana.Signal) (sig_name : Str) :
    List cabana.Signal → List cabana.Signal
  | [] => []
  | s :: t => if s.name = sig_name then f s :: t else s :: modifySig f sig_name t

/-! ## `DBCFile` -/

/-- Source `DBCFile`: the members `filename`, `header`, `msgs` and `name_`. -/
structure DBCFile where
  filename : Str := []
  header : Str := []
  msgs : Msgs := []
  name_ : Str := []
deriving DecidableEq, Repr

namespace DBCFile

/-- Source `DBCFile::msg(address)`. -/
def msg (db : DBCFile) (address : Nat) : Option cabana.Msg := mapFind db.msgs address

/-- Source `DBCFile::signal(address, name)`. -/
def signal (db : DBCFile) (address : Nat) (name : Str) : Option cabana.Signal :=
  match db.msg address with
  | some m => m.sig name
  | none => none

/-- Lookup `signal(address, name)` on the map alone, as the statement functions of the parser use it
while the database is being built. -/
def signalIn (msgs : Msgs) (address : Nat) (name : Str) : Option cabana.Signal :=
  signal { msgs := msgs } address name

/-- Source `DBCFile::updateMsg`. -/
def updateMsg (db : DBCFile) (id : MessageId) (name : Str) (size : Nat) (node comment : Str) :
    DBCFile :=
  let m : cabana.Msg := (mapFind db.msgs id.address).getD ({} : cabana.Msg)
  let m1 : cabana.Msg :=
    { m with
      address := id.address
      name := name
      size := size
      transmitter := if node.isEmpty then DEFAULT_NODE_NAME else node
      comment := comment }
  { db with msgs := mapInsert db.msgs id.address m1 }

/-- Source `DBCFile::removeMsg`. -/
def removeMsg (db : DBCFile) (id : MessageId) : DBCFile :=
  { db with msgs := mapErase db.msgs id.address }

/-- The `name()` accessor. -/
def name (db : DBCFile) : Str := if db.name_.isEmpty then "untitled".toList else db.name_

/-- The `isEmpty()` accessor. -/
def isEmpty (db : DBCFile) : Bool := db.msgs.isEmpty && db.name_.isEmpty

end DBCFile

/-! ## The parser (`DBCFile::parse` and its statement functions) -/

namespace DBCFile

/-- Source `DBCFile::parseBO`: the new map and the address of the message created (the pointer
returned), or the reason thrown. -/
def parseBO (msgs : Msgs) (line : Str) : Except Str (Msgs × Nat) :=
  match bo_regexp.search line with
  | none => .error "Invalid BO_ line format".toList
  | some m =>
    let address := Qt.toUInt (captured m 1)
    if (mapFind msgs address).isSome then
      .error (Qt.arg "Duplicate message address: %1".toList (Qt.decimal address))
    else
      let msg : cabana.Msg :=
        { address := address
          name := captured m 2
          size := Qt.toULong (captured m 3) % 2 ^ 32
          transmitter := Qt.trimmed (captured m 4) }
      .ok (mapInsert msgs address msg, address)

/-- The text a comment statement is matched against: the line itself when it ends with `";`,
else the part of `content` that `content.mid(pos, content.indexOf("\";", pos))` cuts out, with
`pos = stream.pos() - raw_line.length() - 1`. -/
def commentText (line content raw_line : Str) (streamPos : Nat) : Str :=
  if Qt.endsWith line "\";".toList then line
  else
    let pos : Int := (streamPos : Int) - (raw_line.length : Int) - 1
    Qt.mid content pos (Qt.indexOf content "\";".toList pos)

/-- Source `DBCFile::parseCM_BO`. -/
def parseCM_BO (msgs : Msgs) (line content raw_line : Str) (streamPos : Nat) : Except Str Msgs :=
  match msg_comment_regexp.search (commentText line content raw_line streamPos) with
  | none => .error "Invalid message comment format".toList
  | some m =>
    match mapFind msgs (Qt.toUInt (captured m 1)) with
    | some msg =>
      .ok (mapInsert msgs (Qt.toUInt (captured m 1))
        { msg with comment := Qt.replace (Qt.trimmed (captured m 2)) "\\\"".toList "\"".toList })
    | none => .ok msgs

/-- The match `parseSG` works with: that of `sg_regexp` with `offset = 0`, or else that of
`sgm_regexp` with `offset = 1`. -/
def sgMatch (line : Str) : Option (Caps × Nat) :=
  match sg_regexp.search line with
  | some m => some (m, 0)
  | none =>
    match sgm_regexp.search line with
    | some m => some (m, 1)
    | none => none

/-- Source `DBCFile::parseSG`: the new map and the new value of `multiplexor_cnt`, or the reason thrown.
`current_msg` is the address of the message the pointer refers to, `none` for `nullptr`. -/
def parseSG (env : LibC) (msgs : Msgs) (line : Str) (current_msg : Option Nat)
    (multiplexor_cnt : Nat) : Except Str (Msgs × Nat) :=
  match current_msg with
  | none => .error "No Message".toList
  | some cur =>
    match sgMatch line with
    | none => .error "Invalid SG_ line format".toList
    | some (m, offset) =>
      let msg : cabana.Msg := (mapFind msgs cur).getD ({} : cabana.Msg)
      let name := captured m 1
      if (msg.sig name).isSome then .error "Duplicate signal name".toList
      else
        let indicator := captured m 2
        let isM : Bool := decide (offset = 1) && decide (indicator = "M".toList)
        let cnt := if isM then multiplexor_cnt + 1 else multiplexor_cnt
        if isM && decide (cnt ≥ 2) then .error "Multiple multiplexor".toList
        else
          let s : cabana.Signal :=
            { type := if offset = 1 then (if indicator = "M".toList then .Multiplexor
                                          else .Multiplexed) else .Normal
              multiplex_value := if offset = 1 ∧ indicator ≠ "M".toList
                                 then Qt.toInt (Qt.mid indicator 1 (-1)) else 0
              name := name
              start_bit := Qt.toInt (captured m (offset + 2))
              size := Qt.toInt (captured m (offset + 3))
              is_little_endian := decide (Qt.toInt (captured m (offset + 4)) = 1)
              is_signed := decide (captured m (offset + 5) = "-".toList)
              factor := env.toDouble (captured m (offset + 6))
              offset := env.toDouble (captured m (offset + 7))
              min := env.toDouble (captured m (8 + offset))
              max := env.toDouble (captured m (9 + offset))
              unit := captured m (10 + offset)
              receiver_name := Qt.trimmed (captured m (11 + offset)) }
          .ok (mapInsert msgs cur { msg with sigs := msg.sigs ++ [s] }, cnt)

/-- Source `DBCFile::parseCM_SG`. -/
def parseCM_SG (msgs : Msgs) (line content raw_line : Str) (streamPos : Nat) : Except Str Msgs :=
  match sg_comment_regexp.search (commentText line content raw_line streamPos) with
  | none => .error "Invalid CM_ SG_ line format".toList
  | some m =>
    match mapFind msgs (Qt.toUInt (captured m 1)) with
    | none => .ok msgs
    | some msg =>
      match msg.sig (captured m 2) with
      | none => .ok msgs
      | some _ =>
        let comment := Qt.replace (Qt.trimmed (captured m 3)) "\\\"".toList "\"".toList
        let sigs := modifySig (fun s => { s with comment := comment }) (captured m 2) msg.sigs
        .ok (mapInsert msgs (Qt.toUInt (captured m 1)) { msg with sigs := sigs })

/-- The loop of `parseVAL` over the pieces between the quotes, two at a time: a non-empty
trimmed value with a piece after it gives a pair. -/
def valPairs (env : LibC) : List Str → List (Double × Str)
  | v :: d :: rest =>
    if (Qt.trimmed v).isEmpty then valPairs env rest
    else (env.toDouble (Qt.trimmed v), Qt.trimmed d) :: valPairs env rest
  | _ => []

/-- Source `DBCFile::parseVAL`. -/
def parseVAL (env : LibC) (msgs : Msgs) (line : Str) : Except Str Msgs :=
  match val_regexp.search line with
  | none => .error "invalid VAL_ line format".toList
  | some m =>
    match mapFind msgs (Qt.toUInt (captured m 1)) with
    | none => .ok msgs
    | some msg =>
      match msg.sig (captured m 2) with
      | none => .ok msgs
      | some _ =>
        let pairs := valPairs env (Qt.split '"' (Qt.trimmed (captured m 3)))
        let sigs := modifySig (fun s => { s with val_desc := s.val_desc ++ pairs })
          (captured m 2) msg.sigs
        .ok (mapInsert msgs (Qt.toUInt (captured m 1)) { msg with sigs := sigs })

/-- The local variables of `parse` that live across the iterations of its loop, and `header`. -/
structure ParseState where
  msgs : Msgs := []
  header : Str := []
  current_msg : Option Nat := none
  multiplexor_cnt : Nat := 0
  seen_first : Bool := false
deriving DecidableEq, Repr

/-- What one `readLine` of the loop yields: `line_num` after its increment, `raw_line`, and
`stream.pos()` after the read. -/
structure Line where
  line_num : Nat
  raw_line : Str
  streamPos : Nat
deriving DecidableEq, Repr

/-- The lines with their numbers and stream positions, from the scan of the text. -/
def numberLines : List (Str × Nat) → Nat → Nat → List Line
  | [], _, _ => []
  | (raw, delim) :: t, num, pos =>
    { line_num := num + 1, raw_line := raw, streamPos := pos + raw.length + delim }
      :: numberLines t (num + 1) (pos + raw.length + delim)

/-- All the reads of the loop `while (!stream.atEnd())`, in order. -/
def readLines (content : Str) : List Line := numberLines (Qt.scanLines content []) 0 0

/-- The kinds of line the loop of `parse` tells apart by prefix. -/
inductive Kind where
  | BO
  | SG
  | VAL
  | CM_BO
  | CM_SG
  | other
deriving DecidableEq, Repr

/-- The prefix tests of the loop, in the order of the source. -/
def kindOf (line : Str) : Kind :=
  if Qt.startsWith line "BO_ ".toList then .BO
  else if Qt.startsWith line "SG_ ".toList then .SG
  else if Qt.startsWith line "VAL_ ".toList then .VAL
  else if Qt.startsWith line "CM_ BO_".toList then .CM_BO
  else if Qt.startsWith line "CM_ SG_ ".toList then .CM_SG
  else .other

/-- The `try` block of the loop: the statement function chosen by the prefix of the trimmed
line, run on the state. The result is the new state and the flag `seen`, or the reason thrown. -/
def statement (env : LibC) (content : Str) (st : ParseState) (l : Line) :
    Except Str (ParseState × Bool) :=
  let line := Qt.trimmed l.raw_line
  match kindOf line with
  | .BO =>
    match parseBO st.msgs line with
    | .ok (msgs, a) =>
      .ok ({ st with msgs := msgs, current_msg := some a, multiplexor_cnt := 0 }, true)
    | .error e => .error e
  | .SG =>
    match parseSG env st.msgs line st.current_msg st.multiplexor_cnt with
    | .ok (msgs, cnt) => .ok ({ st with msgs := msgs, multiplexor_cnt := cnt }, true)
    | .error e => .error e
  | .VAL =>
    match parseVAL env st.msgs line with
    | .ok msgs => .ok ({ st with msgs := msgs }, true)
    | .error e => .error e
  | .CM_BO =>
    match parseCM_BO st.msgs line content l.raw_line l.streamPos with
    | .ok msgs => .ok ({ st with msgs := msgs }, true)
    | .error e => .error e
  | .CM_SG =>
    match parseCM_SG st.msgs line content l.raw_line l.streamPos with
    | .ok msgs => .ok ({ st with msgs := msgs }, true)
    | .error e => .error e
  | .other => .ok (st, false)

/-- The text of the exception `parse` throws:
`QString("[%1:%2]%3: %4").arg(filename).arg(line_num).arg(e.what()).arg(line)`. -/
def errorText (filename : Str) (line_num : Nat) (what line : Str) : Str :=
  Qt.arg (Qt.arg (Qt.arg (Qt.arg "[%1:%2]%3: %4".toList filename) (Qt.decimal line_num)) what) line

/-- One iteration of the loop of `parse`. -/
def parseLine (env : LibC) (filename content : Str) (st : ParseState) (l : Line) :
    Except Str ParseState :=
  match statement env content st l with
  | .error e => .error (errorText filename l.line_num e (Qt.trimmed l.raw_line))
  | .ok (st1, seen) =>
    if seen then .ok { st1 with seen_first := true }
    else if !st1.seen_first then
      .ok { st1 with header := st1.header ++ l.raw_line ++ "\n".toList }
    else .ok st1

/-- The loop of `parse` over the lines still to be read. -/
def parseLines (env : LibC) (filename content : Str) : ParseState → List Line →
    Except Str ParseState
  | st, [] => .ok st
  | st, l :: ls =>
    match parseLine env filename content st l with
    | .error e => .error e
    | .ok st1 => parseLines env filename content st1 ls

/-- Source `DBCFile::parse` on an object whose `filename` and `name_` are set and whose `header` is
still empty (it is only called from the constructors): the database built, or the text of the
exception. -/
def parse (env : LibC) (filename name_ content : Str) : Except Str DBCFile :=
  match parseLines env filename content {} (readLines content) with
  | .error e => .error e
  | .ok st =>
    .ok { filename := filename
          header := st.header
          msgs := st.msgs.map (fun e => (e.1, e.2.update))
          name_ := name_ }

/-- The constructor `DBCFile(name, content)`. -/
def fromContent (env : LibC) (name content : Str) : Except Str DBCFile :=
  parse env [] name content

/-- Qt `QFileInfo::baseName`: the file name without its path, up to its first dot. -/
def baseName (path : Str) : Str :=
  ((Qt.split '/' path).getLast?.getD []).takeWhile (fun c => c != '.')

/-- The constructor `DBCFile(dbc_file_name)`; `file` is the text read from the file, `none`
when it cannot be opened. -/
def fromFile (env : LibC) (dbc_file_name : Str) (file : Option Str) : Except Str DBCFile :=
  match file with
  | some content => parse env dbc_file_name (baseName dbc_file_name) content
  | none => .error "Failed to open file.".toList

/-! ## The generator (`DBCFile::generateDBC`) -/

/-- The loop `for (pos = 0; (pos = s.find('"', pos)) != npos; pos += 2) s.replace(pos, 1, "\\\"")`:
every `"` becomes `\"`. -/
def escapeComment : Str → Str
  | [] => []
  | c :: t => if c = '"' then '\\' :: '"' :: escapeComment t else c :: escapeComment t

/-- The `CM_ BO_` line written for a message comment. -/
def cmBoText (address : Nat) (comment : Str) : Str :=
  "CM_ BO_ ".toList ++ Qt.decimal address ++ " \"".toList ++ escapeComment comment
    ++ "\";\n".toList

/-- The `CM_ SG_` line written for a signal comment. -/
def cmSgText (address : Nat) (name comment : Str) : Str :=
  "CM_ SG_ ".toList ++ Qt.decimal address ++ " ".toList ++ name ++ " \"".toList
    ++ escapeComment comment ++ "\";\n".toList

/-- The text of the value descriptions of a signal, blank-separated. -/
def valText (env : LibC) : List (Double × Str) → Str
  | [] => []
  | [(val, desc)] => env.printG val ++ " \"".toList ++ desc ++ "\"".toList
  | (val, desc) :: rest =>
    env.printG val ++ " \"".toList ++ desc ++ "\"".toList ++ " ".toList ++ valText env rest

/-- The ` SG_` line written for a signal. -/
def sgText (env : LibC) (sig : cabana.Signal) : Str :=
  let multiplexer_indicator : Str :=
    if sig.type = .Multiplexor then "M ".toList
    else if sig.type = .Multiplexed then
      "m".toList ++ Qt.decimalInt sig.multiplex_value ++ " ".toList
    else []
  let recv := if sig.receiver_name.isEmpty then DEFAULT_NODE_NAME else sig.receiver_name
  " SG_ ".toList ++ sig.name ++ " ".toList ++ multiplexer_indicator ++ ": ".toList ++
    Qt.decimalInt sig.start_bit ++ "|".toList ++ Qt.decimalInt sig.size ++ "@".toList ++
    [if sig.is_little_endian then '1' else '0'] ++ [if sig.is_signed then '-' else '+'] ++
    " (".toList ++ env.printG15 sig.factor ++ ",".toList ++ env.printG15 sig.offset ++
    ")".toList ++ " [".toList ++ env.printG15 sig.min ++ "|".toList ++ env.printG15 sig.max ++
    "]".toList ++ " \"".toList ++ sig.unit ++ "\" ".toList ++ recv ++ "\n".toList

/-- The three texts `dbc_string`, `comment` and `val_desc` that `generateDBC` builds. -/
structure Blocks where
  dbc_string : Str := []
  comment : Str := []
  val_desc : Str := []
deriving DecidableEq, Repr

/-- The inner loop of `generateDBC` over the signals of the message at `address`. -/
def genSignals (env : LibC) (address : Nat) : Blocks → List cabana.Signal → Blocks
  | b, [] => b
  | b, sig :: rest =>
    genSignals env address
      { dbc_string := b.dbc_string ++ sgText env sig
        comment := if sig.comment.isEmpty then b.comment
                   else b.comment ++ cmSgText address sig.name sig.comment
        val_desc := if sig.val_desc.isEmpty then b.val_desc
                    else b.val_desc ++ "VAL_ ".toList ++ Qt.decimal address ++ " ".toList ++
                      sig.name ++ " ".toList ++ valText env sig.val_desc ++ ";\n".toList }
      rest

/-- The `BO_` line written for a message. -/
def boText (address : Nat) (m : cabana.Msg) : Str :=
  let transmitter := if m.transmitter.isEmpty then DEFAULT_NODE_NAME else m.transmitter
  "BO_ ".toList ++ Qt.decimal address ++ " ".toList ++ m.name ++ ": ".toList ++
    Qt.decimal m.size ++ " ".toList ++ transmitter ++ "\n".toList

/-- The outer loop of `generateDBC` over the messages, in map order. -/
def genMsgs (env : LibC) : Blocks → Msgs → Blocks
  | b, [] => b
  | b, (address, m) :: rest =>
    let b1 : Blocks :=
      { b with
        dbc_string := b.dbc_string ++ boText address m
        comment := if m.comment.isEmpty then b.comment
                   else b.comment ++ cmBoText address m.comment }
    let b2 := genSignals env address b1 m.sigs
    genMsgs env { b2 with dbc_string := b2.dbc_string ++ "\n".toList } rest

/-- Source `DBCFile::generateDBC`. -/
def generateDBC (env : LibC) (db : DBCFile) : Str :=
  let b := genMsgs env {} db.msgs
  db.header ++ b.dbc_string ++ b.comment ++ b.val_desc

end DBCFile

/-! ## Vocabulary of the statements -/

namespace DBCFile

/-- The kind of a line read by the loop: that of its trimmed text. -/
def lineKind (l : Line) : Kind := kindOf (Qt.trimmed l.raw_line)

/-- The trimmed text of a line read by the loop. -/
def lineText (l : Line) : Str := Qt.trimmed l.raw_line

/-- The address a `BO_` line declares: the `address` group of `bo_regexp` through `toUInt`;
`none` when the line does not match. -/
def boAddress (line : Str) : Option Nat :=
  (bo_regexp.search line).map (fun m => Qt.toUInt (captured m 1))

/-- The signal name an `SG_` line declares: group 1 of the match `parseSG` works with; `none`
when the line matches neither pattern. -/
def sgName (line : Str) : Option Str :=
  (sgMatch line).map (fun r => captured r.1 1)

/-- An `SG_` line with the `M` indicator: it matches `sgm_regexp` (and not `sg_regexp`) and its
indicator group is `M`. -/
def isMultiplexorLine (line : Str) : Bool :=
  match sgMatch line with
  | some (m, offset) => decide (offset = 1) && decide (captured m 2 = "M".toList)
  | none => false

/-- The lines of the text in front of the first line of a recognized kind. -/
def headerLines (ls : List Line) : List Line := ls.takeWhile (fun l => lineKind l = .other)

/-- The lines of the text from the first line of a recognized kind on. -/
def bodyLines (ls : List Line) : List Line := ls.dropWhile (fun l => lineKind l = .other)

/-- The raw lines, each followed by a newline, one after the other. -/
def joinLines : List Line → Str
  | [] => []
  | l :: ls => l.raw_line ++ "\n".toList ++ joinLines ls

/-- A sample of the library conversions, for evaluating the parser on given texts: decimal
integers below `2^32` are kept as they are, any other text reads as zero. -/
def sampleLibC : LibC :=
  { toDouble := fun s => ⟨Qt.toUInt s⟩
    printG15 := fun d => Qt.decimal d.bits
    printG := fun d => Qt.decimal d.bits }

end DBCFile

/-- The names of the signals of a message, in stored order. -/
def cabana.Msg.sigNames (m : cabana.Msg) : List Str := m.sigs.map (fun s => s.name)

/-- The first outcome of pattern `r` on `s`, wherever in the subject `s` starts: the matcher
reaches the rest `s1` with the groups `caps1` before any other outcome. -/
def Re.First (r : Re) (s : Str) (caps : Caps) (s1 : Str) (caps1 : Caps) : Prop :=
  ∀ b, (Re.run r b s caps).head? = some (s1, caps1)

/-- The map with the comment of the message at `address` set to `comment`; the map itself when
it has no such message. -/
def setMsgComment (msgs : Msgs) (address : Nat) (comment : Str) : Msgs :=
  match mapFind msgs address with
  | some m => mapInsert msgs address { m with comment := comment }
  | none => msgs

/-- The map with the comment of the signal `name` of the message at `address` set to `comment`;
the map itself when it has no such message or the message no such signal. -/
def setSigComment (msgs : Msgs) (address : Nat) (name comment : Str) : Msgs :=
  match mapFind msgs address with
  | none => msgs
  | some m =>
    match m.sig name with
    | none => msgs
    | some _ =>
      mapInsert msgs address
        { m with sigs := modifySig (fun s => { s with comment := comment }) name m.sigs }

/-- The first raw line of a `CM_ BO_` statement whose comment is left open on it: the keyword,
the address token `D`, and the opening quote with the first line `b1` of the comment. -/
def cmBoOpen (D b1 : Str) : Str := "CM_ BO_ ".toList ++ D ++ " \"".toList ++ b1

/-- The first raw line of a `CM_ SG_` statement whose comment is left open on it: the keyword,
the address token `D`, the signal name `N`, and the opening quote with the first line `b1` of
the comment. -/
def cmSgOpen (D N b1 : Str) : Str :=
  "CM_ SG_ ".toList ++ D ++ " ".toList ++ N ++ " \"".toList ++ b1

/-- A text in which a comment statement is left open on its line: the text `pre` in front, the
first raw line `raw` of the statement, a newline, the rest `b2` of the comment, the closing `";`
and the text `tail` behind. -/
def openStatementText (pre raw b2 tail : Str) : Str :=
  pre ++ (raw ++ '\n' :: (b2 ++ '"' :: ';' :: tail))

/-- The read of the loop that yields the first raw line `raw` of a statement that begins a line
after the text `pre`: its line number, the raw line, and the stream position behind the
newline. -/
def openStatementLine (pre raw : Str) : DBCFile.Line :=
  { line_num := (Qt.scanLines pre []).length + 1
    raw_line := raw
    streamPos := pre.length + raw.length + 1 }

/-! ## `MessageId` comparisons -/

namespace MessageId

/-- Source `MessageId::operator==`. -/
def eq (a b : MessageId) : Bool := a.source == b.source && a.address == b.address

/-- Source `MessageId::operator!=`. -/
def ne (a b : MessageId) : Bool := !(eq a b)

/-- Source `MessageId::operator<`: `std::tie(source, address) < std::tie(other.source,
other.address)`, the comparison of `std::tuple`: the first members decide unless neither is
below the other, then the second members decide. -/
def lt (a b : MessageId) : Bool :=
  decide (a.source < b.source) ||
    (!decide (b.source < a.source) && decide (a.address < b.address))

/-- Source `MessageId::operator>`: `std::tie(source, address) > std::tie(other.source,
other.address)`, which `std::tuple` defines as the comparison `<` with the sides swapped. -/
def gt (a b : MessageId) : Bool :=
  decide (b.source < a.source) ||
    (!decide (a.source < b.source) && decide (b.address < a.address))

end MessageId

/-! ## Vocabulary of the generated text -/

namespace DBCFile

/-- The `BO_` line of a message, without its newline. -/
def boLine (e : Nat × cabana.Msg) : Str :=
  "BO_ ".toList ++ Qt.decimal e.1 ++ " ".toList ++ e.2.name ++ ": ".toList ++
    Qt.decimal e.2.size ++ " ".toList ++
    (if e.2.transmitter.isEmpty then DEFAULT_NODE_NAME else e.2.transmitter)

/-- The ` SG_` line of a signal, without its newline. -/
def sgLine (env : LibC) (sig : cabana.Signal) : Str := (sgText env sig).dropLast

/-- The lines written into `dbc_string` for one message: its `BO_` line, the ` SG_` line of each
of its signals in stored order, and an empty line. -/
def messageLines (env : LibC) (e : Nat × cabana.Msg) : List Str :=
  boLine e :: (e.2.sigs.map (sgLine env) ++ [[]])

/-- The message block: the lines of every message in map order, each followed by a newline. -/
def messageBlock (env : LibC) (msgs : Msgs) : Str :=
  (msgs.map (fun e => ((messageLines env e).map (fun l => l ++ "\n".toList)).flatten)).flatten

/-- The statements written into `comment` for one message: its `CM_ BO_` statement when its
comment is not empty, then the `CM_ SG_` statement of each signal whose comment is not empty. -/
def commentTexts (e : Nat × cabana.Msg) : List Str :=
  (if e.2.comment.isEmpty then [] else [cmBoText e.1 e.2.comment]) ++
    (e.2.sigs.filter (fun s => !s.comment.isEmpty)).map (fun s => cmSgText e.1 s.name s.comment)

/-- The comment block: the comment statements of every message in map order. -/
def commentBlock (msgs : Msgs) : Str := (msgs.map (fun e => (commentTexts e).flatten)).flatten

/-- The `VAL_` statement written for a signal of the message at `address`. -/
def valStatementText (env : LibC) (address : Nat) (sig : cabana.Signal) : Str :=
  "VAL_ ".toList ++ Qt.decimal address ++ " ".toList ++ sig.name ++ " ".toList ++
    valText env sig.val_desc ++ ";\n".toList

/-- The value-description block: the `VAL_` statement of every signal that has value
descriptions, message by message in map order. -/
def valueBlock (env : LibC) (msgs : Msgs) : Str :=
  (msgs.map (fun e =>
    ((e.2.sigs.filter (fun s => !s.val_desc.isEmpty)).map (valStatementText env e.1)).flatten)).flatten

/-- A call of one of the two editing functions of `DBCFile`. -/
inductive Edit where
  | updateMsg (id : MessageId) (name : Str) (size : Nat) (node comment : Str)
  | removeMsg (id : MessageId)

/-- The database after a call. -/
def applyEdit (db : DBCFile) : Edit → DBCFile
  | .updateMsg id name size node comment => db.updateMsg id name size node comment
  | .removeMsg id => db.removeMsg id

/-- The database after a sequence of calls, the first call first. -/
def applyEdits (db : DBCFile) (ops : List Edit) : DBCFile := ops.foldl applyEdit db

/-- The addresses of a map in iteration order. -/
def addresses (msgs : Msgs) : List Nat := msgs.map (fun e => e.1)

end DBCFile

/-! ## `DBCManager` (`dbcmanager.cc`) -/

/-- Source `std::string::operator<`: the lexicographic comparison of the characters, a proper
prefix coming first. (The order of the UTF-8 bytes is that of the code points.) -/
def strLt : Str → Str → Bool
  | [], [] => false
  | [], _ :: _ => true
  | _ :: _, [] => false
  | a :: s, b :: t => decide (a.toNat < b.toNat) || (decide (a.toNat = b.toNat) && strLt s t)

/-- Source `std::set<std::string>::insert`: the set is kept in ascending order, a name that is
in it already is not added. -/
def stringSetInsert : List Str → Str → List Str
  | [], n => [n]
  | x :: t, n =>
    if strLt n x then n :: x :: t
    else if strLt x n then x :: stringSetInsert t n
    else x :: t

/-- Source `std::sort` on a vector of `std::string`: the elements in ascending order (equal
strings cannot be told apart, so every sorting algorithm gives this result). -/
def stdSort : List Str → List Str
  | [] => []
  | x :: t => List.orderedInsert (fun a b => strLt b a = false) x (stdSort t)

/-- Source `std::set<DBCFile *>::insert`: the pointers in ascending order, none twice. -/
def pointerSetInsert : List Nat → Nat → List Nat
  | [], p => [p]
  | x :: t, p =>
    if p < x then p :: x :: t
    else if x < p then x :: pointerSetInsert t p
    else x :: t

/-- Source `DBCManager`: the member `dbc_files`, a `std::map<int, std::shared_ptr<DBCFile>>` kept
in ascending order of source. A shared pointer is the index of the `DBCFile` object it refers to
in `objects`, the objects constructed so far; `none` is `nullptr`. -/
structure DBCManager where
  objects : List DBCFile := []
  dbc_files : List (Int × Option Nat) := []
deriving DecidableEq, Repr

namespace DBCManager

/-- Map operation `dbc_files[s] = file`. -/
def assign : List (Int × Option Nat) → Int → Option Nat → List (Int × Option Nat)
  | [], s, file => [(s, file)]
  | (k, v) :: t, s, file =>
    if s < k then (s, file) :: (k, v) :: t
    else if s = k then (s, file) :: t
    else (k, v) :: assign t s file

/-- The loop `for (auto s : sources) dbc_files[s] = file`. -/
def assignAll (files : List (Int × Option Nat)) (sources : List Int) (file : Option Nat) :
    List (Int × Option Nat) :=
  sources.foldl (fun m s => assign m s file) files

/-- The object a pointer refers to. -/
def deref (mgr : DBCManager) (p : Nat) : Option DBCFile := mgr.objects[p]?

/-- What a call of `open` leaves behind: the manager, the value returned, the text behind the
pointer `error` (`none` for `nullptr`), and whether `DBCFileChanged` was emitted. -/
structure OpenResult where
  mgr : DBCManager
  ret : Bool
  error : Option Str
  emitted : Bool
deriving DecidableEq, Repr

/-- Source `DBCManager::open(sources, name, content, error)`. `sources` lists the set in its
iteration order; `error` is the text behind the pointer before the call, `none` for `nullptr`. -/
def openContent (env : LibC) (mgr : DBCManager) (sources : List Int) (name content : Str)
    (error : Option Str) : OpenResult :=
  match DBCFile.fromContent env name content with
  | .ok file =>
    { mgr := { objects := mgr.objects ++ [file]
               dbc_files := assignAll mgr.dbc_files sources (some mgr.objects.length) }
      ret := true
      error := error
      emitted := true }
  | .error e =>
    { mgr := mgr
      ret := false
      error := error.map (fun _ => e)
      emitted := false }

/-- The search `std::find_if(dbc_files.begin(), dbc_files.end(), ...)` of `open` for an entry
whose file is not null and has the file name `dbc_file_name`: the pointer of the first such
entry. -/
def findByName (mgr : DBCManager) (dbc_file_name : Str) : Option Nat :=
  (mgr.dbc_files.find? (fun f =>
    match f.2 with
    | some p =>
      (match mgr.deref p with
       | some file => decide (file.filename = dbc_file_name)
       | none => false)
    | none => false)).bind (fun f => f.2)

/-- Source `DBCManager::open(sources, dbc_file_name, error)`. `fs` gives the text of the file of a
given name, `none` when it cannot be opened. -/
def openFile (env : LibC) (fs : Str → Option Str) (mgr : DBCManager) (sources : List Int)
    (dbc_file_name : Str) (error : Option Str) : OpenResult :=
  match findByName mgr dbc_file_name with
  | some p =>
    { mgr := { mgr with dbc_files := assignAll mgr.dbc_files sources (some p) }
      ret := true
      error := error
      emitted := true }
  | none =>
    match DBCFile.fromFile env dbc_file_name (fs dbc_file_name) with
    | .ok file =>
      { mgr := { objects := mgr.objects ++ [file]
                 dbc_files := assignAll mgr.dbc_files sources (some mgr.objects.length) }
        ret := true
        error := error
        emitted := true }
    | .error e =>
      { mgr := mgr
        ret := false
        error := error.map (fun _ => e)
        emitted := false }

/-- Source `DBCManager::allDBCFiles`: the set of the pointers of `dbc_files` that are not null. -/
def allDBCFiles (mgr : DBCManager) : List Nat :=
  mgr.dbc_files.foldl (fun files f =>
    match f.2 with
    | some p => pointerSetInsert files p
    | none => files) []

/-- The innermost loop of `signalNames`: the names of the signals of a message are inserted. -/
def insertSignalNames (names : List Str) (sigs : List cabana.Signal) : List Str :=
  sigs.foldl (fun ns sig => stringSetInsert ns sig.name) names

/-- The loop of `signalNames` over the messages of a file. -/
def insertMessageNames (names : List Str) (msgs : Msgs) : List Str :=
  msgs.foldl (fun ns e => insertSignalNames ns e.2.sigs) names

/-- Source `DBCManager::signalNames`: the names are collected in a `std::set`, copied to a vector
and sorted. -/
def signalNames (mgr : DBCManager) : List Str :=
  stdSort ((allDBCFiles mgr).foldl (fun ns p =>
    match mgr.deref p with
    | some file => insertMessageNames ns file.msgs
    | none => ns) [])

end DBCManager

/-- The number of signals of type `Multiplexor` among the signals of a message. -/
def cabana.Msg.multiplexorCount (m : cabana.Msg) : Nat :=
  (m.sigs.filter (fun s => decide (s.type = .Multiplexor))).length

/-! ## Vocabulary of the `VAL_` statement -/

namespace DBCFile

/-- The pairs of a `VAL_` statement after the first: each is a blank, the value, a blank and the
label in quotes. -/
def valTail : List (Str × Str) → Str
  | [] => []
  | (v, l) :: rest => " ".toList ++ v ++ " \"".toList ++ l ++ "\"".toList ++ valTail rest

/-- The statement `VAL_ <address> <signal> v1 "l1" v2 "l2" ... vn "ln";` with the address token
`A`, the signal name `N`, the first pair `(v1, l1)` and the other pairs `rest`. -/
def valStatement (A N v1 l1 : Str) (rest : List (Str × Str)) : Str :=
  "VAL_ ".toList ++ A ++ " ".toList ++ N ++ " ".toList ++ v1 ++ " \"".toList ++ l1 ++
    "\"".toList ++ valTail rest ++ ";".toList

/-- The map with `pairs` appended to the value descriptions of the signal `name` of the message
at `address`; the map itself when it has no such message or the message no such signal. -/
def appendValDesc (msgs : Msgs) (address : Nat) (name : Str) (pairs : List (Double × Str)) :
    Msgs :=
  match mapFind msgs address with
  | none => msgs
  | some m =>
    match m.sig name with
    | none => msgs
    | some _ =>
      mapInsert msgs address
        { m with sigs := modifySig (fun s => { s with val_desc := s.val_desc ++ pairs }) name m.sigs }

end DBCFile

/-! ## Doubles (IEEE 754 binary64) and the conversions between doubles and text -/

namespace Double

/-- The sign bit of the pattern. -/
def signBit (x : Double) : Bool := decide (x.bits / 2 ^ 63 % 2 = 1)

/-- The biased exponent field, 11 bits. -/
def expField (x : Double) : Nat := x.bits / 2 ^ 52 % 2048

/-- The fraction field, 52 bits. -/
def fraction (x : Double) : Nat := x.bits % 2 ^ 52

/-- Function `std::isfinite`: neither an infinity nor a NaN. -/
def isFinite (x : Double) : Bool := decide (x.bits < 2 ^ 64) && decide (expField x ≠ 2047)

/-- A normal number: the exponent field is neither 0 (zero, subnormal) nor 2047. -/
def isNormal (x : Double) : Bool :=
  decide (x.bits < 2 ^ 64) && decide (1 ≤ expField x) && decide (expField x ≠ 2047)

/-- The integer significand `m` of a finite double, whose magnitude is `m * 2 ^ exponent`. -/
def significand (x : Double) : Nat :=
  if expField x = 0 then fraction x else 2 ^ 52 + fraction x

/-- The exponent `e` of a finite double, whose magnitude is `significand * 2 ^ e`. -/
def exponent (x : Double) : Int :=
  if expField x = 0 then -1074 else (expField x : Int) - 1075

/-- The pattern of the double with the given sign, exponent field and fraction. -/
def pack (neg : Bool) (expField fraction : Nat) : Double :=
  ⟨(if neg then 2 ^ 63 else 0) + expField * 2 ^ 52 + fraction⟩

end Double

namespace Ieee

/-- Division rounded to the nearest integer, a tie to the even one: the rounding of IEEE 754
arithmetic and of the conversions in the default rounding mode. -/
def roundDiv (num den : Nat) : Nat :=
  if den < 2 * (num % den) ∨ (2 * (num % den) = den ∧ num / den % 2 = 1) then num / den + 1
  else num / den

/-- Whether `10 ^ X ≤ N / D`. -/
def pow10Le (N D : Nat) (X : Int) : Bool :=
  if 0 ≤ X then decide (D * 10 ^ X.toNat ≤ N) else decide (D ≤ N * 10 ^ (-X).toNat)

/-- Whether `2 ^ E ≤ A / B`. -/
def pow2Le (A B : Nat) (E : Int) : Bool :=
  if 0 ≤ E then decide (B * 2 ^ E.toNat ≤ A) else decide (B ≤ A * 2 ^ (-E).toNat)

/-- The decimal exponent of the positive fraction `N / D`: the `X` with
`10 ^ X ≤ N / D < 10 ^ (X + 1)`. -/
def decExponent (N D : Nat) : Int :=
  let X0 : Int := ((Qt.decimal N).length : Int) - ((Qt.decimal D).length : Int)
  if pow10Le N D X0 then X0 else X0 - 1

/-- The binary exponent of the positive fraction `A / B`: the `E` with
`2 ^ E ≤ A / B < 2 ^ (E + 1)`. -/
def binExponent (A B : Nat) : Int :=
  let E0 : Int := (Nat.log2 A : Int) - (Nat.log2 B : Int)
  if pow2Le A B E0 then E0 else E0 - 1

/-- The carry of a rounding that reached `10 ^ 15`: the digits become `10 ^ 14` and the decimal
exponent goes up by one. -/
def carry15 (Q : Nat) (X : Int) : Nat × Int :=
  if Q = 10 ^ 15 then (10 ^ 14, X + 1) else (Q, X)

/-- The positive fraction `N / D` rounded to 15 significant decimal digits: the digits `Q` with
`10 ^ 14 ≤ Q < 10 ^ 15` and the decimal exponent `X` of the rounded number `Q * 10 ^ (X - 14)`. -/
def round15 (N D : Nat) : Nat × Int :=
  let X := decExponent N D
  carry15 (if X ≤ 14 then roundDiv (N * 10 ^ (14 - X).toNat) D
           else roundDiv N (D * 10 ^ (X - 14).toNat)) X

/-- A run of digits without its trailing zeros. -/
def stripZeros (ds : Str) : Str := (ds.reverse.dropWhile (fun c => c == '0')).reverse

/-- The exponent part of the `e` style: a sign and at least two digits. -/
def expText (X : Int) : Str :=
  (if X < 0 then '-' else '+') ::
    (if X.natAbs < 10 then '0' :: Qt.decimal X.natAbs else Qt.decimal X.natAbs)

/-- The `%g` conversion with precision 15 for a number with the 15 significant digits `Q` and the
decimal exponent `X`: style `e` when `X < -4` or `X >= 15`, else style `f`; trailing zeros of the
fraction are removed, and the decimal point with them when no fraction is left. -/
def formatG15 (Q : Nat) (X : Int) : Str :=
  let ds := Qt.decimal Q
  if X < -4 ∨ 15 ≤ X then
    let frac := stripZeros (ds.drop 1)
    ds.take 1 ++ (if frac.isEmpty then [] else '.' :: frac) ++ 'e' :: expText X
  else if 0 ≤ X then
    let frac := stripZeros (ds.drop (X.toNat + 1))
    ds.take (X.toNat + 1) ++ (if frac.isEmpty then [] else '.' :: frac)
  else
    "0.".toList ++ List.replicate ((-X).toNat - 1) '0' ++ stripZeros ds

/-- Pattern `snprintf(buf, 64, "%.*g", 15, value)` as the C standard defines it, the value
rounded to nearest, ties to even. -/
def printG15 (x : Double) : Str :=
  let sign : Str := if x.signBit then ['-'] else []
  if x.expField = 2047 then sign ++ (if x.fraction = 0 then "inf".toList else "nan".toList)
  else if x.significand = 0 then sign ++ ['0']
  else
    let N := if 0 ≤ x.exponent then x.significand * 2 ^ x.exponent.toNat else x.significand
    let D := if 0 ≤ x.exponent then 1 else 2 ^ (-x.exponent).toNat
    sign ++ formatG15 (round15 N D).1 (round15 N D).2

/-- The double with the significand `m` (at most `2 ^ 53`, as rounding leaves it) and the
exponent `e`: a significand of `2 ^ 53` is `2 ^ 52` with the next exponent, a number beyond the
largest double is an infinity, a significand below `2 ^ 52` is a subnormal number or zero. -/
def encode (neg : Bool) (e : Int) (m : Nat) : Double :=
  let e1 : Int := if m = 2 ^ 53 then e + 1 else e
  let m1 := if m = 2 ^ 53 then 2 ^ 52 else m
  if 971 < e1 then Double.pack neg 2047 0
  else if m1 < 2 ^ 52 then Double.pack neg 0 m1
  else Double.pack neg (e1 + 1075).toNat (m1 - 2 ^ 52)

/-- The double nearest to the positive fraction `A / B`, a tie to the even significand; an
infinity when the rounded number is beyond the largest double. -/
def nearest (neg : Bool) (A B : Nat) : Double :=
  let e : Int := max (binExponent A B - 52) (-1074)
  encode neg e (if 0 ≤ e then roundDiv A (B * 2 ^ e.toNat) else roundDiv (A * 2 ^ (-e).toNat) B)

/-- An optional sign at the head of a text: whether it is a minus, and the text behind it. -/
def splitSign (t : Str) : Bool × Str :=
  match t with
  | c :: r => if c = '-' then (true, r) else if c = '+' then (false, r) else (false, c :: r)
  | [] => (false, [])

/-- The digits at the head of a text, and the text behind them. -/
def splitDigits (t : Str) : Str × Str := (t.takeWhile isDigitChar, t.dropWhile isDigitChar)

/-- The exponent part of a decimal number: nothing (the exponent is 0), or `e` or `E`, an
optional sign and at least one digit, up to the end of the text. -/
def parseExp (t : Str) : Option Int :=
  match t with
  | [] => some 0
  | c :: r =>
    if c = 'e' ∨ c = 'E' then
      if (splitSign r).2.isEmpty then none
      else
        match Qt.digitsValue (splitSign r).2 0 with
        | some E => some (if (splitSign r).1 then -(E : Int) else (E : Int))
        | none => none
    else none

/-- A decimal number as text: an optional sign, digits with an optional decimal point among
them (at least one digit), and an optional exponent part. The result is the sign, the digits
read as one integer `M` and the power of ten `k`: the number is `M * 10 ^ k`. -/
def parseDecimal (t : Str) : Option (Bool × Nat × Int) :=
  let ip := (splitDigits (splitSign t).2).1
  let t2 := (splitDigits (splitSign t).2).2
  let fp := if t2.head? = some '.' then (splitDigits (t2.drop 1)).1 else []
  let t3 := if t2.head? = some '.' then (splitDigits (t2.drop 1)).2 else t2
  if ip.isEmpty && fp.isEmpty then none
  else
    match Qt.digitsValue (ip ++ fp) 0, parseExp t3 with
    | some M, some E => some ((splitSign t).1, M, E - (fp.length : Int))
    | _, _ => none

/-- Qt `QString::toDouble()` for decimal text: white space at the ends is ignored, the number is
rounded to the nearest double, a tie to the even significand; a text that is no decimal number
gives 0. -/
def toDouble (t : Str) : Double :=
  match parseDecimal (Qt.trimmed t) with
  | none => ⟨0⟩
  | some (neg, M, k) =>
    if M = 0 then Double.pack neg 0 0
    else if 0 ≤ k then nearest neg (M * 10 ^ k.toNat) 1
    else nearest neg M (10 ^ (-k).toNat)

end Ieee

/-- The conversions of the C library and of Qt for IEEE 754 doubles in the default rounding
mode. (`printG`, the `%g` conversion with 6 digits, plays no part in what is proved with this
instance and is given the 15 digit conversion.) -/
def ieeeLibC : LibC :=
  { toDouble := Ieee.toDouble
    printG15 := Ieee.printG15
    printG := Ieee.printG15 }

/-- Source `doubleToString` (`dbc.h`): `snprintf(buf, sizeof(buf), "%.*g",
std::numeric_limits<double>::digits10, value)`, `digits10` being 15. -/
def doubleToString (env : LibC) (value : Double) : Str := env.printG15 value

/-- The integer nearest to a rational number, a tie to the even one. -/
def Ieee.rne (v : ℚ) : ℤ :=
  if 1 / 2 < v - ⌊v⌋ ∨ (v - ⌊v⌋ = 1 / 2 ∧ ⌊v⌋ % 2 = 1) then ⌊v⌋ + 1 else ⌊v⌋

/-- The value of a run of digits read as one integer. -/
def Ieee.digitsNat (s : Str) : Nat := (Qt.digitsValue s 0).getD 0

/-- The rounding of `round15` as a function of the number rounded. -/
def Ieee.round15Q (v : ℚ) : Nat × Int :=
  Ieee.carry15 (Ieee.rne (v / (10 : ℚ) ^ (Int.log 10 v - 14))).toNat (Int.log 10 v)

/-- The rounding of `nearest` as a function of the number rounded. -/
def Ieee.nearestQ (neg : Bool) (v : ℚ) : Double :=
  Ieee.encode neg (max (Int.log 2 v - 52) (-1074))
    (Ieee.rne (v / (2 : ℚ) ^ (max (Int.log 2 v - 52) (-1074)))).toNat

/-- The magnitude of a finite double as a rational number. -/
def Double.magnitude (x : Double) : ℚ := (x.significand : ℚ) * (2 : ℚ) ^ x.exponent

/-! ## `MessageId` and its text (`dbc.h`) -/

namespace Cxx

/-- C `isspace` in the "C" locale: blank, `\t`, `\n`, `\v`, `\f`, `\r`. -/
def isspace (c : Char) : Bool :=
  c.toNat = 32 || (9 ≤ c.toNat && c.toNat ≤ 13)

/-- The character `printf` writes for the digit `d`, with the capital letters of `%X` above 9. -/
def digitChar (d : Nat) : Char :=
  if d < 10 then Char.ofNat (48 + d) else Char.ofNat (55 + d)

/-- Digits of `n` in the base, most significant first, in front of `acc` (`fuel > n`
suffices). -/
def printBaseAux (base : Nat) : Nat → Nat → Str → Str
  | 0, _, acc => acc
  | fuel + 1, n, acc =>
    if n < base then digitChar n :: acc
    else printBaseAux base fuel (n / base) (digitChar (n % base) :: acc)

/-- The `printf` conversion `%u`. -/
def printUnsigned (n : Nat) : Str := printBaseAux 10 (n + 1) n []

/-- The `printf` conversion `%X`. -/
def printHexUpper (n : Nat) : Str := printBaseAux 16 (n + 1) n []

/-- Value of a character as a digit of the base, as `strtoul` reads it: `0`-`9`, then the
letters of either case. -/
def digitOf (base : Nat) (c : Char) : Option Nat :=
  let v : Option Nat :=
    if 48 ≤ c.toNat ∧ c.toNat ≤ 57 then some (c.toNat - 48)
    else if 65 ≤ c.toNat ∧ c.toNat ≤ 90 then some (c.toNat - 55)
    else if 97 ≤ c.toNat ∧ c.toNat ≤ 122 then some (c.toNat - 87)
    else none
  match v with
  | some d => if d < base then some d else none
  | none => none

/-- The longest run of digits of the base at the head of the text: its value on top of `acc`,
and whether a digit was read. -/
def readDigits (base : Nat) : Str → Nat → Bool → Nat × Bool
  | [], acc, any => (acc, any)
  | c :: t, acc, any =>
    match digitOf base c with
    | some d => readDigits base t (acc * base + d) true
    | none => (acc, any)

/-- The sign in front of a number: whether it is `-`, and the text behind it. -/
def readSign : Str → Bool × Str
  | [] => (false, [])
  | c :: t => if c = '-' then (true, t) else if c = '+' then (false, t) else (false, c :: t)

/-- The prefix `0x` or `0X` that base 16 admits in front of a sequence of digits. -/
def skipHexPrefix : Str → Str
  | a :: x :: d :: t =>
    if a = '0' ∧ (x = 'x' ∨ x = 'X') ∧ (digitOf 16 d).isSome then d :: t else a :: x :: d :: t
  | s => s

/-- Source `std::stoul(str, nullptr, base)` for the bases 10 and 16 (64-bit `unsigned long`):
white space is skipped, then a sign, for base 16 a prefix `0x`, and the longest run of digits is
read. `std::invalid_argument` is thrown when there is no digit and `std::out_of_range` when the
value does not fit; the text of either exception is `stoul`. A number behind `-` is negated
modulo `2^64`. -/
def stoul (str : Str) (base : Nat) : Except Str Nat :=
  let s := readSign (str.dropWhile isspace)
  let digits := if base = 16 then skipHexPrefix s.2 else s.2
  match readDigits base digits 0 false with
  | (_, false) => .error "stoul".toList
  | (v, true) =>
    if v < 2 ^ 64 then .ok (if s.1 then (2 ^ 64 - v) % 2 ^ 64 else v)
    else .error "stoul".toList

/-- Source `std::string::find(c)`: the position of the first occurrence, `none` for `npos`. -/
def find : Str → Char → Option Nat
  | [], _ => none
  | x :: t, c => if x = c then some 0 else (find t c).map (fun i => i + 1)

end Cxx

namespace MessageId

/-- Source `MessageId::toString`: `snprintf(buf, sizeof(buf), "%u:%X", source, address)`. The
text of an 8-bit source and a 32-bit address has at most 12 characters, so the buffer of 64
holds it. -/
def toString (id : MessageId) : Str :=
  Cxx.printUnsigned id.source ++ ':' :: Cxx.printHexUpper id.address

/-- Source `MessageId::fromString`. The conversions to `uint8_t` and `uint32_t` keep the low 8
and 32 bits; an exception of `std::stoul` leaves the function. -/
def fromString (str : Str) : Except Str MessageId :=
  match Cxx.find str ':' with
  | none => .ok {}
  | some pos =>
    match Cxx.stoul (str.take pos) 10 with
    | .error e => .error e
    | .ok source =>
      match Cxx.stoul (str.drop (pos + 1)) 16 with
      | .error e => .error e
      | .ok address => .ok { source := source % 2 ^ 8, address := address % 2 ^ 32 }

end MessageId

/-! ## Closing and finding the files of `DBCManager` -/

namespace DBCManager

/-- Source `DBCManager::close(sources)`: the loop `for (auto s : sources) dbc_files[s] = nullptr`.
The entries stay in the map. -/
def close (mgr : DBCManager) (sources : List Int) : DBCManager :=
  { mgr with dbc_files := assignAll mgr.dbc_files sources none }

/-- Source `DBCManager::close(dbc_file)`: every entry whose pointer is `dbc_file` is set to
`nullptr`. -/
def closeFile (mgr : DBCManager) (dbc_file : Option Nat) : DBCManager :=
  { mgr with dbc_files := mgr.dbc_files.map (fun f => if f.2 = dbc_file then (f.1, none) else f) }

/-- Source `DBCManager::closeAll`: `dbc_files.clear()`. -/
def closeAll (mgr : DBCManager) : DBCManager :=
  { mgr with dbc_files := [] }

/-- Map operation `dbc_files.find(s)`: the entry of the key, `none` for `end()`. -/
def findEntry (files : List (Int × Option Nat)) (s : Int) : Option (Int × Option Nat) :=
  files.find? (fun f => f.1 = s)

/-- Map operation `dbc_files.count(s)`. -/
def countEntry (files : List (Int × Option Nat)) (s : Int) : Nat :=
  if (findEntry files s).isSome then 1 else 0

/-- Source `DBCManager::findDBCFile(source)`, `source` an 8-bit value: the pointer returned,
`none` for `nullptr`. -/
def findDBCFile (mgr : DBCManager) (source : Nat) : Option Nat :=
  let it :=
    if countEntry mgr.dbc_files (source : Int) ≠ 0 then findEntry mgr.dbc_files (source : Int)
    else findEntry mgr.dbc_files (-1)
  match it with
  | some f => f.2
  | none => none

/-- A call of one of the functions of `DBCManager` that change `dbc_files`. -/
inductive Call where
  | openFile (sources : List Int) (dbc_file_name : Str)
  | openContent (sources : List Int) (name content : Str)
  | close (sources : List Int)
  | closeFile (dbc_file : Option Nat)
  | closeAll

/-- The manager after a call. -/
def call (env : LibC) (fs : Str → Option Str) (mgr : DBCManager) : Call → DBCManager
  | .openFile sources dbc_file_name => (openFile env fs mgr sources dbc_file_name none).mgr
  | .openContent sources name content => (openContent env mgr sources name content none).mgr
  | .close sources => mgr.close sources
  | .closeFile dbc_file => mgr.closeFile dbc_file
  | .closeAll => mgr.closeAll

/-- The manager after a sequence of calls on a new manager, the first call first. -/
def calls (env : LibC) (fs : Str → Option Str) (cs : List Call) : DBCManager :=
  cs.foldl (call env fs) {}

end DBCManager

/-! ## Vocabulary of the `SG_` statement -/

/-- The tokens of an `SG_` statement behind the colon, one for each group that `sg_regexp` and
`sgm_regexp` have there. -/
structure SgTokens where
  start_bit : Str
  size : Str
  order : Str
  sign : Char
  factor : Str
  offset : Str
  min : Str
  max : Str
  unit : Str
  receiver : Str
deriving DecidableEq, Repr

namespace SgTokens

/-- The text of the statement from the blanks in front of the colon on:
`<j blanks>: <start_bit>|<size>@<order><sign> (<factor>,<offset>) [<min>|<max>] "<unit>" <receiver>`. -/
def text (t : SgTokens) (j : Nat) : Str :=
  List.replicate j ' ' ++ (": ".toList ++ (t.start_bit ++ '|' :: (t.size ++ '@' :: (t.order ++
    t.sign :: (" (".toList ++ (t.factor ++ ',' :: (t.offset ++ (") [".toList ++ (t.min ++
    '|' :: (t.max ++ ("] \"".toList ++ (t.unit ++ ("\" ".toList ++ t.receiver)))))))))))))

/-- What the groups of the patterns demand of the tokens: digits for `start_bit`, `size` and
`order`, a character of `[\+|\-]` for the sign, characters of `[0-9.+\-eE]` for the four
numbers, at least one each, and no newline in the unit and the receiver. -/
def wellFormed (t : SgTokens) : Bool :=
  (!t.start_bit.isEmpty && t.start_bit.all isDigitChar) &&
  (!t.size.isEmpty && t.size.all isDigitChar) &&
  (!t.order.isEmpty && t.order.all isDigitChar) &&
  isSignChar t.sign &&
  (!t.factor.isEmpty && t.factor.all isNumberChar) &&
  (!t.offset.isEmpty && t.offset.all isNumberChar) &&
  (!t.min.isEmpty && t.min.all isNumberChar) &&
  (!t.max.isEmpty && t.max.all isNumberChar) &&
  t.unit.all isDot && t.receiver.all isDot

/-- The groups the tokens make, numbered from `k + 2`, the latest in front. -/
def caps (t : SgTokens) (k : Nat) : Caps :=
  [(k + 11, t.receiver), (k + 10, t.unit), (k + 9, t.max), (k + 8, t.min), (k + 7, t.offset),
    (k + 6, t.factor), (k + 5, [t.sign]), (k + 4, t.order), (k + 3, t.size),
    (k + 2, t.start_bit)]

end SgTokens

namespace DBCFile

/-- The signal `parseSG` builds from the name, the indicator (`none` when the statement has
none) and the tokens of an `SG_` statement. -/
def signalOfTokens (env : LibC) (name : Str) (indicator : Option Str) (t : SgTokens) :
    cabana.Signal :=
  { type := match indicator with
            | none => .Normal
            | some i => if i = "M".toList then .Multiplexor else .Multiplexed
    multiplex_value := match indicator with
                       | none => 0
                       | some i => if i = "M".toList then 0 else Qt.toInt (Qt.mid i 1 (-1))
    name := name
    start_bit := Qt.toInt t.start_bit
    size := Qt.toInt t.size
    is_little_endian := decide (Qt.toInt t.order = 1)
    is_signed := decide ([t.sign] = "-".toList)
    factor := env.toDouble t.factor
    offset := env.toDouble t.offset
    min := env.toDouble t.min
    max := env.toDouble t.max
    unit := t.unit
    receiver_name := Qt.trimmed t.receiver }

/-- The text of an `SG_` statement: the keyword, the name, the indicator if there is one, and
the tokens behind `j` blanks and the colon. -/
def sgStatement (name : Str) (indicator : Option Str) (j : Nat) (t : SgTokens) : Str :=
  "SG_ ".toList ++ (name ++
    ((match indicator with
      | none => []
      | some i => ' ' :: i) ++ t.text j))

/-- The text `generateDBC` writes between the name of a signal and the colon. -/
def indicatorText (sig : cabana.Signal) : Str :=
  if sig.type = .Multiplexor then "M ".toList
  else if sig.type = .Multiplexed then "m".toList ++ Qt.decimalInt sig.multiplex_value ++ " ".toList
  else []

end DBCFile

namespace DBCFile

/-- The bounds of a size that `toInt` read from decimal digits. -/
def sizeInInt (s : cabana.Signal) : Prop := 0 ≤ s.size ∧ s.size < 2 ^ 31

/-- The map after `current_msg->sigs.push_back(s)` on the message at `cur`, as `parseSG` does
it. -/
def pushSignal (msgs : Msgs) (cur : Nat) (s : cabana.Signal) : Msgs :=
  mapInsert msgs cur
    { ((mapFind msgs cur).getD ({} : cabana.Msg)) with
      sigs := ((mapFind msgs cur).getD ({} : cabana.Msg)).sigs ++ [s] }

end DBCFile

/-- Whether a text is a sequence of the items of the comment pattern `(?:[^"\\]|\\.)*`:
characters other than the quote and the backslash, and pairs of a backslash and a character
other than the newline. The flag tells that the character in front was the backslash of a pair
still open. -/
def isCommentBodyAux : Bool → Str → Bool
  | esc, [] => !esc
  | true, y :: t => isDot y && isCommentBodyAux false t
  | false, x :: t =>
    if x = '\\' then isCommentBodyAux true t else (x != '"' && isCommentBodyAux false t)

/-- Whether the comment pattern `(?:[^"\\]|\\.)*` takes the whole text: the text between the
quotes of a comment, in which a quote comes only behind a backslash. -/
def isCommentBody (b : Str) : Bool := isCommentBodyAux false b

/-! ## Lemmas -/

theorem mapFind_mapInsert (msgs : Msgs) (k a : Nat) (v : cabana.Msg) :
    mapFind (mapInsert msgs k v) a = if a = k then some v else mapFind msgs a := by
  induction msgs with
  | nil =>
    by_cases h : a = k
    · simp [mapInsert, mapFind, List.find?, h]
    · have h' : ¬ k = a := fun e => h e.symm
      simp [mapInsert, mapFind, List.find?, h, h']
  | cons e t ih =>
    obtain ⟨k0, v0⟩ := e
    unfold mapInsert
    by_cases h1 : k < k0
    · simp only [h1, if_true]
      by_cases h : a = k
      · simp [mapFind, List.find?, h]
      · have h' : ¬ k = a := fun e => h e.symm
        simp [mapFind, List.find?, h, h']
    · simp only [h1, if_false]
      by_cases h2 : k = k0
      · simp only [h2, if_true]
        by_cases h : a = k0
        · simp [mapFind, List.find?, h]
        · have h' : ¬ k0 = a := fun e => h e.symm
          simp [mapFind, List.find?, h, h']
      · simp only [h2, if_false]
        by_cases h3 : k0 = a
        · have h4 : ¬ a = k := fun e => h2 (by omega)
          simp [mapFind, List.find?, h3, h4]
        · have ih' := ih
          simp only [mapFind] at ih' ⊢
          simp [List.find?, h3, ih']

theorem mapFind_mapInsert_isSome (msgs : Msgs) (k a : Nat) (v : cabana.Msg)
    (h : (mapFind msgs a).isSome) : (mapFind (mapInsert msgs k v) a).isSome := by
  rw [mapFind_mapInsert]
  split <;> simp [h]

namespace DBCFile

theorem parseLines_append (env : LibC) (fn content : Str) (st : ParseState) (a b : List Line) :
    parseLines env fn content st (a ++ b) =
      match parseLines env fn content st a with
      | .error e => .error e
      | .ok st1 => parseLines env fn content st1 b := by
  induction a generalizing st with
  | nil => simp [parseLines]
  | cons l ls ih =>
    simp only [List.cons_append, parseLines]
    cases h : parseLine env fn content st l with
    | error e => simp
    | ok st1 => simp [ih]

end DBCFile

namespace DBCFile

/-- The outcome of one iteration on a line of no recognized kind. -/
theorem parseLine_other (env : LibC) (fn content : Str) (st : ParseState) (l : Line)
    (hk : lineKind l = .other) :
    parseLine env fn content st l =
      .ok (if st.seen_first then st
           else { st with header := st.header ++ l.raw_line ++ "\n".toList }) := by
  unfold lineKind at hk
  unfold parseLine statement
  simp only [hk]
  cases h : st.seen_first <;> simp [h]

/-- The outcome of one iteration on a `BO_` line. -/
theorem parseLine_BO (env : LibC) (fn content : Str) (st : ParseState) (l : Line)
    (hk : lineKind l = .BO) :
    parseLine env fn content st l =
      match parseBO st.msgs (lineText l) with
      | .ok (msgs, a) =>
        .ok { st with msgs := msgs, current_msg := some a, multiplexor_cnt := 0,
                      seen_first := true }
      | .error e => .error (errorText fn l.line_num e (lineText l)) := by
  unfold lineKind at hk
  unfold parseLine statement lineText
  simp only [hk]
  cases h : parseBO st.msgs (Qt.trimmed l.raw_line) with
  | error e => simp
  | ok r => obtain ⟨msgs, a⟩ := r; simp

/-- The outcome of one iteration on an `SG_` line. -/
theorem parseLine_SG (env : LibC) (fn content : Str) (st : ParseState) (l : Line)
    (hk : lineKind l = .SG) :
    parseLine env fn content st l =
      match parseSG env st.msgs (lineText l) st.current_msg st.multiplexor_cnt with
      | .ok (msgs, cnt) =>
        .ok { st with msgs := msgs, multiplexor_cnt := cnt, seen_first := true }
      | .error e => .error (errorText fn l.line_num e (lineText l)) := by
  unfold lineKind at hk
  unfold parseLine statement lineText
  simp only [hk]
  cases h : parseSG env st.msgs (Qt.trimmed l.raw_line) st.current_msg st.multiplexor_cnt with
  | error e => simp
  | ok r => obtain ⟨msgs, a⟩ := r; simp

/-- The outcome of one iteration on a `VAL_` line. -/
theorem parseLine_VAL (env : LibC) (fn content : Str) (st : ParseState) (l : Line)
    (hk : lineKind l = .VAL) :
    parseLine env fn content st l =
      match parseVAL env st.msgs (lineText l) with
      | .ok msgs => .ok { st with msgs := msgs, seen_first := true }
      | .error e => .error (errorText fn l.line_num e (lineText l)) := by
  unfold lineKind at hk
  unfold parseLine statement lineText
  simp only [hk]
  cases h : parseVAL env st.msgs (Qt.trimmed l.raw_line) with
  | error e => simp
  | ok r => simp

/-- The outcome of one iteration on a `CM_ BO_` line. -/
theorem parseLine_CM_BO (env : LibC) (fn content : Str) (st : ParseState) (l : Line)
    (hk : lineKind l = .CM_BO) :
    parseLine env fn content st l =
      match parseCM_BO st.msgs (lineText l) content l.raw_line l.streamPos with
      | .ok msgs => .ok { st with msgs := msgs, seen_first := true }
      | .error e => .error (errorText fn l.line_num e (lineText l)) := by
  unfold lineKind at hk
  unfold parseLine statement lineText
  simp only [hk]
  cases h : parseCM_BO st.msgs (Qt.trimmed l.raw_line) content l.raw_line l.streamPos with
  | error e => simp
  | ok r => simp

/-- The outcome of one iteration on a `CM_ SG_` line. -/
theorem parseLine_CM_SG (env : LibC) (fn content : Str) (st : ParseState) (l : Line)
    (hk : lineKind l = .CM_SG) :
    parseLine env fn content st l =
      match parseCM_SG st.msgs (lineText l) content l.raw_line l.streamPos with
      | .ok msgs => .ok { st with msgs := msgs, seen_first := true }
      | .error e => .error (errorText fn l.line_num e (lineText l)) := by
  unfold lineKind at hk
  unfold parseLine statement lineText
  simp only [hk]
  cases h : parseCM_SG st.msgs (Qt.trimmed l.raw_line) content l.raw_line l.streamPos with
  | error e => simp
  | ok r => simp

end DBCFile

namespace DBCFile

theorem parseBO_mono (msgs : Msgs) (line : Str) (r : Msgs × Nat)
    (h : parseBO msgs line = .ok r) (a : Nat) (ha : (mapFind msgs a).isSome) :
    (mapFind r.1 a).isSome := by
  unfold parseBO at h
  try dsimp only at h
  repeat' split at h
  all_goals first
    | (simp at h; done)
    | (simp only [Except.ok.injEq] at h; subst h
       first | exact ha | exact mapFind_mapInsert_isSome _ _ _ _ ha)

theorem parseSG_mono (env : LibC) (msgs : Msgs) (line : Str) (cur : Option Nat) (cnt : Nat)
    (r : Msgs × Nat) (h : parseSG env msgs line cur cnt = .ok r) (a : Nat)
    (ha : (mapFind msgs a).isSome) : (mapFind r.1 a).isSome := by
  unfold parseSG at h
  try dsimp only at h
  repeat' split at h
  all_goals first
    | (simp at h; done)
    | (simp only [Except.ok.injEq] at h; subst h
       first | exact ha | exact mapFind_mapInsert_isSome _ _ _ _ ha)

theorem parseCM_BO_mono (msgs : Msgs) (line content raw : Str) (pos : Nat) (r : Msgs)
    (h : parseCM_BO msgs line content raw pos = .ok r) (a : Nat)
    (ha : (mapFind msgs a).isSome) : (mapFind r a).isSome := by
  unfold parseCM_BO at h
  try dsimp only at h
  repeat' split at h
  all_goals first
    | (simp at h; done)
    | (simp only [Except.ok.injEq] at h; subst h
       first | exact ha | exact mapFind_mapInsert_isSome _ _ _ _ ha)

theorem parseCM_SG_mono (msgs : Msgs) (line content raw : Str) (pos : Nat) (r : Msgs)
    (h : parseCM_SG msgs line content raw pos = .ok r) (a : Nat)
    (ha : (mapFind msgs a).isSome) : (mapFind r a).isSome := by
  unfold parseCM_SG at h
  try dsimp only at h
  repeat' split at h
  all_goals first
    | (simp at h; done)
    | (simp only [Except.ok.injEq] at h; subst h
       first | exact ha | exact mapFind_mapInsert_isSome _ _ _ _ ha)

theorem parseVAL_mono (env : LibC) (msgs : Msgs) (line : Str) (r : Msgs)
    (h : parseVAL env msgs line = .ok r) (a : Nat)
    (ha : (mapFind msgs a).isSome) : (mapFind r a).isSome := by
  unfold parseVAL at h
  try dsimp only at h
  repeat' split at h
  all_goals first
    | (simp at h; done)
    | (simp only [Except.ok.injEq] at h; subst h
       first | exact ha | exact mapFind_mapInsert_isSome _ _ _ _ ha)

/-- No iteration of the loop removes a message. -/
theorem parseLine_mono (env : LibC) (fn content : Str) (st st1 : ParseState) (l : Line)
    (h : parseLine env fn content st l = .ok st1) (a : Nat)
    (ha : (mapFind st.msgs a).isSome) : (mapFind st1.msgs a).isSome := by
  cases hk : lineKind l with
  | BO =>
    rw [parseLine_BO env fn content st l hk] at h
    split at h
    · next msgs a1 hb =>
      simp only [Except.ok.injEq] at h
      subst h
      exact parseBO_mono _ _ _ hb a ha
    · simp at h
  | SG =>
    rw [parseLine_SG env fn content st l hk] at h
    split at h
    · next msgs a1 hb =>
      simp only [Except.ok.injEq] at h
      subst h
      exact parseSG_mono env _ _ _ _ _ hb a ha
    · simp at h
  | VAL =>
    rw [parseLine_VAL env fn content st l hk] at h
    split at h
    · next msgs hb =>
      simp only [Except.ok.injEq] at h
      subst h
      exact parseVAL_mono env _ _ _ hb a ha
    · simp at h
  | CM_BO =>
    rw [parseLine_CM_BO env fn content st l hk] at h
    split at h
    · next msgs hb =>
      simp only [Except.ok.injEq] at h
      subst h
      exact parseCM_BO_mono _ _ _ _ _ _ hb a ha
    · simp at h
  | CM_SG =>
    rw [parseLine_CM_SG env fn content st l hk] at h
    split at h
    · next msgs hb =>
      simp only [Except.ok.injEq] at h
      subst h
      exact parseCM_SG_mono _ _ _ _ _ _ hb a ha
    · simp at h
  | other =>
    rw [parseLine_other env fn content st l hk] at h
    simp only [Except.ok.injEq] at h
    subst h
    split <;> exact ha

/-- No run of the loop removes a message. -/
theorem parseLines_mono (env : LibC) (fn content : Str) (ls : List Line) (st st1 : ParseState)
    (h : parseLines env fn content st ls = .ok st1) (a : Nat)
    (ha : (mapFind st.msgs a).isSome) : (mapFind st1.msgs a).isSome := by
  induction ls generalizing st with
  | nil =>
    simp only [parseLines, Except.ok.injEq] at h
    subst h
    exact ha
  | cons l ls ih =>
    simp only [parseLines] at h
    cases hl : parseLine env fn content st l with
    | error e => simp [hl] at h
    | ok st2 =>
      simp only [hl] at h
      exact ih st2 h (parseLine_mono env fn content st st2 l hl a ha)

/-- An accepted `BO_` line leaves its address in the map. -/
theorem parseLine_BO_declares (env : LibC) (fn content : Str) (st st1 : ParseState) (l : Line)
    (hk : lineKind l = .BO) (a : Nat) (had : boAddress (lineText l) = some a)
    (h : parseLine env fn content st l = .ok st1) : (mapFind st1.msgs a).isSome := by
  rw [parseLine_BO env fn content st l hk] at h
  unfold boAddress at had
  unfold parseBO at h
  cases hs : bo_regexp.search (lineText l) with
  | none => simp [hs] at had
  | some m =>
    simp only [hs, Option.map_some', Option.some.injEq] at had
    simp only [hs] at h
    by_cases hdup : (mapFind st.msgs (Qt.toUInt (captured m 1))).isSome
    · simp [hdup] at h
    · simp only [hdup] at h
      simp only [Bool.false_eq_true, if_false, Except.ok.injEq] at h
      subst h
      simp only [had]
      rw [mapFind_mapInsert]
      simp

/-- A `BO_` line whose address is in the map already is rejected. -/
theorem parseLine_BO_duplicate (env : LibC) (fn content : Str) (st : ParseState) (l : Line)
    (hk : lineKind l = .BO) (a : Nat) (had : boAddress (lineText l) = some a)
    (ha : (mapFind st.msgs a).isSome) :
    parseLine env fn content st l =
      .error (errorText fn l.line_num
        (Qt.arg "Duplicate message address: %1".toList (Qt.decimal a)) (lineText l)) := by
  rw [parseLine_BO env fn content st l hk]
  unfold boAddress at had
  unfold parseBO
  cases hs : bo_regexp.search (lineText l) with
  | none => simp [hs] at had
  | some m =>
    simp only [hs, Option.map_some', Option.some.injEq] at had
    simp only [had, ha, if_true]

end DBCFile

theorem cabana.Msg.sig_isSome_iff (m : cabana.Msg) (n : Str) :
    (m.sig n).isSome ↔ n ∈ m.sigNames := by
  unfold cabana.Msg.sig cabana.Msg.sigNames
  rw [List.find?_isSome]
  simp only [decide_eq_true_eq, List.mem_map]

theorem cabana.Msg.sig_eq_none_iff (m : cabana.Msg) (n : Str) :
    m.sig n = none ↔ n ∉ m.sigNames := by
  rw [← cabana.Msg.sig_isSome_iff]
  cases h : m.sig n <;> simp

theorem modifySig_names (f : cabana.Signal → cabana.Signal) (nm : Str)
    (hf : ∀ s, (f s).name = s.name) (sigs : List cabana.Signal) :
    (modifySig f nm sigs).map (fun s => s.name) = sigs.map (fun s => s.name) := by
  induction sigs with
  | nil => rfl
  | cons s t ih =>
    unfold modifySig
    split
    · simp [hf]
    · simp [ih]

namespace DBCFile

theorem parseBO_names (msgs : Msgs) (line : Str) (r : Msgs × Nat)
    (h : parseBO msgs line = .ok r) (a : Nat) (msg : cabana.Msg)
    (ha : mapFind msgs a = some msg) : mapFind r.1 a = some msg := by
  unfold parseBO at h
  cases hs : bo_regexp.search line with
  | none => simp [hs] at h
  | some m =>
    simp only [hs] at h
    by_cases hdup : (mapFind msgs (Qt.toUInt (captured m 1))).isSome
    · simp [hdup] at h
    · simp only [hdup, Bool.false_eq_true, if_false, Except.ok.injEq] at h
      subst h
      rw [mapFind_mapInsert]
      have hne : ¬ a = Qt.toUInt (captured m 1) := by
        intro e
        rw [← e, ha] at hdup
        simp at hdup
      simp [hne, ha]

theorem parseCM_BO_names (msgs : Msgs) (line content raw : Str) (pos : Nat) (r : Msgs)
    (h : parseCM_BO msgs line content raw pos = .ok r) (a : Nat) (msg : cabana.Msg)
    (ha : mapFind msgs a = some msg) :
    ∃ msg1, mapFind r a = some msg1 ∧ msg1.sigNames = msg.sigNames := by
  unfold parseCM_BO at h
  cases hs : msg_comment_regexp.search (commentText line content raw pos) with
  | none => simp [hs] at h
  | some m =>
    simp only [hs] at h
    cases hm : mapFind msgs (Qt.toUInt (captured m 1)) with
    | none =>
      simp only [hm, Except.ok.injEq] at h
      subst h
      exact ⟨msg, ha, rfl⟩
    | some mk =>
      simp only [hm, Except.ok.injEq] at h
      subst h
      rw [mapFind_mapInsert]
      by_cases hak : a = Qt.toUInt (captured m 1)
      · subst hak
        rw [ha] at hm
        simp only [Option.some.injEq] at hm
        subst hm
        simp [cabana.Msg.sigNames]
      · simp only [hak, if_false]
        exact ⟨msg, ha, rfl⟩

theorem parseCM_SG_names (msgs : Msgs) (line content raw : Str) (pos : Nat) (r : Msgs)
    (h : parseCM_SG msgs line content raw pos = .ok r) (a : Nat) (msg : cabana.Msg)
    (ha : mapFind msgs a = some msg) :
    ∃ msg1, mapFind r a = some msg1 ∧ msg1.sigNames = msg.sigNames := by
  unfold parseCM_SG at h
  cases hs : sg_comment_regexp.search (commentText line content raw pos) with
  | none => simp [hs] at h
  | some m =>
    simp only [hs] at h
    cases hm : mapFind msgs (Qt.toUInt (captured m 1)) with
    | none =>
      simp only [hm, Except.ok.injEq] at h
      subst h
      exact ⟨msg, ha, rfl⟩
    | some mk =>
      simp only [hm] at h
      cases hsig : mk.sig (captured m 2) with
      | none =>
        simp only [hsig, Except.ok.injEq] at h
        subst h
        exact ⟨msg, ha, rfl⟩
      | some s0 =>
        simp only [hsig, Except.ok.injEq] at h
        subst h
        rw [mapFind_mapInsert]
        by_cases hak : a = Qt.toUInt (captured m 1)
        · subst hak
          rw [ha] at hm
          simp only [Option.some.injEq] at hm
          subst hm
          simp only [if_true]
          refine ⟨_, rfl, ?_⟩
          simp only [cabana.Msg.sigNames]
          apply modifySig_names
          intro s
          rfl
        · simp only [hak, if_false]
          exact ⟨msg, ha, rfl⟩

theorem parseVAL_names (env : LibC) (msgs : Msgs) (line : Str) (r : Msgs)
    (h : parseVAL env msgs line = .ok r) (a : Nat) (msg : cabana.Msg)
    (ha : mapFind msgs a = some msg) :
    ∃ msg1, mapFind r a = some msg1 ∧ msg1.sigNames = msg.sigNames := by
  unfold parseVAL at h
  cases hs : val_regexp.search line with
  | none => simp [hs] at h
  | some m =>
    simp only [hs] at h
    cases hm : mapFind msgs (Qt.toUInt (captured m 1)) with
    | none =>
      simp only [hm, Except.ok.injEq] at h
      subst h
      exact ⟨msg, ha, rfl⟩
    | some mk =>
      simp only [hm] at h
      cases hsig : mk.sig (captured m 2) with
      | none =>
        simp only [hsig, Except.ok.injEq] at h
        subst h
        exact ⟨msg, ha, rfl⟩
      | some s0 =>
        simp only [hsig, Except.ok.injEq] at h
        subst h
        rw [mapFind_mapInsert]
        by_cases hak : a = Qt.toUInt (captured m 1)
        · subst hak
          rw [ha] at hm
          simp only [Option.some.injEq] at hm
          subst hm
          simp only [if_true]
          refine ⟨_, rfl, ?_⟩
          simp only [cabana.Msg.sigNames]
          apply modifySig_names
          intro s
          rfl
        · simp only [hak, if_false]
          exact ⟨msg, ha, rfl⟩

end DBCFile

namespace DBCFile

/-- What an accepted `SG_` line does: it appends one signal, named by group 1, to the open
message, and counts it when it carries the `M` indicator. -/
theorem parseSG_ok_inv (env : LibC) (msgs : Msgs) (line : Str) (cur : Option Nat) (cnt : Nat)
    (r : Msgs × Nat) (h : parseSG env msgs line cur cnt = .ok r) :
    ∃ c m off s, cur = some c ∧ sgMatch line = some (m, off) ∧
      (((mapFind msgs c).getD ({} : cabana.Msg)).sig (captured m 1)) = none ∧
      s.name = captured m 1 ∧
      r.1 = mapInsert msgs c
        { ((mapFind msgs c).getD ({} : cabana.Msg)) with
          sigs := ((mapFind msgs c).getD ({} : cabana.Msg)).sigs ++ [s] } ∧
      cnt ≤ r.2 ∧ (isMultiplexorLine line = true → r.2 = cnt + 1) := by
  unfold parseSG at h
  cases hc : cur with
  | none => simp [hc] at h
  | some c =>
    simp only [hc] at h
    cases hm : sgMatch line with
    | none => simp [hm] at h
    | some mo =>
      obtain ⟨m, off⟩ := mo
      simp only [hm] at h
      by_cases hdup : (((mapFind msgs c).getD ({} : cabana.Msg)).sig (captured m 1)).isSome
      · simp [hdup] at h
      · simp only [hdup, Bool.false_eq_true, if_false] at h
        by_cases hM : (decide (off = 1) && decide (captured m 2 = "M".toList)) = true
        · simp only [hM, if_true, Bool.true_and] at h
          by_cases h2 : cnt + 1 ≥ 2
          · simp [h2] at h
          · simp only [h2, decide_False, Bool.false_eq_true, if_false, Except.ok.injEq] at h
            subst h
            refine ⟨c, m, off, _, rfl, rfl, ?_, ?_, rfl, ?_, ?_⟩
            · cases hx : ((mapFind msgs c).getD ({} : cabana.Msg)).sig (captured m 1) with
              | none => rfl
              | some x => simp [hx] at hdup
            · rfl
            · simp
            · intro _
              rfl
        · simp only [hM, Bool.false_eq_true, if_false, Bool.false_and, Except.ok.injEq] at h
          subst h
          refine ⟨c, m, off, _, rfl, rfl, ?_, ?_, rfl, ?_, ?_⟩
          · cases hx : ((mapFind msgs c).getD ({} : cabana.Msg)).sig (captured m 1) with
            | none => rfl
            | some x => simp [hx] at hdup
          · rfl
          · simp
          · intro hi
            unfold isMultiplexorLine at hi
            simp only [hm] at hi
            exact absurd hi hM

/-- An `SG_` line while no message is open is rejected. -/
theorem parseSG_no_message (env : LibC) (msgs : Msgs) (line : Str) (cnt : Nat) :
    parseSG env msgs line none cnt = .error "No Message".toList := rfl

/-- An `SG_` line whose name the open message has already is rejected. -/
theorem parseSG_duplicate (env : LibC) (msgs : Msgs) (line : Str) (c cnt : Nat) (m : Caps)
    (off : Nat) (hm : sgMatch line = some (m, off))
    (hdup : (((mapFind msgs c).getD ({} : cabana.Msg)).sig (captured m 1)).isSome) :
    parseSG env msgs line (some c) cnt = .error "Duplicate signal name".toList := by
  unfold parseSG
  simp only [hm, hdup, if_true]

/-- An `SG_` line with the `M` indicator and a new name, after another one was counted, is
rejected for that reason. -/
theorem parseSG_multiple (env : LibC) (msgs : Msgs) (line : Str) (c cnt : Nat)
    (hM : isMultiplexorLine line = true) (hcnt : 1 ≤ cnt)
    (hnew : ∀ m off, sgMatch line = some (m, off) →
      ((mapFind msgs c).getD ({} : cabana.Msg)).sig (captured m 1) = none) :
    parseSG env msgs line (some c) cnt = .error "Multiple multiplexor".toList := by
  unfold isMultiplexorLine at hM
  unfold parseSG
  cases hm : sgMatch line with
  | none => simp [hm] at hM
  | some mo =>
    obtain ⟨m, off⟩ := mo
    simp only [hm] at hM
    have hn := hnew m off hm
    have h2 : cnt + 1 ≥ 2 := by omega
    simp only [hn, Option.isSome_none, Bool.false_eq_true, if_false, hM, if_true, Bool.true_and,
      h2, decide_True]

end DBCFile

namespace DBCFile

theorem parseSG_names (env : LibC) (msgs : Msgs) (line : Str) (cur : Option Nat) (cnt : Nat)
    (r : Msgs × Nat) (h : parseSG env msgs line cur cnt = .ok r) (a : Nat) (msg : cabana.Msg)
    (ha : mapFind msgs a = some msg) :
    ∃ msg1, mapFind r.1 a = some msg1 ∧ ∀ n ∈ msg.sigNames, n ∈ msg1.sigNames := by
  obtain ⟨c, m, off, s, hc, hm, hnew, hname, hr, hcnt, hmux⟩ := parseSG_ok_inv env msgs line cur cnt r h
  rw [hr, mapFind_mapInsert]
  by_cases hac : a = c
  · subst hac
    simp only [if_true, ha, Option.getD_some]
    refine ⟨_, rfl, ?_⟩
    intro n hn
    simp only [cabana.Msg.sigNames, List.map_append, List.mem_append] at hn ⊢
    exact Or.inl hn
  · simp only [hac, if_false]
    exact ⟨msg, ha, fun n hn => hn⟩

/-- No iteration of the loop removes a signal name from a message. -/
theorem parseLine_names (env : LibC) (fn content : Str) (st st1 : ParseState) (l : Line)
    (h : parseLine env fn content st l = .ok st1) (a : Nat) (msg : cabana.Msg)
    (ha : mapFind st.msgs a = some msg) :
    ∃ msg1, mapFind st1.msgs a = some msg1 ∧ ∀ n ∈ msg.sigNames, n ∈ msg1.sigNames := by
  cases hk : lineKind l with
  | BO =>
    rw [parseLine_BO env fn content st l hk] at h
    cases hb : parseBO st.msgs (lineText l) with
    | error e => simp [hb] at h
    | ok r =>
      obtain ⟨msgs, a1⟩ := r
      simp only [hb, Except.ok.injEq] at h
      subst h
      exact ⟨msg, parseBO_names _ _ _ hb a msg ha, fun n hn => hn⟩
  | SG =>
    rw [parseLine_SG env fn content st l hk] at h
    cases hb : parseSG env st.msgs (lineText l) st.current_msg st.multiplexor_cnt with
    | error e => simp [hb] at h
    | ok r =>
      obtain ⟨msgs, c1⟩ := r
      simp only [hb, Except.ok.injEq] at h
      subst h
      exact parseSG_names env _ _ _ _ _ hb a msg ha
  | VAL =>
    rw [parseLine_VAL env fn content st l hk] at h
    cases hb : parseVAL env st.msgs (lineText l) with
    | error e => simp [hb] at h
    | ok r =>
      simp only [hb, Except.ok.injEq] at h
      subst h
      obtain ⟨msg1, h1, h2⟩ := parseVAL_names env _ _ _ hb a msg ha
      exact ⟨msg1, h1, fun n hn => h2 ▸ hn⟩
  | CM_BO =>
    rw [parseLine_CM_BO env fn content st l hk] at h
    cases hb : parseCM_BO st.msgs (lineText l) content l.raw_line l.streamPos with
    | error e => simp [hb] at h
    | ok r =>
      simp only [hb, Except.ok.injEq] at h
      subst h
      obtain ⟨msg1, h1, h2⟩ := parseCM_BO_names _ _ _ _ _ _ hb a msg ha
      exact ⟨msg1, h1, fun n hn => h2 ▸ hn⟩
  | CM_SG =>
    rw [parseLine_CM_SG env fn content st l hk] at h
    cases hb : parseCM_SG st.msgs (lineText l) content l.raw_line l.streamPos with
    | error e => simp [hb] at h
    | ok r =>
      simp only [hb, Except.ok.injEq] at h
      subst h
      obtain ⟨msg1, h1, h2⟩ := parseCM_SG_names _ _ _ _ _ _ hb a msg ha
      exact ⟨msg1, h1, fun n hn => h2 ▸ hn⟩
  | other =>
    rw [parseLine_other env fn content st l hk] at h
    simp only [Except.ok.injEq] at h
    subst h
    refine ⟨msg, ?_, fun n hn => hn⟩
    split <;> exact ha

/-- A line that is no `BO_` line leaves the open message the same and does not lower the count
of multiplexors. -/
theorem parseLine_frame (env : LibC) (fn content : Str) (st st1 : ParseState) (l : Line)
    (hk : lineKind l ≠ .BO) (h : parseLine env fn content st l = .ok st1) :
    st1.current_msg = st.current_msg ∧ st.multiplexor_cnt ≤ st1.multiplexor_cnt := by
  cases hk1 : lineKind l with
  | BO => exact absurd hk1 hk
  | SG =>
    rw [parseLine_SG env fn content st l hk1] at h
    cases hb : parseSG env st.msgs (lineText l) st.current_msg st.multiplexor_cnt with
    | error e => simp [hb] at h
    | ok r =>
      obtain ⟨msgs, c1⟩ := r
      simp only [hb, Except.ok.injEq] at h
      subst h
      obtain ⟨c, m, off, s, hc, hm, hnew, hname, hr, hcnt, hmux⟩ :=
        parseSG_ok_inv env _ _ _ _ _ hb
      exact ⟨rfl, hcnt⟩
  | VAL =>
    rw [parseLine_VAL env fn content st l hk1] at h
    cases hb : parseVAL env st.msgs (lineText l) with
    | error e => simp [hb] at h
    | ok r =>
      simp only [hb, Except.ok.injEq] at h
      subst h
      exact ⟨rfl, le_refl _⟩
  | CM_BO =>
    rw [parseLine_CM_BO env fn content st l hk1] at h
    cases hb : parseCM_BO st.msgs (lineText l) content l.raw_line l.streamPos with
    | error e => simp [hb] at h
    | ok r =>
      simp only [hb, Except.ok.injEq] at h
      subst h
      exact ⟨rfl, le_refl _⟩
  | CM_SG =>
    rw [parseLine_CM_SG env fn content st l hk1] at h
    cases hb : parseCM_SG st.msgs (lineText l) content l.raw_line l.streamPos with
    | error e => simp [hb] at h
    | ok r =>
      simp only [hb, Except.ok.injEq] at h
      subst h
      exact ⟨rfl, le_refl _⟩
  | other =>
    rw [parseLine_other env fn content st l hk1] at h
    simp only [Except.ok.injEq] at h
    subst h
    split <;> exact ⟨rfl, le_refl _⟩

/-- Lines of which none is a `BO_` line leave the open message the same, do not lower the count
of multiplexors and remove no signal name. -/
theorem parseLines_frame (env : LibC) (fn content : Str) (ls : List Line) (st st1 : ParseState)
    (hk : ∀ l ∈ ls, lineKind l ≠ .BO) (h : parseLines env fn content st ls = .ok st1) :
    st1.current_msg = st.current_msg ∧ st.multiplexor_cnt ≤ st1.multiplexor_cnt ∧
      ∀ a msg, mapFind st.msgs a = some msg →
        ∃ msg1, mapFind st1.msgs a = some msg1 ∧ ∀ n ∈ msg.sigNames, n ∈ msg1.sigNames := by
  induction ls generalizing st with
  | nil =>
    simp only [parseLines, Except.ok.injEq] at h
    subst h
    exact ⟨rfl, le_refl _, fun a msg ha => ⟨msg, ha, fun n hn => hn⟩⟩
  | cons l ls ih =>
    simp only [parseLines] at h
    cases hl : parseLine env fn content st l with
    | error e => simp [hl] at h
    | ok st2 =>
      simp only [hl] at h
      have hf := parseLine_frame env fn content st st2 l (hk l (List.mem_cons_self _ _)) hl
      obtain ⟨i1, i2, i3⟩ := ih st2 (fun x hx => hk x (List.mem_cons_of_mem _ hx)) h
      refine ⟨i1.trans hf.1, le_trans hf.2 i2, ?_⟩
      intro a msg ha
      obtain ⟨msg2, h2, h2n⟩ := parseLine_names env fn content st st2 l hl a msg ha
      obtain ⟨msg3, h3, h3n⟩ := i3 a msg2 h2
      exact ⟨msg3, h3, fun n hn => h3n n (h2n n hn)⟩

end DBCFile

namespace DBCFile

/-- The loop up to and including a given line. -/
theorem parseLines_split (env : LibC) (fn content : Str) (st : ParseState) (pre post : List Line)
    (l : Line) :
    parseLines env fn content st (pre ++ l :: post) =
      match parseLines env fn content st pre with
      | .error e => .error e
      | .ok st1 =>
        match parseLine env fn content st1 l with
        | .error e => .error e
        | .ok st2 => parseLines env fn content st2 post := by
  rw [parseLines_append]
  cases parseLines env fn content st pre with
  | error e => rfl
  | ok st1 => simp only [parseLines]

theorem parseLines_split_error_pre (env : LibC) (fn content : Str) (st : ParseState)
    (pre post : List Line) (l : Line) (e : Str)
    (h : parseLines env fn content st pre = .error e) :
    parseLines env fn content st (pre ++ l :: post) = .error e := by
  rw [parseLines_split, h]

theorem parseLines_split_error_line (env : LibC) (fn content : Str) (st st1 : ParseState)
    (pre post : List Line) (l : Line) (e : Str)
    (h : parseLines env fn content st pre = .ok st1)
    (hl : parseLine env fn content st1 l = .error e) :
    parseLines env fn content st (pre ++ l :: post) = .error e := by
  rw [parseLines_split, h]
  simp only [hl]

theorem parseLines_split_ok (env : LibC) (fn content : Str) (st st1 st2 : ParseState)
    (pre post : List Line) (l : Line)
    (h : parseLines env fn content st pre = .ok st1)
    (hl : parseLine env fn content st1 l = .ok st2) :
    parseLines env fn content st (pre ++ l :: post) = parseLines env fn content st2 post := by
  rw [parseLines_split, h]
  simp only [hl]

/-- A failure of the loop is a failure of `parse`. -/
theorem parse_error_of_loop (env : LibC) (fn name_ content e : Str)
    (h : parseLines env fn content {} (readLines content) = .error e) :
    parse env fn name_ content = .error e := by
  unfold parse
  rw [h]

/-- C2. A text with two `BO_` statements that declare the same address is rejected: whenever two
lines of the text are `BO_` lines whose address groups convert to the same address, `parse`
throws, so no database is built. -/
theorem duplicate_address_rejected (env : LibC) (fn name_ content : Str)
    (pre mid post : List Line) (li lj : Line) (a : Nat)
    (hlines : readLines content = pre ++ li :: (mid ++ lj :: post))
    (hi : lineKind li = .BO) (hj : lineKind lj = .BO)
    (hai : boAddress (lineText li) = some a) (haj : boAddress (lineText lj) = some a) :
    ∃ e, parse env fn name_ content = .error e := by
  suffices h : ∃ e, parseLines env fn content {} (readLines content) = .error e by
    obtain ⟨e, he⟩ := h
    exact ⟨e, parse_error_of_loop env fn name_ content e he⟩
  rw [hlines]
  cases h1 : parseLines env fn content {} pre with
  | error e => exact ⟨e, parseLines_split_error_pre env fn content _ pre _ li e h1⟩
  | ok st1 =>
    cases h2 : parseLine env fn content st1 li with
    | error e => exact ⟨e, parseLines_split_error_line env fn content _ st1 pre _ li e h1 h2⟩
    | ok st2 =>
      rw [parseLines_split_ok env fn content _ st1 st2 pre _ li h1 h2]
      cases h3 : parseLines env fn content st2 mid with
      | error e => exact ⟨e, parseLines_split_error_pre env fn content _ mid _ lj e h3⟩
      | ok st3 =>
        have hin2 := parseLine_BO_declares env fn content st1 st2 li hi a hai h2
        have hin3 := parseLines_mono env fn content mid st2 st3 h3 a hin2
        exact ⟨_, parseLines_split_error_line env fn content _ st3 mid _ lj _ h3
          (parseLine_BO_duplicate env fn content st3 lj hj a haj hin3)⟩

/-- C2, at a text with the address 100 declared on its lines 1 and 3. -/
theorem duplicate_address_rejected_witness :
    ∃ e, parse sampleLibC [] []
      "BO_ 100 A: 8 XXX\n\nBO_ 100 B: 8 XXX\n".toList = .error e :=
  duplicate_address_rejected sampleLibC [] [] "BO_ 100 A: 8 XXX\n\nBO_ 100 B: 8 XXX\n".toList
    [] [⟨2, [], 18⟩] [] ⟨1, "BO_ 100 A: 8 XXX".toList, 17⟩ ⟨3, "BO_ 100 B: 8 XXX".toList, 35⟩ 100
    (by decide!) (by decide!) (by decide!) (by decide!) (by decide!)

end DBCFile

namespace DBCFile

/-- C5. An `SG_` line that comes before any `BO_` line makes `parse` throw, whatever else the
line contains: no message is open. When the lines in front of it were accepted, the exception
is the annotated reason `No Message`. -/
theorem signal_before_message_rejected (env : LibC) (fn name_ content : Str)
    (pre post : List Line) (lj : Line)
    (hlines : readLines content = pre ++ lj :: post)
    (hpre : ∀ l ∈ pre, lineKind l ≠ .BO)
    (hj : lineKind lj = .SG) :
    (∃ e, parse env fn name_ content = .error e) ∧
    (∀ st, parseLines env fn content {} pre = .ok st →
      parse env fn name_ content =
        .error (errorText fn lj.line_num "No Message".toList (lineText lj))) := by
  have key : ∀ st, parseLines env fn content {} pre = .ok st →
      parseLines env fn content {} (readLines content) =
        .error (errorText fn lj.line_num "No Message".toList (lineText lj)) := by
    intro st hst
    have hcur : st.current_msg = none := (parseLines_frame env fn content pre _ st hpre hst).1
    rw [hlines]
    apply parseLines_split_error_line env fn content _ st pre post lj _ hst
    rw [parseLine_SG env fn content st lj hj, hcur, parseSG_no_message]
  constructor
  · cases h1 : parseLines env fn content {} pre with
    | error e =>
      refine ⟨e, parse_error_of_loop env fn name_ content e ?_⟩
      rw [hlines]
      exact parseLines_split_error_pre env fn content _ pre post lj e h1
    | ok st => exact ⟨_, parse_error_of_loop env fn name_ content _ (key st h1)⟩
  · intro st hst
    exact parse_error_of_loop env fn name_ content _ (key st hst)

/-- C5, at a text whose first statement is an `SG_` line. -/
theorem signal_before_message_rejected_witness :
    (∃ e, parse sampleLibC [] [] "VERSION \"\"\nSG_ anything at all\n".toList = .error e) ∧
    (∀ st, parseLines sampleLibC [] "VERSION \"\"\nSG_ anything at all\n".toList {}
        [⟨1, "VERSION \"\"".toList, 11⟩] = .ok st →
      parse sampleLibC [] [] "VERSION \"\"\nSG_ anything at all\n".toList =
        .error (errorText [] 2 "No Message".toList "SG_ anything at all".toList)) :=
  signal_before_message_rejected sampleLibC [] [] "VERSION \"\"\nSG_ anything at all\n".toList
    [⟨1, "VERSION \"\"".toList, 11⟩] [] ⟨2, "SG_ anything at all".toList, 31⟩
    (by decide!) (by decide!) (by decide!)

end DBCFile

namespace DBCFile

theorem parseLines_split_ok_inv (env : LibC) (fn content : Str) (st st3 : ParseState)
    (pre post : List Line) (l : Line)
    (h : parseLines env fn content st (pre ++ l :: post) = .ok st3) :
    ∃ st1 st2, parseLines env fn content st pre = .ok st1 ∧
      parseLine env fn content st1 l = .ok st2 ∧ parseLines env fn content st2 post = .ok st3 := by
  cases h1 : parseLines env fn content st pre with
  | error e =>
    rw [parseLines_split_error_pre env fn content st pre post l e h1] at h
    simp at h
  | ok st1 =>
    cases h2 : parseLine env fn content st1 l with
    | error e =>
      rw [parseLines_split_error_line env fn content st st1 pre post l e h1 h2] at h
      simp at h
    | ok st2 =>
      rw [parseLines_split_ok env fn content st st1 st2 pre post l h1 h2] at h
      exact ⟨st1, st2, rfl, h2, h⟩

/-- After an accepted `SG_` line with the `M` indicator and lines of which none is a `BO_`
line, a message is open and at least one multiplexor is counted. -/
theorem multiplexor_counted (env : LibC) (fn content : Str) (st1 st2 st3 : ParseState)
    (li : Line) (mid : List Line) (hi : lineKind li = .SG)
    (hMi : isMultiplexorLine (lineText li) = true)
    (hmid : ∀ l ∈ mid, lineKind l ≠ .BO)
    (h2 : parseLine env fn content st1 li = .ok st2)
    (h3 : parseLines env fn content st2 mid = .ok st3) :
    (∃ c, st3.current_msg = some c) ∧ 1 ≤ st3.multiplexor_cnt := by
  rw [parseLine_SG env fn content st1 li hi] at h2
  cases hb : parseSG env st1.msgs (lineText li) st1.current_msg st1.multiplexor_cnt with
  | error e => simp [hb] at h2
  | ok r =>
    obtain ⟨msgs, c1⟩ := r
    simp only [hb, Except.ok.injEq] at h2
    subst h2
    obtain ⟨c, m, off, s, hc, hm, hnew, hname, hr, hcnt, hmux⟩ :=
      parseSG_ok_inv env _ _ _ _ _ hb
    obtain ⟨i1, i2, i3⟩ := parseLines_frame env fn content mid _ st3 hmid h3
    simp only at i1 i2 hmux
    have hc1 := hmux hMi
    constructor
    · exact ⟨c, by rw [i1, hc]⟩
    · omega

end DBCFile

namespace DBCFile

/-- An accepted line of a recognized kind, or any accepted line once a statement was seen, leaves
the header as it is and the flag `seen_first` set. -/
theorem parseLine_header (env : LibC) (fn content : Str) (st st1 : ParseState) (l : Line)
    (h : parseLine env fn content st l = .ok st1)
    (hs : lineKind l ≠ .other ∨ st.seen_first = true) :
    st1.header = st.header ∧ st1.seen_first = true := by
  cases hk : lineKind l with
  | BO =>
    rw [parseLine_BO env fn content st l hk] at h
    cases hb : parseBO st.msgs (lineText l) with
    | error e => simp [hb] at h
    | ok r =>
      simp only [hb, Except.ok.injEq] at h
      subst h
      exact ⟨rfl, rfl⟩
  | SG =>
    rw [parseLine_SG env fn content st l hk] at h
    cases hb : parseSG env st.msgs (lineText l) st.current_msg st.multiplexor_cnt with
    | error e => simp [hb] at h
    | ok r =>
      simp only [hb, Except.ok.injEq] at h
      subst h
      exact ⟨rfl, rfl⟩
  | VAL =>
    rw [parseLine_VAL env fn content st l hk] at h
    cases hb : parseVAL env st.msgs (lineText l) with
    | error e => simp [hb] at h
    | ok r =>
      simp only [hb, Except.ok.injEq] at h
      subst h
      exact ⟨rfl, rfl⟩
  | CM_BO =>
    rw [parseLine_CM_BO env fn content st l hk] at h
    cases hb : parseCM_BO st.msgs (lineText l) content l.raw_line l.streamPos with
    | error e => simp [hb] at h
    | ok r =>
      simp only [hb, Except.ok.injEq] at h
      subst h
      exact ⟨rfl, rfl⟩
  | CM_SG =>
    rw [parseLine_CM_SG env fn content st l hk] at h
    cases hb : parseCM_SG st.msgs (lineText l) content l.raw_line l.streamPos with
    | error e => simp [hb] at h
    | ok r =>
      simp only [hb, Except.ok.injEq] at h
      subst h
      exact ⟨rfl, rfl⟩
  | other =>
    have hseen : st.seen_first = true := by
      cases hs with
      | inl h1 => exact absurd hk h1
      | inr h2 => exact h2
    rw [parseLine_other env fn content st l hk] at h
    simp only [hseen, if_true, Except.ok.injEq] at h
    subst h
    exact ⟨rfl, hseen⟩

/-- Once a statement was seen the loop leaves the header as it is. -/
theorem parseLines_header (env : LibC) (fn content : Str) (ls : List Line) (st st1 : ParseState)
    (h : parseLines env fn content st ls = .ok st1) (hs : st.seen_first = true) :
    st1.header = st.header := by
  induction ls generalizing st with
  | nil =>
    simp only [parseLines, Except.ok.injEq] at h
    subst h
    rfl
  | cons l ls ih =>
    simp only [parseLines] at h
    cases hl : parseLine env fn content st l with
    | error e => simp [hl] at h
    | ok st2 =>
      simp only [hl] at h
      obtain ⟨h1, h2⟩ := parseLine_header env fn content st st2 l hl (Or.inr hs)
      rw [ih st2 h h2, h1]

/-- Before any statement is seen, lines of no recognized kind only extend the header. -/
theorem parseLines_headerLines (env : LibC) (fn content : Str) (ls : List Line) (st : ParseState)
    (hk : ∀ l ∈ ls, lineKind l = .other) (hs : st.seen_first = false) :
    parseLines env fn content st ls = .ok { st with header := st.header ++ joinLines ls } := by
  induction ls generalizing st with
  | nil => simp [parseLines, joinLines]
  | cons l ls ih =>
    simp only [parseLines]
    rw [parseLine_other env fn content st l (hk l (List.mem_cons_self _ _))]
    simp only [hs, Bool.false_eq_true, if_false]
    rw [ih _ (fun x hx => hk x (List.mem_cons_of_mem _ hx)) rfl]
    simp [joinLines, List.append_assoc, hs]

/-- The header left by the loop from the first line of a recognized kind on. -/
theorem parseLines_bodyLines_header (env : LibC) (fn content : Str) (ls : List Line)
    (st st1 : ParseState) (h : parseLines env fn content st (bodyLines ls) = .ok st1) :
    st1.header = st.header := by
  cases hb : bodyLines ls with
  | nil =>
    rw [hb] at h
    simp only [parseLines, Except.ok.injEq] at h
    subst h
    rfl
  | cons l rest =>
    have hk : lineKind l ≠ .other := by
      have := List.head_dropWhile_not (fun l => decide (lineKind l = .other)) ls
      unfold bodyLines at hb
      intro hc
      have h3 : ∀ w, ((List.dropWhile (fun l => decide (lineKind l = .other)) ls).head w) = l := by
        intro w
        simp [hb]
      have h4 := this (by rw [hb]; simp)
      rw [h3] at h4
      simp [hc] at h4
    rw [hb] at h
    simp only [parseLines] at h
    cases hl : parseLine env fn content st l with
    | error e => simp [hl] at h
    | ok st2 =>
      simp only [hl] at h
      obtain ⟨h1, h2⟩ := parseLine_header env fn content st st2 l hl (Or.inl hk)
      rw [parseLines_header env fn content rest st2 st1 h h2, h1]

end DBCFile

namespace DBCFile

theorem signalIn_eq (msgs : Msgs) (a : Nat) (n : Str) :
    signalIn msgs a n =
      match mapFind msgs a with
      | some m => m.sig n
      | none => none := rfl

/-- C9. A `CM_ BO_`, `CM_ SG_` or `VAL_` statement that matches its pattern (is well formed) and
whose address names no message of the map, or whose signal name names no signal of that message,
throws nothing and returns the parser state as it was: every message and every signal is
unchanged. -/
theorem missing_target_is_noop (env : LibC) (content : Str) (st : ParseState) (l : Line)
    (m : Caps)
    (h : (lineKind l = .CM_BO ∧
          msg_comment_regexp.search (commentText (lineText l) content l.raw_line l.streamPos)
            = some m ∧
          mapFind st.msgs (Qt.toUInt (captured m 1)) = none) ∨
         (lineKind l = .CM_SG ∧
          sg_comment_regexp.search (commentText (lineText l) content l.raw_line l.streamPos)
            = some m ∧
          signalIn st.msgs (Qt.toUInt (captured m 1)) (captured m 2) = none) ∨
         (lineKind l = .VAL ∧
          val_regexp.search (lineText l) = some m ∧
          signalIn st.msgs (Qt.toUInt (captured m 1)) (captured m 2) = none)) :
    statement env content st l = .ok (st, true) := by
  unfold lineKind lineText at h
  unfold statement
  rcases h with ⟨hk, hm, hn⟩ | ⟨hk, hm, hn⟩ | ⟨hk, hm, hn⟩
  · simp only [hk]
    unfold parseCM_BO
    simp only [hm, hn]
  · simp only [hk]
    unfold parseCM_SG
    simp only [hm]
    rw [signalIn_eq] at hn
    cases hf : mapFind st.msgs (Qt.toUInt (captured m 1)) with
    | none => simp only []
    | some msg =>
      rw [hf] at hn
      simp only [] at hn
      simp only [hn]
  · simp only [hk]
    unfold parseVAL
    simp only [hm]
    rw [signalIn_eq] at hn
    cases hf : mapFind st.msgs (Qt.toUInt (captured m 1)) with
    | none => simp only []
    | some msg =>
      rw [hf] at hn
      simp only [] at hn
      simp only [hn]

set_option maxRecDepth 100000 in
/-- C9, at a `VAL_` line that names the signal `OTHER` of message 100, which only has `SPEED`. -/
theorem missing_target_is_noop_witness :
    statement sampleLibC []
      { msgs := [(100, { address := 100, name := "TEST".toList, size := 8,
                         sigs := [{ name := "SPEED".toList }] })] }
      ⟨1, "VAL_ 100 OTHER 0 \"STOPPED\" 1 \"MOVING\";".toList, 40⟩ =
    .ok ({ msgs := [(100, { address := 100, name := "TEST".toList, size := 8,
                            sigs := [{ name := "SPEED".toList }] })] }, true) := by
  have hm : ∃ m, val_regexp.search
        (lineText ⟨1, "VAL_ 100 OTHER 0 \"STOPPED\" 1 \"MOVING\";".toList, 40⟩) = some m ∧
      signalIn [(100, { address := 100, name := "TEST".toList, size := 8,
                        sigs := [{ name := "SPEED".toList }] })]
        (Qt.toUInt (captured m 1)) (captured m 2) = none := ⟨_, rfl, rfl⟩
  obtain ⟨m, h1, h2⟩ := hm
  exact missing_target_is_noop sampleLibC [] _ _ m (Or.inr (Or.inr ⟨by decide!, h1, h2⟩))

end DBCFile

namespace DBCFile

set_option maxRecDepth 100000 in
/-- C1, the code at a failing input. The text `BO_ 1 A: 8 XXX` / `CM_ BO_ 1 "a\ ";` parses; the
comment stored is `a\` (the pattern takes `\ ` as an escape pair, `trimmed` drops the blank);
`generateDBC` writes it as `"a\";`, and parsing that text throws: the text produced by
`generateDBC` is not accepted by `parse`. -/
theorem roundtrip_fails_on_trailing_backslash : ∀ env : LibC,
    ∃ db, fromContent env [] "BO_ 1 A: 8 XXX\nCM_ BO_ 1 \"a\\ \";\n".toList = .ok db ∧
      (db.msg 1).map (fun m => m.comment) = some "a\\".toList ∧
      generateDBC env db = "BO_ 1 A: 8 XXX\n\nCM_ BO_ 1 \"a\\\";\n".toList ∧
      fromContent env [] (generateDBC env db) =
        .error "[:3]Invalid message comment format: CM_ BO_ 1 \"a\\\";".toList :=
  fun env => ⟨_, rfl, rfl, rfl, rfl⟩

set_option maxRecDepth 100000 in
/-- The loop reads the continuation lines of an open comment as statements, whatever the
floating-point conversions are. -/
theorem continuation_line_read (env : LibC) :
    (∃ db, fromContent env []
        "BO_ 1 A: 8 XXX\nCM_ BO_ 1 \"first\nBO_ 2 B: 8 XXX\nend\";\n".toList = .ok db ∧
      (db.msg 1).map (fun m => m.comment) = some "first\nBO_ 2 B: 8 XXX\nend".toList ∧
      (db.msg 2).map (fun m => m.name) = some "B".toList) ∧
    fromContent env [] "BO_ 1 A: 8 XXX\nCM_ BO_ 1 \"first\nSG_ second\";\n".toList =
      .error "[:3]Invalid SG_ line format: SG_ second\";".toList :=
  ⟨⟨_, rfl, rfl, rfl⟩, rfl⟩

set_option maxRecDepth 100000 in
/-- C10, the code at a failing input. For the file `can%1.dbc`, whose second line `BO_ x` is
rejected with the reason `Invalid BO_ line format`, the text thrown is not
`[can%1.dbc:2]Invalid BO_ line format: BO_ x`: each `arg` call fills the lowest-numbered place
marker of the text built so far, and the file name brought a `%1` of its own. -/
theorem error_text_with_marker_in_filename : ∀ env : LibC,
    fromFile env "can%1.dbc".toList (some "VERSION\nBO_ x".toList) =
      .error "[can2.dbc:Invalid BO_ line format]BO_ x: %4".toList :=
  fun env => rfl

end DBCFile

/-! ## The first outcome of a pattern -/

theorem head?_bind_of_head {α β : Type} (xs : List α) (f : α → List β) (x : α) (y : β)
    (hx : xs.head? = some x) (hy : (f x).head? = some y) : (xs.bind f).head? = some y := by
  cases xs with
  | nil => simp at hx
  | cons a t =>
    simp only [List.head?_cons, Option.some.injEq] at hx
    subst hx
    cases hfa : f a with
    | nil => simp [hfa] at hy
    | cons b u =>
      simp only [hfa, List.head?_cons, Option.some.injEq] at hy
      subst hy
      simp [List.bind, List.flatMap, hfa]

namespace Re

theorem First.lit (c : Char) (s : Str) (caps : Caps) : First (.lit c) (c :: s) caps s caps := by
  intro b
  simp [run]

theorem First.cls (p : Char → Bool) (c : Char) (s : Str) (caps : Caps) (h : p c = true) :
    First (.cls p) (c :: s) caps s caps := by
  intro b
  simp [run, h]

theorem First.eps (s : Str) (caps : Caps) : First .eps s caps s caps := by
  intro b
  simp [run]

theorem First.seq {a b : Re} {s s1 s2 : Str} {c c1 c2 : Caps}
    (ha : First a s c s1 c1) (hb : First b s1 c1 s2 c2) : First (.seq a b) s c s2 c2 := by
  intro st
  simp only [run]
  exact head?_bind_of_head _ _ (s1, c1) (s2, c2) (ha st) (hb _)

theorem First.lits (w s : Str) (caps : Caps) : First (lits w) (w ++ s) caps s caps := by
  induction w with
  | nil => exact First.eps s caps
  | cons c t ih => exact First.seq (First.lit c (t ++ s) caps) ih

theorem First.alt_left {a b : Re} {s s1 : Str} {c c1 : Caps}
    (ha : First a s c s1 c1) : First (.alt a b) s c s1 c1 := by
  intro st
  simp only [run]
  have := ha st
  cases hr : run a st s c with
  | nil => simp [hr] at this
  | cons x t =>
    simp only [hr, List.head?_cons, Option.some.injEq] at this
    simp [this]

theorem First.alt_right {a b : Re} {s s1 : Str} {c c1 : Caps}
    (ha : ∀ st, run a st s c = []) (hb : First b s c s1 c1) : First (.alt a b) s c s1 c1 := by
  intro st
  simp only [run, ha st, List.nil_append]
  exact hb st

theorem First.group {a : Re} {x s1 : Str} {c c1 : Caps} (n : Nat)
    (ha : First a (x ++ s1) c s1 c1) : First (.group n a) (x ++ s1) c s1 ((n, x) :: c1) := by
  intro st
  simp only [run]
  have := ha st
  cases hr : run a st (x ++ s1) c with
  | nil => simp [hr] at this
  | cons y t =>
    simp only [hr, List.head?_cons, Option.some.injEq] at this
    subst this
    simp

/-- Greedy repetition along a list of items: when the body takes each item in turn as its first
outcome and has no outcome on what follows, the repetition first reaches what follows. -/
theorem starRun_first (f : Str → Caps → Outcomes) (caps : Caps) (rest : Str)
    (items : List Str)
    (hitem : ∀ i ∈ items, i ≠ [] ∧ ∀ t, (f (i ++ t) caps).head? = some (t, caps))
    (hrest : f rest caps = []) (fuel : Nat) (hfuel : (items.flatten ++ rest).length ≤ fuel) :
    (starRun f fuel (items.flatten ++ rest) caps).head? = some (rest, caps) := by
  induction items generalizing fuel with
  | nil =>
    cases fuel with
    | zero => simp [starRun]
    | succ k => simp [starRun, hrest]
  | cons i is ih =>
    obtain ⟨hne, hi⟩ := hitem i (List.mem_cons_self _ _)
    have hlen : 0 < i.length := List.length_pos.mpr hne
    have hflat : (i :: is).flatten ++ rest = i ++ (is.flatten ++ rest) := by
      rw [List.flatten_cons, List.append_assoc]
    rw [hflat] at hfuel ⊢
    generalize htl : is.flatten ++ rest = tl at hfuel ih ⊢
    have hfl : (i ++ tl).length = i.length + tl.length := List.length_append _ _
    cases fuel with
    | zero => omega
    | succ k =>
      have hk : tl.length ≤ k := by omega
      have hrec := ih (fun j hj => hitem j (List.mem_cons_of_mem _ hj)) k hk
      have hlt : tl.length < (i ++ tl).length := by omega
      have hb : ((f (i ++ tl) caps).bind (fun r =>
          if r.1.length < (i ++ tl).length then starRun f k r.1 r.2 else [])).head?
          = some (rest, caps) := by
        apply head?_bind_of_head _ _ (tl, caps) _ (hi tl)
        rw [if_pos hlt]
        exact hrec
      unfold starRun
      cases hbl : ((f (i ++ tl) caps).bind (fun r =>
          if r.1.length < (i ++ tl).length then starRun f k r.1 r.2 else [])) with
      | nil => rw [hbl] at hb; simp at hb
      | cons y t =>
        rw [hbl] at hb
        simp only [List.head?_cons, Option.some.injEq] at hb
        rw [hb]
        rfl

theorem First.star {a : Re} (caps : Caps) (rest : Str) (items : List Str)
    (hitem : ∀ i ∈ items, i ≠ [] ∧ ∀ t, (run a false (i ++ t) caps).head? = some (t, caps))
    (hrest : run a false rest caps = []) :
    First (.star a) (items.flatten ++ rest) caps rest caps := by
  intro st
  simp only [run]
  exact starRun_first _ caps rest items hitem hrest _ (le_refl _)

/-- Pattern `p*` on a run of characters of the class, up to a character outside it or the end. -/
theorem First.star_cls (p : Char → Bool) (caps : Caps) (w rest : Str)
    (hw : ∀ c ∈ w, p c = true) (hrest : rest.head?.all (fun c => !p c) = true) :
    First (.star (.cls p)) (w ++ rest) caps rest caps := by
  have hj : ∀ v : Str, v = (v.map (fun c => [c])).flatten := by
    intro v
    induction v with
    | nil => rfl
    | cons c t ih =>
      rw [List.map_cons, List.flatten_cons, ← ih]
      rfl
  rw [hj w]
  apply First.star
  · intro i hi
    simp only [List.mem_map] at hi
    obtain ⟨c, hc, rfl⟩ := hi
    refine ⟨by simp, ?_⟩
    intro t
    simp [run, hw c hc]
  · cases rest with
    | nil => simp [run]
    | cons c t =>
      simp only [List.head?_cons, Option.all_some, Bool.not_eq_true'] at hrest
      simp [run, hrest]

/-- Pattern `p+` on a non-empty run of characters of the class. -/
theorem First.plus_cls (p : Char → Bool) (caps : Caps) (w rest : Str)
    (hne : w ≠ []) (hw : ∀ c ∈ w, p c = true) (hrest : rest.head?.all (fun c => !p c) = true) :
    First (plus (.cls p)) (w ++ rest) caps rest caps := by
  cases w with
  | nil => exact absurd rfl hne
  | cons c t =>
    unfold plus
    exact First.seq (First.cls p c (t ++ rest) caps (hw c (List.mem_cons_self _ _)))
      (First.star_cls p caps t rest (fun x hx => hw x (List.mem_cons_of_mem _ hx)) hrest)

/-- A match that is the first outcome at the head of the subject is the match found. -/
theorem search_of_first (r : Re) (s s1 : Str) (caps1 : Caps)
    (h : (run r true s []).head? = some (s1, caps1)) : search r s = some caps1 := by
  unfold search
  cases s with
  | nil => simp [searchFrom, matchHere, h]
  | cons c t => simp [searchFrom, matchHere, h]

end Re

namespace Re

/-- Pattern `c*` on a run of `c`, up to another character or the end. -/
theorem First.star_lit (c : Char) (caps : Caps) (k : Nat) (rest : Str)
    (hrest : rest.head? ≠ some c) :
    First (.star (.lit c)) (List.replicate k c ++ rest) caps rest caps := by
  have hj : List.replicate k c = (List.replicate k [c]).flatten := by
    induction k with
    | zero => rfl
    | succ n ih =>
      rw [List.replicate_succ, List.replicate_succ, List.flatten_cons, ← ih]
      rfl
  rw [hj]
  apply First.star
  · intro i hi
    have := List.eq_of_mem_replicate hi
    subst this
    refine ⟨by simp, ?_⟩
    intro t
    simp [run]
  · cases rest with
    | nil => simp [run]
    | cons d t =>
      simp only [List.head?_cons, ne_eq, Option.some.injEq] at hrest
      simp [run, hrest]

/-- A pattern after `^` at the start of the subject. -/
theorem first_after_bos {r : Re} {s s1 : Str} {caps caps1 : Caps}
    (h : First r s caps s1 caps1) :
    (run (.seq .bos r) true s caps).head? = some (s1, caps1) := by
  simp only [run]
  simp
  exact h _

end Re

/-- The text `generateDBC` writes for a comment, as the list of the items the comment pattern
takes one at a time. -/
theorem escapeComment_eq_flatten (c : Str) :
    DBCFile.escapeComment c =
      (c.map (fun x => if x = '"' then ['\\', '"'] else [x])).flatten := by
  induction c with
  | nil => rfl
  | cons x t ih =>
    rw [List.map_cons, List.flatten_cons, ← ih]
    by_cases hq : x = '"'
    · simp [DBCFile.escapeComment, hq]
    · simp [DBCFile.escapeComment, hq]

/-- The comment pattern `(?:[^"\\]|\\.)*` takes the whole escaped text of a comment without
backslash, up to the closing quote. -/
theorem commentBody_first (c r : Str) (caps : Caps) (hc : ∀ x ∈ c, x ≠ '\\') :
    Re.First commentBody (DBCFile.escapeComment c ++ '"' :: r) caps ('"' :: r) caps := by
  rw [escapeComment_eq_flatten]
  unfold commentBody
  apply Re.First.star
  · intro i hi
    simp only [List.mem_map] at hi
    obtain ⟨x, hx, rfl⟩ := hi
    by_cases hq : x = '"'
    · subst hq
      refine ⟨by simp, ?_⟩
      intro t
      simp [Re.run, isPlainCommentChar, isDot]
    · have hb := hc x hx
      refine ⟨by simp [hq], ?_⟩
      intro t
      simp [Re.run, isPlainCommentChar, hq, hb]
  · simp [Re.run, isPlainCommentChar]

/-- What `msg_comment_regexp` finds in a `CM_ BO_` statement with one blank after the keyword
and after the address, whatever follows the statement. -/
theorem msg_comment_search (D c tail : Str) (hD : D ≠ []) (hDw : ∀ x ∈ D, isWordChar x = true)
    (hc : ∀ x ∈ c, x ≠ '\\') :
    msg_comment_regexp.search
      ("CM_ BO_".toList ++ (List.replicate 1 ' ' ++ (D ++ (List.replicate 1 ' ' ++
        ('"' :: (DBCFile.escapeComment c ++ '"' :: ([] ++ ';' :: tail)))))))
      = some [(2, DBCFile.escapeComment c), (1, D)] := by
  apply Re.search_of_first _ _ tail _
  unfold msg_comment_regexp
  simp only [Re.seqs]
  apply Re.first_after_bos
  refine Re.First.seq (Re.First.lits _ _ _) ?_
  refine Re.First.seq (Re.First.star_lit ' ' _ 1 _ ?_) ?_
  · cases D with
    | nil => exact absurd rfl hD
    | cons d t =>
      have hd := hDw d (List.mem_cons_self _ _)
      simp only [List.cons_append, List.head?_cons, ne_eq, Option.some.injEq]
      intro h
      subst h
      simp [isWordChar] at hd
  refine Re.First.seq (Re.First.group 1 (Re.First.plus_cls isWordChar _ D _ hD hDw ?_)) ?_
  · simp [isWordChar]
  refine Re.First.seq (Re.First.star_lit ' ' _ 1 _ ?_) ?_
  · simp
  refine Re.First.seq (Re.First.lit '"' _ _) ?_
  refine Re.First.seq (Re.First.group 2 (commentBody_first c _ _ hc)) ?_
  refine Re.First.seq (Re.First.lit '"' _ _) ?_
  refine Re.First.seq (Re.First.star_cls isReSpace _ [] _ ?_ ?_) ?_
  · intro x hx
    simp at hx
  · simp [isReSpace]
  exact Re.First.lit ';' _ _

/-! ## Facts about the Qt string functions -/

namespace Qt

/-- A text is its own `trimmed` exactly when it neither begins nor ends with white space. -/
theorem trimmed_eq_self_iff (s : Str) :
    trimmed s = s ↔
      (∀ x, s.head? = some x → isSpace x = false) ∧
      (∀ x, s.getLast? = some x → isSpace x = false) := by
  have hr : ∀ l : Str, (l.reverse.dropWhile isSpace).reverse = l.rdropWhile isSpace := fun l => rfl
  constructor
  · intro h
    unfold trimmed at h
    rw [hr] at h
    have h1 : (s.dropWhile isSpace).length ≤ s.length :=
      (List.dropWhile_suffix isSpace).length_le
    have h2 : ((s.dropWhile isSpace).rdropWhile isSpace).length ≤ (s.dropWhile isSpace).length := by
      unfold List.rdropWhile
      rw [List.length_reverse]
      exact ((List.dropWhile_suffix isSpace).length_le).trans (by rw [List.length_reverse])
    have h3 : (s.dropWhile isSpace).length = s.length := by
      rw [h] at h2
      omega
    have h4 : s.dropWhile isSpace = s :=
      (List.dropWhile_suffix isSpace).eq_of_length h3
    rw [h4] at h
    constructor
    · intro x hx
      cases s with
      | nil => simp at hx
      | cons a t =>
        simp only [List.head?_cons, Option.some.injEq] at hx
        subst hx
        have := (List.dropWhile_eq_self_iff).mp h4 (by simp)
        simpa using this
    · intro x hx
      have hne : s ≠ [] := by
        intro e
        subst e
        simp at hx
      have := (List.rdropWhile_eq_self_iff).mp h hne
      rw [List.getLast?_eq_getLast _ hne] at hx
      simp only [Option.some.injEq] at hx
      rw [hx] at this
      simpa using this
  · rintro ⟨hh, hl⟩
    unfold trimmed
    have h4 : s.dropWhile isSpace = s := by
      rw [List.dropWhile_eq_self_iff]
      intro hpos
      cases s with
      | nil => simp at hpos
      | cons a t =>
        have := hh a rfl
        simp [this]
    rw [h4, hr, List.rdropWhile_eq_self_iff]
    intro hne
    have := hl (s.getLast hne) (List.getLast?_eq_getLast _ hne)
    simp [this]

theorem digitValue_ofNat (d : Nat) (hd : d < 10) : digitValue (Char.ofNat (48 + d)) = some d := by
  interval_cases d <;> rfl

theorem decimalAux_value (fuel n : Nat) (acc : Str) (h : n < fuel) :
    digitsValue (decimalAux fuel n acc) 0 = digitsValue acc n := by
  induction fuel generalizing n acc with
  | zero => omega
  | succ f ih =>
    unfold decimalAux
    by_cases h10 : n < 10
    · simp only [h10, if_true]
      simp only [digitsValue, digitValue_ofNat n h10, Nat.zero_mul, Nat.zero_add]
    · simp only [h10, if_false]
      rw [ih (n / 10) _ (by omega)]
      have : n / 10 * 10 + n % 10 = n := by omega
      simp only [digitsValue, digitValue_ofNat (n % 10) (Nat.mod_lt _ (by decide)), this]

/-- The characters written are decimal digits. -/
theorem decimalAux_digits (fuel n : Nat) (acc : Str) (x : Char)
    (hx : x ∈ decimalAux fuel n acc) : x ∈ acc ∨ ∃ d, d < 10 ∧ x = Char.ofNat (48 + d) := by
  induction fuel generalizing n acc with
  | zero => exact Or.inl hx
  | succ f ih =>
    unfold decimalAux at hx
    by_cases h10 : n < 10
    · simp only [h10, if_true, List.mem_cons] at hx
      rcases hx with h | h
      · exact Or.inr ⟨n, h10, h⟩
      · exact Or.inl h
    · simp only [h10, if_false] at hx
      rcases ih _ _ hx with h | h
      · simp only [List.mem_cons] at h
        rcases h with h | h
        · exact Or.inr ⟨n % 10, Nat.mod_lt _ (by decide), h⟩
        · exact Or.inl h
      · exact Or.inr h

theorem decimalAux_ne_nil (fuel n : Nat) (acc : Str) (h : 0 < fuel) :
    decimalAux fuel n acc ≠ [] := by
  induction fuel generalizing n acc with
  | zero => omega
  | succ f ih =>
    unfold decimalAux
    by_cases h10 : n < 10
    · simp [h10]
    · simp only [h10, if_false]
      cases f with
      | zero => simp [decimalAux]
      | succ g => exact ih _ _ (by omega)

theorem decimal_ne_nil (n : Nat) : decimal n ≠ [] := decimalAux_ne_nil _ _ _ (by omega)

theorem decimal_digit (n : Nat) (x : Char) (hx : x ∈ decimal n) :
    ∃ d, d < 10 ∧ x = Char.ofNat (48 + d) := by
  rcases decimalAux_digits _ _ _ x hx with h | h
  · simp at h
  · exact h

theorem decimal_value (n : Nat) : digitsValue (decimal n) 0 = some n := by
  unfold decimal
  rw [decimalAux_value _ _ _ (by omega)]
  rfl

theorem digit_facts (d : Nat) (hd : d < 10) :
    isWordChar (Char.ofNat (48 + d)) = true ∧ isSpace (Char.ofNat (48 + d)) = false ∧
    Char.ofNat (48 + d) ≠ '+' ∧ Char.ofNat (48 + d) ≠ '%' ∧ Char.ofNat (48 + d) ≠ ' ' := by
  interval_cases d <;> decide

theorem decimal_word (n : Nat) : ∀ x ∈ decimal n, isWordChar x = true := by
  intro x hx
  obtain ⟨d, hd, rfl⟩ := decimal_digit n x hx
  exact (digit_facts d hd).1

/-- Reading back the decimal text of a 32-bit address gives the address. -/
theorem toUInt_decimal (n : Nat) (h : n < 2 ^ 32) : toUInt (decimal n) = n := by
  have htrim : trimmed (decimal n) = decimal n := by
    rw [trimmed_eq_self_iff]
    constructor
    · intro x hx
      obtain ⟨d, hd, rfl⟩ := decimal_digit n x (List.mem_of_mem_head? hx)
      exact (digit_facts d hd).2.1
    · intro x hx
      obtain ⟨d, hd, rfl⟩ := decimal_digit n x (List.mem_of_mem_getLast? hx)
      exact (digit_facts d hd).2.1
  unfold toUInt unsignedValue
  rw [htrim]
  cases hdec : decimal n with
  | nil => exact absurd hdec (decimal_ne_nil n)
  | cons c t =>
    have hc : c ≠ '+' := by
      obtain ⟨d, hd, he⟩ := decimal_digit n c (by rw [hdec]; exact List.mem_cons_self _ _)
      rw [he]
      exact (digit_facts d hd).2.2.1
    simp only [hc, if_false]
    rw [← hdec, decimal_value]
    simp only [h, if_true]

/-- Undoing the escape of the quotes: `replace("\\\"", "\"")` after `escapeComment`, on a
comment without backslash. -/
theorem replace_escapeComment (c : Str) (hc : ∀ x ∈ c, x ≠ '\\') :
    replace (DBCFile.escapeComment c) "\\\"".toList "\"".toList = c := by
  have e1 : "\\\"".toList = ['\\', '"'] := rfl
  have e2 : "\"".toList = ['"'] := rfl
  rw [e1, e2]
  unfold replace
  induction c with
  | nil => rfl
  | cons x t ih =>
    have iht := ih (fun y hy => hc y (List.mem_cons_of_mem _ hy))
    have hx := hc x (List.mem_cons_self _ _)
    have hx' : ¬ '\\' = x := fun e => hx e.symm
    by_cases hq : x = '"'
    · subst hq
      simp [DBCFile.escapeComment, replaceAux, List.isPrefixOf, iht]
    · simp [DBCFile.escapeComment, hq, replaceAux, List.isPrefixOf, hx', iht]

end Qt

namespace DBCFile

theorem escapeComment_getLast? (c : Str) : (escapeComment c).getLast? = c.getLast? := by
  induction c with
  | nil => rfl
  | cons x t ih =>
    cases t with
    | nil =>
      by_cases hq : x = '"'
      · subst hq
        rfl
      · simp [escapeComment, hq]
    | cons y u =>
      have hne : escapeComment (y :: u) ≠ [] := by
        by_cases hy : y = '"'
        · simp [escapeComment, hy]
        · simp [escapeComment, hy]
      have hsplit : escapeComment (x :: y :: u) =
          (if x = '"' then ['\\', '"'] else [x]) ++ escapeComment (y :: u) := by
        by_cases hq : x = '"'
        · simp [escapeComment, hq]
        · simp [escapeComment, hq]
      rw [hsplit, List.getLast?_append_of_ne_nil _ hne, ih, List.getLast?_cons_cons]

theorem escapeComment_mem (c : Str) (x : Char) (hx : x ∈ escapeComment c) :
    x ∈ c ∨ x = '\\' := by
  induction c with
  | nil => simp [escapeComment] at hx
  | cons y t ih =>
    by_cases hq : y = '"'
    · subst hq
      simp only [escapeComment, if_true, List.mem_cons] at hx
      rcases hx with h | h | h
      · exact Or.inr h
      · exact Or.inl (by simp [h])
      · rcases ih h with h1 | h1
        · exact Or.inl (List.mem_cons_of_mem _ h1)
        · exact Or.inr h1
    · simp only [escapeComment, hq, if_false, List.mem_cons] at hx
      rcases hx with h | h
      · exact Or.inl (by simp [h])
      · rcases ih h with h1 | h1
        · exact Or.inl (List.mem_cons_of_mem _ h1)
        · exact Or.inr h1

/-- The escaped text of a comment without white space at its ends has none either. -/
theorem escapeComment_trimmed (c : Str) (h : Qt.trimmed c = c) :
    Qt.trimmed (escapeComment c) = escapeComment c := by
  rw [Qt.trimmed_eq_self_iff] at h ⊢
  obtain ⟨hh, hl⟩ := h
  constructor
  · intro x hx
    cases c with
    | nil => simp [escapeComment] at hx
    | cons y t =>
      by_cases hq : y = '"'
      · subst hq
        simp only [escapeComment, if_true, List.head?_cons, Option.some.injEq] at hx
        subst hx
        decide
      · simp only [escapeComment, hq, if_false, List.head?_cons, Option.some.injEq] at hx
        subst hx
        exact hh y rfl
  · intro x hx
    rw [escapeComment_getLast?] at hx
    exact hl x hx

end DBCFile

namespace Qt

/-- A text without newline, followed by a newline, is read as one line; its terminator takes one
character when the text does not end with a carriage return. -/
theorem scanLines_single (s acc : Str) (hs : ∀ x ∈ s, x ≠ '\n')
    (hl : (acc.reverse ++ s).getLast? ≠ some '\r') :
    scanLines (s ++ ['\n']) acc = [(acc.reverse ++ s, 1)] := by
  induction s generalizing acc with
  | nil =>
    simp only [List.nil_append, List.append_nil] at hl ⊢
    cases acc with
    | nil => simp [scanLines]
    | cons a t =>
      have ha : a ≠ '\r' := by
        intro e
        apply hl
        subst e
        simp
      simp [scanLines, ha]
  | cons x t ih =>
    have hx : x ≠ '\n' := hs x (List.mem_cons_self _ _)
    have hrec := ih (x :: acc) (fun y hy => hs y (List.mem_cons_of_mem _ hy))
      (by simpa using hl)
    have hstep : scanLines (x :: t ++ ['\n']) acc = scanLines (t ++ ['\n']) (x :: acc) := by
      show scanLines (x :: (t ++ ['\n'])) acc = _
      simp only [scanLines, hx, if_false]
    rw [hstep, hrec]
    simp

end Qt

/-- What `sg_comment_regexp` finds in a `CM_ SG_` statement with one blank after the keyword,
the address and the signal name, whatever follows the statement. -/
theorem sg_comment_search (D N c tail : Str) (hD : D ≠ []) (hDw : ∀ x ∈ D, isWordChar x = true)
    (hN : N ≠ []) (hNw : ∀ x ∈ N, isWordChar x = true) (hc : ∀ x ∈ c, x ≠ '\\') :
    sg_comment_regexp.search
      ("CM_ SG_".toList ++ (List.replicate 1 ' ' ++ (D ++ (List.replicate 1 ' ' ++
        (N ++ (List.replicate 1 ' ' ++
          ('"' :: (DBCFile.escapeComment c ++ '"' :: ([] ++ ';' :: tail)))))))))
      = some [(3, DBCFile.escapeComment c), (2, N), (1, D)] := by
  apply Re.search_of_first _ _ tail _
  unfold sg_comment_regexp
  simp only [Re.seqs]
  apply Re.first_after_bos
  have hhead : ∀ (W r : Str), W ≠ [] → (∀ x ∈ W, isWordChar x = true) →
      (W ++ r).head? ≠ some ' ' := by
    intro W r hW hWw
    cases W with
    | nil => exact absurd rfl hW
    | cons d t =>
      have hd := hWw d (List.mem_cons_self _ _)
      simp only [List.cons_append, List.head?_cons, ne_eq, Option.some.injEq]
      intro h
      subst h
      simp [isWordChar] at hd
  refine Re.First.seq (Re.First.lits _ _ _) ?_
  refine Re.First.seq (Re.First.star_lit ' ' _ 1 _ (hhead D _ hD hDw)) ?_
  refine Re.First.seq (Re.First.group 1 (Re.First.plus_cls isWordChar _ D _ hD hDw ?_)) ?_
  · simp [isWordChar]
  refine Re.First.seq (Re.First.star_lit ' ' _ 1 _ (hhead N _ hN hNw)) ?_
  refine Re.First.seq (Re.First.group 2 (Re.First.plus_cls isWordChar _ N _ hN hNw ?_)) ?_
  · simp [isWordChar]
  refine Re.First.seq (Re.First.star_lit ' ' _ 1 _ ?_) ?_
  · simp
  refine Re.First.seq (Re.First.lit '"' _ _) ?_
  refine Re.First.seq (Re.First.group 3 (commentBody_first c _ _ hc)) ?_
  refine Re.First.seq (Re.First.lit '"' _ _) ?_
  refine Re.First.seq (Re.First.star_cls isReSpace _ [] _ ?_ ?_) ?_
  · intro x hx
    simp at hx
  · simp [isReSpace]
  exact Re.First.lit ';' _ _

namespace DBCFile

/-- A text from `C` to `;` is its own `trimmed`, and ends with `";` when a quote is in front of
the semicolon. -/
theorem statement_text_facts (X : Str) :
    Qt.trimmed ('C' :: (X ++ "\";".toList)) = 'C' :: (X ++ "\";".toList) ∧
    Qt.endsWith ('C' :: (X ++ "\";".toList)) "\";".toList = true := by
  constructor
  · rw [Qt.trimmed_eq_self_iff]
    constructor
    · intro x hx
      simp only [List.head?_cons, Option.some.injEq] at hx
      subst hx
      decide
    · intro x hx
      have e : 'C' :: (X ++ "\";".toList) = ('C' :: X ++ ['"']) ++ [';'] := by
        simp [String.toList]
      rw [e, List.getLast?_concat] at hx
      simp only [Option.some.injEq] at hx
      subst hx
      decide
  · have e : ('C' :: (X ++ "\";".toList)).reverse = ';' :: '"' :: ('C' :: X).reverse := by
      simp [String.toList]
    unfold Qt.endsWith
    rw [e]
    simp [String.toList, List.isPrefixOf]

end DBCFile

namespace DBCFile

/-- The `CM_ BO_` statement as `parseCM_BO` reads it from a line of its own. -/
theorem parseCM_BO_written (msgs : Msgs) (content : Str) (pos a : Nat) (c : Str)
    (ha : a < 2 ^ 32) (htrim : Qt.trimmed c = c) (hbs : ∀ x ∈ c, x ≠ '\\') :
    parseCM_BO msgs
      ('C' :: ("M_ BO_ ".toList ++ Qt.decimal a ++ " \"".toList ++ escapeComment c ++ "\";".toList))
      content
      ('C' :: ("M_ BO_ ".toList ++ Qt.decimal a ++ " \"".toList ++ escapeComment c ++ "\";".toList))
      pos = .ok (setMsgComment msgs a c) := by
  have hfacts := statement_text_facts ("M_ BO_ ".toList ++ Qt.decimal a ++ " \"".toList ++ escapeComment c)
  have hform : 'C' :: ("M_ BO_ ".toList ++ Qt.decimal a ++ " \"".toList ++ escapeComment c ++ "\";".toList) =
      "CM_ BO_".toList ++ (List.replicate 1 ' ' ++ (Qt.decimal a ++ (List.replicate 1 ' ' ++
        ('"' :: (escapeComment c ++ '"' :: ([] ++ ';' :: [])))))) := by
    simp [String.toList, List.append_assoc]
  unfold parseCM_BO commentText
  simp only [List.append_assoc] at hfacts ⊢
  rw [hfacts.2]
  simp only [if_true]
  simp only [List.append_assoc] at hform
  rw [hform, msg_comment_search (Qt.decimal a) c [] (Qt.decimal_ne_nil a) (Qt.decimal_word a) hbs]
  simp only [captured, List.lookup, Option.getD_some]
  have e1 : ((1 : Nat) == 2) = false := rfl
  have e2 : ((1 : Nat) == 1) = true := rfl
  have e3 : ((2 : Nat) == 2) = true := rfl
  simp only [e1, e2, e3, Option.getD_some]
  rw [Qt.toUInt_decimal a ha, escapeComment_trimmed c htrim, Qt.replace_escapeComment c hbs]
  unfold setMsgComment
  cases mapFind msgs a <;> rfl

end DBCFile

namespace DBCFile

/-- The `CM_ SG_` statement as `parseCM_SG` reads it from a line of its own. -/
theorem parseCM_SG_written (msgs : Msgs) (content : Str) (pos a : Nat) (n c : Str)
    (ha : a < 2 ^ 32) (htrim : Qt.trimmed c = c) (hbs : ∀ x ∈ c, x ≠ '\\')
    (hn : n ≠ []) (hnw : ∀ x ∈ n, isWordChar x = true) :
    parseCM_SG msgs
      ('C' :: ("M_ SG_ ".toList ++ Qt.decimal a ++ " ".toList ++ n ++ " \"".toList ++
        escapeComment c ++ "\";".toList))
      content
      ('C' :: ("M_ SG_ ".toList ++ Qt.decimal a ++ " ".toList ++ n ++ " \"".toList ++
        escapeComment c ++ "\";".toList))
      pos = .ok (setSigComment msgs a n c) := by
  have hfacts := statement_text_facts
    ("M_ SG_ ".toList ++ Qt.decimal a ++ " ".toList ++ n ++ " \"".toList ++ escapeComment c)
  have hform : 'C' :: ("M_ SG_ ".toList ++ Qt.decimal a ++ " ".toList ++ n ++ " \"".toList ++
        escapeComment c ++ "\";".toList) =
      "CM_ SG_".toList ++ (List.replicate 1 ' ' ++ (Qt.decimal a ++ (List.replicate 1 ' ' ++
        (n ++ (List.replicate 1 ' ' ++
          ('"' :: (escapeComment c ++ '"' :: ([] ++ ';' :: [])))))))) := by
    simp [String.toList, List.append_assoc]
  unfold parseCM_SG commentText
  simp only [List.append_assoc] at hfacts ⊢
  rw [hfacts.2]
  simp only [if_true]
  simp only [List.append_assoc] at hform
  rw [hform, sg_comment_search (Qt.decimal a) n c [] (Qt.decimal_ne_nil a) (Qt.decimal_word a)
    hn hnw hbs]
  simp only [captured, List.lookup, Option.getD_some]
  have e1 : ((1 : Nat) == 3) = false := rfl
  have e2 : ((1 : Nat) == 2) = false := rfl
  have e3 : ((1 : Nat) == 1) = true := rfl
  have e4 : ((2 : Nat) == 3) = false := rfl
  have e5 : ((2 : Nat) == 2) = true := rfl
  have e6 : ((3 : Nat) == 3) = true := rfl
  simp only [e1, e2, e3, e4, e5, e6, Option.getD_some]
  rw [Qt.toUInt_decimal a ha, escapeComment_trimmed c htrim, Qt.replace_escapeComment c hbs]
  unfold setSigComment
  cases mapFind msgs a with
  | none => rfl
  | some m =>
    simp only []
    cases m.sig n <;> rfl

/-- The characters of a written statement are not newlines when those of its parts are not. -/
theorem no_newline_of_parts (parts : List Str) (h : ∀ p ∈ parts, ∀ x ∈ p, x ≠ '\n') :
    ∀ x ∈ parts.flatten, x ≠ '\n' := by
  intro x hx
  rw [List.mem_flatten] at hx
  obtain ⟨p, hp, hxp⟩ := hx
  exact h p hp x hxp

theorem decimal_no_newline (n : Nat) : ∀ x ∈ Qt.decimal n, x ≠ '\n' := by
  intro x hx
  obtain ⟨d, hd, rfl⟩ := Qt.decimal_digit n x hx
  interval_cases d <;> decide

theorem escapeComment_no_newline (c : Str) (h : ∀ x ∈ c, x ≠ '\n') :
    ∀ x ∈ escapeComment c, x ≠ '\n' := by
  intro x hx
  rcases escapeComment_mem c x hx with h1 | h1
  · exact h x h1
  · rw [h1]
    decide

theorem word_no_newline (n : Str) (h : ∀ x ∈ n, isWordChar x = true) : ∀ x ∈ n, x ≠ '\n' := by
  intro x hx e
  have := h x hx
  rw [e] at this
  simp [isWordChar] at this

end DBCFile

namespace DBCFile

theorem kindOf_CM_BO (X : Str) : kindOf ('C' :: 'M' :: '_' :: ' ' :: 'B' :: 'O' :: '_' :: X) = .CM_BO := by
  simp [kindOf, Qt.startsWith, String.toList, List.isPrefixOf]

theorem kindOf_CM_SG (X : Str) :
    kindOf ('C' :: 'M' :: '_' :: ' ' :: 'S' :: 'G' :: '_' :: ' ' :: X) = .CM_SG := by
  simp [kindOf, Qt.startsWith, String.toList, List.isPrefixOf]

/-- C6, amended. For a comment `c` without white space at its ends, without backslash and
without newline, the `CM_ BO_` text that `generateDBC` writes for `c` on the message at address
`a` is one raw line and a newline; `readLine` yields that line, and the statement read from it
sets the comment of the message at `a` to exactly `c`. The same holds for the `CM_ SG_` text
written for the signal `n` of the message at `a`, when `n` is made of word characters. -/
theorem written_comment_read_back (env : LibC) (content : Str) (st : ParseState)
    (a : Nat) (n c : Str) (num pos : Nat)
    (ha : a < 2 ^ 32) (htrim : Qt.trimmed c = c) (hbs : ∀ x ∈ c, x ≠ '\\')
    (hnl : ∀ x ∈ c, x ≠ '\n') (hn : n ≠ []) (hnw : ∀ x ∈ n, isWordChar x = true) :
    (∃ raw, cmBoText a c = raw ++ "\n".toList ∧
      Qt.scanLines (cmBoText a c) [] = [(raw, 1)] ∧
      statement env content st ⟨num, raw, pos⟩ =
        .ok ({ st with msgs := setMsgComment st.msgs a c }, true)) ∧
    (∃ raw, cmSgText a n c = raw ++ "\n".toList ∧
      Qt.scanLines (cmSgText a n c) [] = [(raw, 1)] ∧
      statement env content st ⟨num, raw, pos⟩ =
        .ok ({ st with msgs := setSigComment st.msgs a n c }, true)) := by
  constructor
  · have hfacts := statement_text_facts
      ("M_ BO_ ".toList ++ Qt.decimal a ++ " \"".toList ++ escapeComment c)
    have htext : cmBoText a c =
        ('C' :: ("M_ BO_ ".toList ++ Qt.decimal a ++ " \"".toList ++ escapeComment c ++
          "\";".toList)) ++ "\n".toList := by
      simp [cmBoText, String.toList, List.append_assoc]
    refine ⟨_, htext, ?_, ?_⟩
    · rw [htext]
      have hnn : ∀ x ∈ ('C' :: ("M_ BO_ ".toList ++ Qt.decimal a ++ " \"".toList ++
          escapeComment c ++ "\";".toList)), x ≠ '\n' := by
        intro x hx
        simp only [List.mem_cons, List.mem_append] at hx
        rcases hx with h | (((h | h) | h) | h) | h
        · rw [h]; decide
        · revert x; decide
        · exact decimal_no_newline a x h
        · revert x; decide
        · exact escapeComment_no_newline c hnl x h
        · revert x; decide
      have := Qt.scanLines_single _ [] hnn (by
        have e : ([] : Str).reverse ++ 'C' :: ("M_ BO_ ".toList ++ Qt.decimal a ++
            " \"".toList ++ escapeComment c ++ "\";".toList) =
            ('C' :: ("M_ BO_ ".toList ++ Qt.decimal a ++ " \"".toList ++ escapeComment c ++
              ['"'])) ++ [';'] := by
          simp [String.toList, List.append_assoc]
        rw [e, List.getLast?_concat]
        decide)
      simpa using this
    · unfold statement
      simp only []
      rw [hfacts.1]
      have hk : kindOf ('C' :: ("M_ BO_ ".toList ++ Qt.decimal a ++ " \"".toList ++
          escapeComment c ++ "\";".toList)) = .CM_BO := kindOf_CM_BO _
      rw [hk]
      simp only []
      rw [parseCM_BO_written st.msgs content pos a c ha htrim hbs]
  · have hfacts := statement_text_facts
      ("M_ SG_ ".toList ++ Qt.decimal a ++ " ".toList ++ n ++ " \"".toList ++ escapeComment c)
    have htext : cmSgText a n c =
        ('C' :: ("M_ SG_ ".toList ++ Qt.decimal a ++ " ".toList ++ n ++ " \"".toList ++
          escapeComment c ++ "\";".toList)) ++ "\n".toList := by
      simp [cmSgText, String.toList, List.append_assoc]
    refine ⟨_, htext, ?_, ?_⟩
    · rw [htext]
      have hnn : ∀ x ∈ ('C' :: ("M_ SG_ ".toList ++ Qt.decimal a ++ " ".toList ++ n ++
          " \"".toList ++ escapeComment c ++ "\";".toList)), x ≠ '\n' := by
        intro x hx
        simp only [List.mem_cons, List.mem_append] at hx
        rcases hx with h | (((((h | h) | h) | h) | h) | h) | h
        · rw [h]; decide
        · revert x; decide
        · exact decimal_no_newline a x h
        · revert x; decide
        · exact word_no_newline n hnw x h
        · revert x; decide
        · exact escapeComment_no_newline c hnl x h
        · revert x; decide
      have := Qt.scanLines_single _ [] hnn (by
        have e : ([] : Str).reverse ++ 'C' :: ("M_ SG_ ".toList ++ Qt.decimal a ++ " ".toList ++
            n ++ " \"".toList ++ escapeComment c ++ "\";".toList) =
            ('C' :: ("M_ SG_ ".toList ++ Qt.decimal a ++ " ".toList ++ n ++ " \"".toList ++
              escapeComment c ++ ['"'])) ++ [';'] := by
          simp [String.toList, List.append_assoc]
        rw [e, List.getLast?_concat]
        decide)
      simpa using this
    · unfold statement
      simp only []
      rw [hfacts.1]
      have hk : kindOf ('C' :: ("M_ SG_ ".toList ++ Qt.decimal a ++ " ".toList ++ n ++
          " \"".toList ++ escapeComment c ++ "\";".toList)) = .CM_SG := kindOf_CM_SG _
      rw [hk]
      simp only []
      rw [parseCM_SG_written st.msgs content pos a n c ha htrim hbs hn hnw]

end DBCFile

namespace Qt

/-- Function `mid` from the start of a part of the text, with a length that reaches its end, yields the
part and possibly more. -/
theorem mid_covers (pre Y tail : Str) (n : Nat) (hn : Y.length ≤ n) :
    ∃ tail1, mid (pre ++ (Y ++ tail)) (pre.length : Int) (n : Int) = Y ++ tail1 := by
  unfold mid
  have hlen : ((pre ++ (Y ++ tail)).length : Int) = pre.length + (Y.length + tail.length) := by
    simp only [List.length_append]
    push_cast
    ring
  have h1 : ¬ ((pre.length : Int) > ((pre ++ (Y ++ tail)).length : Int)) := by
    rw [hlen]; omega
  have h2 : ¬ ((pre.length : Int) < 0) := by omega
  simp only [h1, h2, if_false, Int.toNat_ofNat, List.drop_left]
  split
  · exact ⟨tail, rfl⟩
  · refine ⟨tail.take (n - Y.length), ?_⟩
    rw [List.take_append_eq_append_take, List.take_of_length_le hn]

theorem replaceAux_id (s : Str) (hs : ∀ x ∈ s, x ≠ '\\') :
    replaceAux ['\\', '"'] ['"'] 0 s = s := by
  induction s with
  | nil => rfl
  | cons x t ih =>
    have hx : ¬ '\\' = x := fun e => hs x (List.mem_cons_self _ _) e.symm
    simp [replaceAux, List.isPrefixOf, hx, ih (fun y hy => hs y (List.mem_cons_of_mem _ hy))]

/-- A text without backslash has no `\"` to replace. -/
theorem replace_id (s : Str) (hs : ∀ x ∈ s, x ≠ '\\') :
    replace s "\\\"".toList "\"".toList = s := replaceAux_id s hs

theorem mem_of_mem_trimmed (s : Str) (x : Char) (hx : x ∈ trimmed s) : x ∈ s := by
  unfold trimmed at hx
  rw [List.mem_reverse] at hx
  have h1 := (List.dropWhile_suffix isSpace).subset hx
  rw [List.mem_reverse] at h1
  exact (List.dropWhile_suffix isSpace).subset h1

theorem scanLines_newline_nil (X : Str) :
    scanLines ('\n' :: X) [] = ([], 1) :: scanLines X [] := by
  simp [scanLines]

theorem scanLines_newline_cons (a : Char) (v X : Str) :
    scanLines ('\n' :: X) (a :: v) =
      (if a = '\r' then (v.reverse, 2) else ((a :: v).reverse, 1)) :: scanLines X [] := by
  by_cases ha : a = '\r'
  · simp [scanLines, ha]
  · simp [scanLines, ha]

theorem scanLines_char (x : Char) (X acc : Str) (hx : x ≠ '\n') :
    scanLines (x :: X) acc = scanLines X (x :: acc) := by
  simp [scanLines, hx]

/-- The lines of a text are those up to a newline followed by those after it. -/
theorem scanLines_append (s t acc : Str) :
    scanLines (s ++ '\n' :: t) acc = scanLines (s ++ ['\n']) acc ++ scanLines t [] := by
  induction s generalizing acc with
  | nil =>
    cases acc with
    | nil =>
      rw [List.nil_append, List.nil_append, scanLines_newline_nil, scanLines_newline_nil]
      simp [scanLines]
    | cons a v =>
      rw [List.nil_append, List.nil_append, scanLines_newline_cons, scanLines_newline_cons]
      simp [scanLines]
  | cons x u ih =>
    rw [List.cons_append, List.cons_append]
    by_cases hx : x = '\n'
    · subst hx
      cases acc with
      | nil =>
        rw [scanLines_newline_nil, scanLines_newline_nil, ih []]
        rfl
      | cons a v =>
        rw [scanLines_newline_cons, scanLines_newline_cons, ih []]
        rfl
    · rw [scanLines_char x _ _ hx, scanLines_char x _ _ hx, ih (x :: acc)]

/-- Every character of a text is in a line or in a line terminator. -/
theorem scanLines_total (s acc : Str) :
    ((scanLines s acc).map (fun r => r.1.length + r.2)).sum = s.length + acc.length := by
  induction s generalizing acc with
  | nil =>
    cases acc with
    | nil => simp [scanLines]
    | cons a t =>
      by_cases ha : a = '\r'
      · simp [scanLines, ha]
      · simp [scanLines, ha]
  | cons x u ih =>
    by_cases hx : x = '\n'
    · subst hx
      cases acc with
      | nil =>
        simp only [scanLines, if_true, List.map_cons, List.sum_cons, ih [], List.length_nil,
          List.length_cons]
        omega
      | cons a t =>
        by_cases ha : a = '\r'
        · simp only [scanLines, if_true, ha, List.map_cons, List.sum_cons, ih [],
            List.length_nil, List.length_cons, List.length_reverse]
          omega
        · simp only [scanLines, if_true, ha, if_false, List.map_cons, List.sum_cons, ih [],
            List.length_nil, List.length_cons, List.length_reverse]
          omega
    · simp only [scanLines, hx, if_false, ih (x :: acc), List.length_cons]
      omega

end Qt

namespace DBCFile

theorem escapeComment_id (c : Str) (hc : ∀ x ∈ c, x ≠ '"') : escapeComment c = c := by
  induction c with
  | nil => rfl
  | cons x t ih =>
    have hx := hc x (List.mem_cons_self _ _)
    simp [escapeComment, hx, ih (fun y hy => hc y (List.mem_cons_of_mem _ hy))]

theorem numberLines_append (A B : List (Str × Nat)) (num pos : Nat) :
    numberLines (A ++ B) num pos =
      numberLines A num pos ++
        numberLines B (num + A.length) (pos + (A.map (fun r => r.1.length + r.2)).sum) := by
  induction A generalizing num pos with
  | nil => simp [numberLines]
  | cons a t ih =>
    obtain ⟨raw, d⟩ := a
    have e1 : num + (t.length + 1) = num + 1 + t.length := by omega
    have e2 : pos + (raw.length + d + (t.map (fun r => r.1.length + r.2)).sum) =
        pos + raw.length + d + (t.map (fun r => r.1.length + r.2)).sum := by omega
    simp only [List.cons_append, numberLines, List.length_cons, List.map_cons, List.sum_cons,
      e1, e2]
    change _ :: numberLines (t ++ B) _ _ = _
    rw [ih]

theorem numberLines_length (A : List (Str × Nat)) (num pos : Nat) :
    (numberLines A num pos).length = A.length := by
  induction A generalizing num pos with
  | nil => rfl
  | cons a t ih =>
    obtain ⟨raw, d⟩ := a
    simp [numberLines, ih]

end DBCFile

namespace DBCFile

/-- How the loop reads a text in which a statement begins a line after `pre`: the first raw
line `raw` of the statement is read with the stream position just behind its newline, and the
text after that newline is read as the lines that follow. -/
theorem lines_of_statement (pre raw rest : Str)
    (hpre : pre.getLast? = some '\n')
    (hraw : ∀ x ∈ raw, x ≠ '\n') (hlast : raw.getLast? ≠ some '\r') :
    Qt.scanLines (pre ++ (raw ++ '\n' :: rest)) [] =
      Qt.scanLines pre [] ++ (raw, 1) :: Qt.scanLines rest [] ∧
    (readLines (pre ++ (raw ++ '\n' :: rest)))[(Qt.scanLines pre []).length]? =
      some ⟨(Qt.scanLines pre []).length + 1, raw, pre.length + raw.length + 1⟩ := by
  have hpne : pre ≠ [] := by
    intro e
    rw [e] at hpre
    simp at hpre
  obtain ⟨p1, hp1⟩ : ∃ p1, pre = p1 ++ ['\n'] := by
    refine ⟨pre.dropLast, ?_⟩
    have := List.dropLast_append_getLast hpne
    rw [List.getLast?_eq_getLast _ hpne] at hpre
    simp only [Option.some.injEq] at hpre
    rw [hpre] at this
    exact this.symm
  have hscan : Qt.scanLines (pre ++ (raw ++ '\n' :: rest)) [] =
      Qt.scanLines pre [] ++ (raw, 1) :: Qt.scanLines rest [] := by
    have e1 : pre ++ (raw ++ '\n' :: rest) = p1 ++ '\n' :: (raw ++ '\n' :: rest) := by
      rw [hp1]
      simp [List.append_assoc]
    rw [e1, Qt.scanLines_append p1, ← hp1, Qt.scanLines_append raw,
      Qt.scanLines_single raw [] hraw (by simpa using hlast)]
    simp
  refine ⟨hscan, ?_⟩
  unfold readLines
  rw [hscan, numberLines_append]
  rw [List.getElem?_append_right (by rw [numberLines_length])]
  rw [numberLines_length, Nat.sub_self]
  have htot := Qt.scanLines_total pre []
  simp only [List.length_nil, Nat.add_zero] at htot
  simp only [numberLines, htot, Nat.zero_add, List.getElem?_cons_zero]

end DBCFile

namespace Qt

theorem rdropWhile_append_of_last (p : Char → Bool) (w t : Str) (a : Char)
    (hw : w.getLast? = some a) (ha : p a = false) :
    (w ++ t).rdropWhile p = w ++ t.rdropWhile p := by
  induction t using List.reverseRecOn with
  | nil =>
    simp only [List.append_nil, List.rdropWhile_nil]
    rw [List.rdropWhile_eq_self_iff]
    intro hne
    rw [List.getLast?_eq_getLast _ hne] at hw
    simp only [Option.some.injEq] at hw
    rw [hw, ha]
    simp
  | append_singleton u b ih =>
    rw [← List.append_assoc, List.rdropWhile_concat, List.rdropWhile_concat, ih]
    split
    · rfl
    · rw [List.append_assoc]

/-- Function `trimmed` keeps a leading part that begins and ends with a character that is no white
space. -/
theorem trimmed_keeps (w t : Str) (a b : Char) (hh : w.head? = some a) (ha : isSpace a = false)
    (hl : w.getLast? = some b) (hb : isSpace b = false) :
    ∃ t1, trimmed (w ++ t) = w ++ t1 := by
  refine ⟨t.rdropWhile isSpace, ?_⟩
  unfold trimmed
  have h1 : (w ++ t).dropWhile isSpace = w ++ t := by
    cases w with
    | nil => simp at hh
    | cons x u =>
      simp only [List.head?_cons, Option.some.injEq] at hh
      subst hh
      simp [List.dropWhile, ha]
  rw [h1]
  exact rdropWhile_append_of_last isSpace w t b hl hb

end Qt

namespace DBCFile

theorem word_facts (W : Str) (hW : ∀ x ∈ W, isWordChar x = true) :
    ∀ x ∈ W, x ≠ '"' ∧ x ≠ '\n' ∧ Qt.isSpace x = false := by
  intro x hx
  have h := hW x hx
  refine ⟨?_, ?_, ?_⟩
  · intro e; rw [e] at h; simp [isWordChar] at h
  · intro e; rw [e] at h; simp [isWordChar] at h
  · simp only [isWordChar, Bool.or_eq_true, Bool.and_eq_true, decide_eq_true_eq,
      beq_iff_eq] at h
    simp only [Qt.isSpace, Bool.or_eq_false_iff, Bool.and_eq_false_iff, beq_eq_false_iff_ne,
      decide_eq_false_iff_not]
    omega

end DBCFile

namespace DBCFile

set_option maxRecDepth 100000 in
/-- White space at the ends of a comment is not read back, whatever the floating-point
conversions are. -/
theorem leading_blank_trimmed (env : LibC) :
    generateDBC env (updateMsg {} ⟨0, 1⟩ "A".toList 8 "XXX".toList " x".toList) =
      "BO_ 1 A: 8 XXX\n\nCM_ BO_ 1 \" x\";\n".toList ∧
    ∃ db, fromContent env []
        (generateDBC env (updateMsg {} ⟨0, 1⟩ "A".toList 8 "XXX".toList " x".toList)) = .ok db ∧
      (db.msg 1).map (fun m => m.comment) = some "x".toList ∧
      (db.msg 1).map (fun m => m.comment) ≠ some " x".toList :=
  ⟨rfl, _, rfl, rfl, by decide⟩

/-- C6, refuted. A message comment ` x`, set through `updateMsg`, is written by `generateDBC` as
`CM_ BO_ 1 " x";`; parsing the text written gives the comment `x`: the blank is trimmed. -/
theorem comment_with_leading_blank_not_read_back :
    generateDBC sampleLibC (updateMsg {} ⟨0, 1⟩ "A".toList 8 "XXX".toList " x".toList) =
      "BO_ 1 A: 8 XXX\n\nCM_ BO_ 1 \" x\";\n".toList ∧
    ∃ db, fromContent sampleLibC []
        (generateDBC sampleLibC
          (updateMsg {} ⟨0, 1⟩ "A".toList 8 "XXX".toList " x".toList)) = .ok db ∧
      (db.msg 1).map (fun m => m.comment) = some "x".toList ∧
      (db.msg 1).map (fun m => m.comment) ≠ some " x".toList :=
  leading_blank_trimmed sampleLibC

set_option maxRecDepth 100000 in
/-- C6 amended, at the comment `say "hi"` of message 100 and of its signal `SPEED`. -/
theorem written_comment_read_back_witness :
    (∃ raw, cmBoText 100 "say \"hi\"".toList = raw ++ "\n".toList ∧
      Qt.scanLines (cmBoText 100 "say \"hi\"".toList) [] = [(raw, 1)] ∧
      statement sampleLibC []
        { msgs := [(100, { address := 100, sigs := [{ name := "SPEED".toList }] })] }
        ⟨1, raw, 0⟩ =
        .ok ({ msgs := setMsgComment
                [(100, { address := 100, sigs := [{ name := "SPEED".toList }] })]
                100 "say \"hi\"".toList }, true)) ∧
    (∃ raw, cmSgText 100 "SPEED".toList "say \"hi\"".toList = raw ++ "\n".toList ∧
      Qt.scanLines (cmSgText 100 "SPEED".toList "say \"hi\"".toList) [] = [(raw, 1)] ∧
      statement sampleLibC []
        { msgs := [(100, { address := 100, sigs := [{ name := "SPEED".toList }] })] }
        ⟨1, raw, 0⟩ =
        .ok ({ msgs := setSigComment
                [(100, { address := 100, sigs := [{ name := "SPEED".toList }] })]
                100 "SPEED".toList "say \"hi\"".toList }, true)) :=
  written_comment_read_back sampleLibC []
    { msgs := [(100, { address := 100, sigs := [{ name := "SPEED".toList }] })] }
    100 "SPEED".toList "say \"hi\"".toList 1 0
    (by decide) (by decide!) (by decide!) (by decide!) (by decide) (by decide!)

end DBCFile

/-! ## The text of the exception -/

namespace Qt

theorem argTokensAux_plain (w t : Str) (hw : ∀ x ∈ w, x ≠ '%') :
    argTokensAux 0 (w ++ t) = w.map ArgTok.chr ++ argTokensAux 0 t := by
  induction w with
  | nil => rfl
  | cons c u ih =>
    have hc : c ≠ '%' := hw c (List.mem_cons_self _ _)
    have hm : markerAt (c :: (u ++ t)) = none := by
      simp [markerAt, hc]
    have hstep : argTokensAux 0 (c :: (u ++ t)) = ArgTok.chr c :: argTokensAux 0 (u ++ t) := by
      simp only [argTokensAux, hm]
    rw [List.cons_append, hstep, ih (fun x hx => hw x (List.mem_cons_of_mem _ hx))]
    rfl

theorem minMarker_plain (w : Str) (ts : List ArgTok) :
    minMarker (w.map ArgTok.chr ++ ts) = minMarker ts := by
  induction w with
  | nil => rfl
  | cons c u ih => simpa [minMarker] using ih

theorem substMarker_plain (m : Nat) (a w : Str) (ts : List ArgTok) :
    substMarker m a (w.map ArgTok.chr ++ ts) = w ++ substMarker m a ts := by
  induction w with
  | nil => rfl
  | cons c u ih => simp [substMarker, ih]

/-- Function `arg` on a text that begins with a part free of `%`: the part is kept and the place marker
is looked for in the rest. -/
theorem arg_plain (w t a : Str) (hw : ∀ x ∈ w, x ≠ '%') (m : Nat)
    (hm : minMarker (argTokens t) = some m) :
    arg (w ++ t) a = w ++ substMarker m a (argTokens t) := by
  unfold arg argTokens at *
  rw [argTokensAux_plain w t hw, minMarker_plain, hm]
  simp only []
  rw [substMarker_plain]

theorem decimal_no_percent (n : Nat) : ∀ x ∈ decimal n, x ≠ '%' := by
  intro x hx
  obtain ⟨d, hd, rfl⟩ := decimal_digit n x hx
  exact (digit_facts d hd).2.2.2.1

end Qt

namespace DBCFile

/-- The text of the exception, when neither the file name nor the reason holds a `%`: the file
name, the line number, the reason and the line, in the form `[<filename>:<k>]<reason>: <line>`. -/
theorem errorText_form (filename what line : Str) (k : Nat)
    (hf : ∀ x ∈ filename, x ≠ '%') (hw : ∀ x ∈ what, x ≠ '%') :
    errorText filename k what line =
      "[".toList ++ filename ++ ":".toList ++ Qt.decimal k ++ "]".toList ++ what ++
        ": ".toList ++ line := by
  unfold errorText
  have s1 : Qt.arg "[%1:%2]%3: %4".toList filename =
      ('[' :: filename) ++ ":%2]%3: %4".toList := by
    have := Qt.arg_plain ['['] "%1:%2]%3: %4".toList filename (by decide) 1 (by decide)
    rw [show "[%1:%2]%3: %4".toList = ['['] ++ "%1:%2]%3: %4".toList from rfl, this]
    simp [Qt.substMarker, Qt.argTokens, Qt.argTokensAux, Qt.markerAt, Qt.digitValue, String.toList]
  rw [s1]
  have h1 : ∀ x ∈ ('[' :: filename) ++ [':'], x ≠ '%' := by
    intro x hx
    simp only [List.mem_append, List.mem_cons, List.mem_singleton, List.not_mem_nil,
      or_false] at hx
    rcases hx with (h | h) | h
    · rw [h]; decide
    · exact hf x h
    · rw [h]; decide
  have s2 : Qt.arg (('[' :: filename) ++ ":%2]%3: %4".toList) (Qt.decimal k) =
      (('[' :: filename) ++ [':']) ++ Qt.decimal k ++ "]%3: %4".toList := by
    have := Qt.arg_plain (('[' :: filename) ++ [':']) "%2]%3: %4".toList (Qt.decimal k) h1 2
      (by decide)
    rw [show ('[' :: filename) ++ ":%2]%3: %4".toList =
      (('[' :: filename) ++ [':']) ++ "%2]%3: %4".toList from by simp [String.toList], this]
    simp [Qt.substMarker, Qt.argTokens, Qt.argTokensAux, Qt.markerAt, Qt.digitValue, String.toList]
  rw [s2]
  have h2 : ∀ x ∈ (('[' :: filename) ++ [':']) ++ Qt.decimal k ++ [']'], x ≠ '%' := by
    intro x hx
    rw [List.mem_append, List.mem_append] at hx
    rcases hx with (h | h) | h
    · exact h1 x h
    · exact Qt.decimal_no_percent k x h
    · revert x; decide
  have s3 : Qt.arg ((('[' :: filename) ++ [':']) ++ Qt.decimal k ++ "]%3: %4".toList) what =
      ((('[' :: filename) ++ [':']) ++ Qt.decimal k ++ [']']) ++ what ++ ": %4".toList := by
    have := Qt.arg_plain ((('[' :: filename) ++ [':']) ++ Qt.decimal k ++ [']'])
      "%3: %4".toList what h2 3 (by decide)
    rw [show (('[' :: filename) ++ [':']) ++ Qt.decimal k ++ "]%3: %4".toList =
      ((('[' :: filename) ++ [':']) ++ Qt.decimal k ++ [']']) ++ "%3: %4".toList from by
        simp [String.toList], this]
    simp [Qt.substMarker, Qt.argTokens, Qt.argTokensAux, Qt.markerAt, Qt.digitValue, String.toList]
  rw [s3]
  have h3 : ∀ x ∈ ((('[' :: filename) ++ [':']) ++ Qt.decimal k ++ [']']) ++ what ++ [':', ' '],
      x ≠ '%' := by
    intro x hx
    rw [List.mem_append, List.mem_append] at hx
    rcases hx with (h | h) | h
    · exact h2 x h
    · exact hw x h
    · revert x; decide
  have s4 : Qt.arg (((('[' :: filename) ++ [':']) ++ Qt.decimal k ++ [']']) ++ what ++
        ": %4".toList) line =
      (((('[' :: filename) ++ [':']) ++ Qt.decimal k ++ [']']) ++ what ++ [':', ' ']) ++ line := by
    have := Qt.arg_plain (((('[' :: filename) ++ [':']) ++ Qt.decimal k ++ [']']) ++ what ++
      [':', ' ']) "%4".toList line h3 4 (by decide)
    rw [show ((('[' :: filename) ++ [':']) ++ Qt.decimal k ++ [']']) ++ what ++ ": %4".toList =
      (((('[' :: filename) ++ [':']) ++ Qt.decimal k ++ [']']) ++ what ++ [':', ' ']) ++
        "%4".toList from by simp [String.toList], this]
    simp [Qt.substMarker, Qt.argTokens, Qt.argTokensAux, Qt.markerAt, Qt.digitValue, String.toList]
  rw [s4]
  simp [String.toList, List.append_assoc]

end DBCFile

namespace DBCFile

theorem parseLines_error_inv (env : LibC) (fn content : Str) (ls : List Line) (st : ParseState)
    (e : Str) (h : parseLines env fn content st ls = .error e) :
    ∃ pre l post st1, ls = pre ++ l :: post ∧ parseLines env fn content st pre = .ok st1 ∧
      parseLine env fn content st1 l = .error e := by
  induction ls generalizing st with
  | nil => simp [parseLines] at h
  | cons l t ih =>
    simp only [parseLines] at h
    cases hl : parseLine env fn content st l with
    | error e1 =>
      simp only [hl, Except.error.injEq] at h
      subst h
      exact ⟨[], l, t, st, rfl, rfl, hl⟩
    | ok st2 =>
      simp only [hl] at h
      obtain ⟨pre, l1, post, st1, h1, h2, h3⟩ := ih st2 h
      refine ⟨l :: pre, l1, post, st1, by rw [h1]; rfl, ?_, h3⟩
      simp only [parseLines, hl]
      exact h2

theorem parseLine_error_inv (env : LibC) (fn content : Str) (st : ParseState) (l : Line)
    (e : Str) (h : parseLine env fn content st l = .error e) :
    ∃ what, statement env content st l = .error what ∧
      e = errorText fn l.line_num what (lineText l) := by
  unfold parseLine at h
  cases hs : statement env content st l with
  | error what =>
    simp only [hs, Except.error.injEq] at h
    exact ⟨what, rfl, h.symm⟩
  | ok r =>
    obtain ⟨st1, seen⟩ := r
    simp only [hs] at h
    split at h
    · simp at h
    · split at h <;> simp at h

theorem numberLines_line_num (A : List (Str × Nat)) (num pos : Nat) (pre post : List Line)
    (l : Line) (h : numberLines A num pos = pre ++ l :: post) :
    l.line_num = num + pre.length + 1 := by
  induction A generalizing num pos pre with
  | nil =>
    simp only [numberLines] at h
    cases pre <;> simp at h
  | cons a t ih =>
    obtain ⟨raw, d⟩ := a
    simp only [numberLines] at h
    cases pre with
    | nil =>
      simp only [List.nil_append, List.cons.injEq] at h
      rw [← h.1]
      simp
    | cons x pre1 =>
      simp only [List.cons_append, List.cons.injEq] at h
      have := ih (num + 1) _ pre1 h.2
      rw [this]
      simp only [List.length_cons]
      omega

theorem duplicate_reason_no_percent (a : Nat) :
    ∀ x ∈ Qt.arg "Duplicate message address: %1".toList (Qt.decimal a), x ≠ '%' := by
  intro x hx
  have := Qt.arg_plain "Duplicate message address: ".toList "%1".toList (Qt.decimal a)
    (by decide) 1 (by decide)
  rw [show "Duplicate message address: %1".toList =
    "Duplicate message address: ".toList ++ "%1".toList from rfl, this] at hx
  simp only [Qt.substMarker, Qt.argTokens, Qt.argTokensAux, Qt.markerAt, Qt.digitValue,
    String.toList] at hx
  rw [List.mem_append] at hx
  rcases hx with h1 | h1
  · revert x; decide
  · simp at h1
    exact Qt.decimal_no_percent a x h1

theorem parseBO_error_no_percent (msgs : Msgs) (line what : Str)
    (h : parseBO msgs line = .error what) : ∀ x ∈ what, x ≠ '%' := by
  unfold parseBO at h
  try dsimp only at h
  repeat' split at h
  all_goals first
    | (simp at h; done)
    | (simp only [Except.error.injEq] at h; subst h
       first | decide | exact duplicate_reason_no_percent _)

theorem parseSG_error_no_percent (env : LibC) (msgs : Msgs) (line what : Str) (cur : Option Nat)
    (cnt : Nat) (h : parseSG env msgs line cur cnt = .error what) : ∀ x ∈ what, x ≠ '%' := by
  unfold parseSG at h
  try dsimp only at h
  repeat' split at h
  all_goals first
    | (simp at h; done)
    | (simp only [Except.error.injEq] at h; subst h; decide)

theorem parseVAL_error_no_percent (env : LibC) (msgs : Msgs) (line what : Str)
    (h : parseVAL env msgs line = .error what) : ∀ x ∈ what, x ≠ '%' := by
  unfold parseVAL at h
  try dsimp only at h
  repeat' split at h
  all_goals first
    | (simp at h; done)
    | (simp only [Except.error.injEq] at h; subst h; decide)

theorem parseCM_BO_error_no_percent (msgs : Msgs) (line content raw what : Str) (pos : Nat)
    (h : parseCM_BO msgs line content raw pos = .error what) : ∀ x ∈ what, x ≠ '%' := by
  unfold parseCM_BO at h
  try dsimp only at h
  repeat' split at h
  all_goals first
    | (simp at h; done)
    | (simp only [Except.error.injEq] at h; subst h; decide)

theorem parseCM_SG_error_no_percent (msgs : Msgs) (line content raw what : Str) (pos : Nat)
    (h : parseCM_SG msgs line content raw pos = .error what) : ∀ x ∈ what, x ≠ '%' := by
  unfold parseCM_SG at h
  try dsimp only at h
  repeat' split at h
  all_goals first
    | (simp at h; done)
    | (simp only [Except.error.injEq] at h; subst h; decide)

/-- The reasons the statement functions throw hold no `%`. -/
theorem statement_error_no_percent (env : LibC) (content : Str) (st : ParseState) (l : Line)
    (what : Str) (h : statement env content st l = .error what) : ∀ x ∈ what, x ≠ '%' := by
  unfold statement at h
  cases hk : kindOf (Qt.trimmed l.raw_line) with
  | BO =>
    simp only [hk] at h
    cases hb : parseBO st.msgs (Qt.trimmed l.raw_line) with
    | ok r => simp [hb] at h
    | error e1 =>
      simp only [hb, Except.error.injEq] at h
      subst h
      exact parseBO_error_no_percent _ _ _ hb
  | SG =>
    simp only [hk] at h
    cases hb : parseSG env st.msgs (Qt.trimmed l.raw_line) st.current_msg st.multiplexor_cnt with
    | ok r => simp [hb] at h
    | error e1 =>
      simp only [hb, Except.error.injEq] at h
      subst h
      exact parseSG_error_no_percent env _ _ _ _ _ hb
  | VAL =>
    simp only [hk] at h
    cases hb : parseVAL env st.msgs (Qt.trimmed l.raw_line) with
    | ok r => simp [hb] at h
    | error e1 =>
      simp only [hb, Except.error.injEq] at h
      subst h
      exact parseVAL_error_no_percent env _ _ _ hb
  | CM_BO =>
    simp only [hk] at h
    cases hb : parseCM_BO st.msgs (Qt.trimmed l.raw_line) content l.raw_line l.streamPos with
    | ok r => simp [hb] at h
    | error e1 =>
      simp only [hb, Except.error.injEq] at h
      subst h
      exact parseCM_BO_error_no_percent _ _ _ _ _ _ hb
  | CM_SG =>
    simp only [hk] at h
    cases hb : parseCM_SG st.msgs (Qt.trimmed l.raw_line) content l.raw_line l.streamPos with
    | ok r => simp [hb] at h
    | error e1 =>
      simp only [hb, Except.error.injEq] at h
      subst h
      exact parseCM_SG_error_no_percent _ _ _ _ _ _ hb
  | other => simp [hk] at h

/-- The exception of `parse` for a file name without `%` (the empty name of
`DBCFile(name, content)` among them): it comes from the first line the statement functions
reject, the `k`-th of the text, and reads `[<filename>:<k>]<reason>: <line>` with the reason
thrown and the trimmed line. -/
theorem parse_error_form (env : LibC) (fn name_ content e : Str)
    (hf : ∀ x ∈ fn, x ≠ '%') (h : parse env fn name_ content = .error e) :
    ∃ pre l post st what, readLines content = pre ++ l :: post ∧
      parseLines env fn content {} pre = .ok st ∧
      statement env content st l = .error what ∧
      l.line_num = pre.length + 1 ∧
      e = "[".toList ++ fn ++ ":".toList ++ Qt.decimal (pre.length + 1) ++ "]".toList ++ what ++
        ": ".toList ++ Qt.trimmed l.raw_line := by
  unfold parse at h
  cases hp : parseLines env fn content {} (readLines content) with
  | ok st => simp [hp] at h
  | error e1 =>
    simp only [hp, Except.error.injEq] at h
    subst h
    obtain ⟨pre, l, post, st1, h1, h2, h3⟩ := parseLines_error_inv env fn content _ _ _ hp
    obtain ⟨what, h4, h5⟩ := parseLine_error_inv env fn content st1 l _ h3
    have hnum : l.line_num = pre.length + 1 := by
      have := numberLines_line_num _ 0 0 pre post l h1
      omega
    refine ⟨pre, l, post, st1, what, h1, h2, h4, hnum, ?_⟩
    rw [h5, errorText_form fn what _ _ hf (statement_error_no_percent env content st1 l what h4),
      hnum]
    rfl

end DBCFile

/-! ## The order of `MessageId` -/

namespace MessageId

/-- C15: `operator<` of `MessageId` is the strict lexicographic order on (source, address): it
holds exactly when the source is smaller, or the sources are equal and the address is smaller;
it is irreflexive and transitive; of `a < b`, `a == b` and `b < a` exactly one holds for every
two ids, `a == b` being equality of the ids; and `a > b` is `b < a`. -/
theorem lt_is_strict_lexicographic_order :
    (∀ a b : MessageId, lt a b = true ↔
      (a.source < b.source ∨ (a.source = b.source ∧ a.address < b.address))) ∧
    (∀ a : MessageId, lt a a = false) ∧
    (∀ a b c : MessageId, lt a b = true → lt b c = true → lt a c = true) ∧
    (∀ a b : MessageId,
      (lt a b = true ∧ eq a b = false ∧ lt b a = false) ∨
      (lt a b = false ∧ eq a b = true ∧ lt b a = false) ∨
      (lt a b = false ∧ eq a b = false ∧ lt b a = true)) ∧
    (∀ a b : MessageId, eq a b = true ↔ a = b) ∧
    (∀ a b : MessageId, gt a b = lt b a) := by
  refine ⟨?_, ?_, ?_, ?_, ?_, ?_⟩
  · intro a b
    simp only [lt, Bool.or_eq_true, Bool.and_eq_true, Bool.not_eq_true', decide_eq_true_eq,
      decide_eq_false_iff_not]
    omega
  · intro a
    simp [lt]
  · intro a b c
    simp only [lt, Bool.or_eq_true, Bool.and_eq_true, Bool.not_eq_true', decide_eq_true_eq,
      decide_eq_false_iff_not]
    omega
  · intro a b
    simp only [lt, eq, Bool.or_eq_true, Bool.and_eq_true, Bool.not_eq_true', decide_eq_true_eq,
      decide_eq_false_iff_not, Bool.or_eq_false_iff, Bool.and_eq_false_iff, beq_iff_eq,
      beq_eq_false_iff_ne, ne_eq, Bool.not_eq_false', Bool.not_eq_true]
    omega
  · intro a b
    cases a
    cases b
    simp [eq]
  · intro a b
    rfl

end MessageId

/-! ## The blocks of the generated text -/

namespace DBCFile

theorem boText_eq (a : Nat) (m : cabana.Msg) : boText a m = boLine (a, m) ++ "\n".toList := by
  simp [boText, boLine]

theorem sgText_eq (env : LibC) (sig : cabana.Signal) :
    sgText env sig = sgLine env sig ++ "\n".toList := by
  unfold sgLine
  have h : sgText env sig = (sgText env sig).dropLast ++ [(sgText env sig).getLast (by simp [sgText])] :=
    (List.dropLast_append_getLast _).symm
  have hl : (sgText env sig).getLast (by simp [sgText]) = '\n' := by
    simp [sgText]
  rw [hl] at h
  exact h

/-- The inner loop of `generateDBC` appends to each of the three texts. -/
theorem genSignals_eq (env : LibC) (address : Nat) (sigs : List cabana.Signal) (b : Blocks) :
    genSignals env address b sigs =
      { dbc_string := b.dbc_string ++ (sigs.map (fun s => sgLine env s ++ "\n".toList)).flatten
        comment := b.comment ++ ((sigs.filter (fun s => !s.comment.isEmpty)).map
          (fun s => cmSgText address s.name s.comment)).flatten
        val_desc := b.val_desc ++ ((sigs.filter (fun s => !s.val_desc.isEmpty)).map
          (valStatementText env address)).flatten } := by
  induction sigs generalizing b with
  | nil => simp [genSignals]
  | cons s rest ih =>
    rw [genSignals, ih]
    by_cases hc : s.comment.isEmpty = true <;> by_cases hv : s.val_desc.isEmpty = true <;>
      simp [hc, hv, sgText_eq, valStatementText, List.append_assoc]

/-- The outer loop of `generateDBC` appends the three blocks. -/
theorem genMsgs_eq (env : LibC) (msgs : Msgs) (b : Blocks) :
    genMsgs env b msgs =
      { dbc_string := b.dbc_string ++ messageBlock env msgs
        comment := b.comment ++ commentBlock msgs
        val_desc := b.val_desc ++ valueBlock env msgs } := by
  induction msgs generalizing b with
  | nil => simp [genMsgs, messageBlock, commentBlock, valueBlock]
  | cons e rest ih =>
    obtain ⟨a, m⟩ := e
    rw [genMsgs]
    rw [ih, genSignals_eq]
    by_cases hc : m.comment = []
    · simp [hc, messageBlock, commentBlock, valueBlock, messageLines, commentTexts, boText_eq,
        List.append_assoc, Function.comp_def]
    · simp [hc, messageBlock, commentBlock, valueBlock, messageLines, commentTexts, boText_eq,
        List.append_assoc, Function.comp_def]

/-- The text of `generateDBC`: the header, then the three blocks. -/
theorem generateDBC_eq (env : LibC) (db : DBCFile) :
    generateDBC env db =
      db.header ++ messageBlock env db.msgs ++ commentBlock db.msgs ++ valueBlock env db.msgs := by
  unfold generateDBC
  rw [genMsgs_eq]
  simp

end DBCFile

/-! ## The order of the map -/

theorem mem_mapInsert (msgs : Msgs) (k : Nat) (v : cabana.Msg) (e : Nat × cabana.Msg)
    (h : e ∈ mapInsert msgs k v) : e = (k, v) ∨ e ∈ msgs := by
  induction msgs with
  | nil =>
    simp only [mapInsert, List.mem_singleton] at h
    exact Or.inl h
  | cons x t ih =>
    obtain ⟨k1, v1⟩ := x
    unfold mapInsert at h
    split at h
    · simp only [List.mem_cons] at h ⊢
      tauto
    · split at h
      · simp only [List.mem_cons] at h ⊢
        tauto
      · simp only [List.mem_cons] at h ⊢
        rcases h with h | h
        · exact Or.inr (Or.inl h)
        · rcases ih h with h1 | h1
          · exact Or.inl h1
          · exact Or.inr (Or.inr h1)

/-- Map operation `msgs[address] = m` keeps the keys in strictly ascending order. -/
theorem mapInsert_ordered (msgs : Msgs) (k : Nat) (v : cabana.Msg)
    (h : msgs.Pairwise (fun a b => a.1 < b.1)) :
    (mapInsert msgs k v).Pairwise (fun a b => a.1 < b.1) := by
  induction msgs with
  | nil => simp [mapInsert]
  | cons x t ih =>
    obtain ⟨k1, v1⟩ := x
    rw [List.pairwise_cons] at h
    unfold mapInsert
    split
    · rename_i hlt
      rw [List.pairwise_cons]
      refine ⟨?_, List.pairwise_cons.mpr h⟩
      intro e he
      simp only [List.mem_cons] at he
      rcases he with he | he
      · subst he
        exact hlt
      · exact lt_trans hlt (h.1 e he)
    · split
      · rename_i heq
        subst heq
        rw [List.pairwise_cons]
        exact ⟨h.1, h.2⟩
      · rename_i hnlt hne
        rw [List.pairwise_cons]
        refine ⟨?_, ih h.2⟩
        intro e he
        rcases mem_mapInsert t k v e he with he | he
        · subst he
          simp only
          omega
        · exact h.1 e he

/-- Map operation `msgs.erase(address)` keeps the keys in strictly ascending order. -/
theorem mapErase_ordered (msgs : Msgs) (k : Nat) (h : msgs.Pairwise (fun a b => a.1 < b.1)) :
    (mapErase msgs k).Pairwise (fun a b => a.1 < b.1) :=
  List.Pairwise.filter _ h

namespace DBCFile

/-- What a statement does to the map: nothing, or one assignment `msgs[k] = v`. -/
theorem statement_msgs (env : LibC) (content : Str) (st st1 : ParseState) (l : Line)
    (seen : Bool) (h : statement env content st l = .ok (st1, seen)) :
    st1.msgs = st.msgs ∨ ∃ k v, st1.msgs = mapInsert st.msgs k v := by
  unfold statement at h
  simp only at h
  cases hk : kindOf (Qt.trimmed l.raw_line) with
  | BO =>
    simp only [hk] at h
    cases hb : parseBO st.msgs (Qt.trimmed l.raw_line) with
    | error e => simp [hb] at h
    | ok r =>
      obtain ⟨msgs, a⟩ := r
      simp only [hb, Except.ok.injEq, Prod.mk.injEq] at h
      obtain ⟨h, _⟩ := h
      subst h
      unfold parseBO at hb
      cases hs : bo_regexp.search (Qt.trimmed l.raw_line) with
      | none => simp [hs] at hb
      | some m =>
        simp only [hs] at hb
        by_cases hdup : (mapFind st.msgs (Qt.toUInt (captured m 1))).isSome
        · simp [hdup] at hb
        · simp only [hdup, Bool.false_eq_true, if_false, Except.ok.injEq, Prod.mk.injEq] at hb
          obtain ⟨hb, _⟩ := hb
          subst hb
          exact Or.inr ⟨_, _, rfl⟩
  | SG =>
    simp only [hk] at h
    cases hb : parseSG env st.msgs (Qt.trimmed l.raw_line) st.current_msg st.multiplexor_cnt with
    | error e => simp [hb] at h
    | ok r =>
      obtain ⟨msgs, c⟩ := r
      simp only [hb, Except.ok.injEq, Prod.mk.injEq] at h
      obtain ⟨h, _⟩ := h
      subst h
      obtain ⟨c, m, off, s, hc, hm, hnew, hname, hr, hcnt, hmux⟩ :=
        parseSG_ok_inv env _ _ _ _ _ hb
      exact Or.inr ⟨_, _, hr⟩
  | VAL =>
    simp only [hk] at h
    cases hb : parseVAL env st.msgs (Qt.trimmed l.raw_line) with
    | error e => simp [hb] at h
    | ok r =>
      simp only [hb, Except.ok.injEq, Prod.mk.injEq] at h
      obtain ⟨h, _⟩ := h
      subst h
      unfold parseVAL at hb
      repeat' split at hb
      all_goals first
        | (simp at hb; done)
        | (simp only [Except.ok.injEq] at hb
           subst hb
           first | exact Or.inl rfl | exact Or.inr ⟨_, _, rfl⟩)
  | CM_BO =>
    simp only [hk] at h
    cases hb : parseCM_BO st.msgs (Qt.trimmed l.raw_line) content l.raw_line l.streamPos with
    | error e => simp [hb] at h
    | ok r =>
      simp only [hb, Except.ok.injEq, Prod.mk.injEq] at h
      obtain ⟨h, _⟩ := h
      subst h
      unfold parseCM_BO at hb
      repeat' split at hb
      all_goals first
        | (simp at hb; done)
        | (simp only [Except.ok.injEq] at hb
           subst hb
           first | exact Or.inl rfl | exact Or.inr ⟨_, _, rfl⟩)
  | CM_SG =>
    simp only [hk] at h
    cases hb : parseCM_SG st.msgs (Qt.trimmed l.raw_line) content l.raw_line l.streamPos with
    | error e => simp [hb] at h
    | ok r =>
      simp only [hb, Except.ok.injEq, Prod.mk.injEq] at h
      obtain ⟨h, _⟩ := h
      subst h
      unfold parseCM_SG at hb
      repeat' split at hb
      all_goals first
        | (simp at hb; done)
        | (simp only [Except.ok.injEq] at hb
           subst hb
           first | exact Or.inl rfl | exact Or.inr ⟨_, _, rfl⟩)
  | other =>
    simp only [hk, Except.ok.injEq, Prod.mk.injEq] at h
    obtain ⟨h, _⟩ := h
    subst h
    exact Or.inl rfl

/-- One iteration of the loop changes the map as its statement does. -/
theorem parseLine_msgs (env : LibC) (fn content : Str) (st st1 : ParseState) (l : Line)
    (h : parseLine env fn content st l = .ok st1) :
    ∃ st2 seen, statement env content st l = .ok (st2, seen) ∧ st1.msgs = st2.msgs ∧
      st1.current_msg = st2.current_msg ∧ st1.multiplexor_cnt = st2.multiplexor_cnt := by
  unfold parseLine at h
  cases hs : statement env content st l with
  | error e => simp [hs] at h
  | ok r =>
    obtain ⟨st2, seen⟩ := r
    simp only [hs] at h
    refine ⟨st2, seen, rfl, ?_⟩
    repeat' split at h
    all_goals (simp only [Except.ok.injEq] at h; subst h; exact ⟨rfl, rfl, rfl⟩)

/-- The loop keeps the keys of the map in strictly ascending order. -/
theorem parseLines_ordered (env : LibC) (fn content : Str) (ls : List Line)
    (st st1 : ParseState) (h : parseLines env fn content st ls = .ok st1)
    (ho : st.msgs.Pairwise (fun a b => a.1 < b.1)) :
    st1.msgs.Pairwise (fun a b => a.1 < b.1) := by
  induction ls generalizing st with
  | nil =>
    simp only [parseLines, Except.ok.injEq] at h
    subst h
    exact ho
  | cons l ls ih =>
    simp only [parseLines] at h
    cases hl : parseLine env fn content st l with
    | error e => simp [hl] at h
    | ok st2 =>
      simp only [hl] at h
      apply ih st2 h
      obtain ⟨st3, seen, hs, hm, _, _⟩ := parseLine_msgs env fn content st st2 l hl
      rw [hm]
      rcases statement_msgs env content st st3 l seen hs with h1 | ⟨k, v, h1⟩
      · rw [h1]
        exact ho
      · rw [h1]
        exact mapInsert_ordered _ _ _ ho

/-- A database that `parse` built has its addresses in strictly ascending order. -/
theorem parse_ordered (env : LibC) (fn name_ content : Str) (db : DBCFile)
    (h : parse env fn name_ content = .ok db) :
    db.msgs.Pairwise (fun a b => a.1 < b.1) := by
  unfold parse at h
  cases hp : parseLines env fn content {} (readLines content) with
  | error e => simp [hp] at h
  | ok st =>
    simp only [hp, Except.ok.injEq] at h
    subst h
    have := parseLines_ordered env fn content _ _ st hp List.Pairwise.nil
    simp only
    rw [List.pairwise_map]
    exact this

/-- The header of a database that `parse` built. -/
theorem parse_header_eq (env : LibC) (fn name_ content : Str) (db : DBCFile)
    (h : parse env fn name_ content = .ok db) :
    db.header = joinLines (headerLines (readLines content)) := by
  unfold parse at h
  have hsplit : readLines content =
      headerLines (readLines content) ++ bodyLines (readLines content) := by
    unfold headerLines bodyLines
    exact (List.takeWhile_append_dropWhile _ _).symm
  have hhdr : ∀ l ∈ headerLines (readLines content), lineKind l = .other := by
    intro l hl
    unfold headerLines at hl
    have := List.mem_takeWhile_imp hl
    simpa using this
  cases hp : parseLines env fn content {} (readLines content) with
  | error e => simp [hp] at h
  | ok st =>
    simp only [hp, Except.ok.injEq] at h
    subst h
    have h2 : parseLines env fn content
        { header := joinLines (headerLines (readLines content)) }
        (bodyLines (readLines content)) = .ok st := by
      rw [← hp]
      conv_rhs => rw [hsplit]
      rw [parseLines_append, parseLines_headerLines env fn content _ _ hhdr rfl]
      simp only [List.nil_append]
    exact parseLines_bodyLines_header env fn content _ _ st h2

/-- Calls of `updateMsg` and `removeMsg` leave the header as it is. -/
theorem applyEdits_header (db : DBCFile) (ops : List Edit) :
    (applyEdits db ops).header = db.header := by
  unfold applyEdits
  induction ops generalizing db with
  | nil => rfl
  | cons op rest ih =>
    rw [List.foldl_cons, ih]
    cases op <;> rfl

/-- Calls of `updateMsg` and `removeMsg` keep the addresses in strictly ascending order. -/
theorem applyEdits_ordered (db : DBCFile) (ops : List Edit)
    (h : db.msgs.Pairwise (fun a b => a.1 < b.1)) :
    (applyEdits db ops).msgs.Pairwise (fun a b => a.1 < b.1) := by
  unfold applyEdits
  induction ops generalizing db with
  | nil => exact h
  | cons op rest ih =>
    rw [List.foldl_cons]
    apply ih
    cases op with
    | updateMsg id name size node comment => exact mapInsert_ordered _ _ _ h
    | removeMsg id => exact mapErase_ordered _ _ h

end DBCFile

namespace Qt

/-- Splitting at the separator behind a piece that holds none. -/
theorem split_piece (sep : Char) (l rest : Str) (h : sep ∉ l) :
    split sep (l ++ sep :: rest) = l :: split sep rest := by
  induction l with
  | nil => simp [split]
  | cons c t ih =>
    simp only [List.mem_cons, not_or] at h
    have hc : ¬ c = sep := fun e => h.1 e.symm
    show split sep (c :: (t ++ sep :: rest)) = _
    rw [split, if_neg hc, ih h.2]

/-- Splitting a text made of pieces that hold no separator, each followed by one. -/
theorem split_pieces (sep : Char) (ls : List Str) (h : ∀ l ∈ ls, sep ∉ l) :
    split sep ((ls.map (fun l => l ++ [sep])).flatten) = ls ++ [[]] := by
  induction ls with
  | nil => simp [split]
  | cons l t ih =>
    rw [List.map_cons, List.flatten_cons, List.append_assoc, List.singleton_append,
      split_piece sep l _ (h l (List.mem_cons_self _ _)),
      ih (fun x hx => h x (List.mem_cons_of_mem _ hx))]
    rfl

end Qt

namespace DBCFile

/-- C13. The text of `generateDBC`, for a database built by `parse` and edited by any calls of
`updateMsg` and `removeMsg`, is the header captured by the parse (the raw lines in front of the
first statement, each with its newline), character for character, then the message block, then
the comment block, then the value-description block of the edited database: the calls do not
change the header part. -/
theorem header_then_three_blocks (env : LibC) (fn name_ content : Str) (db0 : DBCFile)
    (ops : List Edit) (h : parse env fn name_ content = .ok db0) :
    (applyEdits db0 ops).header = db0.header ∧
    db0.header = joinLines (headerLines (readLines content)) ∧
    generateDBC env (applyEdits db0 ops) =
      joinLines (headerLines (readLines content)) ++ messageBlock env (applyEdits db0 ops).msgs
        ++ commentBlock (applyEdits db0 ops).msgs ++ valueBlock env (applyEdits db0 ops).msgs := by
  refine ⟨applyEdits_header db0 ops, parse_header_eq env fn name_ content db0 h, ?_⟩
  rw [generateDBC_eq, applyEdits_header, parse_header_eq env fn name_ content db0 h]

set_option maxRecDepth 100000 in
/-- C13, at a text with a header line, a message with a comment and a signal with value
descriptions, after `removeMsg` of a message that is not there and `updateMsg` of message 1. -/
theorem header_then_three_blocks_witness :
    ∃ db0, parse sampleLibC [] []
        "VERSION \"\"\nBO_ 1 A: 8 XXX\n SG_ S : 0|8@1+ (1,0) [0|255] \"\" XXX\nCM_ BO_ 1 \"c\";\nVAL_ 1 S 0 \"OFF\";\n".toList
          = .ok db0 ∧
      generateDBC sampleLibC
          (applyEdits db0 [Edit.removeMsg ⟨0, 7⟩, Edit.updateMsg ⟨0, 1⟩ "B".toList 8 [] "d".toList])
        = "VERSION \"\"\nBO_ 1 B: 8 XXX\n SG_ S : 0|8@1+ (1,0) [0|255] \"\" XXX\n\nCM_ BO_ 1 \"d\";\nVAL_ 1 S 0 \"OFF\";\n".toList :=
  ⟨_, rfl,
    ((header_then_three_blocks sampleLibC [] []
      "VERSION \"\"\nBO_ 1 A: 8 XXX\n SG_ S : 0|8@1+ (1,0) [0|255] \"\" XXX\nCM_ BO_ 1 \"c\";\nVAL_ 1 S 0 \"OFF\";\n".toList
      _ [Edit.removeMsg ⟨0, 7⟩, Edit.updateMsg ⟨0, 1⟩ "B".toList 8 [] "d".toList] rfl).2.2).trans
      (by decide!)⟩

/-- C19. An empty transmitter falls back to `XXX`: after `updateMsg` with an empty node the
message at the address has the transmitter `XXX`; and the `BO_` line that `generateDBC` writes
for a message whose stored transmitter is empty ends with the transmitter `XXX`, the message
block of the text being made of these lines. -/
theorem empty_transmitter_is_default_node (env : LibC) (db : DBCFile) (id : MessageId)
    (name comment : Str) (size : Nat) :
    ((db.updateMsg id name size [] comment).msg id.address).map (fun m => m.transmitter)
      = some "XXX".toList ∧
    (∀ e : Nat × cabana.Msg, e.2.transmitter = [] →
      boLine e = "BO_ ".toList ++ Qt.decimal e.1 ++ " ".toList ++ e.2.name ++ ": ".toList ++
        Qt.decimal e.2.size ++ " XXX".toList) ∧
    generateDBC env db =
      db.header ++ (db.msgs.map (fun e =>
        boLine e ++ "\n".toList ++ (e.2.sigs.map (sgText env)).flatten ++ "\n".toList)).flatten
        ++ commentBlock db.msgs ++ valueBlock env db.msgs := by
  refine ⟨?_, ?_, ?_⟩
  · unfold updateMsg msg
    simp only [mapFind_mapInsert]
    simp [DEFAULT_NODE_NAME]
  · intro e he
    unfold boLine
    simp [he, DEFAULT_NODE_NAME, List.append_assoc]
  · have hmb : messageBlock env db.msgs = (db.msgs.map (fun e =>
        boLine e ++ "\n".toList ++ (e.2.sigs.map (sgText env)).flatten ++ "\n".toList)).flatten := by
      unfold messageBlock messageLines
      apply congrArg List.flatten
      apply List.map_congr_left
      intro e he
      have hsg : sgText env = fun x => sgLine env x ++ "\n".toList := funext (sgText_eq env)
      simp [hsg, Function.comp_def, List.append_assoc]
    rw [generateDBC_eq, hmb]

end DBCFile

/-! ## The order of strings and the sets of `signalNames` -/

theorem strLt_irrefl (a : Str) : strLt a a = false := by
  induction a with
  | nil => rfl
  | cons c t ih => simp [strLt, ih]

theorem strLt_trans (a b c : Str) (hab : strLt a b = true) (hbc : strLt b c = true) :
    strLt a c = true := by
  induction a generalizing b c with
  | nil =>
    cases b with
    | nil => simp [strLt] at hab
    | cons y b1 =>
      cases c with
      | nil => simp [strLt] at hbc
      | cons z c1 => rfl
  | cons x a1 ih =>
    cases b with
    | nil => simp [strLt] at hab
    | cons y b1 =>
      cases c with
      | nil => simp [strLt] at hbc
      | cons z c1 =>
        simp only [strLt, Bool.or_eq_true, Bool.and_eq_true, decide_eq_true_eq] at hab hbc ⊢
        rcases hab with h1 | ⟨h1, h2⟩
        · rcases hbc with h3 | ⟨h3, h4⟩
          · exact Or.inl (by omega)
          · exact Or.inl (by omega)
        · rcases hbc with h3 | ⟨h3, h4⟩
          · exact Or.inl (by omega)
          · exact Or.inr ⟨by omega, ih b1 c1 h2 h4⟩

theorem strLt_asymm (a b : Str) (hab : strLt a b = true) : strLt b a = false := by
  cases hba : strLt b a with
  | false => rfl
  | true =>
    have := strLt_trans a b a hab hba
    rw [strLt_irrefl] at this
    exact absurd this (by simp)

/-- Two strings of which neither is below the other are equal. -/
theorem strLt_total (a b : Str) (hab : strLt a b = false) (hba : strLt b a = false) : a = b := by
  induction a generalizing b with
  | nil =>
    cases b with
    | nil => rfl
    | cons y b1 => simp [strLt] at hab
  | cons x a1 ih =>
    cases b with
    | nil => simp [strLt] at hba
    | cons y b1 =>
      simp only [strLt, Bool.or_eq_false_iff, Bool.and_eq_false_iff, decide_eq_false_iff_not]
        at hab hba
      have hxy : x.toNat = y.toNat := by omega
      have hc : x = y := Char.ext (UInt32.ext (by simpa [Char.toNat] using hxy))
      subst hc
      have h1 : strLt a1 b1 = false := by
        rcases hab.2 with h | h
        · exact absurd rfl h
        · exact h
      have h2 : strLt b1 a1 = false := by
        rcases hba.2 with h | h
        · exact absurd rfl h
        · exact h
      rw [ih b1 h1 h2]

theorem mem_stringSetInsert (l : List Str) (n x : Str) :
    x ∈ stringSetInsert l n ↔ x = n ∨ x ∈ l := by
  induction l with
  | nil => simp [stringSetInsert]
  | cons y t ih =>
    unfold stringSetInsert
    split
    · simp
    · split
      · simp only [List.mem_cons, ih]
        tauto
      · rename_i h1 h2
        have hyn : n = y := strLt_total n y (by simpa using h1) (by simpa using h2)
        subst hyn
        simp

/-- Insertion into the set keeps it strictly ascending. -/
theorem stringSetInsert_sorted (l : List Str) (n : Str)
    (h : l.Pairwise (fun a b => strLt a b = true)) :
    (stringSetInsert l n).Pairwise (fun a b => strLt a b = true) := by
  induction l with
  | nil => simp [stringSetInsert]
  | cons y t ih =>
    rw [List.pairwise_cons] at h
    unfold stringSetInsert
    split
    · rename_i hlt
      rw [List.pairwise_cons]
      refine ⟨?_, List.pairwise_cons.mpr h⟩
      intro z hz
      simp only [List.mem_cons] at hz
      rcases hz with hz | hz
      · subst hz
        exact hlt
      · exact strLt_trans _ _ _ hlt (h.1 z hz)
    · split
      · rename_i h1 h2
        rw [List.pairwise_cons]
        refine ⟨?_, ih h.2⟩
        intro z hz
        rw [mem_stringSetInsert] at hz
        rcases hz with hz | hz
        · subst hz
          exact h2
        · exact h.1 z hz
      · exact List.pairwise_cons.mpr h

/-- Sorting a strictly ascending list leaves it as it is. -/
theorem stdSort_of_sorted (l : List Str) (h : l.Pairwise (fun a b => strLt a b = true)) :
    stdSort l = l := by
  induction l with
  | nil => rfl
  | cons x t ih =>
    rw [List.pairwise_cons] at h
    rw [stdSort, ih h.2]
    cases t with
    | nil => rfl
    | cons y t1 =>
      have hxy := h.1 y (List.mem_cons_self _ _)
      simp [List.orderedInsert, strLt_asymm x y hxy]

theorem mem_pointerSetInsert (l : List Nat) (p x : Nat) :
    x ∈ pointerSetInsert l p ↔ x = p ∨ x ∈ l := by
  induction l with
  | nil => simp [pointerSetInsert]
  | cons y t ih =>
    unfold pointerSetInsert
    split
    · simp
    · split
      · simp only [List.mem_cons, ih]
        tauto
      · rename_i h1 h2
        have hyn : p = y := by omega
        subst hyn
        simp

namespace DBCManager

/-- The pointers of `allDBCFiles` are those of the entries of `dbc_files` that are not null. -/
theorem mem_allDBCFiles (mgr : DBCManager) (p : Nat) :
    p ∈ allDBCFiles mgr ↔ ∃ s, (s, some p) ∈ mgr.dbc_files := by
  unfold allDBCFiles
  have key : ∀ (fs : List (Int × Option Nat)) (acc : List Nat),
      p ∈ fs.foldl (fun files f =>
        match f.2 with
        | some q => pointerSetInsert files q
        | none => files) acc ↔ p ∈ acc ∨ ∃ s, (s, some p) ∈ fs := by
    intro fs
    induction fs with
    | nil => simp
    | cons f t ih =>
      intro acc
      obtain ⟨s0, o⟩ := f
      rw [List.foldl_cons, ih]
      cases o with
      | none =>
        simp only [List.mem_cons, Prod.mk.injEq]
        constructor
        · rintro (h | ⟨s, h⟩)
          · exact Or.inl h
          · exact Or.inr ⟨s, Or.inr h⟩
        · rintro (h | ⟨s, h | h⟩)
          · exact Or.inl h
          · simp at h
          · exact Or.inr ⟨s, h⟩
      | some q =>
        simp only [mem_pointerSetInsert, List.mem_cons, Prod.mk.injEq, Option.some.injEq]
        constructor
        · rintro ((h | h) | ⟨s, h⟩)
          · exact Or.inr ⟨s0, Or.inl ⟨rfl, h⟩⟩
          · exact Or.inl h
          · exact Or.inr ⟨s, Or.inr h⟩
        · rintro (h | ⟨s, h | h⟩)
          · exact Or.inl (Or.inr h)
          · exact Or.inl (Or.inl h.2)
          · exact Or.inr ⟨s, h⟩
  refine (key mgr.dbc_files []).trans ?_
  simp

theorem insertSignalNames_sorted (sigs : List cabana.Signal) (names : List Str)
    (h : names.Pairwise (fun a b => strLt a b = true)) :
    (insertSignalNames names sigs).Pairwise (fun a b => strLt a b = true) := by
  unfold insertSignalNames
  induction sigs generalizing names with
  | nil => exact h
  | cons s t ih =>
    rw [List.foldl_cons]
    exact ih _ (stringSetInsert_sorted names s.name h)

theorem mem_insertSignalNames (sigs : List cabana.Signal) (names : List Str) (n : Str) :
    n ∈ insertSignalNames names sigs ↔ n ∈ names ∨ ∃ s ∈ sigs, s.name = n := by
  unfold insertSignalNames
  induction sigs generalizing names with
  | nil => simp
  | cons s t ih =>
    rw [List.foldl_cons, ih, mem_stringSetInsert]
    simp only [List.mem_cons, exists_eq_or_imp]
    constructor
    · rintro ((h | h) | h)
      · exact Or.inr (Or.inl h.symm)
      · exact Or.inl h
      · exact Or.inr (Or.inr h)
    · rintro (h | h | h)
      · exact Or.inl (Or.inr h)
      · exact Or.inl (Or.inl h.symm)
      · exact Or.inr h

theorem insertMessageNames_sorted (msgs : Msgs) (names : List Str)
    (h : names.Pairwise (fun a b => strLt a b = true)) :
    (insertMessageNames names msgs).Pairwise (fun a b => strLt a b = true) := by
  unfold insertMessageNames
  induction msgs generalizing names with
  | nil => exact h
  | cons e t ih =>
    rw [List.foldl_cons]
    exact ih _ (insertSignalNames_sorted e.2.sigs names h)

theorem mem_insertMessageNames (msgs : Msgs) (names : List Str) (n : Str) :
    n ∈ insertMessageNames names msgs ↔
      n ∈ names ∨ ∃ e ∈ msgs, ∃ s ∈ e.2.sigs, s.name = n := by
  unfold insertMessageNames
  induction msgs generalizing names with
  | nil => simp
  | cons e t ih =>
    rw [List.foldl_cons, ih, mem_insertSignalNames]
    simp only [List.mem_cons, exists_eq_or_imp]
    rw [or_assoc]

/-- The set of names that `signalNames` collects over a list of pointers. -/
theorem collected_names (mgr : DBCManager) (ps : List Nat) (names : List Str)
    (h : names.Pairwise (fun a b => strLt a b = true)) :
    (ps.foldl (fun ns p =>
      match mgr.deref p with
      | some file => insertMessageNames ns file.msgs
      | none => ns) names).Pairwise (fun a b => strLt a b = true) ∧
    ∀ n, n ∈ ps.foldl (fun ns p =>
      match mgr.deref p with
      | some file => insertMessageNames ns file.msgs
      | none => ns) names ↔
      n ∈ names ∨ ∃ p ∈ ps, ∃ file, mgr.deref p = some file ∧
        ∃ e ∈ file.msgs, ∃ s ∈ e.2.sigs, s.name = n := by
  induction ps generalizing names with
  | nil => exact ⟨h, fun n => by simp⟩
  | cons p t ih =>
    rw [List.foldl_cons]
    cases hd : mgr.deref p with
    | none =>
      simp only []
      obtain ⟨i1, i2⟩ := ih names h
      refine ⟨i1, fun n => ?_⟩
      rw [i2 n]
      simp only [List.mem_cons, exists_eq_or_imp, hd]
      simp
    | some file =>
      simp only []
      obtain ⟨i1, i2⟩ := ih _ (insertMessageNames_sorted file.msgs names h)
      refine ⟨i1, fun n => ?_⟩
      rw [i2 n, mem_insertMessageNames]
      simp only [List.mem_cons, exists_eq_or_imp, hd, Option.some.injEq, exists_eq_left']
      rw [or_assoc]

/-- C17. The list that `signalNames` returns is strictly ascending in the order of
`std::string`, so it holds no name twice, and a name is in it exactly when it is the name of a
signal of a message of a database that `dbc_files` maps some source to. -/
theorem signalNames_sorted_and_complete (mgr : DBCManager) :
    (signalNames mgr).Pairwise (fun a b => strLt a b = true) ∧
    (signalNames mgr).Nodup ∧
    ∀ n, n ∈ signalNames mgr ↔
      ∃ src p file, (src, some p) ∈ mgr.dbc_files ∧ mgr.deref p = some file ∧
        ∃ e ∈ file.msgs, ∃ s ∈ e.2.sigs, s.name = n := by
  obtain ⟨h1, h2⟩ := collected_names mgr (allDBCFiles mgr) [] List.Pairwise.nil
  have hs : signalNames mgr = (allDBCFiles mgr).foldl (fun ns p =>
      match mgr.deref p with
      | some file => insertMessageNames ns file.msgs
      | none => ns) [] := by
    unfold signalNames
    exact stdSort_of_sorted _ h1
  rw [hs]
  refine ⟨h1, ?_, ?_⟩
  · apply List.Pairwise.imp _ h1
    intro a b hab e
    subst e
    rw [strLt_irrefl] at hab
    exact absurd hab (by simp)
  · intro n
    rw [h2 n]
    simp only [List.not_mem_nil, false_or, mem_allDBCFiles]
    constructor
    · rintro ⟨p, ⟨src, hsrc⟩, file, hf, hr⟩
      exact ⟨src, p, file, hsrc, hf, hr⟩
    · rintro ⟨src, p, file, hsrc, hf, hr⟩
      exact ⟨p, ⟨src, hsrc⟩, file, hf, hr⟩

end DBCManager

namespace DBCManager

/-- C11. A failed `open` is atomic. When the constructor `DBCFile(name, content)` throws, `open`
with that content returns false, puts the text of the exception behind a given `error` pointer,
emits nothing and leaves the manager as it was; the same holds for `open` with a file name when
no open database has that file name and the constructor `DBCFile(dbc_file_name)` throws. A call
of either `open` that returns false has left the manager, and with it the mapping from sources
to databases, as it was. -/
theorem open_failure_is_atomic (env : LibC) (fs : Str → Option Str) (mgr : DBCManager)
    (sources : List Int) (name content dbc_file_name : Str) (error : Option Str) :
    (∀ e, DBCFile.fromContent env name content = .error e →
      openContent env mgr sources name content error =
        { mgr := mgr, ret := false, error := error.map (fun _ => e), emitted := false }) ∧
    ((openContent env mgr sources name content error).ret = false →
      (openContent env mgr sources name content error).mgr = mgr ∧
      ∃ e, DBCFile.fromContent env name content = .error e) ∧
    (∀ e, findByName mgr dbc_file_name = none →
      DBCFile.fromFile env dbc_file_name (fs dbc_file_name) = .error e →
      openFile env fs mgr sources dbc_file_name error =
        { mgr := mgr, ret := false, error := error.map (fun _ => e), emitted := false }) ∧
    ((openFile env fs mgr sources dbc_file_name error).ret = false →
      (openFile env fs mgr sources dbc_file_name error).mgr = mgr ∧
      ∃ e, DBCFile.fromFile env dbc_file_name (fs dbc_file_name) = .error e) := by
  refine ⟨?_, ?_, ?_, ?_⟩
  · intro e he
    simp [openContent, he]
  · intro h
    unfold openContent at h ⊢
    cases hc : DBCFile.fromContent env name content with
    | ok file => simp [hc] at h
    | error e => exact ⟨rfl, e, rfl⟩
  · intro e hn he
    simp [openFile, hn, he]
  · intro h
    unfold openFile at h ⊢
    cases hn : findByName mgr dbc_file_name with
    | some p => simp [hn] at h
    | none =>
      cases hc : DBCFile.fromFile env dbc_file_name (fs dbc_file_name) with
      | ok file => simp [hn, hc] at h
      | error e => exact ⟨rfl, e, rfl⟩

set_option maxRecDepth 100000 in
/-- C11, at a manager that maps the sources -1 and 0 to a database with message 1: `open` for
the source 0 with a content whose second line is rejected returns false with the text of the
exception and leaves the manager as it was. -/
theorem open_failure_is_atomic_witness :
    ∃ mgr0 : DBCManager,
      openContent DBCFile.sampleLibC {} [-1, 0] "a".toList "BO_ 1 A: 8 XXX\n".toList none =
        { mgr := mgr0, ret := true, error := none, emitted := true } ∧
      mgr0.dbc_files = [(-1, some 0), (0, some 0)] ∧
      openContent DBCFile.sampleLibC mgr0 [0] "b".toList "BO_ 2 B: 8 XXX\nBO_ x\n".toList
          (some []) =
        { mgr := mgr0, ret := false
          error := some "[:2]Invalid BO_ line format: BO_ x".toList, emitted := false } :=
  ⟨_, rfl, rfl,
    (open_failure_is_atomic DBCFile.sampleLibC (fun _ => none) _ [0] "b".toList
      "BO_ 2 B: 8 XXX\nBO_ x\n".toList [] (some [])).1
      "[:2]Invalid BO_ line format: BO_ x".toList rfl⟩

end DBCManager

/-! ## At most one multiplexor in a message -/

theorem cabana.Msg.multiplexorCount_of_types (m v : cabana.Msg)
    (h : v.sigs.map (fun s => s.type) = m.sigs.map (fun s => s.type)) :
    v.multiplexorCount = m.multiplexorCount := by
  unfold cabana.Msg.multiplexorCount
  have key : ∀ l : List cabana.Signal,
      (l.filter (fun s => decide (s.type = .Multiplexor))).length =
        ((l.map (fun s => s.type)).filter (fun t => decide (t = .Multiplexor))).length := by
    intro l
    induction l with
    | nil => rfl
    | cons s t ih =>
      by_cases hs : s.type = .Multiplexor
      · simp [List.filter_cons, hs, ih]
      · simp [List.filter_cons, hs, ih]
  rw [key, key, h]

theorem modifySig_types (f : cabana.Signal → cabana.Signal) (nm : Str)
    (hf : ∀ s, (f s).type = s.type) (sigs : List cabana.Signal) :
    (modifySig f nm sigs).map (fun s => s.type) = sigs.map (fun s => s.type) := by
  induction sigs with
  | nil => rfl
  | cons s t ih =>
    unfold modifySig
    split
    · simp [hf]
    · simp [ih]

theorem mem_of_mapFind (msgs : Msgs) (k : Nat) (m : cabana.Msg) (h : mapFind msgs k = some m) :
    (k, m) ∈ msgs := by
  unfold mapFind at h
  cases hf : msgs.find? (fun e => decide (e.1 = k)) with
  | none => simp [hf] at h
  | some e =>
    simp only [hf, Option.map_some', Option.some.injEq] at h
    have h1 := List.find?_some hf
    have h2 := List.mem_of_find?_eq_some hf
    simp only [decide_eq_true_eq] at h1
    obtain ⟨a, b⟩ := e
    simp only at h1 h
    subst h1
    subst h
    exact h2

namespace DBCFile

/-- What a comment or value statement does to the map: nothing, or it assigns to a message that
is there a message with the same types of signals. -/
theorem annotation_shape (env : LibC) (content : Str) (st st1 : ParseState) (l : Line)
    (seen : Bool) (hk : kindOf (Qt.trimmed l.raw_line) ≠ .BO)
    (hk2 : kindOf (Qt.trimmed l.raw_line) ≠ .SG)
    (h : statement env content st l = .ok (st1, seen)) :
    st1.current_msg = st.current_msg ∧ st1.multiplexor_cnt = st.multiplexor_cnt ∧
    (st1.msgs = st.msgs ∨ ∃ k msg v, mapFind st.msgs k = some msg ∧
      st1.msgs = mapInsert st.msgs k v ∧
      v.sigs.map (fun s => s.type) = msg.sigs.map (fun s => s.type)) := by
  unfold statement at h
  simp only at h
  cases hkk : kindOf (Qt.trimmed l.raw_line) with
  | BO => exact absurd hkk hk
  | SG => exact absurd hkk hk2
  | VAL =>
    simp only [hkk] at h
    cases hb : parseVAL env st.msgs (Qt.trimmed l.raw_line) with
    | error e => simp [hb] at h
    | ok r =>
      simp only [hb, Except.ok.injEq, Prod.mk.injEq] at h
      obtain ⟨h, _⟩ := h
      subst h
      refine ⟨rfl, rfl, ?_⟩
      unfold parseVAL at hb
      cases hs : val_regexp.search (Qt.trimmed l.raw_line) with
      | none => simp [hs] at hb
      | some m =>
        simp only [hs] at hb
        cases hm : mapFind st.msgs (Qt.toUInt (captured m 1)) with
        | none =>
          simp only [hm, Except.ok.injEq] at hb
          subst hb
          exact Or.inl rfl
        | some msg =>
          simp only [hm] at hb
          cases hsig : msg.sig (captured m 2) with
          | none =>
            simp only [hsig, Except.ok.injEq] at hb
            subst hb
            exact Or.inl rfl
          | some s =>
            simp only [hsig, Except.ok.injEq] at hb
            subst hb
            exact Or.inr ⟨_, msg, _, hm, rfl, by apply modifySig_types; intro s; rfl⟩
  | CM_BO =>
    simp only [hkk] at h
    cases hb : parseCM_BO st.msgs (Qt.trimmed l.raw_line) content l.raw_line l.streamPos with
    | error e => simp [hb] at h
    | ok r =>
      simp only [hb, Except.ok.injEq, Prod.mk.injEq] at h
      obtain ⟨h, _⟩ := h
      subst h
      refine ⟨rfl, rfl, ?_⟩
      unfold parseCM_BO at hb
      cases hs : msg_comment_regexp.search
          (commentText (Qt.trimmed l.raw_line) content l.raw_line l.streamPos) with
      | none => simp [hs] at hb
      | some m =>
        simp only [hs] at hb
        cases hm : mapFind st.msgs (Qt.toUInt (captured m 1)) with
        | none =>
          simp only [hm, Except.ok.injEq] at hb
          subst hb
          exact Or.inl rfl
        | some msg =>
          simp only [hm, Except.ok.injEq] at hb
          subst hb
          exact Or.inr ⟨_, msg, _, hm, rfl, rfl⟩
  | CM_SG =>
    simp only [hkk] at h
    cases hb : parseCM_SG st.msgs (Qt.trimmed l.raw_line) content l.raw_line l.streamPos with
    | error e => simp [hb] at h
    | ok r =>
      simp only [hb, Except.ok.injEq, Prod.mk.injEq] at h
      obtain ⟨h, _⟩ := h
      subst h
      refine ⟨rfl, rfl, ?_⟩
      unfold parseCM_SG at hb
      cases hs : sg_comment_regexp.search
          (commentText (Qt.trimmed l.raw_line) content l.raw_line l.streamPos) with
      | none => simp [hs] at hb
      | some m =>
        simp only [hs] at hb
        cases hm : mapFind st.msgs (Qt.toUInt (captured m 1)) with
        | none =>
          simp only [hm, Except.ok.injEq] at hb
          subst hb
          exact Or.inl rfl
        | some msg =>
          simp only [hm] at hb
          cases hsig : msg.sig (captured m 2) with
          | none =>
            simp only [hsig, Except.ok.injEq] at hb
            subst hb
            exact Or.inl rfl
          | some s =>
            simp only [hsig, Except.ok.injEq] at hb
            subst hb
            exact Or.inr ⟨_, msg, _, hm, rfl, by apply modifySig_types; intro s; rfl⟩
  | other =>
    simp only [hkk, Except.ok.injEq, Prod.mk.injEq] at h
    obtain ⟨h, _⟩ := h
    subst h
    exact ⟨rfl, rfl, Or.inl rfl⟩

/-- What an accepted `BO_` line does: it opens a new message without signals at an address that
was free, and restarts the count. -/
theorem statement_BO_shape (env : LibC) (content : Str) (st st1 : ParseState) (l : Line)
    (seen : Bool) (hk : kindOf (Qt.trimmed l.raw_line) = .BO)
    (h : statement env content st l = .ok (st1, seen)) :
    ∃ a v, st1.msgs = mapInsert st.msgs a v ∧ v.sigs = [] ∧ st1.current_msg = some a ∧
      st1.multiplexor_cnt = 0 := by
  unfold statement at h
  simp only [hk] at h
  cases hb : parseBO st.msgs (Qt.trimmed l.raw_line) with
  | error e => simp [hb] at h
  | ok r =>
    obtain ⟨msgs, a⟩ := r
    simp only [hb, Except.ok.injEq, Prod.mk.injEq] at h
    obtain ⟨h, _⟩ := h
    subst h
    unfold parseBO at hb
    cases hs : bo_regexp.search (Qt.trimmed l.raw_line) with
    | none => simp [hs] at hb
    | some m =>
      simp only [hs] at hb
      by_cases hdup : (mapFind st.msgs (Qt.toUInt (captured m 1))).isSome
      · simp [hdup] at hb
      · simp only [hdup, Bool.false_eq_true, if_false, Except.ok.injEq, Prod.mk.injEq] at hb
        obtain ⟨hb1, hb2⟩ := hb
        subst hb1
        subst hb2
        exact ⟨_, _, rfl, rfl, rfl, rfl⟩

/-- What an accepted `SG_` line does: it appends one signal to the open message; the signal is a
multiplexor exactly when the line carries the `M` indicator, and then the count goes from 0
to 1. -/
theorem statement_SG_shape (env : LibC) (content : Str) (st st1 : ParseState) (l : Line)
    (seen : Bool) (hk : kindOf (Qt.trimmed l.raw_line) = .SG)
    (h : statement env content st l = .ok (st1, seen)) :
    ∃ c s, st.current_msg = some c ∧ st1.current_msg = some c ∧
      st1.msgs = mapInsert st.msgs c
        { ((mapFind st.msgs c).getD ({} : cabana.Msg)) with
          sigs := ((mapFind st.msgs c).getD ({} : cabana.Msg)).sigs ++ [s] } ∧
      ((s.type = .Multiplexor ∧ st.multiplexor_cnt = 0 ∧ st1.multiplexor_cnt = 1) ∨
       (s.type ≠ .Multiplexor ∧ st1.multiplexor_cnt = st.multiplexor_cnt)) := by
  unfold statement at h
  simp only [hk] at h
  cases hb : parseSG env st.msgs (Qt.trimmed l.raw_line) st.current_msg st.multiplexor_cnt with
  | error e => simp [hb] at h
  | ok r =>
    obtain ⟨msgs, cnt1⟩ := r
    simp only [hb, Except.ok.injEq, Prod.mk.injEq] at h
    obtain ⟨h, _⟩ := h
    subst h
    unfold parseSG at hb
    cases hc : st.current_msg with
    | none => simp [hc] at hb
    | some c =>
      simp only [hc] at hb
      cases hm : sgMatch (Qt.trimmed l.raw_line) with
      | none => simp [hm] at hb
      | some mo =>
        obtain ⟨m, off⟩ := mo
        simp only [hm] at hb
        by_cases hdup : (((mapFind st.msgs c).getD ({} : cabana.Msg)).sig (captured m 1)).isSome
        · simp [hdup] at hb
        · simp only [hdup, Bool.false_eq_true, if_false] at hb
          by_cases hM : (decide (off = 1) && decide (captured m 2 = "M".toList)) = true
          · simp only [hM, if_true, Bool.true_and] at hb
            by_cases h2 : st.multiplexor_cnt + 1 ≥ 2
            · simp [h2] at hb
            · simp only [h2, decide_False, Bool.false_eq_true, if_false, Except.ok.injEq,
                Prod.mk.injEq] at hb
              obtain ⟨hb1, hb2⟩ := hb
              subst hb1
              subst hb2
              simp only [Bool.and_eq_true, decide_eq_true_eq] at hM
              refine ⟨c, _, rfl, rfl, rfl, Or.inl ⟨?_, by omega, by simp; omega⟩⟩
              simp [hM.1, hM.2]
          · simp only [hM, Bool.false_eq_true, if_false, Bool.false_and, Except.ok.injEq,
              Prod.mk.injEq] at hb
            obtain ⟨hb1, hb2⟩ := hb
            subst hb1
            subst hb2
            simp only [Bool.and_eq_true, decide_eq_true_eq, not_and] at hM
            refine ⟨c, _, rfl, rfl, rfl, Or.inr ⟨?_, rfl⟩⟩
            by_cases ho : off = 1
            · have hne : ¬ captured m 2 = ['M'] := hM ho
              simp [ho, hne]
            · simp [ho]

/-- The invariant of the loop of `parse`: no message has more than one multiplexor, the open
message has no more multiplexors than were counted, and at most one was counted. -/
theorem parseLine_multiplexor_inv (env : LibC) (fn content : Str) (st st1 : ParseState)
    (l : Line) (h : parseLine env fn content st l = .ok st1)
    (i1 : ∀ e ∈ st.msgs, e.2.multiplexorCount ≤ 1)
    (i2 : ∀ c, st.current_msg = some c →
      ((mapFind st.msgs c).getD ({} : cabana.Msg)).multiplexorCount ≤ st.multiplexor_cnt)
    (i3 : st.multiplexor_cnt ≤ 1) :
    (∀ e ∈ st1.msgs, e.2.multiplexorCount ≤ 1) ∧
    (∀ c, st1.current_msg = some c →
      ((mapFind st1.msgs c).getD ({} : cabana.Msg)).multiplexorCount ≤ st1.multiplexor_cnt) ∧
    st1.multiplexor_cnt ≤ 1 := by
  obtain ⟨st2, seen, hs, hm, hc, hn⟩ := parseLine_msgs env fn content st st1 l h
  rw [hm, hc, hn]
  by_cases hk : kindOf (Qt.trimmed l.raw_line) = .BO
  · obtain ⟨a, v, h1, h2, h3, h4⟩ := statement_BO_shape env content st st2 l seen hk hs
    have hv : v.multiplexorCount = 0 := by simp [cabana.Msg.multiplexorCount, h2]
    rw [h1, h3, h4]
    refine ⟨?_, ?_, by omega⟩
    · intro e he
      rcases mem_mapInsert _ _ _ _ he with he | he
      · subst he
        simp only
        omega
      · exact i1 e he
    · intro c hc
      simp only [Option.some.injEq] at hc
      subst hc
      rw [mapFind_mapInsert]
      simp [hv]
  · by_cases hk2 : kindOf (Qt.trimmed l.raw_line) = .SG
    · obtain ⟨c, s, h1, h2, h3, h4⟩ := statement_SG_shape env content st st2 l seen hk2 hs
      have hold := i2 c h1
      have hcount : ({ ((mapFind st.msgs c).getD ({} : cabana.Msg)) with
            sigs := ((mapFind st.msgs c).getD ({} : cabana.Msg)).sigs ++ [s] } :
              cabana.Msg).multiplexorCount =
          ((mapFind st.msgs c).getD ({} : cabana.Msg)).multiplexorCount +
            (if s.type = .Multiplexor then 1 else 0) := by
        unfold cabana.Msg.multiplexorCount
        by_cases hs : s.type = .Multiplexor
        · simp [List.filter_append, hs]
        · simp [List.filter_append, hs]
      have hnew : ({ ((mapFind st.msgs c).getD ({} : cabana.Msg)) with
            sigs := ((mapFind st.msgs c).getD ({} : cabana.Msg)).sigs ++ [s] } :
              cabana.Msg).multiplexorCount ≤ st2.multiplexor_cnt ∧
          st2.multiplexor_cnt ≤ 1 := by
        rw [hcount]
        rcases h4 with ⟨t1, t2, t3⟩ | ⟨t1, t2⟩
        · simp only [t1, if_true]
          omega
        · simp only [t1, if_false]
          omega
      rw [h3, h2]
      refine ⟨?_, ?_, hnew.2⟩
      · intro e he
        rcases mem_mapInsert _ _ _ _ he with he | he
        · subst he
          exact le_trans hnew.1 hnew.2
        · exact i1 e he
      · intro c1 hc1
        simp only [Option.some.injEq] at hc1
        subst hc1
        rw [mapFind_mapInsert]
        simp only [if_true, Option.getD_some]
        exact hnew.1
    · obtain ⟨h1, h2, h3⟩ := annotation_shape env content st st2 l seen hk hk2 hs
      rw [h1, h2]
      rcases h3 with h3 | ⟨k, msg, v, f1, f2, f3⟩
      · rw [h3]
        exact ⟨i1, i2, i3⟩
      · have hv := cabana.Msg.multiplexorCount_of_types msg v f3
        rw [f2]
        refine ⟨?_, ?_, i3⟩
        · intro e he
          rcases mem_mapInsert _ _ _ _ he with he | he
          · subst he
            simp only
            rw [hv]
            exact i1 (k, msg) (mem_of_mapFind _ _ _ f1)
          · exact i1 e he
        · intro c hc
          rw [mapFind_mapInsert]
          by_cases hck : c = k
          · subst hck
            simp only [if_true, Option.getD_some]
            rw [hv]
            have := i2 c hc
            rw [f1] at this
            exact this
          · simp only [hck, if_false]
            exact i2 c hc

theorem parseLines_multiplexor_inv (env : LibC) (fn content : Str) (ls : List Line)
    (st st1 : ParseState) (h : parseLines env fn content st ls = .ok st1)
    (i1 : ∀ e ∈ st.msgs, e.2.multiplexorCount ≤ 1)
    (i2 : ∀ c, st.current_msg = some c →
      ((mapFind st.msgs c).getD ({} : cabana.Msg)).multiplexorCount ≤ st.multiplexor_cnt)
    (i3 : st.multiplexor_cnt ≤ 1) :
    ∀ e ∈ st1.msgs, e.2.multiplexorCount ≤ 1 := by
  induction ls generalizing st with
  | nil =>
    simp only [parseLines, Except.ok.injEq] at h
    subst h
    exact i1
  | cons l ls ih =>
    simp only [parseLines] at h
    cases hl : parseLine env fn content st l with
    | error e => simp [hl] at h
    | ok st2 =>
      simp only [hl] at h
      obtain ⟨j1, j2, j3⟩ := parseLine_multiplexor_inv env fn content st st2 l hl i1 i2 i3
      exact ih st2 h j1 j2 j3

/-- C20. After a successful parse every message of the database has at most one signal of type
`Multiplexor`. -/
theorem at_most_one_multiplexor (env : LibC) (fn name_ content : Str) (db : DBCFile)
    (h : parse env fn name_ content = .ok db) :
    ∀ e ∈ db.msgs, e.2.multiplexorCount ≤ 1 := by
  unfold parse at h
  cases hp : parseLines env fn content {} (readLines content) with
  | error e => simp [hp] at h
  | ok st =>
    simp only [hp, Except.ok.injEq] at h
    subst h
    have hinv := parseLines_multiplexor_inv env fn content _ _ st hp
      (by intro e he; simp at he) (by intro c hc; simp at hc) (by simp)
    intro e he
    simp only [List.mem_map] at he
    obtain ⟨e0, he0, rfl⟩ := he
    have hu : e0.2.update.multiplexorCount = e0.2.multiplexorCount := by
      apply cabana.Msg.multiplexorCount_of_types
      simp [cabana.Msg.update, Function.comp_def]
    simp only
    rw [hu]
    exact hinv e0 he0

set_option maxRecDepth 100000 in
/-- C20, at a text whose message 1 has the multiplexor `S` and the multiplexed signal `T`, and
whose message 2 has the multiplexor `U`. -/
theorem at_most_one_multiplexor_witness :
    ∃ db, parse sampleLibC [] []
        "BO_ 1 A: 8 XXX\n SG_ S M : 0|8@1+ (1,0) [0|255] \"\" XXX\n SG_ T m0 : 8|8@1+ (1,0) [0|255] \"\" XXX\nBO_ 2 B: 8 XXX\n SG_ U M : 0|8@1+ (1,0) [0|255] \"\" XXX\n".toList
          = .ok db ∧
      db.msgs.map (fun e => e.2.multiplexorCount) = [1, 1] ∧
      ∀ e ∈ db.msgs, e.2.multiplexorCount ≤ 1 :=
  ⟨_, rfl, by decide!,
    at_most_one_multiplexor sampleLibC [] []
      "BO_ 1 A: 8 XXX\n SG_ S M : 0|8@1+ (1,0) [0|255] \"\" XXX\n SG_ T m0 : 8|8@1+ (1,0) [0|255] \"\" XXX\nBO_ 2 B: 8 XXX\n SG_ U M : 0|8@1+ (1,0) [0|255] \"\" XXX\n".toList
      _ rfl⟩

end DBCFile

namespace DBCFile

/-- The message at the address after `updateMsg`. -/
theorem updateMsg_msg (db : DBCFile) (id : MessageId) (name node comment : Str) (size : Nat) :
    (db.updateMsg id name size node comment).msg id.address =
      some { ((mapFind db.msgs id.address).getD ({} : cabana.Msg)) with
        address := id.address
        name := name
        size := size
        transmitter := if node.isEmpty then DEFAULT_NODE_NAME else node
        comment := comment } := by
  unfold updateMsg msg
  simp only [mapFind_mapInsert, if_true]

set_option maxRecDepth 100000 in
/-- C18, the code at a failing input. `updateMsg` assigns the address, name, size, transmitter
and comment of the message and nothing else: the mask, the multiplexor linkage and the signals
of the message are those from before the call (those of a new `Msg` when the address was free).
On the database parsed from the text `BO_ 1 A: 1 XXX` with one signal, `updateMsg` of message 1
with the size 2 leaves the mask of the size 1 (8 flags), where the recomputation `update` gives
the mask of the size 2 (16 flags). -/
theorem updateMsg_keeps_old_mask : ∀ env : LibC,
    (∀ (db : DBCFile) (id : MessageId) (name node comment : Str) (size : Nat),
      ∃ m, (db.updateMsg id name size node comment).msg id.address = some m ∧ m.size = size ∧
        m.mask = ((db.msg id.address).getD ({} : cabana.Msg)).mask ∧
        m.multiplexor = ((db.msg id.address).getD ({} : cabana.Msg)).multiplexor ∧
        m.sigs = ((db.msg id.address).getD ({} : cabana.Msg)).sigs) ∧
    ∃ db m0 m,
      fromContent env []
        "BO_ 1 A: 1 XXX\n SG_ S : 0|8@1+ (1,0) [0|255] \"\" XXX\n".toList = .ok db ∧
      db.msg 1 = some m0 ∧ m0.size = 1 ∧ m0.mask = List.replicate 8 false ∧
      (db.updateMsg ⟨0, 1⟩ "A".toList 2 "XXX".toList []).msg 1 = some m ∧
      m.size = 2 ∧ m.mask = List.replicate 8 false ∧
      m.update.mask = List.replicate 16 false := by
  intro env
  constructor
  · intro db id name node comment size
    exact ⟨_, updateMsg_msg db id name node comment size, rfl, rfl, rfl, rfl⟩
  · exact ⟨_, _, _, rfl, rfl, rfl, rfl, rfl, rfl, rfl, rfl⟩

end DBCFile

/-! ## The pattern of the `VAL_` statement -/

/-- The first element of a concatenation over a list whose front elements give nothing. -/
theorem head?_bind_append {α β : Type} (xs ys : List α) (f : α → List β) (y : β)
    (hx : ∀ x ∈ xs, f x = []) (hy : (ys.bind f).head? = some y) :
    ((xs ++ ys).bind f).head? = some y := by
  induction xs with
  | nil => simpa using hy
  | cons a t ih =>
    have ha := hx a (List.mem_cons_self _ _)
    have := ih (fun x hx1 => hx x (List.mem_cons_of_mem _ hx1))
    simpa [List.bind, List.flatMap, ha] using this

namespace Re

/-- Lazy repetition of a class along a run `w` of its characters, followed by a continuation
that gives nothing in front of a character of `w`: the first outcome is that of the continuation
behind `w`. -/
theorem lazyStarRun_cls_first {β : Type} (p : Char → Bool) (g : Str × Caps → List β)
    (caps : Caps) (rest : Str) (z : β) (w : Str) (fuel : Nat)
    (hfuel : (w ++ rest).length ≤ fuel)
    (hw : ∀ x ∈ w, p x = true)
    (hg : ∀ x ∈ w, ∀ t, g (x :: t, caps) = [])
    (hz : (g (rest, caps)).head? = some z) :
    ((lazyStarRun (fun s1 c1 => run (.cls p) false s1 c1) fuel (w ++ rest) caps).bind g).head?
      = some z := by
  induction w generalizing fuel with
  | nil =>
    cases fuel with
    | zero =>
      simp only [List.nil_append, lazyStarRun]
      simpa [List.bind, List.flatMap] using hz
    | succ k =>
      simp only [List.nil_append, lazyStarRun]
      cases hgr : g (rest, caps) with
      | nil => simp [hgr] at hz
      | cons a t =>
        simp only [hgr, List.head?_cons, Option.some.injEq] at hz
        subst hz
        simp [List.bind, List.flatMap, hgr]
  | cons x t ih =>
    cases fuel with
    | zero => simp at hfuel
    | succ k =>
      have hk : (t ++ rest).length ≤ k := by
        simp only [List.cons_append, List.length_cons] at hfuel
        omega
      have hx := hw x (List.mem_cons_self _ _)
      have hgx := hg x (List.mem_cons_self _ _) (t ++ rest)
      have hrec := ih k hk (fun y hy => hw y (List.mem_cons_of_mem _ hy))
        (fun y hy => hg y (List.mem_cons_of_mem _ hy))
      have hstep : lazyStarRun (fun s1 c1 => run (.cls p) false s1 c1) (k + 1)
          (x :: t ++ rest) caps =
          [(x :: (t ++ rest), caps)] ++
            lazyStarRun (fun s1 c1 => run (.cls p) false s1 c1) k (t ++ rest) caps := by
        simp [lazyStarRun, run, hx, List.bind, List.flatMap]
      rw [hstep]
      apply head?_bind_append
      · intro y hy
        simp only [List.mem_singleton] at hy
        subst hy
        exact hgx
      · exact hrec

/-- Pattern `.+?` in front of a continuation: on a non-empty run `c :: w` of characters other
than the newline, when the continuation gives nothing in front of a character of `w`, the
first outcome is that of the continuation behind the run. -/
theorem First.lazy_plus_dot {Y : Re} (c : Char) (w rest s1 : Str) (caps caps1 : Caps)
    (hc : isDot c = true) (hw : ∀ x ∈ w, isDot x = true)
    (hY : ∀ x ∈ w, ∀ t st, run Y st (x :: t) caps = [])
    (hrest : First Y rest caps s1 caps1) :
    First (.seq (.seq (.cls isDot) (.lazyStar (.cls isDot))) Y) (c :: (w ++ rest)) caps s1 caps1 := by
  intro st
  have hX : run (.seq (.cls isDot) (.lazyStar (.cls isDot))) st (c :: (w ++ rest)) caps =
      lazyStarRun (fun s1 c1 => run (.cls isDot) false s1 c1) (w ++ rest).length (w ++ rest)
        caps := by
    simp [run, hc, List.bind, List.flatMap]
  simp only [run] at hX ⊢
  rw [hX]
  apply lazyStarRun_cls_first isDot _ caps rest (s1, caps1) w _ (le_refl _) hw
  · intro x hx t
    exact hY x hx t _
  · exact hrest _

end Re

theorem digitChar_facts (c : Char) (h : isDigitChar c = true) :
    isReSpace c = false ∧ isPlusMinus c = false ∧ Qt.isSpace c = false ∧ c ≠ '"' ∧ c ≠ ';' := by
  have hn : 48 ≤ c.toNat ∧ c.toNat ≤ 57 := by
    simpa [isDigitChar] using h
  refine ⟨?_, ?_, ?_, ?_, ?_⟩
  · simp only [isReSpace, Bool.or_eq_false_iff, Bool.and_eq_false_iff, beq_eq_false_iff_ne,
      decide_eq_false_iff_not]
    omega
  · have h1 : c ≠ '-' := by intro e; rw [e] at h; simp [isDigitChar] at h
    have h2 : c ≠ '+' := by intro e; rw [e] at h; simp [isDigitChar] at h
    simp [isPlusMinus, h1, h2]
  · simp only [Qt.isSpace, Bool.or_eq_false_iff, Bool.and_eq_false_iff, beq_eq_false_iff_ne,
      decide_eq_false_iff_not]
    omega
  · intro e; rw [e] at h; simp [isDigitChar] at h
  · intro e; rw [e] at h; simp [isDigitChar] at h

namespace DBCFile

/-- What `val_regexp` finds in a `VAL_` statement whose first value is an optionally signed run
of digits `sgn ++ d` and whose first label `l1` is not empty: group 3 is the text from the first
value up to the first semicolon. -/
theorem val_search (A N sgn d l1 more tail : Str)
    (hA : A ≠ []) (hAw : ∀ x ∈ A, isWordChar x = true)
    (hN : N ≠ []) (hNw : ∀ x ∈ N, isWordChar x = true)
    (hsgn : sgn = [] ∨ sgn = ['-'] ∨ sgn = ['+'])
    (hd : d ≠ []) (hdw : ∀ x ∈ d, isDigitChar x = true)
    (hl1 : l1 ≠ []) (hl1q : ∀ x ∈ l1, x ≠ '"' ∧ x ≠ '\n')
    (hmore : ∀ x ∈ more, x ≠ ';') :
    val_regexp.search ("VAL_ ".toList ++ (A ++ ' ' :: (N ++ ' ' ::
      ((sgn ++ (d ++ ' ' :: '"' :: (l1 ++ '"' :: more))) ++ ';' :: tail)))) =
      some [(3, sgn ++ (d ++ ' ' :: '"' :: (l1 ++ '"' :: more))), (2, N), (1, A)] := by
  apply Re.search_of_first _ _ (';' :: tail) _
  unfold val_regexp
  simp only [Re.seqs]
  refine (?_ : Re.First _ _ _ _ _) true
  refine Re.First.seq (Re.First.lits _ _ _) ?_
  refine Re.First.seq (Re.First.group 1 (Re.First.plus_cls isWordChar _ A _ hA hAw ?_)) ?_
  · simp [isWordChar]
  refine Re.First.seq (Re.First.lit ' ' _ _) ?_
  refine Re.First.seq (Re.First.group 2 (Re.First.plus_cls isWordChar _ N _ hN hNw ?_)) ?_
  · simp [isWordChar]
  refine Re.First.seq (Re.First.lit ' ' _ _) ?_
  apply Re.First.group 3
  have hre : (sgn ++ (d ++ ' ' :: '"' :: (l1 ++ '"' :: more))) ++ ';' :: tail =
      sgn ++ (d ++ ' ' :: '"' :: (l1 ++ '"' :: (more ++ ';' :: tail))) := by
    simp [List.append_assoc]
  rw [hre]
  cases d with
  | nil => exact absurd rfl hd
  | cons d0 dt =>
    have hd0 := digitChar_facts d0 (hdw d0 (List.mem_cons_self _ _))
    cases l1 with
    | nil => exact absurd rfl hl1
    | cons c w =>
      have hc := hl1q c (List.mem_cons_self _ _)
      -- the part from the digits on
      have hdigits : Re.First
          (.seq (Re.plus (.cls isDigitChar)) (.seq (Re.plus (.cls isReSpace)) (.seq (.lit '"')
            (.seq (.seq (.cls isDot) (.lazyStar (.cls isDot)))
              (.seq (.lit '"') (.star (.cls isNotSemicolon)))))))
          ((d0 :: dt) ++ ' ' :: '"' :: ((c :: w) ++ '"' :: (more ++ ';' :: tail)))
          [(2, N), (1, A)] (';' :: tail) [(2, N), (1, A)] := by
        refine Re.First.seq (Re.First.plus_cls isDigitChar _ (d0 :: dt) _ (by simp) hdw ?_) ?_
        · simp [isDigitChar]
        refine Re.First.seq (Re.First.plus_cls isReSpace _ [' '] _ (by simp) ?_ ?_) ?_
        · intro x hx
          simp only [List.mem_singleton] at hx
          subst hx
          decide
        · simp [isReSpace]
        refine Re.First.seq (Re.First.lit '"' _ _) ?_
        apply Re.First.lazy_plus_dot c w _ _ _ _
        · simp [isDot, hc.2]
        · intro x hx
          simp [isDot, (hl1q x (List.mem_cons_of_mem _ hx)).2]
        · intro x hx t st
          have hxq := (hl1q x (List.mem_cons_of_mem _ hx)).1
          simp [Re.run, hxq]
        · refine Re.First.seq (Re.First.lit '"' _ _) ?_
          apply Re.First.star_cls isNotSemicolon _ more _
          · intro x hx
            simp [isNotSemicolon, hmore x hx]
          · simp [isNotSemicolon]
      rcases hsgn with rfl | rfl | rfl
      · refine Re.First.seq (Re.First.star_cls isReSpace _ [] _ ?_ ?_) ?_
        · intro x hx
          simp at hx
        · simp [hd0.1]
        refine Re.First.seq (Re.First.alt_right ?_ (Re.First.eps _ _)) ?_
        · intro st
          simp [Re.run, hd0.2.1]
        exact hdigits
      · refine Re.First.seq (Re.First.star_cls isReSpace _ [] _ ?_ ?_) ?_
        · intro x hx
          simp at hx
        · simp [isReSpace]
        refine Re.First.seq (Re.First.alt_left (Re.First.cls isPlusMinus '-' _ _ (by decide))) ?_
        exact hdigits
      · refine Re.First.seq (Re.First.star_cls isReSpace _ [] _ ?_ ?_) ?_
        · intro x hx
          simp at hx
        · simp [isReSpace]
        refine Re.First.seq (Re.First.alt_left (Re.First.cls isPlusMinus '+' _ _ (by decide))) ?_
        exact hdigits

end DBCFile

namespace Qt

theorem dropWhile_of_head (p : Char → Bool) (l : Str)
    (h : ∀ x, l.head? = some x → p x = false) : l.dropWhile p = l := by
  cases l with
  | nil => rfl
  | cons c t => simp [List.dropWhile, h c rfl]

/-- A token without white space between blanks, or with a blank behind it, trims to itself. -/
theorem trimmed_token (v : Str) (hv : v ≠ []) (hs : ∀ x ∈ v, isSpace x = false) :
    trimmed (v ++ [' ']) = v ∧ trimmed (' ' :: (v ++ [' '])) = v := by
  have h1 : (v ++ [' ']).dropWhile isSpace = v ++ [' '] := by
    apply dropWhile_of_head
    intro x hx
    cases v with
    | nil => exact absurd rfl hv
    | cons c t =>
      simp only [List.cons_append, List.head?_cons, Option.some.injEq] at hx
      subst hx
      exact hs c (List.mem_cons_self _ _)
  have h2 : (v ++ [' ']).reverse.dropWhile isSpace = v.reverse := by
    rw [List.reverse_append]
    have hb : isSpace ' ' = true := by decide
    simp only [List.reverse_cons, List.reverse_nil, List.nil_append, List.singleton_append,
      List.dropWhile_cons, hb, if_true]
    apply dropWhile_of_head
    intro x hx
    exact hs x (List.mem_reverse.mp (List.mem_of_mem_head? hx))
  constructor
  · unfold trimmed
    rw [h1, h2, List.reverse_reverse]
  · unfold trimmed
    have hb : isSpace ' ' = true := by decide
    rw [List.dropWhile_cons, if_pos hb, h1, h2, List.reverse_reverse]

end Qt

namespace DBCFile

/-- The pieces between the quotes of the pairs after the first, and the empty piece behind the
last quote. -/
theorem split_valTail (rest : List (Str × Str))
    (h : ∀ p ∈ rest, (∀ x ∈ p.1, x ≠ '"') ∧ ∀ x ∈ p.2, x ≠ '"') :
    Qt.split '"' (valTail rest) =
      (rest.map (fun p => [' ' :: (p.1 ++ [' ']), p.2])).flatten ++ [[]] := by
  induction rest with
  | nil => simp [valTail, Qt.split]
  | cons p t ih =>
    obtain ⟨v, l⟩ := p
    have hp := h (v, l) (List.mem_cons_self _ _)
    have e : valTail ((v, l) :: t) = (' ' :: (v ++ [' '])) ++ '"' :: (l ++ '"' :: valTail t) := by
      simp [valTail, List.append_assoc]
    rw [e, Qt.split_piece, Qt.split_piece, ih (fun q hq => h q (List.mem_cons_of_mem _ hq))]
    · simp
    · intro hq
      exact hp.2 _ hq rfl
    · intro hq
      simp only [List.mem_cons, List.mem_append, List.mem_singleton] at hq
      rcases hq with hq | hq | hq
      · exact absurd hq (by decide)
      · exact hp.1 _ hq rfl
      · rcases hq with hq | hq
        · exact absurd hq (by decide)
        · simp at hq

/-- The loop of `parseVAL` over the pieces of the pairs after the first. -/
theorem valPairs_valTail (env : LibC) (rest : List (Str × Str))
    (h : ∀ p ∈ rest, p.1 ≠ [] ∧ ∀ x ∈ p.1, Qt.isSpace x = false) :
    valPairs env ((rest.map (fun p => [' ' :: (p.1 ++ [' ']), p.2])).flatten ++ [[]]) =
      rest.map (fun p => (env.toDouble p.1, Qt.trimmed p.2)) := by
  induction rest with
  | nil => simp [valPairs]
  | cons p t ih =>
    obtain ⟨v, l⟩ := p
    have hp := h (v, l) (List.mem_cons_self _ _)
    have ht := (Qt.trimmed_token v hp.1 hp.2).2
    have hne : v.isEmpty = false := by
      cases v with
      | nil => exact absurd rfl hp.1
      | cons c u => rfl
    have hstep : valPairs env (((((v, l) :: t).map
        (fun p => [' ' :: (p.1 ++ [' ']), p.2])).flatten) ++ [[]]) =
        (env.toDouble v, Qt.trimmed l) ::
          valPairs env ((t.map (fun p => [' ' :: (p.1 ++ [' ']), p.2])).flatten ++ [[]]) := by
      show valPairs env ((' ' :: (v ++ [' '])) :: l ::
        ((t.map (fun p => [' ' :: (p.1 ++ [' ']), p.2])).flatten ++ [[]])) = _
      rw [valPairs, ht]
      simp only [hne, Bool.false_eq_true, if_false]
    rw [hstep, ih (fun q hq => h q (List.mem_cons_of_mem _ hq))]
    rfl

theorem valTail_chars (rest : List (Str × Str)) (c : Char) (hc : c ≠ ' ') (hq : c ≠ '"')
    (h : ∀ p ∈ rest, (∀ x ∈ p.1, x ≠ c) ∧ ∀ x ∈ p.2, x ≠ c) :
    ∀ x ∈ valTail rest, x ≠ c := by
  induction rest with
  | nil => simp [valTail]
  | cons p t ih =>
    obtain ⟨v, l⟩ := p
    have hp := h (v, l) (List.mem_cons_self _ _)
    intro x hx
    simp only [valTail, String.toList, List.mem_append, List.mem_cons, List.mem_singleton,
      List.not_mem_nil, or_false] at hx
    rcases hx with ((((hx | hx) | hx) | hx) | hx) | hx
    · rw [hx]; exact fun e => hc e.symm
    · exact hp.1 x hx
    · rcases hx with hx | hx
      · rw [hx]; exact fun e => hc e.symm
      · rw [hx]; exact fun e => hq e.symm
    · exact hp.2 x hx
    · rw [hx]; exact fun e => hq e.symm
    · exact ih (fun q hq1 => h q (List.mem_cons_of_mem _ hq1)) x hx

theorem valTail_getLast (rest : List (Str × Str)) (l : Str) :
    (l ++ '"' :: valTail rest).getLast? = some '"' := by
  induction rest generalizing l with
  | nil =>
    have e : l ++ '"' :: valTail [] = l ++ ['"'] := by simp [valTail]
    rw [e, List.getLast?_concat]
  | cons p t ih =>
    obtain ⟨v, l2⟩ := p
    have e : l ++ '"' :: valTail ((v, l2) :: t) =
        (l ++ '"' :: ' ' :: (v ++ [' ', '"'] ++ l2)) ++ '"' :: valTail t := by
      simp [valTail, List.append_assoc]
    rw [e]
    exact ih _

set_option maxRecDepth 100000 in
/-- C14, refuted. The statement `VAL_ 100 SPEED 0 " STOPPED";` names the signal `SPEED` of
message 100 and gives the label ` STOPPED` (with a leading blank); the pair appended is
`(0, "STOPPED")`, not `(0, " STOPPED")`. -/
theorem val_label_with_blank_is_trimmed :
    ∃ db, fromContent sampleLibC []
        "BO_ 100 M: 8 XXX\n SG_ SPEED : 0|8@1+ (1,0) [0|255] \"\" XXX\nVAL_ 100 SPEED 0 \" STOPPED\";\n".toList
          = .ok db ∧
      (db.signal 100 "SPEED".toList).map (fun s => s.val_desc) =
        some [(⟨0⟩, "STOPPED".toList)] ∧
      (db.signal 100 "SPEED".toList).map (fun s => s.val_desc) ≠
        some [(⟨0⟩, " STOPPED".toList)] :=
  ⟨_, rfl, by decide!, by decide!⟩

/-- C14, amended. For a statement `VAL_ <address> <signal> v1 "l1" v2 "l2" ... vn "ln";`, written
with single blanks, that names an existing signal, `parseVAL` appends to the value descriptions
of that signal exactly the n pairs (v1 as a double, l1 trimmed), ..., (vn as a double, ln
trimmed) in textual order, when v1 is an optionally signed run of decimal digits, the other
values are non-empty tokens without white space, quote or semicolon, the first label is not
empty and holds no quote or newline, and the other labels hold no quote or semicolon. -/
theorem val_pairs_appended_trimmed (env : LibC) (msgs : Msgs) (A N sgn d l1 : Str)
    (rest : List (Str × Str)) (msg : cabana.Msg) (s : cabana.Signal)
    (hA : A ≠ []) (hAw : ∀ x ∈ A, isWordChar x = true)
    (hN : N ≠ []) (hNw : ∀ x ∈ N, isWordChar x = true)
    (hsgn : sgn = [] ∨ sgn = ['-'] ∨ sgn = ['+'])
    (hd : d ≠ []) (hdw : ∀ x ∈ d, isDigitChar x = true)
    (hl1 : l1 ≠ []) (hl1q : ∀ x ∈ l1, x ≠ '"' ∧ x ≠ '\n')
    (hrest : ∀ p ∈ rest, p.1 ≠ [] ∧
      (∀ x ∈ p.1, Qt.isSpace x = false ∧ x ≠ '"' ∧ x ≠ ';') ∧ ∀ x ∈ p.2, x ≠ '"' ∧ x ≠ ';')
    (hmsg : mapFind msgs (Qt.toUInt A) = some msg) (hsig : msg.sig N = some s) :
    parseVAL env msgs (valStatement A N (sgn ++ d) l1 rest) =
      .ok (appendValDesc msgs (Qt.toUInt A) N
        ((env.toDouble (sgn ++ d), Qt.trimmed l1) ::
          rest.map (fun p => (env.toDouble p.1, Qt.trimmed p.2)))) := by
  have hline : valStatement A N (sgn ++ d) l1 rest =
      "VAL_ ".toList ++ (A ++ ' ' :: (N ++ ' ' ::
        ((sgn ++ (d ++ ' ' :: '"' :: (l1 ++ '"' :: valTail rest))) ++ ';' :: []))) := by
    simp [valStatement, List.append_assoc]
  have hsemi : ∀ x ∈ valTail rest, x ≠ ';' :=
    valTail_chars rest ';' (by decide) (by decide)
      (fun p hp => ⟨fun x hx => ((hrest p hp).2.1 x hx).2.2, fun x hx => ((hrest p hp).2.2 x hx).2⟩)
  have hsearch := val_search A N sgn d l1 (valTail rest) [] hA hAw hN hNw hsgn hd hdw hl1 hl1q
    hsemi
  -- the first value
  have hv1ne : sgn ++ d ≠ [] := by
    cases d with
    | nil => exact absurd rfl hd
    | cons d0 dt => simp
  have hv1s : ∀ x ∈ sgn ++ d, Qt.isSpace x = false ∧ x ≠ '"' := by
    intro x hx
    rw [List.mem_append] at hx
    rcases hx with hx | hx
    · rcases hsgn with h | h | h
      · rw [h] at hx; simp at hx
      · rw [h] at hx
        simp only [List.mem_singleton] at hx
        subst hx
        exact ⟨by decide, by decide⟩
      · rw [h] at hx
        simp only [List.mem_singleton] at hx
        subst hx
        exact ⟨by decide, by decide⟩
    · have := digitChar_facts x (hdw x hx)
      exact ⟨this.2.2.1, this.2.2.2.1⟩
  -- the text of group 3 and its pieces
  have hx3 : sgn ++ (d ++ ' ' :: '"' :: (l1 ++ '"' :: valTail rest)) =
      ((sgn ++ d) ++ [' ']) ++ '"' :: (l1 ++ '"' :: valTail rest) := by
    simp [List.append_assoc]
  have htrim : Qt.trimmed (sgn ++ (d ++ ' ' :: '"' :: (l1 ++ '"' :: valTail rest))) =
      sgn ++ (d ++ ' ' :: '"' :: (l1 ++ '"' :: valTail rest)) := by
    rw [Qt.trimmed_eq_self_iff]
    constructor
    · intro x hx
      have hmem : x ∈ sgn ++ d := by
        cases hsd : sgn ++ d with
        | nil => exact absurd hsd hv1ne
        | cons c t =>
          rw [hx3, hsd] at hx
          simp only [List.cons_append, List.head?_cons, Option.some.injEq] at hx
          subst hx
          exact List.mem_cons_self _ _
      exact (hv1s x hmem).1
    · intro x hx
      have e : sgn ++ (d ++ ' ' :: '"' :: (l1 ++ '"' :: valTail rest)) =
          (sgn ++ (d ++ ' ' :: '"' :: l1)) ++ '"' :: valTail rest := by
        simp [List.append_assoc]
      rw [e, valTail_getLast] at hx
      simp only [Option.some.injEq] at hx
      subst hx
      decide
  have hsplit : Qt.split '"' (sgn ++ (d ++ ' ' :: '"' :: (l1 ++ '"' :: valTail rest))) =
      ((sgn ++ d) ++ [' ']) :: l1 ::
        ((rest.map (fun p => [' ' :: (p.1 ++ [' ']), p.2])).flatten ++ [[]]) := by
    rw [hx3, Qt.split_piece, Qt.split_piece, split_valTail]
    · intro p hp
      exact ⟨fun x hx => ((hrest p hp).2.1 x hx).2.1, fun x hx => ((hrest p hp).2.2 x hx).1⟩
    · intro hq
      exact (hl1q _ hq).1 rfl
    · intro hq
      rw [List.mem_append] at hq
      rcases hq with hq | hq
      · exact (hv1s _ hq).2 rfl
      · simp at hq
  have hpairs : valPairs env (Qt.split '"'
      (Qt.trimmed (sgn ++ (d ++ ' ' :: '"' :: (l1 ++ '"' :: valTail rest))))) =
      (env.toDouble (sgn ++ d), Qt.trimmed l1) ::
        rest.map (fun p => (env.toDouble p.1, Qt.trimmed p.2)) := by
    rw [htrim, hsplit]
    have ht := (Qt.trimmed_token (sgn ++ d) hv1ne (fun x hx => (hv1s x hx).1)).1
    have hne : (sgn ++ d).isEmpty = false := by
      cases hsd : sgn ++ d with
      | nil => exact absurd hsd hv1ne
      | cons c u => rfl
    simp only [valPairs, ht, hne, Bool.false_eq_true, if_false]
    rw [valPairs_valTail env rest (fun p hp =>
      ⟨(hrest p hp).1, fun x hx => ((hrest p hp).2.1 x hx).1⟩)]
  rw [hline]
  unfold parseVAL appendValDesc
  rw [hsearch]
  have c1 : captured [(3, sgn ++ (d ++ ' ' :: '"' :: (l1 ++ '"' :: valTail rest))), (2, N),
      (1, A)] 1 = A := by simp [captured, List.lookup]
  have c2 : captured [(3, sgn ++ (d ++ ' ' :: '"' :: (l1 ++ '"' :: valTail rest))), (2, N),
      (1, A)] 2 = N := by simp [captured, List.lookup]
  have c3 : captured [(3, sgn ++ (d ++ ' ' :: '"' :: (l1 ++ '"' :: valTail rest))), (2, N),
      (1, A)] 3 = sgn ++ (d ++ ' ' :: '"' :: (l1 ++ '"' :: valTail rest)) := by
    simp [captured, List.lookup]
  simp only [c1, c2, c3, hmsg, hsig, hpairs]

set_option maxRecDepth 100000 in
/-- C14, at the statement `VAL_ 100 SPEED 0 "STOPPED" 1 "MOVING";` for a map whose message 100
has the signal `SPEED`: the pairs appended are `(0, "STOPPED")` and `(1, "MOVING")`. -/
theorem val_pairs_appended_trimmed_witness :
    ∃ msgs1, parseVAL sampleLibC
        [(100, { address := 100, sigs := [{ name := "SPEED".toList }] })]
        "VAL_ 100 SPEED 0 \"STOPPED\" 1 \"MOVING\";".toList = .ok msgs1 ∧
      (signalIn msgs1 100 "SPEED".toList).map (fun s => s.val_desc) =
        some [(⟨0⟩, "STOPPED".toList), (⟨1⟩, "MOVING".toList)] :=
  ⟨_, val_pairs_appended_trimmed sampleLibC
    [(100, { address := 100, sigs := [{ name := "SPEED".toList }] })]
    "100".toList "SPEED".toList [] "0".toList "STOPPED".toList [("1".toList, "MOVING".toList)]
    { address := 100, sigs := [{ name := "SPEED".toList }] } { name := "SPEED".toList }
    (by decide) (by decide) (by decide) (by decide) (Or.inl rfl) (by decide) (by decide)
    (by decide) (by decide) (by decide) (by decide!) (by decide!), by decide!⟩

end DBCFile

/-! ## Rounding to nearest and the exponents of a fraction -/

namespace Ieee

theorem roundDiv_eq_rne (num den : Nat) (hden : 0 < den) :
    (roundDiv num den : ℤ) = rne ((num : ℚ) / (den : ℚ)) := by
  have hd : (0 : ℚ) < den := by exact_mod_cast hden
  have hfloor : ⌊(num : ℚ) / (den : ℚ)⌋ = ((num / den : ℕ) : ℤ) := by
    rw [Rat.floor_natCast_div_natCast]
    norm_cast
  have hfrac : (num : ℚ) / den - ((num / den : ℕ) : ℚ) = ((num % den : ℕ) : ℚ) / den := by
    have h := Nat.div_add_mod num den
    have hq : (num : ℚ) = den * ((num / den : ℕ) : ℚ) + ((num % den : ℕ) : ℚ) := by
      exact_mod_cast h.symm
    field_simp
    linarith
  have hc1 : (1 / 2 : ℚ) < ((num % den : ℕ) : ℚ) / den ↔ den < 2 * (num % den) := by
    rw [lt_div_iff hd]
    constructor
    · intro h
      have : (den : ℚ) < 2 * ((num % den : ℕ) : ℚ) := by linarith
      exact_mod_cast this
    · intro h
      have : (den : ℚ) < 2 * ((num % den : ℕ) : ℚ) := by exact_mod_cast h
      linarith
  have hc2 : ((num % den : ℕ) : ℚ) / den = 1 / 2 ↔ 2 * (num % den) = den := by
    rw [div_eq_iff (ne_of_gt hd)]
    constructor
    · intro h
      have : 2 * ((num % den : ℕ) : ℚ) = (den : ℚ) := by linarith
      exact_mod_cast this
    · intro h
      have : 2 * ((num % den : ℕ) : ℚ) = (den : ℚ) := by exact_mod_cast h
      linarith
  have hc3 : ((num / den : ℕ) : ℤ) % 2 = 1 ↔ num / den % 2 = 1 := by
    omega
  unfold rne roundDiv
  rw [hfloor]
  have hcast : (((num / den : ℕ) : ℤ) : ℚ) = ((num / den : ℕ) : ℚ) := by norm_cast
  rw [hcast, hfrac]
  by_cases hcond : den < 2 * (num % den) ∨ (2 * (num % den) = den ∧ num / den % 2 = 1)
  · have hr : 1 / 2 < ((num % den : ℕ) : ℚ) / den ∨
        (((num % den : ℕ) : ℚ) / den = 1 / 2 ∧ ((num / den : ℕ) : ℤ) % 2 = 1) := by
      rw [hc1, hc2, hc3]
      exact hcond
    rw [if_pos hcond, if_pos hr]
    push_cast
    rfl
  · have hr : ¬ (1 / 2 < ((num % den : ℕ) : ℚ) / den ∨
        (((num % den : ℕ) : ℚ) / den = 1 / 2 ∧ ((num / den : ℕ) : ℤ) % 2 = 1)) := by
      rw [hc1, hc2, hc3]
      exact hcond
    rw [if_neg hcond, if_neg hr]

theorem rne_close (v : ℚ) : |(rne v : ℚ) - v| ≤ 1 / 2 := by
  have h1 := Int.floor_le v
  have h2 := Int.lt_floor_add_one v
  unfold rne
  split
  · rename_i h
    rw [abs_le]
    push_cast
    rcases h with h | h
    · constructor <;> linarith
    · constructor <;> linarith [h.1]
  · rename_i h
    rw [abs_le]
    have h3 : v - ⌊v⌋ ≤ 1 / 2 := by
      by_contra hc
      exact h (Or.inl (lt_of_not_ge hc))
    constructor <;> linarith

/-- An integer closer than one half to a number is its rounding. -/
theorem rne_eq_of_close (v : ℚ) (n : ℤ) (h : |(n : ℚ) - v| < 1 / 2) : rne v = n := by
  rw [abs_lt] at h
  have hclose := rne_close v
  rw [abs_le] at hclose
  have h1 : ((rne v - n : ℤ) : ℚ) < 1 := by
    push_cast
    linarith
  have h2 : (-1 : ℚ) < ((rne v - n : ℤ) : ℚ) := by
    push_cast
    linarith
  have h3 : rne v - n < 1 := by exact_mod_cast h1
  have h4 : -1 < rne v - n := by exact_mod_cast h2
  omega

theorem rne_nonneg (v : ℚ) (hv : 0 ≤ v) : 0 ≤ rne v := by
  have h0 : 0 ≤ ⌊v⌋ := Int.floor_nonneg.mpr hv
  unfold rne
  split <;> omega

theorem rne_le_of_le (v : ℚ) (n : ℤ) (h : v ≤ n) : rne v ≤ n := by
  by_contra hc
  have hc1 : n + 1 ≤ rne v := by omega
  have hclose := rne_close v
  rw [abs_le] at hclose
  have hq : ((n + 1 : ℤ) : ℚ) ≤ (rne v : ℚ) := by exact_mod_cast hc1
  push_cast at hq
  have hfl : ⌊v⌋ ≤ n := by
    have := Int.floor_le v
    have h5 : (⌊v⌋ : ℚ) ≤ n := le_trans this h
    exact_mod_cast h5
  unfold rne at hc1
  split at hc1
  · rename_i hh
    have hfl2 : ⌊v⌋ = n := by omega
    rw [hfl2] at hh
    rcases hh with hh | hh
    · linarith
    · linarith [hh.1]
  · omega

theorem rne_ge_of_ge (v : ℚ) (n : ℤ) (h : (n : ℚ) ≤ v) : n ≤ rne v := by
  have hfl : n ≤ ⌊v⌋ := Int.le_floor.mpr h
  unfold rne
  split <;> omega

theorem zpow_split (b : ℚ) (hb : b ≠ 0) (X : ℤ) :
    b ^ X = b ^ X.toNat / b ^ (-X).toNat := by
  rcases le_total 0 X with h | h
  · have h1 : (-X).toNat = 0 := Int.toNat_eq_zero.mpr (by omega)
    rw [h1, pow_zero, div_one]
    conv_lhs => rw [← Int.toNat_of_nonneg h]
    rw [zpow_natCast]
  · have h1 : X.toNat = 0 := Int.toNat_eq_zero.mpr h
    rw [h1, pow_zero, one_div]
    have h2 : X = -((-X).toNat : ℤ) := by
      rw [Int.toNat_of_nonneg (by omega)]
      omega
    conv_lhs => rw [h2]
    rw [zpow_neg, zpow_natCast]

theorem pow2Le_iff (A B : Nat) (hB : 0 < B) (E : ℤ) :
    pow2Le A B E = true ↔ (2 : ℚ) ^ E ≤ (A : ℚ) / B := by
  have hb : (0 : ℚ) < B := by exact_mod_cast hB
  unfold pow2Le
  rw [zpow_split 2 (by norm_num) E]
  by_cases h : 0 ≤ E
  · have h1 : (-E).toNat = 0 := Int.toNat_eq_zero.mpr (by omega)
    simp only [h, if_true, decide_eq_true_eq, h1, pow_zero, div_one]
    rw [le_div_iff hb]
    constructor
    · intro hh
      have : ((B * 2 ^ E.toNat : ℕ) : ℚ) ≤ (A : ℚ) := by exact_mod_cast hh
      push_cast at this
      linarith
    · intro hh
      have : ((B * 2 ^ E.toNat : ℕ) : ℚ) ≤ (A : ℚ) := by
        push_cast
        linarith
      exact_mod_cast this
  · have h1 : E.toNat = 0 := Int.toNat_eq_zero.mpr (by omega)
    simp only [h, if_false, decide_eq_true_eq, h1, pow_zero]
    have hp : (0 : ℚ) < 2 ^ (-E).toNat := by positivity
    rw [div_le_div_iff hp hb]
    constructor
    · intro hh
      have : ((B : ℕ) : ℚ) ≤ ((A * 2 ^ (-E).toNat : ℕ) : ℚ) := by exact_mod_cast hh
      push_cast at this
      linarith
    · intro hh
      have : ((B : ℕ) : ℚ) ≤ ((A * 2 ^ (-E).toNat : ℕ) : ℚ) := by
        push_cast
        linarith
      exact_mod_cast this

theorem pow10Le_iff (N D : Nat) (hD : 0 < D) (X : ℤ) :
    pow10Le N D X = true ↔ (10 : ℚ) ^ X ≤ (N : ℚ) / D := by
  have hb : (0 : ℚ) < D := by exact_mod_cast hD
  unfold pow10Le
  rw [zpow_split 10 (by norm_num) X]
  by_cases h : 0 ≤ X
  · have h1 : (-X).toNat = 0 := Int.toNat_eq_zero.mpr (by omega)
    simp only [h, if_true, decide_eq_true_eq, h1, pow_zero, div_one]
    rw [le_div_iff hb]
    constructor
    · intro hh
      have : ((D * 10 ^ X.toNat : ℕ) : ℚ) ≤ (N : ℚ) := by exact_mod_cast hh
      push_cast at this
      linarith
    · intro hh
      have : ((D * 10 ^ X.toNat : ℕ) : ℚ) ≤ (N : ℚ) := by
        push_cast
        linarith
      exact_mod_cast this
  · have h1 : X.toNat = 0 := Int.toNat_eq_zero.mpr (by omega)
    simp only [h, if_false, decide_eq_true_eq, h1, pow_zero]
    have hp : (0 : ℚ) < 10 ^ (-X).toNat := by positivity
    rw [div_le_div_iff hp hb]
    constructor
    · intro hh
      have : ((D : ℕ) : ℚ) ≤ ((N * 10 ^ (-X).toNat : ℕ) : ℚ) := by exact_mod_cast hh
      push_cast at this
      linarith
    · intro hh
      have : ((D : ℕ) : ℚ) ≤ ((N * 10 ^ (-X).toNat : ℕ) : ℚ) := by
        push_cast
        linarith
      exact_mod_cast this

/-- The exponent with `b ^ E ≤ v < b ^ (E + 1)` is the integer logarithm of `v`. -/
theorem log_eq_of_bounds (b : ℕ) (hb : 1 < b) (v : ℚ) (hv : 0 < v) (E : ℤ)
    (h1 : (b : ℚ) ^ E ≤ v) (h2 : v < (b : ℚ) ^ (E + 1)) : Int.log b v = E := by
  have a1 := (Int.zpow_le_iff_le_log hb hv).mp h1
  have a2 := (Int.lt_zpow_iff_log_lt hb hv).mp h2
  omega

end Ieee

namespace Qt

/-- The number of digits of the decimal text of a number. -/
theorem decimalAux_length (fuel n : Nat) (acc : Str) (h : n < fuel) :
    ∃ L, 1 ≤ L ∧ (decimalAux fuel n acc).length = acc.length + L ∧ n < 10 ^ L ∧
      (0 < n → 10 ^ (L - 1) ≤ n) := by
  induction fuel generalizing n acc with
  | zero => omega
  | succ f ih =>
    unfold decimalAux
    by_cases h10 : n < 10
    · simp only [h10, if_true]
      exact ⟨1, le_refl _, by simp, by simpa using h10, fun hn => by simpa using hn⟩
    · simp only [h10, if_false]
      have hdiv : n / 10 < f := by omega
      obtain ⟨L, hL, hlen, hlt, hge⟩ := ih (n / 10) (Char.ofNat (48 + n % 10) :: acc) hdiv
      refine ⟨L + 1, by omega, ?_, ?_, ?_⟩
      · rw [hlen]
        simp only [List.length_cons]
        omega
      · rw [pow_succ]
        omega
      · intro _
        have h1 := hge (by omega)
        have e : L + 1 - 1 = (L - 1) + 1 := by omega
        rw [e, pow_succ]
        omega

theorem decimal_length (n : Nat) (hn : 0 < n) :
    1 ≤ (decimal n).length ∧ 10 ^ ((decimal n).length - 1) ≤ n ∧ n < 10 ^ (decimal n).length := by
  obtain ⟨L, hL, hlen, hlt, hge⟩ := decimalAux_length (n + 1) n [] (by omega)
  unfold decimal
  rw [hlen]
  simp only [List.length_nil, Nat.zero_add]
  exact ⟨hL, hge hn, hlt⟩

end Qt

namespace Ieee

/-- The quotient of two numbers, each between two successive powers of the base. -/
theorem ratio_bounds (b : ℕ) (hb : 1 < b) (A B a c : ℕ)
    (ha1 : b ^ a ≤ A) (ha2 : A < b ^ (a + 1)) (hc1 : b ^ c ≤ B) (hc2 : B < b ^ (c + 1)) :
    (b : ℚ) ^ ((a : ℤ) - (c : ℤ) - 1) < (A : ℚ) / B ∧
      (A : ℚ) / B < (b : ℚ) ^ ((a : ℤ) - (c : ℤ) + 1) := by
  have hb0 : (0 : ℚ) < b := by
    have : 0 < b := by omega
    exact_mod_cast this
  have hbne : (b : ℚ) ≠ 0 := ne_of_gt hb0
  have hBpos : (0 : ℚ) < B := by
    have : 0 < B := lt_of_lt_of_le (Nat.pos_pow_of_pos c (by omega)) hc1
    exact_mod_cast this
  have qa1 : (b : ℚ) ^ a ≤ A := by exact_mod_cast ha1
  have qa2 : (A : ℚ) < (b : ℚ) ^ (a + 1) := by exact_mod_cast ha2
  have qc1 : (b : ℚ) ^ c ≤ B := by exact_mod_cast hc1
  have qc2 : (B : ℚ) < (b : ℚ) ^ (c + 1) := by exact_mod_cast hc2
  have e1 : (b : ℚ) ^ ((a : ℤ) - (c : ℤ) - 1) = (b : ℚ) ^ a / (b : ℚ) ^ (c + 1) := by
    have : (a : ℤ) - (c : ℤ) - 1 = (a : ℤ) - ((c + 1 : ℕ) : ℤ) := by push_cast; ring
    rw [this, zpow_sub₀ hbne, zpow_natCast, zpow_natCast]
  have e2 : (b : ℚ) ^ ((a : ℤ) - (c : ℤ) + 1) = (b : ℚ) ^ (a + 1) / (b : ℚ) ^ c := by
    have : (a : ℤ) - (c : ℤ) + 1 = ((a + 1 : ℕ) : ℤ) - (c : ℤ) := by push_cast; ring
    rw [this, zpow_sub₀ hbne, zpow_natCast, zpow_natCast]
  have hpc : (0 : ℚ) < (b : ℚ) ^ c := by positivity
  have hpc1 : (0 : ℚ) < (b : ℚ) ^ (c + 1) := by positivity
  have hpa : (0 : ℚ) < (b : ℚ) ^ a := by positivity
  constructor
  · rw [e1, div_lt_div_iff hpc1 hBpos]
    calc (b : ℚ) ^ a * B < (b : ℚ) ^ a * (b : ℚ) ^ (c + 1) :=
          mul_lt_mul_of_pos_left qc2 hpa
      _ ≤ A * (b : ℚ) ^ (c + 1) := mul_le_mul_of_nonneg_right qa1 (le_of_lt hpc1)
  · rw [e2, div_lt_div_iff hBpos hpc]
    calc (A : ℚ) * (b : ℚ) ^ c < (b : ℚ) ^ (a + 1) * (b : ℚ) ^ c :=
          mul_lt_mul_of_pos_right qa2 hpc
      _ ≤ (b : ℚ) ^ (a + 1) * B :=
          mul_le_mul_of_nonneg_left qc1 (by positivity)

theorem binExponent_eq_log (A B : Nat) (hA : 0 < A) (hB : 0 < B) :
    binExponent A B = Int.log 2 ((A : ℚ) / B) := by
  have hv : (0 : ℚ) < (A : ℚ) / B := by
    have h1 : (0 : ℚ) < A := by exact_mod_cast hA
    have h2 : (0 : ℚ) < B := by exact_mod_cast hB
    positivity
  have hb := ratio_bounds 2 (by norm_num) A B A.log2 B.log2
    (Nat.log2_self_le (by omega)) Nat.lt_log2_self (Nat.log2_self_le (by omega)) Nat.lt_log2_self
  symm
  unfold binExponent
  simp only
  split
  · rename_i h
    rw [pow2Le_iff A B hB] at h
    exact log_eq_of_bounds 2 (by norm_num) _ hv _ (by exact_mod_cast h) (by exact_mod_cast hb.2)
  · rename_i h
    rw [pow2Le_iff A B hB] at h
    apply log_eq_of_bounds 2 (by norm_num) _ hv _
    · exact_mod_cast le_of_lt hb.1
    · have : (A.log2 : ℤ) - (B.log2 : ℤ) - 1 + 1 = (A.log2 : ℤ) - (B.log2 : ℤ) := by ring
      rw [this]
      exact_mod_cast lt_of_not_ge h

theorem decExponent_eq_log (N D : Nat) (hN : 0 < N) (hD : 0 < D) :
    decExponent N D = Int.log 10 ((N : ℚ) / D) := by
  have hv : (0 : ℚ) < (N : ℚ) / D := by
    have h1 : (0 : ℚ) < N := by exact_mod_cast hN
    have h2 : (0 : ℚ) < D := by exact_mod_cast hD
    positivity
  obtain ⟨n1, n2, n3⟩ := Qt.decimal_length N hN
  obtain ⟨d1, d2, d3⟩ := Qt.decimal_length D hD
  have e1 : (Qt.decimal N).length = ((Qt.decimal N).length - 1) + 1 := by omega
  have e2 : (Qt.decimal D).length = ((Qt.decimal D).length - 1) + 1 := by omega
  have hb := ratio_bounds 10 (by norm_num) N D ((Qt.decimal N).length - 1)
    ((Qt.decimal D).length - 1) n2 (by rw [← e1]; exact n3) d2 (by rw [← e2]; exact d3)
  have ex : (((Qt.decimal N).length - 1 : ℕ) : ℤ) - (((Qt.decimal D).length - 1 : ℕ) : ℤ) =
      ((Qt.decimal N).length : ℤ) - ((Qt.decimal D).length : ℤ) := by omega
  rw [ex] at hb
  symm
  unfold decExponent
  simp only
  split
  · rename_i h
    rw [pow10Le_iff N D hD] at h
    exact log_eq_of_bounds 10 (by norm_num) _ hv _ (by exact_mod_cast h) (by exact_mod_cast hb.2)
  · rename_i h
    rw [pow10Le_iff N D hD] at h
    apply log_eq_of_bounds 10 (by norm_num) _ hv _
    · exact_mod_cast le_of_lt hb.1
    · have : ((Qt.decimal N).length : ℤ) - ((Qt.decimal D).length : ℤ) - 1 + 1 =
          ((Qt.decimal N).length : ℤ) - ((Qt.decimal D).length : ℤ) := by ring
      rw [this]
      exact_mod_cast lt_of_not_ge h

end Ieee

namespace Ieee

/-- The rounding division of a scaled fraction is the rounding of the scaled number. -/
theorem roundDiv_scaled_two (A B : Nat) (hB : 0 < B) (e : ℤ) :
    (if 0 ≤ e then roundDiv A (B * 2 ^ e.toNat) else roundDiv (A * 2 ^ (-e).toNat) B) =
      (rne ((A : ℚ) / B / (2 : ℚ) ^ e)).toNat := by
  have hb : (0 : ℚ) < B := by exact_mod_cast hB
  rw [zpow_split 2 (by norm_num) e]
  split
  · rename_i h
    have h1 : (-e).toNat = 0 := Int.toNat_eq_zero.mpr (by omega)
    have hr := roundDiv_eq_rne A (B * 2 ^ e.toNat) (by positivity)
    have hq : ((A : ℚ) / ((B * 2 ^ e.toNat : ℕ) : ℚ)) =
        (A : ℚ) / B / ((2 : ℚ) ^ e.toNat / (2 : ℚ) ^ (-e).toNat) := by
      rw [h1]
      push_cast
      field_simp
    rw [hq] at hr
    rw [← hr]
    simp
  · rename_i h
    have h1 : e.toNat = 0 := Int.toNat_eq_zero.mpr (by omega)
    have hr := roundDiv_eq_rne (A * 2 ^ (-e).toNat) B hB
    have hq : (((A * 2 ^ (-e).toNat : ℕ) : ℚ) / (B : ℚ)) =
        (A : ℚ) / B / ((2 : ℚ) ^ e.toNat / (2 : ℚ) ^ (-e).toNat) := by
      rw [h1]
      push_cast
      field_simp
    rw [hq] at hr
    rw [← hr]
    simp

theorem roundDiv_scaled_ten (N D : Nat) (hD : 0 < D) (X : ℤ) :
    (if X ≤ 14 then roundDiv (N * 10 ^ (14 - X).toNat) D
      else roundDiv N (D * 10 ^ (X - 14).toNat)) =
      (rne ((N : ℚ) / D / (10 : ℚ) ^ (X - 14))).toNat := by
  have hb : (0 : ℚ) < D := by exact_mod_cast hD
  rw [zpow_split 10 (by norm_num) (X - 14)]
  have hneg : -(X - 14) = 14 - X := by ring
  rw [hneg]
  split
  · rename_i h
    have h1 : (X - 14).toNat = 0 := Int.toNat_eq_zero.mpr (by omega)
    have hr := roundDiv_eq_rne (N * 10 ^ (14 - X).toNat) D hD
    have hq : (((N * 10 ^ (14 - X).toNat : ℕ) : ℚ) / (D : ℚ)) =
        (N : ℚ) / D / ((10 : ℚ) ^ (X - 14).toNat / (10 : ℚ) ^ (14 - X).toNat) := by
      rw [h1]
      push_cast
      field_simp
    rw [hq] at hr
    rw [← hr]
    simp
  · rename_i h
    have h1 : (14 - X).toNat = 0 := Int.toNat_eq_zero.mpr (by omega)
    have hr := roundDiv_eq_rne N (D * 10 ^ (X - 14).toNat) (by positivity)
    have hq : ((N : ℚ) / ((D * 10 ^ (X - 14).toNat : ℕ) : ℚ)) =
        (N : ℚ) / D / ((10 : ℚ) ^ (X - 14).toNat / (10 : ℚ) ^ (14 - X).toNat) := by
      rw [h1]
      push_cast
      field_simp
    rw [hq] at hr
    rw [← hr]
    simp

/-- The rounding to a double depends on the number alone. -/
theorem nearest_eq_nearestQ (neg : Bool) (A B : Nat) (hA : 0 < A) (hB : 0 < B) :
    nearest neg A B = nearestQ neg ((A : ℚ) / B) := by
  unfold nearest nearestQ
  simp only
  rw [binExponent_eq_log A B hA hB, roundDiv_scaled_two A B hB]

/-- The rounding to 15 digits depends on the number alone. -/
theorem round15_eq_round15Q (N D : Nat) (hN : 0 < N) (hD : 0 < D) :
    round15 N D = round15Q ((N : ℚ) / D) := by
  unfold round15 round15Q
  simp only
  rw [decExponent_eq_log N D hN hD, roundDiv_scaled_ten N D hD]

end Ieee

namespace Double

theorem pack_fields (neg : Bool) (ef fr : Nat) (hef : ef < 2048) (hfr : fr < 2 ^ 52) :
    (pack neg ef fr).expField = ef ∧ (pack neg ef fr).fraction = fr ∧
    (pack neg ef fr).signBit = neg ∧ (pack neg ef fr).bits < 2 ^ 64 := by
  have h52 : (2 : ℕ) ^ 52 = 4503599627370496 := by norm_num
  have h63 : (2 : ℕ) ^ 63 = 9223372036854775808 := by norm_num
  have h64 : (2 : ℕ) ^ 64 = 18446744073709551616 := by norm_num
  rw [h52] at hfr
  cases neg
  · simp only [pack, expField, fraction, signBit, h52, h63, h64, Bool.false_eq_true, if_false,
      decide_eq_false_iff_not]
    refine ⟨by omega, by omega, by omega, by omega⟩
  · simp only [pack, expField, fraction, signBit, h52, h63, h64, if_true, decide_eq_true_eq]
    refine ⟨by omega, by omega, by omega, by omega⟩

end Double

namespace Ieee

/-- A normal double that `encode` gives: its fields. -/
theorem encode_normal (neg : Bool) (e : ℤ) (m : ℕ) (hm : m ≤ 2 ^ 53) (he : -1074 ≤ e)
    (hnorm : (encode neg e m).isNormal = true) :
    2 ^ 52 ≤ m ∧ (encode neg e m).signBit = neg ∧ (encode neg e m).expField ≠ 2047 ∧
    (encode neg e m).expField ≠ 0 ∧ (encode neg e m).bits < 2 ^ 64 ∧
    (encode neg e m).magnitude = (m : ℚ) * (2 : ℚ) ^ e := by
  have h52 : (2 : ℕ) ^ 52 = 4503599627370496 := by norm_num
  have h53 : (2 : ℕ) ^ 53 = 9007199254740992 := by norm_num
  unfold encode at hnorm ⊢
  simp only at hnorm ⊢
  by_cases hc : m = 2 ^ 53
  · simp only [hc, if_true] at hnorm ⊢
    by_cases ho : 971 < e + 1
    · simp only [ho, if_true] at hnorm
      have := Double.pack_fields neg 2047 0 (by norm_num) (by norm_num)
      simp [Double.isNormal, this.1] at hnorm
    · simp only [ho, if_false, lt_irrefl] at hnorm ⊢
      have hef : (e + 1 + 1075).toNat < 2048 := by omega
      have hf := Double.pack_fields neg (e + 1 + 1075).toNat (2 ^ 52 - 2 ^ 52) hef (by norm_num)
      have hne0 : (e + 1 + 1075).toNat ≠ 0 := by omega
      refine ⟨by norm_num, hf.2.2.1, by rw [hf.1]; omega, by rw [hf.1]; exact hne0, hf.2.2.2, ?_⟩
      unfold Double.magnitude Double.significand Double.exponent
      rw [hf.1, hf.2.1]
      simp only [hne0, if_false]
      have hcast : (((e + 1 + 1075).toNat : ℕ) : ℤ) - 1075 = e + 1 := by omega
      rw [hcast, zpow_add_one₀ (by norm_num)]
      push_cast
      ring
  · simp only [hc, if_false] at hnorm ⊢
    by_cases ho : 971 < e
    · simp only [ho, if_true] at hnorm
      have := Double.pack_fields neg 2047 0 (by norm_num) (by norm_num)
      simp [Double.isNormal, this.1] at hnorm
    · simp only [ho, if_false] at hnorm ⊢
      by_cases hs : m < 2 ^ 52
      · simp only [hs, if_true] at hnorm
        have := Double.pack_fields neg 0 m (by norm_num) hs
        simp [Double.isNormal, this.1] at hnorm
      · simp only [hs, if_false] at hnorm ⊢
        have hm2 : m < 2 ^ 53 := lt_of_le_of_ne hm hc
        have hef : (e + 1075).toNat < 2048 := by omega
        have hfr : m - 2 ^ 52 < 2 ^ 52 := by omega
        have hf := Double.pack_fields neg (e + 1075).toNat (m - 2 ^ 52) hef hfr
        have hne0 : (e + 1075).toNat ≠ 0 := by omega
        refine ⟨by omega, hf.2.2.1, by rw [hf.1]; omega, by rw [hf.1]; exact hne0, hf.2.2.2, ?_⟩
        unfold Double.magnitude Double.significand Double.exponent
        rw [hf.1, hf.2.1]
        simp only [hne0, if_false]
        have hcast : (((e + 1075).toNat : ℕ) : ℤ) - 1075 = e := by omega
        rw [hcast]
        have hmm : 2 ^ 52 + (m - 2 ^ 52) = m := by omega
        rw [hmm]

/-- A normal double that the rounding of a positive number gives: its sign is the one asked for,
and its magnitude is within the relative error `2 ^ -53` of the number. -/
theorem nearestQ_normal (neg : Bool) (v : ℚ) (hv : 0 < v)
    (hnorm : (nearestQ neg v).isNormal = true) :
    (nearestQ neg v).signBit = neg ∧ (nearestQ neg v).expField ≠ 2047 ∧
    (nearestQ neg v).expField ≠ 0 ∧ (nearestQ neg v).bits < 2 ^ 64 ∧
    0 < (nearestQ neg v).magnitude ∧
    |(nearestQ neg v).magnitude - v| ≤ (nearestQ neg v).magnitude / 2 ^ 53 := by
  have he : (-1074 : ℤ) ≤ max (Int.log 2 v - 52) (-1074) := le_max_right _ _
  have he2 : Int.log 2 v - 52 ≤ max (Int.log 2 v - 52) (-1074) := le_max_left _ _
  generalize hE : max (Int.log 2 v - 52) (-1074) = e at he he2
  have hpe : (0 : ℚ) < (2 : ℚ) ^ e := by positivity
  have hup : v < (2 : ℚ) ^ (Int.log 2 v + 1) := by
    have := @Int.lt_zpow_succ_log_self ℚ _ _ 2 (by norm_num) v
    exact_mod_cast this
  have hscaled : v / (2 : ℚ) ^ e < 2 ^ 53 := by
    rw [div_lt_iff hpe]
    have h1 : (2 : ℚ) ^ (Int.log 2 v + 1) ≤ 2 ^ 53 * (2 : ℚ) ^ e := by
      have h2 : (2 : ℚ) ^ (53 : ℕ) * (2 : ℚ) ^ e = (2 : ℚ) ^ ((53 : ℤ) + e) := by
        rw [zpow_add₀ (by norm_num), zpow_ofNat]
      rw [h2]
      exact zpow_le_zpow_right₀ (by norm_num) (by omega)
    linarith
  have hr0 : 0 ≤ rne (v / (2 : ℚ) ^ e) := rne_nonneg _ (by positivity)
  have hr53 : rne (v / (2 : ℚ) ^ e) ≤ 2 ^ 53 :=
    rne_le_of_le _ (2 ^ 53) (by push_cast; exact le_of_lt hscaled)
  have hm : (rne (v / (2 : ℚ) ^ e)).toNat ≤ 2 ^ 53 := by
    have : (2 : ℤ) ^ 53 = ((2 ^ 53 : ℕ) : ℤ) := by norm_num
    omega
  have hcast : (((rne (v / (2 : ℚ) ^ e)).toNat : ℕ) : ℚ) = (rne (v / (2 : ℚ) ^ e) : ℚ) := by
    have : (((rne (v / (2 : ℚ) ^ e)).toNat : ℕ) : ℤ) = rne (v / (2 : ℚ) ^ e) :=
      Int.toNat_of_nonneg hr0
    exact_mod_cast this
  have hnq : nearestQ neg v = encode neg e (rne (v / (2 : ℚ) ^ e)).toNat := by
    unfold nearestQ
    rw [hE]
  rw [hnq] at hnorm ⊢
  obtain ⟨h1, h2, h3, h4, h5, h6⟩ := encode_normal neg e _ hm he hnorm
  have hclose := rne_close (v / (2 : ℚ) ^ e)
  rw [abs_le] at hclose
  have hmq : ((2 : ℚ) ^ 52) ≤ (rne (v / (2 : ℚ) ^ e) : ℚ) := by
    rw [← hcast]
    exact_mod_cast h1
  refine ⟨h2, h3, h4, h5, ?_, ?_⟩
  · rw [h6, hcast]
    have : (0 : ℚ) < (rne (v / (2 : ℚ) ^ e) : ℚ) := lt_of_lt_of_le (by positivity) hmq
    positivity
  · rw [h6, hcast]
    have hv2 : v = v / (2 : ℚ) ^ e * (2 : ℚ) ^ e := by field_simp
    have hdiff : (rne (v / (2 : ℚ) ^ e) : ℚ) * (2 : ℚ) ^ e - v =
        ((rne (v / (2 : ℚ) ^ e) : ℚ) - v / (2 : ℚ) ^ e) * (2 : ℚ) ^ e := by
      field_simp
    rw [hdiff, abs_mul, abs_of_pos hpe]
    have habs : |(rne (v / (2 : ℚ) ^ e) : ℚ) - v / (2 : ℚ) ^ e| ≤ 1 / 2 := rne_close _
    have hbound : (1 / 2 : ℚ) ≤ (rne (v / (2 : ℚ) ^ e) : ℚ) / 2 ^ 53 := by
      rw [le_div_iff (by positivity)]
      have : (2 : ℚ) ^ 53 = 2 * 2 ^ 52 := by norm_num
      rw [this]
      linarith
    calc |(rne (v / (2 : ℚ) ^ e) : ℚ) - v / (2 : ℚ) ^ e| * (2 : ℚ) ^ e
        ≤ (1 / 2) * (2 : ℚ) ^ e := mul_le_mul_of_nonneg_right habs (le_of_lt hpe)
      _ ≤ (rne (v / (2 : ℚ) ^ e) : ℚ) / 2 ^ 53 * (2 : ℚ) ^ e :=
          mul_le_mul_of_nonneg_right hbound (le_of_lt hpe)
      _ = (rne (v / (2 : ℚ) ^ e) : ℚ) * (2 : ℚ) ^ e / 2 ^ 53 := by ring

end Ieee

namespace Ieee

/-- Rounding to 15 digits gives back a decimal number of 15 digits from every number within the
relative error `2 ^ -53` of it. -/
theorem round15Q_of_close (w : ℚ) (hw : 0 < w) (Dd : ℕ) (q : ℤ) (h14 : 10 ^ 14 ≤ Dd)
    (h15 : Dd < 10 ^ 15) (hclose : |w - (Dd : ℚ) * (10 : ℚ) ^ q| ≤ w / 2 ^ 53) :
    round15Q w = (Dd, q + 14) := by
  have hP : (0 : ℚ) < (10 : ℚ) ^ q := by positivity
  have e13 : (10 : ℚ) ^ (q + 13) = 10 ^ 13 * (10 : ℚ) ^ q := by
    rw [zpow_add₀ (by norm_num), mul_comm]
    norm_cast
  have e14 : (10 : ℚ) ^ (q + 14) = 10 ^ 14 * (10 : ℚ) ^ q := by
    rw [zpow_add₀ (by norm_num), mul_comm]
    norm_cast
  have e15 : (10 : ℚ) ^ (q + 14 + 1) = 10 ^ 15 * (10 : ℚ) ^ q := by
    have : q + 14 + 1 = q + 15 := by ring
    rw [this, zpow_add₀ (by norm_num), mul_comm]
    norm_cast
  have em1 : (10 : ℚ) ^ (q - 1) = (10 : ℚ) ^ q / 10 := by
    rw [zpow_sub_one₀ (by norm_num)]
    rfl
  generalize hPdef : (10 : ℚ) ^ q = P at hP hclose e13 e14 e15 em1
  have q14 : ((10 : ℚ) ^ 14) ≤ (Dd : ℚ) := by exact_mod_cast h14
  have q15 : (Dd : ℚ) ≤ 10 ^ 15 - 1 := by
    have : Dd + 1 ≤ 10 ^ 15 := h15
    have h2 : ((Dd + 1 : ℕ) : ℚ) ≤ ((10 ^ 15 : ℕ) : ℚ) := by exact_mod_cast this
    push_cast at h2
    linarith
  have hvL : (10 : ℚ) ^ 14 * P ≤ (Dd : ℚ) * P := mul_le_mul_of_nonneg_right q14 (le_of_lt hP)
  have hvU : (Dd : ℚ) * P ≤ (10 ^ 15 - 1) * P := mul_le_mul_of_nonneg_right q15 (le_of_lt hP)
  rw [abs_le] at hclose
  obtain ⟨hc1, hc2⟩ := hclose
  have k53 : (2 : ℚ) ^ 53 = 9007199254740992 := by norm_num
  rw [k53] at hc1 hc2
  have hwU : w < 10 ^ 15 * P := by
    by_contra hcon
    have hcon2 : 10 ^ 15 * P ≤ w := le_of_not_lt hcon
    nlinarith
  have hwL : 10 ^ 13 * P ≤ w := by
    by_contra hcon
    have hcon2 : w < 10 ^ 13 * P := lt_of_not_ge hcon
    nlinarith
  unfold round15Q
  by_cases hA : 10 ^ 14 * P ≤ w
  · have hX : Int.log 10 w = q + 14 :=
      log_eq_of_bounds 10 (by norm_num) w hw (q + 14)
        (by push_cast; rw [e14]; exact hA) (by push_cast; rw [e15]; exact hwU)
    rw [hX]
    have hexp : q + 14 - 14 = q := by ring
    rw [hexp, hPdef]
    have hr : rne (w / P) = (Dd : ℤ) := by
      apply rne_eq_of_close
      have hd : ((Dd : ℤ) : ℚ) - w / P = ((Dd : ℚ) * P - w) / P := by
        push_cast
        field_simp
      rw [hd, abs_div, abs_of_pos hP, div_lt_iff hP, abs_lt]
      constructor <;> nlinarith
    rw [hr]
    simp only [Int.toNat_natCast]
    unfold carry15
    rw [if_neg (by omega)]
  · have hA2 : w < 10 ^ 14 * P := lt_of_not_ge hA
    have hX : Int.log 10 w = q + 13 :=
      log_eq_of_bounds 10 (by norm_num) w hw (q + 13)
        (by push_cast; rw [e13]; exact hwL)
        (by
          have : q + 13 + 1 = q + 14 := by ring
          rw [this]
          push_cast
          rw [e14]
          exact hA2)
    rw [hX]
    have hexp : q + 13 - 14 = q - 1 := by ring
    rw [hexp, em1]
    have hP10 : (0 : ℚ) < P / 10 := by positivity
    have hr : rne (w / (P / 10)) = ((10 * Dd : ℕ) : ℤ) := by
      apply rne_eq_of_close
      have hd : (((10 * Dd : ℕ) : ℤ) : ℚ) - w / (P / 10) = (10 * ((Dd : ℚ) * P - w)) / P := by
        push_cast
        field_simp
        ring
      rw [hd, abs_div, abs_of_pos hP, div_lt_iff hP, abs_lt]
      constructor <;> nlinarith
    have hle : rne (w / (P / 10)) ≤ 10 ^ 15 := by
      apply rne_le_of_le
      rw [div_le_iff hP10]
      push_cast
      linarith
    rw [hr] at hle
    have hD : Dd = 10 ^ 14 := by
      have : ((10 * Dd : ℕ) : ℤ) ≤ ((10 ^ 15 : ℕ) : ℤ) := by exact_mod_cast hle
      have h2 : 10 * Dd ≤ 10 ^ 15 := by exact_mod_cast this
      omega
    rw [hr]
    simp only [Int.toNat_natCast]
    unfold carry15
    rw [hD]
    have : (10 : ℕ) * 10 ^ 14 = 10 ^ 15 := by norm_num
    rw [if_pos this]
    have e : q + 13 + 1 = q + 14 := by ring
    rw [e]

end Ieee

/-! ## Reading back the text of a number -/

namespace Ieee

theorem digitValue_of_digit (c : Char) (h : isDigitChar c = true) :
    ∃ d, d < 10 ∧ Qt.digitValue c = some d := by
  have hn : 48 ≤ c.toNat ∧ c.toNat ≤ 57 := by simpa [isDigitChar] using h
  refine ⟨c.toNat - 48, by omega, ?_⟩
  simp [Qt.digitValue, hn.1, hn.2]

/-- Reading a run of digits: the value so far moves up by the length of the run. -/
theorem digitsValue_run (s : Str) (hs : ∀ c ∈ s, isDigitChar c = true) :
    ∃ n, n < 10 ^ s.length ∧ ∀ acc, Qt.digitsValue s acc = some (acc * 10 ^ s.length + n) := by
  induction s with
  | nil => exact ⟨0, by simp, fun acc => by simp [Qt.digitsValue]⟩
  | cons c t ih =>
    obtain ⟨d, hd, hdv⟩ := digitValue_of_digit c (hs c (List.mem_cons_self _ _))
    obtain ⟨n, hn, hrun⟩ := ih (fun x hx => hs x (List.mem_cons_of_mem _ hx))
    refine ⟨d * 10 ^ t.length + n, ?_, ?_⟩
    · rw [List.length_cons, pow_succ]
      have : d * 10 ^ t.length ≤ 9 * 10 ^ t.length := Nat.mul_le_mul_right _ (by omega)
      omega
    · intro acc
      simp only [Qt.digitsValue, hdv, hrun, List.length_cons]
      congr 1
      ring

theorem digitsValue_eq (s : Str) (hs : ∀ c ∈ s, isDigitChar c = true) (acc : Nat) :
    Qt.digitsValue s acc = some (acc * 10 ^ s.length + digitsNat s) ∧
      digitsNat s < 10 ^ s.length := by
  obtain ⟨n, hn, hrun⟩ := digitsValue_run s hs
  have h0 : digitsNat s = n := by
    unfold digitsNat
    rw [hrun 0]
    simp
  rw [h0]
  exact ⟨hrun acc, hn⟩

theorem digitsValue_append (a b : Str) (acc : Nat) :
    Qt.digitsValue (a ++ b) acc = (Qt.digitsValue a acc).bind (fun x => Qt.digitsValue b x) := by
  induction a generalizing acc with
  | nil => simp [Qt.digitsValue]
  | cons c t ih =>
    simp only [List.cons_append, Qt.digitsValue]
    cases Qt.digitValue c with
    | none => simp
    | some d => exact ih _

theorem digitsNat_append (a b : Str) (ha : ∀ c ∈ a, isDigitChar c = true)
    (hb : ∀ c ∈ b, isDigitChar c = true) :
    digitsNat (a ++ b) = digitsNat a * 10 ^ b.length + digitsNat b := by
  have h1 := (digitsValue_eq a ha 0).1
  have h2 := (digitsValue_eq b hb (digitsNat a)).1
  unfold digitsNat at h1 ⊢
  rw [digitsValue_append, h1]
  simp only [Nat.zero_mul, Nat.zero_add, Option.some_bind]
  unfold digitsNat at h2
  rw [h2]
  simp

theorem zeros_digits (j : Nat) : ∀ c ∈ List.replicate j '0', isDigitChar c = true := by
  intro c hc
  rw [List.eq_of_mem_replicate hc]
  decide

theorem digitsNat_zeros (j : Nat) : digitsNat (List.replicate j '0') = 0 := by
  induction j with
  | zero => rfl
  | succ n ih =>
    have e : List.replicate (n + 1) '0' = ['0'] ++ List.replicate n '0' := rfl
    have h0 : digitsNat ['0'] = 0 := by decide
    rw [e, digitsNat_append _ _ (by intro c hc; simp at hc; subst hc; decide) (zeros_digits n), ih,
      h0]
    simp

theorem decimal_digits (n : Nat) : ∀ c ∈ Qt.decimal n, isDigitChar c = true := by
  intro c hc
  obtain ⟨d, hd, rfl⟩ := Qt.decimal_digit n c hc
  interval_cases d <;> decide

theorem digitsNat_decimal (n : Nat) : digitsNat (Qt.decimal n) = n := by
  unfold digitsNat
  rw [Qt.decimal_value]
  rfl

/-- A run of digits is its part without trailing zeros, followed by zeros. -/
theorem stripZeros_spec (ds : Str) :
    ∃ j, ds = stripZeros ds ++ List.replicate j '0' ∧ (stripZeros ds).length + j = ds.length := by
  have h := List.takeWhile_append_dropWhile (fun c => c == '0') ds.reverse
  have htw : ds.reverse.takeWhile (fun c => c == '0') =
      List.replicate (ds.reverse.takeWhile (fun c => c == '0')).length '0' := by
    rw [List.eq_replicate_iff]
    refine ⟨rfl, ?_⟩
    intro c hc
    have := List.mem_takeWhile_imp hc
    simpa using this
  refine ⟨(ds.reverse.takeWhile (fun c => c == '0')).length, ?_, ?_⟩
  · have h2 := congrArg List.reverse h
    rw [List.reverse_append, List.reverse_reverse] at h2
    rw [htw, List.reverse_replicate] at h2
    unfold stripZeros
    exact h2.symm
  · have h3 := congrArg List.length h
    rw [List.length_append, List.length_reverse] at h3
    unfold stripZeros
    rw [List.length_reverse]
    omega

theorem stripZeros_digits (ds : Str) (h : ∀ c ∈ ds, isDigitChar c = true) :
    ∀ c ∈ stripZeros ds, isDigitChar c = true := by
  intro c hc
  unfold stripZeros at hc
  rw [List.mem_reverse] at hc
  have := (List.dropWhile_suffix _).subset hc
  exact h c (List.mem_reverse.mp this)

/-- The digits at the head of a text, up to a character that is no digit or the end. -/
theorem splitDigits_append (ds r : Str) (hds : ∀ c ∈ ds, isDigitChar c = true)
    (hr : ∀ c, r.head? = some c → isDigitChar c = false) :
    splitDigits (ds ++ r) = (ds, r) := by
  unfold splitDigits
  induction ds with
  | nil =>
    cases r with
    | nil => rfl
    | cons c t =>
      have := hr c rfl
      simp [List.takeWhile, List.dropWhile, this]
  | cons d t ih =>
    have hd := hds d (List.mem_cons_self _ _)
    have := ih (fun x hx => hds x (List.mem_cons_of_mem _ hx))
    simp only [Prod.mk.injEq] at this
    simp only [List.cons_append, List.takeWhile_cons, List.dropWhile_cons, hd, if_true,
      Prod.mk.injEq, List.cons.injEq, true_and]
    exact this

/-- The sign text of a number. -/
theorem splitSign_sign (neg : Bool) (d : Char) (r : Str) (hd : isDigitChar d = true) :
    splitSign ((if neg then ['-'] else []) ++ d :: r) = (neg, d :: r) := by
  have h1 : d ≠ '-' := by intro e; rw [e] at hd; simp [isDigitChar] at hd
  have h2 : d ≠ '+' := by intro e; rw [e] at hd; simp [isDigitChar] at hd
  cases neg
  · simp [splitSign, h1, h2]
  · simp [splitSign]

/-- The exponent part that `expText` writes reads back as the exponent. -/
theorem parseExp_expText (X : ℤ) : parseExp ('e' :: expText X) = some X := by
  have hd := decimal_digits X.natAbs
  have hne := Qt.decimal_ne_nil X.natAbs
  have hv : ∀ tail : Str, (tail = Qt.decimal X.natAbs ∨ tail = '0' :: Qt.decimal X.natAbs) →
      tail ≠ [] ∧ Qt.digitsValue tail 0 = some X.natAbs := by
    intro tail ht
    rcases ht with ht | ht
    · rw [ht]
      exact ⟨hne, Qt.decimal_value _⟩
    · rw [ht]
      refine ⟨by simp, ?_⟩
      have : Qt.digitValue '0' = some 0 := by decide
      simp only [Qt.digitsValue, this]
      exact Qt.decimal_value _
  have htail : ∃ tail, (tail = Qt.decimal X.natAbs ∨ tail = '0' :: Qt.decimal X.natAbs) ∧
      expText X = (if X < 0 then '-' else '+') :: tail := by
    unfold expText
    by_cases h10 : X.natAbs < 10
    · exact ⟨_, Or.inr rfl, by simp [h10]⟩
    · exact ⟨_, Or.inl rfl, by simp [h10]⟩
  obtain ⟨tail, ht, hex⟩ := htail
  obtain ⟨hne2, hval⟩ := hv tail ht
  have hemp : tail.isEmpty = false := by
    cases tail with
    | nil => exact absurd rfl hne2
    | cons c u => rfl
  rw [hex]
  by_cases hneg : X < 0
  · simp only [hneg, if_true, parseExp, true_or, splitSign, hemp, Bool.false_eq_true, if_false,
      hval]
    congr 1
    omega
  · have hp : ('+' : Char) ≠ '-' := by decide
    simp only [hneg, if_false, parseExp, true_or, if_true, splitSign, hp, hemp,
      Bool.false_eq_true, hval]
    congr 1
    omega

theorem nonDigit_facts : isDigitChar '.' = false ∧ isDigitChar 'e' = false := by
  constructor <;> decide

/-- Reading a decimal number written as sign, integer digits, fraction digits behind a decimal
point when there are any, and an exponent part that is empty or starts with `e`. -/
theorem parseDecimal_pieces (neg : Bool) (ip fp etxt : Str) (E : ℤ)
    (hip : ip ≠ []) (hipd : ∀ c ∈ ip, isDigitChar c = true)
    (hfpd : ∀ c ∈ fp, isDigitChar c = true)
    (he : etxt = [] ∨ ∃ r, etxt = 'e' :: r) (hE : parseExp etxt = some E) :
    parseDecimal ((if neg then ['-'] else []) ++
        (ip ++ ((if fp.isEmpty then [] else '.' :: fp) ++ etxt))) =
      some (neg, digitsNat (ip ++ fp), E - (fp.length : ℤ)) := by
  have hetxt : ∀ c, etxt.head? = some c → isDigitChar c = false ∧ c ≠ '.' := by
    intro c hc
    rcases he with he | ⟨r, he⟩
    · rw [he] at hc
      simp at hc
    · rw [he] at hc
      simp only [List.head?_cons, Option.some.injEq] at hc
      subst hc
      exact ⟨by decide, by decide⟩
  obtain ⟨d, t, hipc⟩ := List.exists_cons_of_ne_nil hip
  have hd : isDigitChar d = true := hipd d (by rw [hipc]; exact List.mem_cons_self _ _)
  have hval := (digitsValue_eq (ip ++ fp) (by
    intro c hc
    rw [List.mem_append] at hc
    rcases hc with hc | hc
    · exact hipd c hc
    · exact hfpd c hc) 0).1
  rw [Nat.zero_mul, Nat.zero_add] at hval
  have hipe : ip.isEmpty = false := by rw [hipc]; rfl
  cases fp with
  | nil =>
    have hsign : splitSign ((if neg then ['-'] else []) ++ (ip ++ ([] ++ etxt))) =
        (neg, ip ++ etxt) := by
      rw [hipc]
      exact splitSign_sign neg d _ hd
    have hsd : splitDigits (ip ++ etxt) = (ip, etxt) :=
      splitDigits_append ip _ hipd (fun c hc => (hetxt c hc).1)
    have hh : ¬ (etxt.head? = some '.') := fun hc => (hetxt '.' hc).2 rfl
    unfold parseDecimal
    simp only [List.isEmpty_nil, if_true, hsign, hsd, hipe, Bool.false_and, Bool.false_eq_true,
      if_false, hh, hval, hE, List.length_nil]
  | cons f0 ft =>
    have hsign : splitSign ((if neg then ['-'] else []) ++
        (ip ++ (('.' :: (f0 :: ft)) ++ etxt))) = (neg, ip ++ ('.' :: ((f0 :: ft) ++ etxt))) := by
      rw [hipc]
      exact splitSign_sign neg d _ hd
    have hsd : splitDigits (ip ++ ('.' :: ((f0 :: ft) ++ etxt))) =
        (ip, '.' :: ((f0 :: ft) ++ etxt)) := by
      apply splitDigits_append ip _ hipd
      intro c hc
      simp only [List.head?_cons, Option.some.injEq] at hc
      subst hc
      decide
    have hsd2 : splitDigits ((f0 :: ft) ++ etxt) = (f0 :: ft, etxt) :=
      splitDigits_append (f0 :: ft) etxt hfpd (fun c hc => (hetxt c hc).1)
    have hemp : (f0 :: ft).isEmpty = false := rfl
    unfold parseDecimal
    simp only [hemp, Bool.false_eq_true, if_false, hsign, hsd, hipe, Bool.false_and,
      List.head?_cons, if_true, List.drop_succ_cons, List.drop_zero, hsd2, hval, hE]

end Ieee

namespace Ieee

theorem digitsNat_nil : digitsNat [] = 0 := rfl

/-- Reading a number written as the first `n` of its digits, a decimal point and the other
digits without their trailing zeros, and an exponent part. -/
theorem parse_take_drop (neg : Bool) (ds etxt : Str) (n : Nat) (E : ℤ)
    (hds : ∀ c ∈ ds, isDigitChar c = true) (hn1 : 1 ≤ n) (hn2 : n ≤ ds.length)
    (he : etxt = [] ∨ ∃ r, etxt = 'e' :: r) (hE : parseExp etxt = some E) :
    ∃ M j : Nat,
      parseDecimal ((if neg then ['-'] else []) ++
        (ds.take n ++ ((if (stripZeros (ds.drop n)).isEmpty then []
          else '.' :: stripZeros (ds.drop n)) ++ etxt))) =
        some (neg, M, E - ((ds.length - n : ℕ) : ℤ) + (j : ℤ)) ∧
      M * 10 ^ j = digitsNat ds := by
  obtain ⟨j, hj, hlen⟩ := stripZeros_spec (ds.drop n)
  have htd : ∀ c ∈ ds.take n, isDigitChar c = true :=
    fun c hc => hds c (List.mem_of_mem_take hc)
  have hdd : ∀ c ∈ ds.drop n, isDigitChar c = true :=
    fun c hc => hds c (List.mem_of_mem_drop hc)
  have hfd := stripZeros_digits (ds.drop n) hdd
  have hne : ds.take n ≠ [] := by
    intro h
    have := congrArg List.length h
    rw [List.length_take] at this
    simp only [List.length_nil] at this
    omega
  have hp := parseDecimal_pieces neg (ds.take n) (stripZeros (ds.drop n)) etxt E hne htd hfd he hE
  refine ⟨digitsNat (ds.take n ++ stripZeros (ds.drop n)), j, ?_, ?_⟩
  · rw [hp]
    have hl : (ds.drop n).length = ds.length - n := List.length_drop _ _
    have : E - ((stripZeros (ds.drop n)).length : ℤ) =
        E - ((ds.length - n : ℕ) : ℤ) + (j : ℤ) := by
      omega
    rw [this]
  · have hsplit : ds = (ds.take n ++ stripZeros (ds.drop n)) ++ List.replicate j '0' := by
      rw [List.append_assoc, ← hj, List.take_append_drop]
    conv_rhs => rw [hsplit]
    rw [digitsNat_append _ _ (by
        intro c hc
        rw [List.mem_append] at hc
        rcases hc with hc | hc
        · exact htd c hc
        · exact hfd c hc) (zeros_digits j), digitsNat_zeros, List.length_replicate]
    simp

theorem decimal15 (Q : Nat) (h14 : 10 ^ 14 ≤ Q) (h15 : Q < 10 ^ 15) :
    (Qt.decimal Q).length = 15 := by
  obtain ⟨h1, h2, h3⟩ := Qt.decimal_length Q (by omega)
  have a : 14 < (Qt.decimal Q).length := by
    have : 10 ^ 14 < 10 ^ (Qt.decimal Q).length := lt_of_le_of_lt h14 h3
    exact (Nat.pow_lt_pow_iff_right (by norm_num)).mp this
  have b : (Qt.decimal Q).length - 1 < 15 := by
    have : 10 ^ ((Qt.decimal Q).length - 1) < 10 ^ 15 := lt_of_le_of_lt h2 h15
    exact (Nat.pow_lt_pow_iff_right (by norm_num)).mp this
  omega

/-- The text of the `%g` conversion reads back as the number it was written for. -/
theorem parse_formatG15 (neg : Bool) (Q : Nat) (X : ℤ) (h14 : 10 ^ 14 ≤ Q) (h15 : Q < 10 ^ 15) :
    ∃ M j : Nat,
      parseDecimal ((if neg then ['-'] else []) ++ formatG15 Q X) =
        some (neg, M, X - 14 + (j : ℤ)) ∧
      M * 10 ^ j = Q := by
  have hlen := decimal15 Q h14 h15
  have hds := decimal_digits Q
  have hval := digitsNat_decimal Q
  unfold formatG15
  simp only
  by_cases hsci : X < -4 ∨ 15 ≤ X
  · rw [if_pos hsci]
    obtain ⟨M, j, hp, hM⟩ := parse_take_drop neg (Qt.decimal Q) ('e' :: expText X) 1 X hds
      (le_refl _) (by omega) (Or.inr ⟨_, rfl⟩) (parseExp_expText X)
    refine ⟨M, j, ?_, by rw [hM, hval]⟩
    rw [List.append_assoc, hp, hlen]
    congr 3
  · rw [if_neg hsci]
    by_cases hpos : 0 ≤ X
    · rw [if_pos hpos]
      have hX : X ≤ 14 := by omega
      obtain ⟨M, j, hp, hM⟩ := parse_take_drop neg (Qt.decimal Q) [] (X.toNat + 1) 0 hds
        (by omega) (by omega) (Or.inl rfl) rfl
      refine ⟨M, j, ?_, by rw [hM, hval]⟩
      simp only [List.append_nil] at hp
      rw [hp, hlen]
      have : (0 : ℤ) - ((15 - (X.toNat + 1) : ℕ) : ℤ) = X - 14 := by omega
      rw [this]
    · rw [if_neg hpos]
      obtain ⟨j, hj, hjl⟩ := stripZeros_spec (Qt.decimal Q)
      have hsd := stripZeros_digits (Qt.decimal Q) hds
      have hQ : digitsNat (stripZeros (Qt.decimal Q)) * 10 ^ j = Q := by
        have := congrArg digitsNat hj
        rw [digitsNat_append _ _ hsd (zeros_digits j), digitsNat_zeros, List.length_replicate,
          hval] at this
        omega
      have hsne : stripZeros (Qt.decimal Q) ≠ [] := by
        intro h
        rw [h, digitsNat_nil] at hQ
        omega
      have hfd : ∀ c ∈ List.replicate ((-X).toNat - 1) '0' ++ stripZeros (Qt.decimal Q),
          isDigitChar c = true := by
        intro c hc
        rw [List.mem_append] at hc
        rcases hc with hc | hc
        · exact zeros_digits _ c hc
        · exact hsd c hc
      have hfne : (List.replicate ((-X).toNat - 1) '0' ++ stripZeros (Qt.decimal Q)).isEmpty
          = false := by
        cases hc : List.replicate ((-X).toNat - 1) '0' ++ stripZeros (Qt.decimal Q) with
        | nil =>
          rw [List.append_eq_nil] at hc
          exact absurd hc.2 hsne
        | cons a b => rfl
      have hp := parseDecimal_pieces neg ['0']
        (List.replicate ((-X).toNat - 1) '0' ++ stripZeros (Qt.decimal Q)) [] 0 (by simp)
        (by intro c hc; simp at hc; subst hc; decide) hfd (Or.inl rfl) rfl
      rw [hfne] at hp
      simp only [Bool.false_eq_true, if_false, List.append_nil] at hp
      have htext : "0.".toList ++ List.replicate ((-X).toNat - 1) '0' ++
          stripZeros (Qt.decimal Q) =
          ['0'] ++ ('.' :: (List.replicate ((-X).toNat - 1) '0' ++ stripZeros (Qt.decimal Q))) := by
        simp [String.toList]
      rw [htext, hp]
      refine ⟨digitsNat (stripZeros (Qt.decimal Q)), j, ?_, hQ⟩
      have h0 : digitsNat ['0'] = 0 := by decide
      have hM : digitsNat (['0'] ++ (List.replicate ((-X).toNat - 1) '0' ++
          stripZeros (Qt.decimal Q))) = digitsNat (stripZeros (Qt.decimal Q)) := by
        rw [digitsNat_append _ _ (by intro c hc; simp at hc; subst hc; decide) hfd, h0,
          digitsNat_append _ _ (zeros_digits _) hsd, digitsNat_zeros]
        simp
      rw [hM]
      have hk : (0 : ℤ) - ((List.replicate ((-X).toNat - 1) '0' ++
          stripZeros (Qt.decimal Q)).length : ℤ) = X - 14 + (j : ℤ) := by
        rw [List.length_append, List.length_replicate]
        omega
      rw [hk]

/-- No character of the text of the `%g` conversion is white space. -/
theorem formatG15_no_space (Q : Nat) (X : ℤ) : ∀ c ∈ formatG15 Q X, Qt.isSpace c = false := by
  have hdig : ∀ c, isDigitChar c = true → Qt.isSpace c = false :=
    fun c hc => (digitChar_facts c hc).2.2.1
  have hds := decimal_digits Q
  have hstrip : ∀ s : Str, (∀ c ∈ s, isDigitChar c = true) →
      ∀ c ∈ stripZeros s, Qt.isSpace c = false :=
    fun s hs c hc => hdig c (stripZeros_digits s hs c hc)
  have hexp : ∀ c ∈ expText X, Qt.isSpace c = false := by
    intro c hc
    unfold expText at hc
    simp only [List.mem_cons] at hc
    rcases hc with hc | hc
    · rw [hc]
      split <;> decide
    · split at hc
      · simp only [List.mem_cons] at hc
        rcases hc with hc | hc
        · rw [hc]; decide
        · exact hdig c (decimal_digits _ c hc)
      · exact hdig c (decimal_digits _ c hc)
  intro c hc
  unfold formatG15 at hc
  simp only at hc
  split at hc
  · simp only [List.mem_append, List.mem_cons] at hc
    rcases hc with (hc | hc) | hc | hc
    · exact hdig c (hds c (List.mem_of_mem_take hc))
    · split at hc
      · simp at hc
      · simp only [List.mem_cons] at hc
        rcases hc with hc | hc
        · rw [hc]; decide
        · exact hstrip _ (fun x hx => hds x (List.mem_of_mem_drop hx)) c hc
    · rw [hc]; decide
    · exact hexp c hc
  · split at hc
    · simp only [List.mem_append] at hc
      rcases hc with hc | hc
      · exact hdig c (hds c (List.mem_of_mem_take hc))
      · split at hc
        · simp at hc
        · simp only [List.mem_cons] at hc
          rcases hc with hc | hc
          · rw [hc]; decide
          · exact hstrip _ (fun x hx => hds x (List.mem_of_mem_drop hx)) c hc
    · simp only [List.mem_append, String.toList] at hc
      rcases hc with (hc | hc) | hc
      · simp only [List.mem_cons, List.mem_singleton, List.not_mem_nil, or_false] at hc
        rcases hc with hc | hc <;> (rw [hc]; decide)
      · rw [List.eq_of_mem_replicate hc]; decide
      · exact hstrip _ hds c hc

end Ieee

namespace Qt

theorem trimmed_of_no_space (s : Str) (h : ∀ c ∈ s, isSpace c = false) : trimmed s = s := by
  rw [trimmed_eq_self_iff]
  exact ⟨fun x hx => h x (List.mem_of_mem_head? hx), fun x hx => h x (List.mem_of_mem_getLast? hx)⟩

end Qt

namespace Ieee

/-- What `toDouble` gives for a decimal text with digits other than zeros. -/
theorem toDouble_of_parse (t : Str) (neg : Bool) (M : Nat) (k : ℤ)
    (hp : parseDecimal (Qt.trimmed t) = some (neg, M, k)) (hM : 0 < M) :
    toDouble t = nearestQ neg ((M : ℚ) * (10 : ℚ) ^ k) := by
  unfold toDouble
  rw [hp]
  simp only
  rw [if_neg (by omega)]
  rw [zpow_split 10 (by norm_num) k]
  split
  · rename_i h
    have h1 : (-k).toNat = 0 := Int.toNat_eq_zero.mpr (by omega)
    rw [nearest_eq_nearestQ neg _ 1 (by positivity) (by norm_num), h1]
    congr 1
    push_cast
    simp
  · rename_i h
    have h1 : k.toNat = 0 := Int.toNat_eq_zero.mpr (by omega)
    rw [nearest_eq_nearestQ neg _ _ hM (by positivity), h1]
    congr 1
    push_cast
    simp
    ring

/-- The text that `printG15` writes for a normal double. -/
theorem printG15_normal (x : Double) (h1 : x.expField ≠ 2047) (h0 : x.expField ≠ 0) :
    printG15 x = (if x.signBit then ['-'] else []) ++
      formatG15 (round15Q x.magnitude).1 (round15Q x.magnitude).2 := by
  have hs : x.significand ≠ 0 := by
    unfold Double.significand
    rw [if_neg h0]
    positivity
  have hspos : 0 < x.significand := Nat.pos_of_ne_zero hs
  unfold printG15
  simp only
  rw [if_neg h1, if_neg hs]
  have hr : round15 (if 0 ≤ x.exponent then x.significand * 2 ^ x.exponent.toNat
        else x.significand) (if 0 ≤ x.exponent then 1 else 2 ^ (-x.exponent).toNat) =
      round15Q x.magnitude := by
    unfold Double.magnitude
    rw [zpow_split 2 (by norm_num) x.exponent]
    split
    · rename_i h
      have h1 : (-x.exponent).toNat = 0 := Int.toNat_eq_zero.mpr (by omega)
      rw [round15_eq_round15Q _ 1 (by positivity) (by norm_num), h1]
      congr 1
      push_cast
      simp
    · rename_i h
      have h1 : x.exponent.toNat = 0 := Int.toNat_eq_zero.mpr (by omega)
      rw [round15_eq_round15Q _ _ hspos (by positivity), h1]
      congr 1
      push_cast
      simp
      ring
  rw [hr]

/-- A number of at most 15 digits written with exactly 15 digits. -/
theorem fifteen_digits (M : Nat) (h0 : 0 < M) (h15 : M < 10 ^ 15) :
    ∃ j, 10 ^ 14 ≤ M * 10 ^ j ∧ M * 10 ^ j < 10 ^ 15 := by
  obtain ⟨h1, h2, h3⟩ := Qt.decimal_length M h0
  have hL : (Qt.decimal M).length ≤ 15 := by
    have : 10 ^ ((Qt.decimal M).length - 1) < 10 ^ 15 := lt_of_le_of_lt h2 h15
    have := (Nat.pow_lt_pow_iff_right (by norm_num)).mp this
    omega
  refine ⟨15 - (Qt.decimal M).length, ?_, ?_⟩
  · have e : 14 = ((Qt.decimal M).length - 1) + (15 - (Qt.decimal M).length) := by omega
    calc 10 ^ 14 = 10 ^ ((Qt.decimal M).length - 1) * 10 ^ (15 - (Qt.decimal M).length) := by
          rw [← pow_add, ← e]
      _ ≤ M * 10 ^ (15 - (Qt.decimal M).length) := Nat.mul_le_mul_right _ h2
  · have e : 15 = (Qt.decimal M).length + (15 - (Qt.decimal M).length) := by omega
    calc M * 10 ^ (15 - (Qt.decimal M).length)
        < 10 ^ (Qt.decimal M).length * 10 ^ (15 - (Qt.decimal M).length) :=
          Nat.mul_lt_mul_of_pos_right h3 (by positivity)
      _ = 10 ^ 15 := by rw [← pow_add, ← e]

/-- The round trip of a normal double that is the nearest to a decimal number of at most 15
digits. -/
theorem round_trip_of_decimal (neg : Bool) (M : Nat) (k : ℤ) (h0 : 0 < M) (h15 : M < 10 ^ 15)
    (hn : (nearestQ neg ((M : ℚ) * (10 : ℚ) ^ k)).isNormal = true) :
    toDouble (printG15 (nearestQ neg ((M : ℚ) * (10 : ℚ) ^ k))) =
      nearestQ neg ((M : ℚ) * (10 : ℚ) ^ k) := by
  have hv : (0 : ℚ) < (M : ℚ) * (10 : ℚ) ^ k := by
    have : (0 : ℚ) < M := by exact_mod_cast h0
    positivity
  obtain ⟨s1, s2, s3, s4, s5, s6⟩ := nearestQ_normal neg _ hv hn
  obtain ⟨j, hj1, hj2⟩ := fifteen_digits M h0 h15
  have hvn : (M : ℚ) * (10 : ℚ) ^ k = ((M * 10 ^ j : ℕ) : ℚ) * (10 : ℚ) ^ (k - j) := by
    rw [zpow_sub₀ (by norm_num), zpow_natCast]
    push_cast
    field_simp
    ring
  have hround := round15Q_of_close _ s5 (M * 10 ^ j) (k - j) hj1 hj2 (by rw [← hvn]; exact s6)
  rw [printG15_normal _ s2 s3, hround, s1]
  simp only
  obtain ⟨M2, j2, hparse, hM2⟩ := parse_formatG15 neg (M * 10 ^ j) (k - j + 14) hj1 hj2
  have hM2pos : 0 < M2 := by
    rcases Nat.eq_zero_or_pos M2 with h | h
    · rw [h] at hM2
      simp at hM2
      omega
    · exact h
  have htrim : Qt.trimmed ((if neg then ['-'] else []) ++ formatG15 (M * 10 ^ j) (k - j + 14)) =
      (if neg then ['-'] else []) ++ formatG15 (M * 10 ^ j) (k - j + 14) := by
    apply Qt.trimmed_of_no_space
    intro c hc
    rw [List.mem_append] at hc
    rcases hc with hc | hc
    · cases neg
      · simp at hc
      · simp only [if_true, List.mem_singleton] at hc
        rw [hc]
        decide
    · exact formatG15_no_space _ _ c hc
  rw [toDouble_of_parse _ neg M2 (k - j + 14 - 14 + j2) (by rw [htrim]; exact hparse) hM2pos]
  congr 1
  rw [hvn]
  have hq : ((M * 10 ^ j : ℕ) : ℚ) = (M2 : ℚ) * (10 : ℚ) ^ (j2 : ℤ) := by
    rw [← hM2]
    push_cast
    rw [zpow_natCast]
  rw [hq]
  have he : k - j + 14 - 14 + (j2 : ℤ) = (j2 : ℤ) + (k - j) := by ring
  rw [he, zpow_add₀ (by norm_num)]
  ring

end Ieee

set_option maxRecDepth 100000 in
/-- C16, refuted. The finite double with the pattern `3FD3333333333334` (the sum of the doubles
0.1 and 0.2) is written by `doubleToString` as `0.3`, and the text `0.3` reads as the double
with the pattern `3FD3333333333333`, another double. -/
theorem fifteen_digits_lose_a_double :
    (⟨0x3FD3333333333334⟩ : Double).isFinite = true ∧
    doubleToString ieeeLibC ⟨0x3FD3333333333334⟩ = "0.3".toList ∧
    ieeeLibC.toDouble (doubleToString ieeeLibC ⟨0x3FD3333333333334⟩) = ⟨0x3FD3333333333333⟩ ∧
    ieeeLibC.toDouble (doubleToString ieeeLibC ⟨0x3FD3333333333334⟩) ≠ ⟨0x3FD3333333333334⟩ := by
  refine ⟨by decide!, by decide!, by decide!, by decide!⟩

/-- C16, amended. For every decimal text `t` with at most 15 significant digits (its digits,
read as one integer, are below `10 ^ 15`) that reads as zero or as a normal double `x`, parsing
the text `doubleToString(x)` gives back exactly `x`: the 15 significant digits that the
generator writes are enough for the doubles that come from such texts. -/
theorem decimal_text_round_trip (t : Str) (neg : Bool) (M : Nat) (k : ℤ)
    (hp : Ieee.parseDecimal (Qt.trimmed t) = some (neg, M, k)) (hM : M < 10 ^ 15)
    (hn : M = 0 ∨ (ieeeLibC.toDouble t).isNormal = true) :
    ieeeLibC.toDouble (doubleToString ieeeLibC (ieeeLibC.toDouble t)) = ieeeLibC.toDouble t := by
  show Ieee.toDouble (Ieee.printG15 (Ieee.toDouble t)) = Ieee.toDouble t
  rcases Nat.eq_zero_or_pos M with h0 | h0
  · have hz : Ieee.toDouble t = Double.pack neg 0 0 := by
      unfold Ieee.toDouble
      rw [hp]
      simp only
      rw [if_pos h0]
    rw [hz]
    cases neg
    · decide!
    · decide!
  · have hnorm : (Ieee.toDouble t).isNormal = true := by
      rcases hn with h | h
      · omega
      · exact h
    rw [Ieee.toDouble_of_parse t neg M k hp h0] at hnorm ⊢
    exact Ieee.round_trip_of_decimal neg M k h0 hM hnorm

set_option maxRecDepth 100000 in
/-- C16, at the text `0.1`: it reads as the double with the pattern `3FB999999999999A`, which
`doubleToString` writes as `0.1` again. -/
theorem decimal_text_round_trip_witness :
    ieeeLibC.toDouble "0.1".toList = ⟨0x3FB999999999999A⟩ ∧
    doubleToString ieeeLibC ⟨0x3FB999999999999A⟩ = "0.1".toList ∧
    ieeeLibC.toDouble (doubleToString ieeeLibC (ieeeLibC.toDouble "0.1".toList)) =
      ieeeLibC.toDouble "0.1".toList :=
  ⟨by decide!, by decide!,
    decimal_text_round_trip "0.1".toList false 1 (-1) (by decide!) (by norm_num)
      (Or.inr (by decide!))⟩

/-! ## The text of a `MessageId` read back -/

namespace Cxx

theorem hexDigit_facts (d : Nat) (hd : d < 16) :
    digitOf 16 (digitChar d) = some d ∧ (d < 10 → digitOf 10 (digitChar d) = some d) ∧
    isspace (digitChar d) = false ∧ digitChar d ≠ '-' ∧ digitChar d ≠ '+' ∧
    digitChar d ≠ 'x' ∧ digitChar d ≠ 'X' ∧ digitChar d ≠ ':' := by
  interval_cases d <;> decide

theorem digitOf_digitChar (base d : Nat) (hb : base = 10 ∨ base = 16) (hd : d < base) :
    digitOf base (digitChar d) = some d := by
  rcases hb with rfl | rfl
  · exact (hexDigit_facts d (by omega)).2.1 hd
  · exact (hexDigit_facts d hd).1

theorem readDigits_printBaseAux (base : Nat) (hb : base = 10 ∨ base = 16) (fuel n : Nat)
    (acc : Str) (any : Bool) (h : n < fuel) :
    readDigits base (printBaseAux base fuel n acc) 0 any = readDigits base acc n true := by
  have hb2 : 0 < base := by rcases hb with rfl | rfl <;> decide
  induction fuel generalizing n acc any with
  | zero => omega
  | succ f ih =>
    unfold printBaseAux
    by_cases hn : n < base
    · simp only [hn, if_true]
      simp only [readDigits, digitOf_digitChar base n hb hn, Nat.zero_mul, Nat.zero_add]
    · simp only [hn, if_false]
      have hlt : n / base < f := by
        have : n / base < n := Nat.div_lt_self (by omega) (by rcases hb with rfl | rfl <;> decide)
        omega
      rw [ih (n / base) _ any hlt]
      have : n / base * base + n % base = n := Nat.div_add_mod' n base
      simp only [readDigits, digitOf_digitChar base (n % base) hb (Nat.mod_lt _ hb2), this]

theorem printBaseAux_digits (base : Nat) (hb : base = 10 ∨ base = 16) (fuel n : Nat) (acc : Str)
    (x : Char) (hx : x ∈ printBaseAux base fuel n acc) :
    x ∈ acc ∨ ∃ d, d < 16 ∧ x = digitChar d := by
  have hb16 : base ≤ 16 := by rcases hb with rfl | rfl <;> decide
  have hb2 : 0 < base := by rcases hb with rfl | rfl <;> decide
  induction fuel generalizing n acc with
  | zero => exact Or.inl hx
  | succ f ih =>
    unfold printBaseAux at hx
    by_cases hn : n < base
    · simp only [hn, if_true, List.mem_cons] at hx
      rcases hx with h | h
      · exact Or.inr ⟨n, by omega, h⟩
      · exact Or.inl h
    · simp only [hn, if_false] at hx
      rcases ih _ _ hx with h | h
      · simp only [List.mem_cons] at h
        rcases h with h | h
        · exact Or.inr ⟨n % base, lt_of_lt_of_le (Nat.mod_lt _ hb2) hb16, h⟩
        · exact Or.inl h
      · exact Or.inr h

theorem printBaseAux_ne_nil (base fuel n : Nat) (acc : Str) (h : 0 < fuel) :
    printBaseAux base fuel n acc ≠ [] := by
  induction fuel generalizing n acc with
  | zero => omega
  | succ f ih =>
    unfold printBaseAux
    by_cases hn : n < base
    · simp [hn]
    · simp only [hn, if_false]
      cases f with
      | zero => simp [printBaseAux]
      | succ g => exact ih _ _ (by omega)

/-- What `stoul` reads from the digits that `printf` wrote. -/
theorem stoul_printBaseAux (base : Nat) (hb : base = 10 ∨ base = 16) (n : Nat) (h : n < 2 ^ 64) :
    stoul (printBaseAux base (n + 1) n []) base = .ok n := by
  have hdig : ∀ x ∈ printBaseAux base (n + 1) n [], ∃ d, d < 16 ∧ x = digitChar d := by
    intro x hx
    rcases printBaseAux_digits base hb _ _ _ x hx with h | h
    · simp at h
    · exact h
  have hne := printBaseAux_ne_nil base (n + 1) n [] (by omega)
  have hread := readDigits_printBaseAux base hb (n + 1) n [] false (by omega)
  unfold stoul
  generalize printBaseAux base (n + 1) n [] = t at hdig hne hread
  obtain ⟨c, r, rfl⟩ := List.exists_cons_of_ne_nil hne
  obtain ⟨d, hd, hc⟩ := hdig c (List.mem_cons_self _ _)
  have hf := hexDigit_facts d hd
  have h1 : List.dropWhile isspace (c :: r) = c :: r := by
    rw [List.dropWhile_cons, hc, hf.2.2.1]; simp
  have h2 : readSign (c :: r) = (false, c :: r) := by
    show (if c = '-' then (true, r) else if c = '+' then (false, r) else (false, c :: r)) = _
    rw [if_neg (by rw [hc]; exact hf.2.2.2.1), if_neg (by rw [hc]; exact hf.2.2.2.2.1)]
  have h3 : skipHexPrefix (c :: r) = c :: r := by
    cases r with
    | nil => rfl
    | cons x r2 =>
      cases r2 with
      | nil => rfl
      | cons y r3 =>
        obtain ⟨dx, hdx, hx⟩ := hdig x (by simp)
        have hfx := hexDigit_facts dx hdx
        show (if c = '0' ∧ (x = 'x' ∨ x = 'X') ∧ (digitOf 16 y).isSome then y :: r3
          else c :: x :: y :: r3) = _
        rw [if_neg]
        rintro ⟨-, hxx | hxx, -⟩
        · exact hfx.2.2.2.2.2.1 (hx ▸ hxx)
        · exact hfx.2.2.2.2.2.2.1 (hx ▸ hxx)
  have h4 : (if base = 16 then skipHexPrefix (c :: r) else c :: r) = c :: r := by
    rw [h3]; simp
  simp only [h1, h2, h4, hread, readDigits, h, if_true, Bool.false_eq_true, if_false]

theorem find_append (a b : Str) (c : Char) (h : ∀ x ∈ a, x ≠ c) :
    find (a ++ c :: b) c = some a.length := by
  induction a with
  | nil => simp [find]
  | cons x t ih =>
    have hx : x ≠ c := h x (List.mem_cons_self _ _)
    have := ih (fun y hy => h y (List.mem_cons_of_mem _ hy))
    simp [find, hx, this]

theorem find_none (s : Str) (c : Char) (h : c ∉ s) : find s c = none := by
  induction s with
  | nil => rfl
  | cons x t ih =>
    have hx : x ≠ c := fun e => h (e ▸ List.mem_cons_self _ _)
    have := ih (fun hm => h (List.mem_cons_of_mem _ hm))
    simp [find, hx, this]

end Cxx

namespace MessageId

/-- C25: for every `MessageId` with an 8-bit source and a 32-bit address, `toString` writes the
source in decimal, a colon and the address in hexadecimal (capital letters), and `fromString`
of that text returns the id; `fromString` of a text without a colon returns the default id, with
source 0 and address 0. -/
theorem fromString_toString (id : MessageId) (hs : id.source < 2 ^ 8)
    (ha : id.address < 2 ^ 32) :
    toString id = Cxx.printUnsigned id.source ++ ":".toList ++ Cxx.printHexUpper id.address ∧
    fromString (toString id) = .ok id ∧
    (∀ str : Str, ':' ∉ str → fromString str = .ok { source := 0, address := 0 }) := by
  refine ⟨by simp [toString], ?_, ?_⟩
  · have hnc : ∀ x ∈ Cxx.printUnsigned id.source, x ≠ ':' := by
      intro x hx
      rcases Cxx.printBaseAux_digits 10 (Or.inl rfl) _ _ _ x hx with h | ⟨d, hd, rfl⟩
      · simp at h
      · exact (Cxx.hexDigit_facts d hd).2.2.2.2.2.2.2
    have h10 := Cxx.stoul_printBaseAux 10 (Or.inl rfl) id.source
      (lt_trans hs (by norm_num))
    have h16 := Cxx.stoul_printBaseAux 16 (Or.inr rfl) id.address
      (lt_trans ha (by norm_num))
    unfold fromString toString
    rw [Cxx.find_append _ _ _ hnc]
    have ht : List.take (Cxx.printUnsigned id.source).length
        (Cxx.printUnsigned id.source ++ ':' :: Cxx.printHexUpper id.address) =
        Cxx.printUnsigned id.source := by simp
    have hd : List.drop ((Cxx.printUnsigned id.source).length + 1)
        (Cxx.printUnsigned id.source ++ ':' :: Cxx.printHexUpper id.address) =
        Cxx.printHexUpper id.address := by
      rw [List.drop_append_eq_append_drop]
      simp
    simp only [ht, hd]
    unfold Cxx.printUnsigned Cxx.printHexUpper
    rw [h10, h16]
    simp only [Nat.mod_eq_of_lt hs, Nat.mod_eq_of_lt ha]
  · intro str hstr
    unfold fromString
    rw [Cxx.find_none str ':' hstr]

theorem fromString_toString_witness :
    (255 : Nat) < 2 ^ 8 ∧ (0x18DAF110 : Nat) < 2 ^ 32 ∧
    toString { source := 255, address := 0x18DAF110 } = "255:18DAF110".toList ∧
    fromString "255:18DAF110".toList = .ok { source := 255, address := 0x18DAF110 } :=
  ⟨by decide, by decide, by decide!,
    (by decide! : toString { source := 255, address := 0x18DAF110 } = "255:18DAF110".toList) ▸
      (fromString_toString { source := 255, address := 0x18DAF110 } (by decide) (by decide)).2.1⟩

end MessageId

/-! ## The file of a source -/

namespace DBCManager

theorem findDBCFile_eq (mgr : DBCManager) (source : Nat) :
    findDBCFile mgr source =
      match findEntry mgr.dbc_files (source : Int) with
      | some f => f.2
      | none =>
        match findEntry mgr.dbc_files (-1) with
        | some f => f.2
        | none => none := by
  unfold findDBCFile countEntry
  cases h : findEntry mgr.dbc_files (source : Int)
  · cases h1 : findEntry mgr.dbc_files (-1) <;> simp
  · simp

set_option maxRecDepth 100000 in
/-- C24: `findDBCFile(source)` returns the pointer of the entry of `source` when `dbc_files` has
such an entry, and the pointer of the entry of `-1` (`SOURCE_ALL`) only when it has none. After
`open({-1}, "a", "")`, `open({0}, "b", "")` the file of source 0 is the second file and the file
of source 1 the first one; after `close({0})` the entry of source 0 is still in the map with a
null pointer, and `findDBCFile(0)` returns `nullptr` although the first file is registered for
`SOURCE_ALL`. -/
theorem findDBCFile_null_after_close (env : LibC) (fs : Str → Option Str) :
    (∀ (mgr : DBCManager) (source : Nat) (f : Int × Option Nat),
      findEntry mgr.dbc_files (source : Int) = some f → findDBCFile mgr source = f.2) ∧
    (∀ (mgr : DBCManager) (source : Nat),
      findEntry mgr.dbc_files (source : Int) = none →
      findDBCFile mgr source = (findEntry mgr.dbc_files (-1)).bind (fun f => f.2)) ∧
    (calls env fs [.openContent [-1] "a".toList [], .openContent [0] "b".toList []]).dbc_files
      = [(-1, some 0), (0, some 1)] ∧
    findDBCFile (calls env fs [.openContent [-1] "a".toList [], .openContent [0] "b".toList []]) 0
      = some 1 ∧
    findDBCFile (calls env fs [.openContent [-1] "a".toList [], .openContent [0] "b".toList []]) 1
      = some 0 ∧
    (calls env fs [.openContent [-1] "a".toList [], .openContent [0] "b".toList [],
      .close [0]]).dbc_files = [(-1, some 0), (0, none)] ∧
    findDBCFile (calls env fs [.openContent [-1] "a".toList [], .openContent [0] "b".toList [],
      .close [0]]) 0 = none ∧
    findDBCFile (calls env fs [.openContent [-1] "a".toList [], .openContent [0] "b".toList [],
      .close [0]]) 1 = some 0 := by
  refine ⟨?_, ?_, rfl, rfl, rfl, rfl, rfl, rfl⟩
  · intro mgr source f h
    rw [findDBCFile_eq, h]
  · intro mgr source h
    rw [findDBCFile_eq, h]
    cases findEntry mgr.dbc_files (-1) <;> rfl

end DBCManager

/-! ## The bit index mirrored inside its byte -/

theorem flipBitPos_of_nonneg (b : Int) (hb : 0 ≤ b) : flipBitPos b = 8 * (b / 8) + 7 - b % 8 := by
  unfold flipBitPos
  rw [Int.tdiv_eq_ediv hb (by norm_num), Int.tmod_eq_emod hb (by norm_num)]

theorem flipBitPos_nonneg (b : Int) (hb : 0 ≤ b) : 0 ≤ flipBitPos b := by
  rw [flipBitPos_of_nonneg b hb]; omega

theorem flipBitPos_flipBitPos (b : Int) (hb : 0 ≤ b) : flipBitPos (flipBitPos b) = b := by
  rw [flipBitPos_of_nonneg _ (flipBitPos_nonneg b hb), flipBitPos_of_nonneg b hb]; omega

theorem flipBitPos_lt (b n : Int) (hb : 0 ≤ b) (hn : b < 8 * n) : flipBitPos b < 8 * n := by
  rw [flipBitPos_of_nonneg b hb]; omega

/-- C26: for every non-negative bit index `b`, with the division and the remainder of C
(`Int.tdiv`, `Int.tmod`), `flipBitPos b` lies in the byte of `b` and has the mirrored position
inside the byte; `flipBitPos` undoes itself at `b`; for every `n` it maps the indices of
`[0, 8 * n)` one-to-one onto `[0, 8 * n)`; and for an index that fits an `int` no value of the
computation leaves the range of `int`. -/
theorem flipBitPos_mirrors_inside_the_byte (b : Int) (hb : 0 ≤ b) :
    Int.tdiv (flipBitPos b) 8 = Int.tdiv b 8 ∧
    Int.tmod (flipBitPos b) 8 = 7 - Int.tmod b 8 ∧
    flipBitPos (flipBitPos b) = b ∧
    (∀ n : Int, Set.BijOn flipBitPos (Set.Ico 0 (8 * n)) (Set.Ico 0 (8 * n))) ∧
    (b < 2 ^ 31 →
      0 ≤ 8 * Int.tdiv b 8 ∧ 8 * Int.tdiv b 8 + 7 < 2 ^ 31 ∧
      0 ≤ flipBitPos b ∧ flipBitPos b < 2 ^ 31) := by
  have hf := flipBitPos_of_nonneg b hb
  have hf0 := flipBitPos_nonneg b hb
  refine ⟨?_, ?_, flipBitPos_flipBitPos b hb, ?_, ?_⟩
  · rw [Int.tdiv_eq_ediv hf0 (by norm_num), Int.tdiv_eq_ediv hb (by norm_num), hf]; omega
  · rw [Int.tmod_eq_emod hf0 (by norm_num), Int.tmod_eq_emod hb (by norm_num), hf]; omega
  · intro n
    refine ⟨?_, ?_, ?_⟩
    · intro x hx
      exact ⟨flipBitPos_nonneg x hx.1, flipBitPos_lt x n hx.1 hx.2⟩
    · intro x hx y hy hxy
      have := congrArg flipBitPos hxy
      rwa [flipBitPos_flipBitPos x hx.1, flipBitPos_flipBitPos y hy.1] at this
    · intro y hy
      exact ⟨flipBitPos y, ⟨flipBitPos_nonneg y hy.1, flipBitPos_lt y n hy.1 hy.2⟩,
        flipBitPos_flipBitPos y hy.1⟩
  · intro h31
    rw [Int.tdiv_eq_ediv hb (by norm_num), hf]
    omega

theorem flipBitPos_mirrors_inside_the_byte_witness :
    (0 : Int) ≤ 10 ∧ Int.tdiv (flipBitPos 10) 8 = Int.tdiv 10 8 ∧
    Int.tmod (flipBitPos 10) 8 = 7 - Int.tmod 10 8 ∧ flipBitPos 10 = 13 ∧
    flipBitPos (flipBitPos 10) = 10 :=
  ⟨by decide, (flipBitPos_mirrors_inside_the_byte 10 (by decide)).1,
    (flipBitPos_mirrors_inside_the_byte 10 (by decide)).2.1, by decide,
    (flipBitPos_mirrors_inside_the_byte 10 (by decide)).2.2.1⟩

/-! ## All the outcomes of a pattern -/

namespace Re

theorem mem_run_seq {a b : Re} {st : Bool} {s : Str} {caps : Caps} {o : Str × Caps}
    (h : o ∈ run (.seq a b) st s caps) :
    ∃ o1 st1, o1 ∈ run a st s caps ∧ o ∈ run b st1 o1.1 o1.2 := by
  simp only [run, List.mem_bind] at h
  obtain ⟨o1, h1, h2⟩ := h
  exact ⟨o1, _, h1, h2⟩

theorem mem_run_lit {c : Char} {st : Bool} {s : Str} {caps : Caps} {o : Str × Caps}
    (h : o ∈ run (.lit c) st s caps) : s = c :: o.1 ∧ o.2 = caps := by
  cases s with
  | nil => simp [run] at h
  | cons d t =>
    simp only [run] at h
    by_cases hd : d = c
    · simp only [hd, if_true, List.mem_singleton] at h
      subst h
      exact ⟨by rw [hd], rfl⟩
    · simp [hd] at h

theorem mem_run_cls {p : Char → Bool} {st : Bool} {s : Str} {caps : Caps} {o : Str × Caps}
    (h : o ∈ run (.cls p) st s caps) : ∃ d, s = d :: o.1 ∧ p d = true ∧ o.2 = caps := by
  cases s with
  | nil => simp [run] at h
  | cons d t =>
    simp only [run] at h
    by_cases hd : p d = true
    · simp only [hd, if_true, List.mem_singleton] at h
      subst h
      exact ⟨d, rfl, hd, rfl⟩
    · simp [hd] at h

theorem mem_run_lits {w : Str} {st : Bool} {s : Str} {caps : Caps} {o : Str × Caps}
    (h : o ∈ run (lits w) st s caps) : s = w ++ o.1 ∧ o.2 = caps := by
  induction w generalizing st s caps with
  | nil =>
    simp only [lits, run, List.mem_singleton] at h
    subst h
    exact ⟨rfl, rfl⟩
  | cons c t ih =>
    unfold lits at h
    obtain ⟨o1, st1, h1, h2⟩ := mem_run_seq h
    obtain ⟨e1, e2⟩ := mem_run_lit h1
    obtain ⟨e3, e4⟩ := ih h2
    exact ⟨by rw [e1, e3]; rfl, by rw [e4, e2]⟩

/-- Every outcome of a repetition whose body takes one character of a kind lies behind a run
of characters of that kind, and has the groups unchanged. -/
theorem mem_starRun (P : Char → Prop) (f : Str → Caps → Outcomes)
    (hf : ∀ s caps o, o ∈ f s caps → ∃ d, s = d :: o.1 ∧ P d ∧ o.2 = caps)
    (fuel : Nat) (s : Str) (caps : Caps) (o : Str × Caps) (h : o ∈ starRun f fuel s caps) :
    ∃ w, s = w ++ o.1 ∧ (∀ c ∈ w, P c) ∧ o.2 = caps := by
  induction fuel generalizing s with
  | zero =>
    simp only [starRun, List.mem_singleton] at h
    subst h
    exact ⟨[], rfl, by simp, rfl⟩
  | succ k ih =>
    simp only [starRun, List.mem_append, List.mem_bind, List.mem_singleton] at h
    rcases h with ⟨r, hr, hin⟩ | h
    · obtain ⟨d, hs, hP, hc⟩ := hf s caps r hr
      by_cases hlt : r.1.length < s.length
      · rw [if_pos hlt, hc] at hin
        obtain ⟨w, hw, hall, hcaps⟩ := ih r.1 hin
        refine ⟨d :: w, ?_, ?_, hcaps⟩
        · rw [hs, List.cons_append, ← hw]
        · intro c hcm
          rcases List.mem_cons.mp hcm with e | e
          · rw [e]; exact hP
          · exact hall c e
      · rw [if_neg hlt] at hin
        simp at hin
    · subst h
      exact ⟨[], rfl, by simp, rfl⟩

theorem mem_run_star_cls {p : Char → Bool} {st : Bool} {s : Str} {caps : Caps} {o : Str × Caps}
    (h : o ∈ run (.star (.cls p)) st s caps) :
    ∃ w, s = w ++ o.1 ∧ (∀ c ∈ w, p c = true) ∧ o.2 = caps := by
  change o ∈ starRun (fun s1 c1 => run (.cls p) false s1 c1) s.length s caps at h
  exact mem_starRun (fun d => p d = true) (fun s1 c1 => run (.cls p) false s1 c1)
    (fun s caps o ho => mem_run_cls ho) _ _ _ _ h

theorem mem_run_plus_cls {p : Char → Bool} {st : Bool} {s : Str} {caps : Caps} {o : Str × Caps}
    (h : o ∈ run (plus (.cls p)) st s caps) :
    ∃ w, w ≠ [] ∧ s = w ++ o.1 ∧ (∀ c ∈ w, p c = true) ∧ o.2 = caps := by
  unfold plus at h
  obtain ⟨o1, st1, h1, h2⟩ := mem_run_seq h
  obtain ⟨d, hs, hp, hc⟩ := mem_run_cls h1
  obtain ⟨w, hw, hall, hcaps⟩ := mem_run_star_cls h2
  refine ⟨d :: w, by simp, ?_, ?_, by rw [hcaps, hc]⟩
  · rw [hs, hw]; rfl
  · intro c hcm
    rcases List.mem_cons.mp hcm with e | e
    · rw [e]; exact hp
    · exact hall c e

theorem mem_run_star_lit {c : Char} {st : Bool} {s : Str} {caps : Caps} {o : Str × Caps}
    (h : o ∈ run (.star (.lit c)) st s caps) :
    ∃ k, s = List.replicate k c ++ o.1 ∧ o.2 = caps := by
  change o ∈ starRun (fun s1 c1 => run (.lit c) false s1 c1) s.length s caps at h
  obtain ⟨w, hw, hall, hcaps⟩ := mem_starRun (fun d => d = c)
    (fun s1 c1 => run (.lit c) false s1 c1)
    (fun s caps o ho => ⟨c, (mem_run_lit ho).1, rfl, (mem_run_lit ho).2⟩) _ _ _ _ h
  refine ⟨w.length, ?_, hcaps⟩
  rw [hw]
  congr 1
  exact List.eq_replicate_iff.mpr ⟨rfl, hall⟩

/-- A group around a pattern whose outcomes lie behind a text `w` and leave the groups as they
are: the group holds `w`. -/
theorem mem_run_group (P : Str → Prop) {n : Nat} {a : Re} {st : Bool} {s : Str} {caps : Caps}
    {o : Str × Caps} (h : o ∈ run (.group n a) st s caps)
    (ha : ∀ o1, o1 ∈ run a st s caps → ∃ w, s = w ++ o1.1 ∧ P w ∧ o1.2 = caps) :
    ∃ w, s = w ++ o.1 ∧ P w ∧ o.2 = (n, w) :: caps := by
  simp only [run, List.mem_map] at h
  obtain ⟨o1, h1, rfl⟩ := h
  obtain ⟨w, hs, hP, hc⟩ := ha o1 h1
  refine ⟨w, hs, hP, ?_⟩
  have : List.take (s.length - o1.1.length) s = w := by
    rw [hs]
    simp
  simp only [this, hc]

theorem mem_run_group_plus_cls {p : Char → Bool} {n : Nat} {st : Bool} {s : Str} {caps : Caps}
    {o : Str × Caps} (h : o ∈ run (.group n (plus (.cls p))) st s caps) :
    ∃ w, s = w ++ o.1 ∧ (w ≠ [] ∧ ∀ c ∈ w, p c = true) ∧ o.2 = (n, w) :: caps := by
  apply mem_run_group (fun w => w ≠ [] ∧ ∀ c ∈ w, p c = true) h
  intro o1 h1
  obtain ⟨w, hne, hs, hall, hc⟩ := mem_run_plus_cls h1
  exact ⟨w, hs, ⟨hne, hall⟩, hc⟩

theorem mem_run_group_star_cls {p : Char → Bool} {n : Nat} {st : Bool} {s : Str} {caps : Caps}
    {o : Str × Caps} (h : o ∈ run (.group n (.star (.cls p))) st s caps) :
    ∃ w, s = w ++ o.1 ∧ (∀ c ∈ w, p c = true) ∧ o.2 = (n, w) :: caps := by
  apply mem_run_group (fun w => ∀ c ∈ w, p c = true) h
  intro o1 h1
  exact mem_run_star_cls h1

theorem mem_run_group_cls {p : Char → Bool} {n : Nat} {st : Bool} {s : Str} {caps : Caps}
    {o : Str × Caps} (h : o ∈ run (.group n (.cls p)) st s caps) :
    ∃ d, s = d :: o.1 ∧ p d = true ∧ o.2 = (n, [d]) :: caps := by
  obtain ⟨w, hs, hP, hc⟩ := mem_run_group (fun w => ∃ d, w = [d] ∧ p d = true) h (by
    intro o1 h1
    obtain ⟨d, hs, hp, hc⟩ := mem_run_cls h1
    exact ⟨[d], by rw [hs]; rfl, ⟨d, rfl, hp⟩, hc⟩)
  obtain ⟨d, rfl, hp⟩ := hP
  exact ⟨d, hs, hp, hc⟩

/-- A pattern that starts with `^` matches nowhere but at the start of the subject. -/
theorem searchFrom_bos_false (r : Re) (s : Str) : searchFrom (.seq .bos r) false s = none := by
  induction s with
  | nil => simp [searchFrom, matchHere, run]
  | cons c t ih => simp [searchFrom, matchHere, run, ih]

/-- The match of a pattern that starts with `^` is an outcome of the rest of the pattern on the
whole subject. -/
theorem search_bos_some {r : Re} {s : Str} {caps : Caps}
    (h : search (.seq .bos r) s = some caps) : ∃ rest, (rest, caps) ∈ run r true s [] := by
  have key : matchHere (.seq .bos r) true s = some caps := by
    unfold search at h
    cases s with
    | nil => simpa [searchFrom] using h
    | cons c t =>
      simp only [searchFrom] at h
      cases hm : matchHere (.seq .bos r) true (c :: t) with
      | none => rw [hm, searchFrom_bos_false] at h; exact absurd h (by simp)
      | some x => rw [hm] at h; exact h
  have hrun : run (.seq .bos r) true s [] = run r true s [] := by simp [run]
  unfold matchHere at key
  rw [hrun] at key
  cases hr : run r true s [] with
  | nil => rw [hr] at key; simp at key
  | cons x t =>
    rw [hr] at key
    simp only [List.head?_cons, Option.map_some', Option.some.injEq] at key
    refine ⟨x.1, ?_⟩
    rw [← key]
    exact List.mem_cons_self _ _

end Re

/-! ## The `BO_` pattern -/

/-- What a match of `bo_regexp` says about the line: the four tokens are runs of word
characters, set apart as the pattern says, and they are the groups. -/
theorem bo_regexp_shape (line : Str) (m : Caps) (h : bo_regexp.search line = some m) :
    ∃ (A N : Str) (k : Nat) (S T rest : Str),
      line = "BO_ ".toList ++ (A ++ ' ' :: (N ++ (List.replicate k ' ' ++
        (": ".toList ++ (S ++ ' ' :: (T ++ rest)))))) ∧
      (A ≠ [] ∧ ∀ c ∈ A, isWordChar c = true) ∧ (N ≠ [] ∧ ∀ c ∈ N, isWordChar c = true) ∧
      (S ≠ [] ∧ ∀ c ∈ S, isWordChar c = true) ∧ (T ≠ [] ∧ ∀ c ∈ T, isWordChar c = true) ∧
      m = [(4, T), (3, S), (2, N), (1, A)] := by
  unfold bo_regexp at h
  simp only [Re.seqs] at h
  obtain ⟨rest, h⟩ := Re.search_bos_some h
  obtain ⟨o1, _, h1, h⟩ := Re.mem_run_seq h
  obtain ⟨e1, c1⟩ := Re.mem_run_lits h1
  obtain ⟨o2, _, h2, h⟩ := Re.mem_run_seq h
  obtain ⟨A, e2, hA, c2⟩ := Re.mem_run_group_plus_cls h2
  obtain ⟨o3, _, h3, h⟩ := Re.mem_run_seq h
  obtain ⟨e3, c3⟩ := Re.mem_run_lit h3
  obtain ⟨o4, _, h4, h⟩ := Re.mem_run_seq h
  obtain ⟨N, e4, hN, c4⟩ := Re.mem_run_group_plus_cls h4
  obtain ⟨o5, _, h5, h⟩ := Re.mem_run_seq h
  obtain ⟨k, e5, c5⟩ := Re.mem_run_star_lit h5
  obtain ⟨o6, _, h6, h⟩ := Re.mem_run_seq h
  obtain ⟨e6, c6⟩ := Re.mem_run_lits h6
  obtain ⟨o7, _, h7, h⟩ := Re.mem_run_seq h
  obtain ⟨S, e7, hS, c7⟩ := Re.mem_run_group_plus_cls h7
  obtain ⟨o8, _, h8, h⟩ := Re.mem_run_seq h
  obtain ⟨e8, c8⟩ := Re.mem_run_lit h8
  obtain ⟨T, e9, hT, c9⟩ := Re.mem_run_group_plus_cls h
  refine ⟨A, N, k, S, T, rest, ?_, hA, hN, hS, hT, ?_⟩
  · rw [e1, e2, e3, e4, e5, e6, e7, e8, e9]
  · have := c9
    simp only [c8, c7, c6, c5, c4, c3, c2, c1] at this
    exact this

/-- What `bo_regexp` finds in a line of four runs of word characters, whatever follows the
last one. -/
theorem bo_regexp_search (A N : Str) (k : Nat) (S T rest : Str)
    (hA : A ≠ [] ∧ ∀ c ∈ A, isWordChar c = true) (hN : N ≠ [] ∧ ∀ c ∈ N, isWordChar c = true)
    (hS : S ≠ [] ∧ ∀ c ∈ S, isWordChar c = true) (hT : T ≠ [] ∧ ∀ c ∈ T, isWordChar c = true)
    (hrest : rest.head?.all (fun c => !isWordChar c) = true) :
    bo_regexp.search ("BO_ ".toList ++ (A ++ ' ' :: (N ++ (List.replicate k ' ' ++
        (": ".toList ++ (S ++ ' ' :: (T ++ rest))))))) = some [(4, T), (3, S), (2, N), (1, A)] := by
  apply Re.search_of_first _ _ rest _
  unfold bo_regexp
  simp only [Re.seqs]
  apply Re.first_after_bos
  refine Re.First.seq (Re.First.lits _ _ _) ?_
  refine Re.First.seq (Re.First.group 1 (Re.First.plus_cls isWordChar _ A _ hA.1 hA.2 ?_)) ?_
  · simp [isWordChar]
  refine Re.First.seq (Re.First.lit ' ' _ _) ?_
  refine Re.First.seq (Re.First.group 2 (Re.First.plus_cls isWordChar _ N _ hN.1 hN.2 ?_)) ?_
  · cases k with
    | zero => simp [isWordChar]
    | succ j => simp [List.replicate_succ, isWordChar]
  refine Re.First.seq (Re.First.star_lit ' ' _ k _ ?_) ?_
  · simp
  refine Re.First.seq (Re.First.lits _ _ _) ?_
  refine Re.First.seq (Re.First.group 3 (Re.First.plus_cls isWordChar _ S _ hS.1 hS.2 ?_)) ?_
  · simp [isWordChar]
  refine Re.First.seq (Re.First.lit ' ' _ _) ?_
  exact Re.First.group 4 (Re.First.plus_cls isWordChar _ T _ hT.1 hT.2 hrest)

/-! ## The number tokens of a `BO_` statement -/

/-- Two texts that agree and are each a run of characters of a kind followed by a character not
of the kind: the runs agree, and so does what follows. -/
theorem append_cons_split (p : Char → Prop) (w1 w2 : Str) (x y : Char) (r1 r2 : Str)
    (h : w1 ++ x :: r1 = w2 ++ y :: r2) (h1 : ∀ c ∈ w1, p c) (h2 : ∀ c ∈ w2, p c)
    (hx : ¬ p x) (hy : ¬ p y) : w1 = w2 ∧ x = y ∧ r1 = r2 := by
  induction w1 generalizing w2 with
  | nil =>
    cases w2 with
    | nil =>
      simp only [List.nil_append, List.cons.injEq] at h
      exact ⟨rfl, h.1, h.2⟩
    | cons b t =>
      simp only [List.nil_append, List.cons_append, List.cons.injEq] at h
      exact absurd (h.1 ▸ h2 b (List.mem_cons_self _ _)) hx
  | cons a t ih =>
    cases w2 with
    | nil =>
      simp only [List.nil_append, List.cons_append, List.cons.injEq] at h
      exact absurd (h.1 ▸ h1 a (List.mem_cons_self _ _)) hy
    | cons b u =>
      simp only [List.cons_append, List.cons.injEq] at h
      obtain ⟨e1, e2, e3⟩ := ih u h.2 (fun c hc => h1 c (List.mem_cons_of_mem _ hc))
        (fun c hc => h2 c (List.mem_cons_of_mem _ hc))
      exact ⟨by rw [h.1, e1], e2, e3⟩

namespace Qt

theorem digitsValue_non_digit (s : Str) (acc : Nat) (h : ∃ x ∈ s, isDigitChar x = false) :
    digitsValue s acc = none := by
  induction s generalizing acc with
  | nil => obtain ⟨x, hx, _⟩ := h; simp at hx
  | cons c t ih =>
    unfold digitsValue
    by_cases hc : isDigitChar c = true
    · have hrest : ∃ x ∈ t, isDigitChar x = false := by
        obtain ⟨x, hx, hd⟩ := h
        rcases List.mem_cons.mp hx with e | e
        · rw [e, hc] at hd; exact absurd hd (by simp)
        · exact ⟨x, e, hd⟩
      cases hv : digitValue c with
      | none => rfl
      | some d => exact ih _ hrest
    · have : digitValue c = none := by
        unfold digitValue
        rw [if_neg]
        intro hn
        apply hc
        simp only [isDigitChar, Bool.and_eq_true, decide_eq_true_eq]
        exact hn
      rw [this]

/-- A run of word characters that are not all decimal digits is no number: `toUInt` and
`toULong` give 0. -/
theorem non_decimal_word_reads_zero (A : Str) (hA : ∀ c ∈ A, isWordChar c = true)
    (h : ∃ x ∈ A, isDigitChar x = false) : toUInt A = 0 ∧ toULong A = 0 := by
  have htrim : trimmed A = A :=
    trimmed_of_no_space A (fun c hc => (DBCFile.word_facts A hA c hc).2.2)
  have hu : unsignedValue A = none := by
    unfold unsignedValue
    rw [htrim]
    cases A with
    | nil => rfl
    | cons c t =>
      have hc : c ≠ '+' := by
        intro e
        have := hA c (List.mem_cons_self _ _)
        rw [e] at this
        simp [isWordChar] at this
      simp only [hc, if_false]
      exact digitsValue_non_digit _ _ h
  unfold toUInt toULong
  rw [hu]
  exact ⟨rfl, rfl⟩

end Qt

namespace DBCFile

theorem word_no_blank (W : Str) (hW : ∀ c ∈ W, isWordChar c = true) : ∀ c ∈ W, c ≠ ' ' := by
  intro c hc e
  have := hW c hc
  rw [e] at this
  simp [isWordChar] at this

/-- A `BO_` line whose address token, the text up to the first blank behind the keyword, has a
character that is not a word character matches no `BO_` pattern. -/
theorem bo_address_token_not_word (line A rest : Str)
    (hline : line = "BO_ ".toList ++ (A ++ ' ' :: rest)) (hb : ∀ c ∈ A, c ≠ ' ')
    (hnw : ∃ x ∈ A, isWordChar x = false) : bo_regexp.search line = none := by
  cases hs : bo_regexp.search line with
  | none => rfl
  | some m =>
    exfalso
    obtain ⟨A1, N1, k1, S1, T1, rest1, e, hA1, -, -, -, -⟩ := bo_regexp_shape line m hs
    rw [hline] at e
    have e1 := List.append_cancel_left e
    obtain ⟨eA, -, -⟩ := append_cons_split (fun c => c ≠ ' ') A A1 ' ' ' ' _ _ e1 hb
      (word_no_blank A1 hA1.2) (by simp) (by simp)
    obtain ⟨x, hx, hxw⟩ := hnw
    rw [eA] at hx
    rw [hA1.2 x hx] at hxw
    exact absurd hxw (by simp)

/-- A `BO_` line with an address and a name of word characters whose size token, the text
between the colon and the next blank, has a character that is not a word character matches no
`BO_` pattern. -/
theorem bo_size_token_not_word (line A N : Str) (k : Nat) (S rest : Str)
    (hline : line = "BO_ ".toList ++ (A ++ ' ' :: (N ++ (List.replicate k ' ' ++
      (": ".toList ++ (S ++ ' ' :: rest))))))
    (hA : ∀ c ∈ A, isWordChar c = true) (hN : ∀ c ∈ N, isWordChar c = true)
    (hb : ∀ c ∈ S, c ≠ ' ') (hnw : ∃ x ∈ S, isWordChar x = false) :
    bo_regexp.search line = none := by
  cases hs : bo_regexp.search line with
  | none => rfl
  | some m =>
    exfalso
    obtain ⟨A1, N1, k1, S1, T1, rest1, e, hA1, hN1, hS1, -, -⟩ := bo_regexp_shape line m hs
    rw [hline] at e
    have e1 := List.append_cancel_left e
    obtain ⟨-, -, e2⟩ := append_cons_split (fun c => c ≠ ' ') A A1 ' ' ' ' _ _ e1
      (word_no_blank A hA) (word_no_blank A1 hA1.2) (by simp) (by simp)
    have hsep : ∀ j : Nat, ∀ t : Str, ∃ y r, List.replicate j ' ' ++ (": ".toList ++ t) = y :: r ∧
        isWordChar y = false := by
      intro j t
      cases j with
      | zero => exact ⟨':', ' ' :: t, rfl, by decide⟩
      | succ i => exact ⟨' ', List.replicate i ' ' ++ (": ".toList ++ t), rfl, by decide⟩
    obtain ⟨y, r, ey, hy⟩ := hsep k (S ++ ' ' :: rest)
    obtain ⟨y1, r1, ey1, hy1⟩ := hsep k1 (S1 ++ ' ' :: (T1 ++ rest1))
    have e3 : N ++ y :: r = N1 ++ y1 :: r1 := by rw [← ey, ← ey1]; exact e2
    obtain ⟨-, ey2, er⟩ := append_cons_split (fun c => isWordChar c = true) N N1 y y1 r r1 e3
      hN hN1.2 (by simp [hy]) (by simp [hy1])
    have e4 : List.replicate k ' ' ++ ':' :: (' ' :: (S ++ ' ' :: rest)) =
        List.replicate k1 ' ' ++ ':' :: (' ' :: (S1 ++ ' ' :: (T1 ++ rest1))) := by
      have h1 : List.replicate k ' ' ++ (": ".toList ++ (S ++ ' ' :: rest)) = y1 :: r1 := by
        rw [ey, ey2, er]
      rw [← ey1] at h1
      exact h1
    obtain ⟨-, -, e5⟩ := append_cons_split (fun c => c = ' ') _ _ ':' ':' _ _ e4
      (fun c hc => List.eq_of_mem_replicate hc) (fun c hc => List.eq_of_mem_replicate hc)
      (by decide) (by decide)
    simp only [List.cons.injEq, true_and] at e5
    obtain ⟨eS, -, -⟩ := append_cons_split (fun c => c ≠ ' ') S S1 ' ' ' ' _ _ e5 hb
      (word_no_blank S1 hS1.2) (by simp) (by simp)
    obtain ⟨x, hx, hxw⟩ := hnw
    rw [eS] at hx
    rw [hS1.2 x hx] at hxw
    exact absurd hxw (by simp)

set_option maxRecDepth 100000 in
/-- C21, where it fails: the one-line texts `BO_ abc TEST: 8 XXX` and `BO_ 0x64 TEST: 8 XXX` are
parsed without error and define the message of address 0, named `TEST`, of size 8; the text
`BO_ 100 TEST: 0x8 XXX` is parsed without error and defines message 100 with size 0. -/
theorem bo_non_decimal_token_accepted :
    (∃ db, fromContent sampleLibC "n".toList "BO_ abc TEST: 8 XXX\n".toList = .ok db ∧
      (db.msg 0).map (fun m => (m.address, m.name, m.size, m.transmitter)) =
        some (0, "TEST".toList, 8, "XXX".toList)) ∧
    (∃ db, fromContent sampleLibC "n".toList "BO_ 0x64 TEST: 8 XXX\n".toList = .ok db ∧
      (db.msg 0).map (fun m => (m.address, m.name, m.size, m.transmitter)) =
        some (0, "TEST".toList, 8, "XXX".toList)) ∧
    (∃ db, fromContent sampleLibC "n".toList "BO_ 100 TEST: 0x8 XXX\n".toList = .ok db ∧
      (db.msg 100).map (fun m => (m.address, m.name, m.size, m.transmitter)) =
        some (100, "TEST".toList, 0, "XXX".toList)) :=
  ⟨⟨_, rfl, by decide!⟩, ⟨_, rfl, by decide!⟩, ⟨_, rfl, by decide!⟩⟩

/-- C21, amended: a `BO_` statement `BO_ <address> <name>: <size> <transmitter>` whose four
tokens are runs of word characters is accepted whatever the address and size tokens are. The
message it defines has the address `toUInt` reads from the address token and the size `toULong`
reads from the size token, and either is 0 for a token that is not all decimal digits (`0x64`,
`abc`); the only error left is `Duplicate message address` when that address is declared
already. A statement is malformed (`Invalid BO_ line format`, no message defined) when its
address token or its size token has a character that is not a word character. -/
theorem bo_number_token_read_as_zero (msgs : Msgs) (A N : Str) (k : Nat) (S T rest : Str)
    (hA : A ≠ [] ∧ ∀ c ∈ A, isWordChar c = true) (hN : N ≠ [] ∧ ∀ c ∈ N, isWordChar c = true)
    (hS : S ≠ [] ∧ ∀ c ∈ S, isWordChar c = true) (hT : T ≠ [] ∧ ∀ c ∈ T, isWordChar c = true)
    (hrest : rest.head?.all (fun c => !isWordChar c) = true) :
    parseBO msgs ("BO_ ".toList ++ (A ++ ' ' :: (N ++ (List.replicate k ' ' ++
        (": ".toList ++ (S ++ ' ' :: (T ++ rest))))))) =
      (if (mapFind msgs (Qt.toUInt A)).isSome then
        .error (Qt.arg "Duplicate message address: %1".toList (Qt.decimal (Qt.toUInt A)))
      else
        .ok (mapInsert msgs (Qt.toUInt A)
          { address := Qt.toUInt A, name := N, size := Qt.toULong S % 2 ^ 32,
            transmitter := T }, Qt.toUInt A)) ∧
    ((∃ x ∈ A, isDigitChar x = false) → Qt.toUInt A = 0) ∧
    ((∃ x ∈ S, isDigitChar x = false) → Qt.toULong S = 0) ∧
    (∀ (msgs1 : Msgs) (A1 rest1 : Str), (∀ c ∈ A1, c ≠ ' ') →
      (∃ x ∈ A1, isWordChar x = false) →
      parseBO msgs1 ("BO_ ".toList ++ (A1 ++ ' ' :: rest1)) =
        .error "Invalid BO_ line format".toList) ∧
    (∀ (msgs1 : Msgs) (S1 rest1 : Str), (∀ c ∈ S1, c ≠ ' ') →
      (∃ x ∈ S1, isWordChar x = false) →
      parseBO msgs1 ("BO_ ".toList ++ (A ++ ' ' :: (N ++ (List.replicate k ' ' ++
        (": ".toList ++ (S1 ++ ' ' :: rest1)))))) = .error "Invalid BO_ line format".toList) := by
  refine ⟨?_, fun h => (Qt.non_decimal_word_reads_zero A hA.2 h).1,
    fun h => (Qt.non_decimal_word_reads_zero S hS.2 h).2, ?_, ?_⟩
  · have htrim : Qt.trimmed T = T :=
      Qt.trimmed_of_no_space T (fun c hc => (word_facts T hT.2 c hc).2.2)
    unfold parseBO
    rw [bo_regexp_search A N k S T rest hA hN hS hT hrest]
    have hc1 : captured [(4, T), (3, S), (2, N), (1, A)] 1 = A := rfl
    have hc2 : captured [(4, T), (3, S), (2, N), (1, A)] 2 = N := rfl
    have hc3 : captured [(4, T), (3, S), (2, N), (1, A)] 3 = S := rfl
    have hc4 : captured [(4, T), (3, S), (2, N), (1, A)] 4 = T := rfl
    simp only [hc1, hc2, hc3, hc4, htrim]
  · intro msgs1 A1 rest1 hb hnw
    unfold parseBO
    rw [bo_address_token_not_word _ A1 rest1 rfl hb hnw]
  · intro msgs1 S1 rest1 hb hnw
    unfold parseBO
    rw [bo_size_token_not_word _ A N k S1 rest1 rfl hA.2 hN.2 hb hnw]

set_option maxRecDepth 100000 in
/-- C21, amended, at the statement `BO_ 0x64 TEST: 8 XXX` on an empty map: message 0 is
defined. -/
theorem bo_number_token_read_as_zero_witness :
    parseBO [] "BO_ 0x64 TEST: 8 XXX".toList =
      .ok ([(0, { address := 0, name := "TEST".toList, size := 8, transmitter := "XXX".toList })],
        0) ∧
    parseBO [] "BO_ -5 TEST: 8 XXX".toList = .error "Invalid BO_ line format".toList :=
  ⟨(bo_number_token_read_as_zero [] "0x64".toList "TEST".toList 0 "8".toList "XXX".toList []
      ⟨by decide, by decide⟩ ⟨by decide, by decide⟩ ⟨by decide, by decide⟩
      ⟨by decide, by decide⟩ (by decide)).1.trans rfl,
    (bo_number_token_read_as_zero [] "0x64".toList "TEST".toList 0 "8".toList "XXX".toList []
      ⟨by decide, by decide⟩ ⟨by decide, by decide⟩ ⟨by decide, by decide⟩
      ⟨by decide, by decide⟩ (by decide)).2.2.2.1 [] "-5".toList "TEST: 8 XXX".toList
      (by decide) (by decide)⟩

end DBCFile

/-! ## Greedy repetition in front of more pattern -/

namespace Re

/-- The outcomes of a greedy repetition of a class: stopping at once is the last one, and every
outcome before it lies behind a non-empty run of characters of the class. -/
theorem starRun_cls_last (p : Char → Bool) (fuel : Nat) (s : Str) (caps : Caps) :
    ∃ X, starRun (fun s1 c1 => run (.cls p) false s1 c1) fuel s caps = X ++ [(s, caps)] ∧
      ∀ o ∈ X, ∃ v, v ≠ [] ∧ s = v ++ o.1 ∧ (∀ c ∈ v, p c = true) ∧ o.2 = caps := by
  cases fuel with
  | zero => exact ⟨[], rfl, by simp⟩
  | succ k =>
    refine ⟨_, rfl, ?_⟩
    intro o ho
    simp only [List.mem_bind] at ho
    obtain ⟨r, hr, hin⟩ := ho
    obtain ⟨d, hs, hp, hc⟩ := mem_run_cls hr
    by_cases hlt : r.1.length < s.length
    · rw [if_pos hlt, hc] at hin
      obtain ⟨w, hw, hall, hcaps⟩ := mem_starRun (fun d => p d = true)
        (fun s1 c1 => run (.cls p) false s1 c1) (fun s caps o ho => mem_run_cls ho) _ _ _ _ hin
      refine ⟨d :: w, by simp, ?_, ?_, hcaps⟩
      · rw [hs, List.cons_append, ← hw]
      · intro c hcm
        rcases List.mem_cons.mp hcm with e | e
        · rw [e]; exact hp
        · exact hall c e
    · rw [if_neg hlt] at hin
      simp at hin

theorem head?_append_of_head {β : Type} (xs ys : List β) (z : β) (h : xs.head? = some z) :
    (xs ++ ys).head? = some z := by
  cases xs with
  | nil => simp at h
  | cons a t => simpa using h

/-- A greedy repetition of a class in front of a continuation `g`, on a run `w` of the class
and a text `rest`: when `g` has no outcome behind any longer run and `z` is its first outcome
at `rest`, then `z` is the first outcome of the two together. -/
theorem starRun_cls_then {β : Type} (p : Char → Bool) (g : Str × Caps → List β) (z : β)
    (w rest : Str) (caps : Caps) (hw : ∀ c ∈ w, p c = true)
    (hfail : ∀ v v1 : Str, rest = v ++ v1 → v ≠ [] → (∀ c ∈ v, p c = true) → g (v1, caps) = [])
    (hz : (g (rest, caps)).head? = some z) (fuel : Nat) (hfuel : (w ++ rest).length ≤ fuel) :
    ((starRun (fun s1 c1 => run (.cls p) false s1 c1) fuel (w ++ rest) caps).bind g).head?
      = some z := by
  induction w generalizing fuel with
  | nil =>
    obtain ⟨X, hX, hall⟩ := starRun_cls_last p fuel rest caps
    have hnil : X.flatMap g = [] := by
      rw [List.flatMap_eq_nil_iff]
      intro o ho
      obtain ⟨v, hne, hs, hp, hc⟩ := hall o ho
      have : o = (o.1, caps) := by rw [← hc]
      rw [this]
      exact hfail v o.1 hs hne hp
    rw [List.nil_append, hX]
    simp only [List.bind]
    rw [List.flatMap_append, hnil, List.nil_append]
    simpa using hz
  | cons x t ih =>
    cases fuel with
    | zero => simp at hfuel
    | succ k =>
      have hk : (t ++ rest).length ≤ k := by
        simp only [List.cons_append, List.length_cons] at hfuel
        omega
      have hx : p x = true := hw x (List.mem_cons_self _ _)
      have hrec := ih (fun c hc => hw c (List.mem_cons_of_mem _ hc)) k hk
      have hstep : starRun (fun s1 c1 => run (.cls p) false s1 c1) (k + 1)
          (x :: (t ++ rest)) caps =
          starRun (fun s1 c1 => run (.cls p) false s1 c1) k (t ++ rest) caps ++
            [(x :: (t ++ rest), caps)] := by
        simp [starRun, run, hx]
      rw [List.cons_append, hstep]
      simp only [List.bind] at hrec ⊢
      rw [List.flatMap_append]
      exact head?_append_of_head _ _ _ hrec

/-- Pattern `(p*)Y`: the group takes the run `w` when `Y` has no outcome behind a longer run. -/
theorem First.group_star_cls_then (p : Char → Bool) (n : Nat) (Y : Re) (w rest s2 : Str)
    (caps caps2 : Caps) (hw : ∀ c ∈ w, p c = true)
    (hfail : ∀ v v1 : Str, rest = v ++ v1 → v ≠ [] → (∀ c ∈ v, p c = true) →
      ∀ st cp, run Y st v1 cp = [])
    (hY : First Y rest ((n, w) :: caps) s2 caps2) :
    First (.seq (.group n (.star (.cls p))) Y) (w ++ rest) caps s2 caps2 := by
  intro st
  simp only [run, List.bind_map]
  apply starRun_cls_then p _ (s2, caps2) w rest caps hw
  · intro v v1 hs hne hp
    exact hfail v v1 hs hne hp _ _
  · simp only [List.length_append, Nat.add_sub_cancel, List.take_left']
    exact hY _
  · exact le_refl _

end Re

/-! ## The `SG_` patterns -/

theorem all_of_forall (p : Char → Bool) (w : Str) (h : ∀ c ∈ w, p c = true) :
    w.all p = true := by
  rw [List.all_eq_true]
  exact h

theorem isEmpty_false_of_ne_nil (w : Str) (h : w ≠ []) : w.isEmpty = false := by
  cases w with
  | nil => exact absurd rfl h
  | cons a t => rfl

theorem ne_nil_of_isEmpty_false (w : Str) (h : (!w.isEmpty) = true) : w ≠ [] := by
  intro e
  rw [e] at h
  simp at h

/-- What an outcome of the shared part of the `SG_` patterns says about the text: it is made of
well-formed tokens, and these are the groups. -/
theorem sgTail_shape (k : Nat) (st : Bool) (s : Str) (caps : Caps) (o : Str × Caps)
    (h : o ∈ Re.run (Re.seqs (sgTail k)) st s caps) :
    ∃ (t : SgTokens) (j : Nat), s = t.text j ++ o.1 ∧ t.wellFormed = true ∧
      o.2 = t.caps k ++ caps := by
  simp only [sgTail, Re.seqs] at h
  obtain ⟨o1, _, h1, h⟩ := Re.mem_run_seq h
  obtain ⟨j, e1, c1⟩ := Re.mem_run_star_lit h1
  obtain ⟨o2, _, h2, h⟩ := Re.mem_run_seq h
  obtain ⟨e2, c2⟩ := Re.mem_run_lits h2
  obtain ⟨o3, _, h3, h⟩ := Re.mem_run_seq h
  obtain ⟨a, e3, ha, c3⟩ := Re.mem_run_group_plus_cls h3
  obtain ⟨o4, _, h4, h⟩ := Re.mem_run_seq h
  obtain ⟨e4, c4⟩ := Re.mem_run_lit h4
  obtain ⟨o5, _, h5, h⟩ := Re.mem_run_seq h
  obtain ⟨b, e5, hb, c5⟩ := Re.mem_run_group_plus_cls h5
  obtain ⟨o6, _, h6, h⟩ := Re.mem_run_seq h
  obtain ⟨e6, c6⟩ := Re.mem_run_lit h6
  obtain ⟨o7, _, h7, h⟩ := Re.mem_run_seq h
  obtain ⟨c, e7, hc, c7⟩ := Re.mem_run_group_plus_cls h7
  obtain ⟨o8, _, h8, h⟩ := Re.mem_run_seq h
  obtain ⟨sg, e8, hsg, c8⟩ := Re.mem_run_group_cls h8
  obtain ⟨o9, _, h9, h⟩ := Re.mem_run_seq h
  obtain ⟨e9, c9⟩ := Re.mem_run_lits h9
  obtain ⟨o10, _, h10, h⟩ := Re.mem_run_seq h
  obtain ⟨f, e10, hf, c10⟩ := Re.mem_run_group_plus_cls h10
  obtain ⟨o11, _, h11, h⟩ := Re.mem_run_seq h
  obtain ⟨e11, c11⟩ := Re.mem_run_lit h11
  obtain ⟨o12, _, h12, h⟩ := Re.mem_run_seq h
  obtain ⟨off, e12, hoff, c12⟩ := Re.mem_run_group_plus_cls h12
  obtain ⟨o13, _, h13, h⟩ := Re.mem_run_seq h
  obtain ⟨e13, c13⟩ := Re.mem_run_lits h13
  obtain ⟨o14, _, h14, h⟩ := Re.mem_run_seq h
  obtain ⟨mn, e14, hmn, c14⟩ := Re.mem_run_group_plus_cls h14
  obtain ⟨o15, _, h15, h⟩ := Re.mem_run_seq h
  obtain ⟨e15, c15⟩ := Re.mem_run_lit h15
  obtain ⟨o16, _, h16, h⟩ := Re.mem_run_seq h
  obtain ⟨mx, e16, hmx, c16⟩ := Re.mem_run_group_plus_cls h16
  obtain ⟨o17, _, h17, h⟩ := Re.mem_run_seq h
  obtain ⟨e17, c17⟩ := Re.mem_run_lits h17
  obtain ⟨o18, _, h18, h⟩ := Re.mem_run_seq h
  obtain ⟨u, e18, hu, c18⟩ := Re.mem_run_group_star_cls h18
  obtain ⟨o19, _, h19, h⟩ := Re.mem_run_seq h
  obtain ⟨e19, c19⟩ := Re.mem_run_lits h19
  obtain ⟨r, e20, hr, c20⟩ := Re.mem_run_group_star_cls h
  refine ⟨⟨a, b, c, sg, f, off, mn, mx, u, r⟩, j, ?_, ?_, ?_⟩
  · rw [e1, e2, e3, e4, e5, e6, e7, e8, e9, e10, e11, e12, e13, e14, e15, e16, e17, e18, e19,
      e20]
    simp only [SgTokens.text, List.append_assoc, List.cons_append]
  · simp only [SgTokens.wellFormed, isEmpty_false_of_ne_nil _ ha.1, isEmpty_false_of_ne_nil _ hb.1,
      isEmpty_false_of_ne_nil _ hc.1, isEmpty_false_of_ne_nil _ hf.1,
      isEmpty_false_of_ne_nil _ hoff.1, isEmpty_false_of_ne_nil _ hmn.1,
      isEmpty_false_of_ne_nil _ hmx.1, all_of_forall _ _ ha.2, all_of_forall _ _ hb.2,
      all_of_forall _ _ hc.2, all_of_forall _ _ hf.2, all_of_forall _ _ hoff.2,
      all_of_forall _ _ hmn.2, all_of_forall _ _ hmx.2, all_of_forall _ _ hu,
      all_of_forall _ _ hr, hsg, Bool.not_false, Bool.and_self]
  · have := c20
    simp only [c19, c18, c17, c16, c15, c14, c13, c12, c11, c10, c9, c8, c7, c6, c5, c4, c3, c2,
      c1] at this
    rw [this]
    rfl

/-- The facts of well-formed tokens, one by one. -/
theorem SgTokens.wellFormed_iff (t : SgTokens) :
    t.wellFormed = true ↔
      (t.start_bit ≠ [] ∧ ∀ c ∈ t.start_bit, isDigitChar c = true) ∧
      (t.size ≠ [] ∧ ∀ c ∈ t.size, isDigitChar c = true) ∧
      (t.order ≠ [] ∧ ∀ c ∈ t.order, isDigitChar c = true) ∧
      isSignChar t.sign = true ∧
      (t.factor ≠ [] ∧ ∀ c ∈ t.factor, isNumberChar c = true) ∧
      (t.offset ≠ [] ∧ ∀ c ∈ t.offset, isNumberChar c = true) ∧
      (t.min ≠ [] ∧ ∀ c ∈ t.min, isNumberChar c = true) ∧
      (t.max ≠ [] ∧ ∀ c ∈ t.max, isNumberChar c = true) ∧
      (∀ c ∈ t.unit, isDot c = true) ∧ (∀ c ∈ t.receiver, isDot c = true) := by
  have hne : ∀ w : Str, ((!w.isEmpty) = true) ↔ w ≠ [] := by
    intro w
    cases w <;> simp
  simp only [SgTokens.wellFormed, Bool.and_eq_true, List.all_eq_true, hne]
  tauto

/-- The shared part of the `SG_` patterns on the text of well-formed tokens whose receiver has
no quote: the groups are the tokens. -/
theorem sgTail_first (k : Nat) (t : SgTokens) (j : Nat) (caps : Caps)
    (hwf : t.wellFormed = true) (hq : ∀ c ∈ t.receiver, c ≠ '"') :
    Re.First (Re.seqs (sgTail k)) (t.text j) caps [] (t.caps k ++ caps) := by
  obtain ⟨ha, hb, hc, hsg, hf, hoff, hmn, hmx, hu, hr⟩ := (SgTokens.wellFormed_iff t).mp hwf
  have hsgn : isDigitChar t.sign = false := by
    have : (t.sign = '+' ∨ t.sign = '|') ∨ t.sign = '-' := by
      simpa [isSignChar] using hsg
    rcases this with (e | e) | e <;> rw [e] <;> decide
  simp only [sgTail, Re.seqs, SgTokens.text, SgTokens.caps]
  refine Re.First.seq (Re.First.star_lit ' ' _ j _ (by simp)) ?_
  refine Re.First.seq (Re.First.lits _ _ _) ?_
  refine Re.First.seq (Re.First.group _ (Re.First.plus_cls isDigitChar _ _ _ ha.1 ha.2
    (by simp [isDigitChar]))) ?_
  refine Re.First.seq (Re.First.lit '|' _ _) ?_
  refine Re.First.seq (Re.First.group _ (Re.First.plus_cls isDigitChar _ _ _ hb.1 hb.2
    (by simp [isDigitChar]))) ?_
  refine Re.First.seq (Re.First.lit '@' _ _) ?_
  refine Re.First.seq (Re.First.group _ (Re.First.plus_cls isDigitChar _ _ _ hc.1 hc.2
    (by simp [hsgn]))) ?_
  refine Re.First.seq (@Re.First.group (.cls isSignChar) [t.sign] _ _ _ _
    (Re.First.cls isSignChar _ _ _ hsg)) ?_
  refine Re.First.seq (Re.First.lits _ _ _) ?_
  refine Re.First.seq (Re.First.group _ (Re.First.plus_cls isNumberChar _ _ _ hf.1 hf.2
    (by simp [isNumberChar, isDigitChar]))) ?_
  refine Re.First.seq (Re.First.lit ',' _ _) ?_
  refine Re.First.seq (Re.First.group _ (Re.First.plus_cls isNumberChar _ _ _ hoff.1 hoff.2
    (by simp [isNumberChar, isDigitChar]))) ?_
  refine Re.First.seq (Re.First.lits _ _ _) ?_
  refine Re.First.seq (Re.First.group _ (Re.First.plus_cls isNumberChar _ _ _ hmn.1 hmn.2
    (by simp [isNumberChar, isDigitChar]))) ?_
  refine Re.First.seq (Re.First.lit '|' _ _) ?_
  refine Re.First.seq (Re.First.group _ (Re.First.plus_cls isNumberChar _ _ _ hmx.1 hmx.2
    (by simp [isNumberChar, isDigitChar]))) ?_
  refine Re.First.seq (Re.First.lits _ _ _) ?_
  apply Re.First.group_star_cls_then isDot _ _ t.unit _ _ _ _ hu
  · intro v v1 hs hne hp st cp
    cases v with
    | nil => exact absurd rfl hne
    | cons x v2 =>
      simp only [String.toList, List.cons_append, List.cons.injEq] at hs
      have hv1 : ∀ c ∈ v1, c ≠ '"' := by
        intro c hcm
        have hs2 : ' ' :: t.receiver = v2 ++ v1 := hs.2
        have hmem : c ∈ ' ' :: t.receiver := by
          rw [hs2]
          exact List.mem_append_right _ hcm
        rcases List.mem_cons.mp hmem with e | e
        · rw [e]; decide
        · exact hq c e
      cases v1 with
      | nil => simp [Re.run, Re.lits]
      | cons y v3 =>
        have hy : y ≠ '"' := hv1 y (List.mem_cons_self _ _)
        simp [Re.run, Re.lits, hy]
  · refine Re.First.seq (Re.First.lits _ _ _) ?_
    have := Re.First.group (k + 11) (Re.First.star_cls isDot
      ((k + 10, t.unit) :: (k + 9, t.max) :: (k + 8, t.min) :: (k + 7, t.offset) ::
        (k + 6, t.factor) :: (k + 5, [t.sign]) :: (k + 4, t.order) :: (k + 3, t.size) ::
        (k + 2, t.start_bit) :: caps)
      t.receiver [] hr (by simp))
    simpa using this

theorem sg_regexp_eq :
    sg_regexp = .seq .bos (.seq (Re.lits "SG_ ".toList)
      (.seq (.group 1 (Re.plus (.cls isWordChar))) (Re.seqs (sgTail 0)))) := rfl

theorem sgm_regexp_eq :
    sgm_regexp = .seq .bos (.seq (Re.lits "SG_ ".toList)
      (.seq (.group 1 (Re.plus (.cls isWordChar))) (.seq (.lit ' ')
        (.seq (.group 2 (Re.plus (.cls isWordChar))) (Re.seqs (sgTail 1)))))) := rfl

/-- What a match of `sg_regexp` says about the line. -/
theorem sg_regexp_shape (line : Str) (m : Caps) (h : sg_regexp.search line = some m) :
    ∃ (N : Str) (t : SgTokens) (j : Nat) (rest : Str),
      line = "SG_ ".toList ++ (N ++ (t.text j ++ rest)) ∧
      (N ≠ [] ∧ ∀ c ∈ N, isWordChar c = true) ∧ t.wellFormed = true ∧
      m = t.caps 0 ++ [(1, N)] := by
  rw [sg_regexp_eq] at h
  obtain ⟨rest, h⟩ := Re.search_bos_some h
  obtain ⟨o1, _, h1, h⟩ := Re.mem_run_seq h
  obtain ⟨e1, c1⟩ := Re.mem_run_lits h1
  obtain ⟨o2, _, h2, h⟩ := Re.mem_run_seq h
  obtain ⟨N, e2, hN, c2⟩ := Re.mem_run_group_plus_cls h2
  obtain ⟨t, j, e3, hwf, c3⟩ := sgTail_shape 0 _ _ _ _ h
  refine ⟨N, t, j, rest, ?_, hN, hwf, ?_⟩
  · rw [e1, e2, e3]
  · have := c3
    simp only [c2, c1] at this
    exact this

/-- What a match of `sgm_regexp` says about the line. -/
theorem sgm_regexp_shape (line : Str) (m : Caps) (h : sgm_regexp.search line = some m) :
    ∃ (N I : Str) (t : SgTokens) (j : Nat) (rest : Str),
      line = "SG_ ".toList ++ (N ++ ' ' :: (I ++ (t.text j ++ rest))) ∧
      (N ≠ [] ∧ ∀ c ∈ N, isWordChar c = true) ∧ (I ≠ [] ∧ ∀ c ∈ I, isWordChar c = true) ∧
      t.wellFormed = true ∧ m = t.caps 1 ++ [(2, I), (1, N)] := by
  rw [sgm_regexp_eq] at h
  obtain ⟨rest, h⟩ := Re.search_bos_some h
  obtain ⟨o1, _, h1, h⟩ := Re.mem_run_seq h
  obtain ⟨e1, c1⟩ := Re.mem_run_lits h1
  obtain ⟨o2, _, h2, h⟩ := Re.mem_run_seq h
  obtain ⟨N, e2, hN, c2⟩ := Re.mem_run_group_plus_cls h2
  obtain ⟨o3, _, h3, h⟩ := Re.mem_run_seq h
  obtain ⟨e3, c3⟩ := Re.mem_run_lit h3
  obtain ⟨o4, _, h4, h⟩ := Re.mem_run_seq h
  obtain ⟨I, e4, hI, c4⟩ := Re.mem_run_group_plus_cls h4
  obtain ⟨t, j, e5, hwf, c5⟩ := sgTail_shape 1 _ _ _ _ h
  refine ⟨N, I, t, j, rest, ?_, hN, hI, hwf, ?_⟩
  · rw [e1, e2, e3, e4, e5]
  · have := c5
    simp only [c4, c3, c2, c1] at this
    exact this

/-- The text of the tokens starts with a blank or the colon. -/
theorem SgTokens.text_head (t : SgTokens) (j : Nat) :
    ∃ y r, t.text j = y :: r ∧ isWordChar y = false ∧ (y = ' ' ∨ y = ':') ∧
      (j = 0 → y = ':') := by
  cases j with
  | zero => exact ⟨':', _, rfl, by decide, Or.inr rfl, fun _ => rfl⟩
  | succ i => exact ⟨' ', _, rfl, by decide, Or.inl rfl, fun h => absurd h (by simp)⟩

/-- What `sg_regexp` finds in a statement without indicator. -/
theorem sg_regexp_search (N : Str) (t : SgTokens) (j : Nat)
    (hN : N ≠ [] ∧ ∀ c ∈ N, isWordChar c = true) (hwf : t.wellFormed = true)
    (hq : ∀ c ∈ t.receiver, c ≠ '"') :
    sg_regexp.search (DBCFile.sgStatement N none j t) = some (t.caps 0 ++ [(1, N)]) := by
  apply Re.search_of_first _ _ [] _
  rw [sg_regexp_eq]
  apply Re.first_after_bos
  unfold DBCFile.sgStatement
  refine Re.First.seq (Re.First.lits _ _ _) ?_
  refine Re.First.seq (Re.First.group 1 (Re.First.plus_cls isWordChar _ N _ hN.1 hN.2 ?_)) ?_
  · obtain ⟨y, r, e, hy, -, -⟩ := SgTokens.text_head t j
    simp only [List.nil_append, e, List.head?_cons, Option.all_some, hy, Bool.not_false]
  exact sgTail_first 0 t j _ hwf hq

/-- What `sgm_regexp` finds in a statement with an indicator. -/
theorem sgm_regexp_search (N I : Str) (t : SgTokens) (j : Nat)
    (hN : N ≠ [] ∧ ∀ c ∈ N, isWordChar c = true) (hI : I ≠ [] ∧ ∀ c ∈ I, isWordChar c = true)
    (hwf : t.wellFormed = true) (hq : ∀ c ∈ t.receiver, c ≠ '"') :
    sgm_regexp.search (DBCFile.sgStatement N (some I) j t) =
      some (t.caps 1 ++ [(2, I), (1, N)]) := by
  apply Re.search_of_first _ _ [] _
  rw [sgm_regexp_eq]
  apply Re.first_after_bos
  unfold DBCFile.sgStatement
  refine Re.First.seq (Re.First.lits _ _ _) ?_
  refine Re.First.seq (Re.First.group 1 (Re.First.plus_cls isWordChar _ N _ hN.1 hN.2 ?_)) ?_
  · simp [isWordChar]
  refine Re.First.seq (Re.First.lit ' ' _ _) ?_
  refine Re.First.seq (Re.First.group 2 (Re.First.plus_cls isWordChar _ I _ hI.1 hI.2 ?_)) ?_
  · obtain ⟨y, r, e, hy, -, -⟩ := SgTokens.text_head t j
    simp only [e, List.head?_cons, Option.all_some, hy, Bool.not_false]
  exact sgTail_first 1 t j _ hwf hq

/-- A statement with an indicator is no match of `sg_regexp`. -/
theorem sg_regexp_no_match (N I : Str) (t : SgTokens) (j : Nat)
    (hN : ∀ c ∈ N, isWordChar c = true) (hI : I ≠ [] ∧ ∀ c ∈ I, isWordChar c = true) :
    sg_regexp.search (DBCFile.sgStatement N (some I) j t) = none := by
  cases hs : sg_regexp.search (DBCFile.sgStatement N (some I) j t) with
  | none => rfl
  | some m =>
    exfalso
    obtain ⟨N1, t1, j1, rest1, e, hN1, -, -⟩ := sg_regexp_shape _ m hs
    unfold DBCFile.sgStatement at e
    have e1 := List.append_cancel_left e
    obtain ⟨y1, r1, ey1, hy1, hy1b, -⟩ := SgTokens.text_head t1 j1
    have e1' : N ++ ' ' :: (I ++ t.text j) = N1 ++ (t1.text j1 ++ rest1) := e1
    have e2 : N ++ ' ' :: (I ++ t.text j) = N1 ++ y1 :: (r1 ++ rest1) := by
      rw [e1', ey1]; rfl
    obtain ⟨-, -, e3⟩ := append_cons_split (fun c => isWordChar c = true) N N1 ' ' y1 _ _ e2
      hN hN1.2 (by decide) (by simp [hy1])
    obtain ⟨i, I2, rfl⟩ := List.exists_cons_of_ne_nil hI.1
    have hi := hI.2 i (List.mem_cons_self _ _)
    -- the text behind the blank starts with the indicator on one side, with the tokens on the other
    have hy1' : y1 = ' ' := by
      have := (append_cons_split (fun c => isWordChar c = true) N N1 ' ' y1 _ _ e2
        hN hN1.2 (by decide) (by simp [hy1])).2.1
      exact this.symm
    subst hy1'
    -- so the tokens of the match start with a second blank or the colon, where the indicator is
    have hj1 : ∃ i1, j1 = i1 + 1 := by
      cases j1 with
      | zero =>
        have : t1.text 0 = ':' :: (' ' :: _) := rfl
        rw [this] at ey1
        simp at ey1
      | succ i1 => exact ⟨i1, rfl⟩
    obtain ⟨i1, rfl⟩ := hj1
    have hr1 : r1 = t1.text i1 := by
      have : t1.text (i1 + 1) = ' ' :: t1.text i1 := rfl
      rw [this] at ey1
      simp only [List.cons.injEq, true_and] at ey1
      exact ey1.symm
    obtain ⟨y2, r2, ey2, hy2, -, -⟩ := SgTokens.text_head t1 i1
    rw [hr1, ey2] at e3
    simp only [List.cons_append, List.cons.injEq] at e3
    rw [e3.1, hy2] at hi
    exact absurd hi (by simp)

/-- A statement without indicator is no match of `sgm_regexp`. -/
theorem sgm_regexp_no_match (N : Str) (t : SgTokens) (j : Nat)
    (hN : ∀ c ∈ N, isWordChar c = true) :
    sgm_regexp.search (DBCFile.sgStatement N none j t) = none := by
  cases hs : sgm_regexp.search (DBCFile.sgStatement N none j t) with
  | none => rfl
  | some m =>
    exfalso
    obtain ⟨N1, I1, t1, j1, rest1, e, hN1, hI1, -, -⟩ := sgm_regexp_shape _ m hs
    unfold DBCFile.sgStatement at e
    have e1 := List.append_cancel_left e
    obtain ⟨y, r, ey, hy, hyb, hy0⟩ := SgTokens.text_head t j
    have e2 : N ++ y :: r = N1 ++ ' ' :: (I1 ++ (t1.text j1 ++ rest1)) := by
      rw [← ey]; exact e1
    obtain ⟨-, ey2, e3⟩ := append_cons_split (fun c => isWordChar c = true) N N1 y ' ' _ _ e2
      hN hN1.2 (by simp [hy]) (by decide)
    subst ey2
    obtain ⟨i, I2, rfl⟩ := List.exists_cons_of_ne_nil hI1.1
    have hi := hI1.2 i (List.mem_cons_self _ _)
    cases j with
    | zero =>
      have := hy0 rfl
      exact absurd this (by decide)
    | succ i0 =>
      have : t.text (i0 + 1) = ' ' :: t.text i0 := rfl
      rw [this] at ey
      simp only [List.cons.injEq, true_and] at ey
      obtain ⟨y2, r2, ey2, hy2, -, -⟩ := SgTokens.text_head t i0
      rw [← ey, ey2] at e3
      simp only [List.cons_append, List.cons.injEq] at e3
      rw [← e3.1, hy2] at hi
      exact absurd hi (by simp)

namespace DBCFile

/-- The match `parseSG` works with on a statement of well-formed tokens: that of `sg_regexp`
without indicator, that of `sgm_regexp` with one. -/
theorem sgMatch_statement (N : Str) (ind : Option Str) (t : SgTokens) (j : Nat)
    (hN : N ≠ [] ∧ ∀ c ∈ N, isWordChar c = true)
    (hI : ∀ I, ind = some I → I ≠ [] ∧ ∀ c ∈ I, isWordChar c = true)
    (hwf : t.wellFormed = true) (hq : ∀ c ∈ t.receiver, c ≠ '"') :
    sgMatch (sgStatement N ind j t) =
      match ind with
      | none => some (t.caps 0 ++ [(1, N)], 0)
      | some I => some (t.caps 1 ++ [(2, I), (1, N)], 1) := by
  unfold sgMatch
  cases ind with
  | none => rw [sg_regexp_search N t j hN hwf hq]
  | some I =>
    rw [sg_regexp_no_match N I t j hN.2 (hI I rfl), sgm_regexp_search N I t j hN (hI I rfl) hwf hq]

end DBCFile

/-! ## The indicator of an `SG_` statement -/

namespace Qt

/-- Reading back the decimal text of a number gives the number when it fits an `int`, else 0. -/
theorem toInt_decimal (n : Nat) :
    toInt (decimal n) = if n < 2 ^ 31 then (n : Int) else 0 := by
  have htrim : trimmed (decimal n) = decimal n := by
    rw [trimmed_eq_self_iff]
    constructor
    · intro x hx
      obtain ⟨d, hd, rfl⟩ := decimal_digit n x (List.mem_of_mem_head? hx)
      exact (digit_facts d hd).2.1
    · intro x hx
      obtain ⟨d, hd, rfl⟩ := decimal_digit n x (List.mem_of_mem_getLast? hx)
      exact (digit_facts d hd).2.1
  have hu : unsignedValue (decimal n) = some n := by
    unfold unsignedValue
    rw [htrim]
    cases hdec : decimal n with
    | nil => exact absurd hdec (decimal_ne_nil n)
    | cons c t =>
      have hc : c ≠ '+' := by
        obtain ⟨d, hd, he⟩ := decimal_digit n c (by rw [hdec]; exact List.mem_cons_self _ _)
        rw [he]
        exact (digit_facts d hd).2.2.1
      simp only [hc, if_false]
      rw [← hdec, decimal_value]
  have hs : signedValue (decimal n) = some (n : Int) := by
    unfold signedValue
    rw [htrim]
    cases hdec : decimal n with
    | nil => exact absurd hdec (decimal_ne_nil n)
    | cons c t =>
      have hc : c ≠ '-' := by
        obtain ⟨d, hd, he⟩ := decimal_digit n c (by rw [hdec]; exact List.mem_cons_self _ _)
        rw [he]
        interval_cases d <;> decide
      simp only [hc, if_false]
      rw [← hdec, hu]
      rfl
  unfold toInt
  rw [hs]
  have h0 : (0 : Int) ≤ (n : Int) := Int.ofNat_nonneg n
  by_cases h : n < 2 ^ 31
  · have h1 : -(2 ^ 31 : Int) ≤ (n : Int) ∧ (n : Int) < 2 ^ 31 := by
      constructor
      · omega
      · exact_mod_cast h
    simp only [h1, and_self, if_true, h]
  · have h1 : ¬ (-(2 ^ 31 : Int) ≤ (n : Int) ∧ (n : Int) < 2 ^ 31) := by
      intro hh
      apply h
      exact_mod_cast hh.2
    simp only [h1, if_false, h]

theorem mid_one (c : Char) (s : Str) : mid (c :: s) 1 (-1) = s := by
  unfold mid
  have h1 : ¬ ((1 : Int) > ((c :: s).length : Int)) := by
    simp only [List.length_cons, Nat.cast_add, Nat.cast_one]
    omega
  simp [h1]

end Qt

namespace DBCFile

theorem m_token_facts (v : Nat) :
    ('m' :: Qt.decimal v ≠ [] ∧ ∀ c ∈ 'm' :: Qt.decimal v, isWordChar c = true) ∧
    'm' :: Qt.decimal v ≠ "M".toList := by
  refine ⟨⟨by simp, ?_⟩, by simp⟩
  intro c hc
  rcases List.mem_cons.mp hc with e | e
  · rw [e]; decide
  · exact Qt.decimal_word v c e

/-- What `parseSG` does with a statement of well-formed tokens, while a message is open. -/
theorem parseSG_statement (env : LibC) (msgs : Msgs) (N : Str) (ind : Option Str)
    (t : SgTokens) (j cur cnt : Nat)
    (hN : N ≠ [] ∧ ∀ c ∈ N, isWordChar c = true)
    (hI : ∀ I, ind = some I → I ≠ [] ∧ ∀ c ∈ I, isWordChar c = true)
    (hwf : t.wellFormed = true) (hq : ∀ c ∈ t.receiver, c ≠ '"') :
    parseSG env msgs (sgStatement N ind j t) (some cur) cnt =
      if (((mapFind msgs cur).getD ({} : cabana.Msg)).sig N).isSome then
        .error "Duplicate signal name".toList
      else if ind = some "M".toList ∧ cnt + 1 ≥ 2 then .error "Multiple multiplexor".toList
      else
        .ok (mapInsert msgs cur
          { ((mapFind msgs cur).getD ({} : cabana.Msg)) with
            sigs := ((mapFind msgs cur).getD ({} : cabana.Msg)).sigs ++
              [signalOfTokens env N ind t] },
          if ind = some "M".toList then cnt + 1 else cnt) := by
  unfold parseSG
  simp only [sgMatch_statement N ind t j hN hI hwf hq]
  cases ind with
  | none =>
    have hc1 : captured (t.caps 0 ++ [(1, N)]) 1 = N := rfl
    simp only [hc1]
    by_cases hdup : (((mapFind msgs cur).getD ({} : cabana.Msg)).sig N).isSome = true
    · simp only [hdup, if_true]
    · simp only [hdup, Bool.false_eq_true, if_false]
      rfl
  | some I =>
    have hc1 : captured (t.caps 1 ++ [(2, I), (1, N)]) 1 = N := rfl
    have hc2 : captured (t.caps 1 ++ [(2, I), (1, N)]) 2 = I := rfl
    simp only [hc1, hc2]
    by_cases hdup : (((mapFind msgs cur).getD ({} : cabana.Msg)).sig N).isSome = true
    · simp only [hdup, if_true]
    · simp only [hdup, Bool.false_eq_true, if_false]
      by_cases hM : I = "M".toList
      · subst hM
        by_cases h2 : cnt + 1 ≥ 2
        · simp only [h2, decide_True, Bool.and_true, Bool.and_self, if_true, and_self]
        · simp only [h2, decide_True, decide_False, Bool.and_true, Bool.and_false, Bool.and_self,
            if_true, if_false, and_false, Bool.false_eq_true]
          rfl
      · simp only [hM, decide_True, decide_False, Bool.and_false, Bool.false_and, if_false,
          Bool.false_eq_true, Option.some.injEq, false_and, signalOfTokens, ne_eq,
          not_false_eq_true, and_self, if_true, true_and]
        rfl

end DBCFile

namespace DBCFile

theorem decimalInt_natCast (v : Nat) : Qt.decimalInt (v : Int) = Qt.decimal v := by
  unfold Qt.decimalInt
  have h : ¬ ((v : Int) < 0) := by omega
  simp only [h, if_false, Int.toNat_ofNat]

set_option maxRecDepth 100000 in
/-- C23, where it fails: behind `BO_ 100`, the statement
`SG_ S m2147483648 : 0|8@1+ (1,0) [0|255] "" XXX` is accepted and gives a signal of type
Multiplexed whose `multiplex_value` is 0, not 2147483648: the number does not fit an `int`, and
`toInt` gives 0 then. -/
theorem multiplex_value_beyond_int_reads_zero :
    ∃ s, parseSG sampleLibC [] "SG_ S m2147483648 : 0|8@1+ (1,0) [0|255] \"\" XXX".toList
        (some 100) 0 = .ok (pushSignal [] 100 s, 0) ∧
      s.type = .Multiplexed ∧ s.multiplex_value = 0 :=
  ⟨_, rfl, rfl, by decide!⟩

/-- C23, amended: while a message is open, an `SG_` statement of well-formed tokens with a new
name is accepted, and the signal `parseSG` appends has type Normal when there is no token
between the name and the colon, type Multiplexor for the token `M` (the first one of the
message), and type Multiplexed for the token `m` followed by the decimal text of a number `v`,
with `multiplex_value = v` when `v` is below `2^31` and `multiplex_value = 0` when it is not.
`generateDBC` writes the inverse between the name and the colon: `M ` for Multiplexor,
`m<multiplex_value> ` for Multiplexed, nothing for Normal; so for a signal read from one of
these statements (`v` below `2^31`) it writes the token the signal was read from, followed by a
blank. -/
theorem indicator_token_decides_type (env : LibC) (msgs : Msgs) (N : Str) (t : SgTokens)
    (j cur cnt : Nat) (hN : N ≠ [] ∧ ∀ c ∈ N, isWordChar c = true)
    (hwf : t.wellFormed = true) (hq : ∀ c ∈ t.receiver, c ≠ '"')
    (hnew : ((mapFind msgs cur).getD ({} : cabana.Msg)).sig N = none) :
    (parseSG env msgs (sgStatement N none j t) (some cur) cnt =
        .ok (pushSignal msgs cur (signalOfTokens env N none t), cnt) ∧
      (signalOfTokens env N none t).type = .Normal ∧
      (signalOfTokens env N none t).multiplex_value = 0 ∧
      indicatorText (signalOfTokens env N none t) = []) ∧
    ((cnt = 0 → parseSG env msgs (sgStatement N (some "M".toList) j t) (some cur) cnt =
        .ok (pushSignal msgs cur (signalOfTokens env N (some "M".toList) t), 1)) ∧
      (signalOfTokens env N (some "M".toList) t).type = .Multiplexor ∧
      indicatorText (signalOfTokens env N (some "M".toList) t) = "M ".toList) ∧
    (∀ v : Nat,
      parseSG env msgs (sgStatement N (some ('m' :: Qt.decimal v)) j t) (some cur) cnt =
        .ok (pushSignal msgs cur (signalOfTokens env N (some ('m' :: Qt.decimal v)) t), cnt) ∧
      (signalOfTokens env N (some ('m' :: Qt.decimal v)) t).type = .Multiplexed ∧
      (signalOfTokens env N (some ('m' :: Qt.decimal v)) t).multiplex_value =
        (if v < 2 ^ 31 then (v : Int) else 0) ∧
      (v < 2 ^ 31 → indicatorText (signalOfTokens env N (some ('m' :: Qt.decimal v)) t) =
        'm' :: Qt.decimal v ++ " ".toList)) ∧
    (∀ sig : cabana.Signal,
      indicatorText sig =
        (match sig.type with
         | .Normal => []
         | .Multiplexor => "M ".toList
         | .Multiplexed => "m".toList ++ Qt.decimalInt sig.multiplex_value ++ " ".toList) ∧
      sgText env sig =
        " SG_ ".toList ++ sig.name ++ " ".toList ++ indicatorText sig ++ ": ".toList ++
        Qt.decimalInt sig.start_bit ++ "|".toList ++ Qt.decimalInt sig.size ++ "@".toList ++
        [if sig.is_little_endian then '1' else '0'] ++ [if sig.is_signed then '-' else '+'] ++
        " (".toList ++ env.printG15 sig.factor ++ ",".toList ++ env.printG15 sig.offset ++
        ")".toList ++ " [".toList ++ env.printG15 sig.min ++ "|".toList ++
        env.printG15 sig.max ++ "]".toList ++ " \"".toList ++ sig.unit ++ "\" ".toList ++
        (if sig.receiver_name.isEmpty then DEFAULT_NODE_NAME else sig.receiver_name) ++
        "\n".toList) := by
  have hdup : ¬ ((((mapFind msgs cur).getD ({} : cabana.Msg)).sig N).isSome = true) := by
    rw [hnew]; simp
  refine ⟨⟨?_, rfl, rfl, rfl⟩, ⟨?_, rfl, rfl⟩, ?_, ?_⟩
  · rw [parseSG_statement env msgs N none t j cur cnt hN (fun I h => by simp at h) hwf hq]
    simp only [hdup, if_false]
    rfl
  · intro h0
    subst h0
    rw [parseSG_statement env msgs N (some "M".toList) t j cur 0 hN
      (fun I h => by
        simp only [Option.some.injEq] at h
        subst h
        exact ⟨by decide, by decide⟩) hwf hq]
    simp only [hdup, if_false]
    rfl
  · intro v
    obtain ⟨hw, hne⟩ := m_token_facts v
    have hmv : (signalOfTokens env N (some ('m' :: Qt.decimal v)) t).multiplex_value =
        (if v < 2 ^ 31 then (v : Int) else 0) := by
      simp only [signalOfTokens, hne, if_false, Qt.mid_one, Qt.toInt_decimal v]
    have hty : (signalOfTokens env N (some ('m' :: Qt.decimal v)) t).type = .Multiplexed := by
      simp only [signalOfTokens, hne, if_false]
    refine ⟨?_, hty, hmv, ?_⟩
    · rw [parseSG_statement env msgs N (some ('m' :: Qt.decimal v)) t j cur cnt hN
        (fun I h => by
          simp only [Option.some.injEq] at h
          subst h
          exact hw) hwf hq]
      have h1 : ¬ (some ('m' :: Qt.decimal v) = some "M".toList) := by
        simp only [Option.some.injEq]
        exact hne
      simp only [hdup, if_false, h1, false_and]
      rfl
    · intro hv
      unfold indicatorText
      rw [hty, hmv, if_pos hv, decimalInt_natCast]
      rfl
  · intro sig
    constructor
    · unfold indicatorText
      cases sig.type <;> rfl
    · rfl

set_option maxRecDepth 100000 in
/-- C23, amended, at the statements `SG_ S : 0|8@1+ (1,0) [0|255] "" XXX`, `SG_ S M : ...` and
`SG_ S m12 : ...` behind `BO_ 100`. -/
theorem indicator_token_decides_type_witness :
    (∃ s, parseSG sampleLibC [] "SG_ S : 0|8@1+ (1,0) [0|255] \"\" XXX".toList (some 100) 0 =
        .ok (pushSignal [] 100 s, 0) ∧ s.type = .Normal) ∧
    (∃ s, parseSG sampleLibC [] "SG_ S M : 0|8@1+ (1,0) [0|255] \"\" XXX".toList (some 100) 0 =
        .ok (pushSignal [] 100 s, 1) ∧ s.type = .Multiplexor) ∧
    (∃ s, parseSG sampleLibC [] "SG_ S m12 : 0|8@1+ (1,0) [0|255] \"\" XXX".toList (some 100) 0 =
        .ok (pushSignal [] 100 s, 0) ∧ s.type = .Multiplexed ∧ s.multiplex_value = 12) :=
  have h := indicator_token_decides_type sampleLibC [] "S".toList
    ⟨"0".toList, "8".toList, "1".toList, '+', "1".toList, "0".toList, "0".toList, "255".toList,
      [], "XXX".toList⟩ 1 100 0 (by decide) (by decide) (by decide) (by decide)
  ⟨⟨_, h.1.1, h.1.2.1⟩, ⟨_, h.2.1.1 rfl, h.2.1.2.1⟩,
    ⟨_, (h.2.2.1 12).1, (h.2.2.1 12).2.1, (h.2.2.1 12).2.2.1.trans (by decide)⟩⟩

end DBCFile

/-! ## The size of a signal -/

theorem modifySig_map {α : Type} (g : cabana.Signal → α) (f : cabana.Signal → cabana.Signal)
    (nm : Str) (hf : ∀ s, g (f s) = g s) (sigs : List cabana.Signal) :
    (modifySig f nm sigs).map g = sigs.map g := by
  induction sigs with
  | nil => rfl
  | cons s t ih =>
    unfold modifySig
    split
    · simp [hf]
    · simp [ih]

namespace Qt

theorem toInt_range (s : Str) : -(2 ^ 31 : Int) ≤ toInt s ∧ toInt s < 2 ^ 31 := by
  unfold toInt
  cases signedValue s with
  | none => simp
  | some v =>
    by_cases h : -(2 ^ 31 : Int) ≤ v ∧ v < 2 ^ 31
    · simp only [h, and_self, if_true]
    · simp only [h, if_false]
      norm_num

/-- A text without a minus sign reads as a number that is not negative. -/
theorem toInt_nonneg (s : Str) (h : ∀ c ∈ s, c ≠ '-') : 0 ≤ toInt s := by
  have hs : signedValue s = none ∨ ∃ v : Nat, signedValue s = some (v : Int) := by
    unfold signedValue
    cases ht : trimmed s with
    | nil => exact Or.inl rfl
    | cons c t =>
      have hc : c ≠ '-' := h c (mem_of_mem_trimmed s c (by rw [ht]; exact List.mem_cons_self _ _))
      simp only [hc, if_false]
      cases unsignedValue (c :: t) with
      | none => exact Or.inl rfl
      | some v => exact Or.inr ⟨v, rfl⟩
  unfold toInt
  rcases hs with hs | ⟨v, hs⟩
  · rw [hs]
  · rw [hs]
    by_cases hr : -(2 ^ 31 : Int) ≤ (v : Int) ∧ (v : Int) < 2 ^ 31
    · simp only [hr, and_self, if_true]
      exact Int.ofNat_nonneg v
    · simp only [hr, if_false]
      exact le_refl _

end Qt

/-- The size group of the match `parseSG` works with is a run of decimal digits. -/
theorem sgMatch_size_digits (line : Str) (m : Caps) (off : Nat)
    (h : DBCFile.sgMatch line = some (m, off)) :
    captured m (off + 3) ≠ [] ∧ ∀ c ∈ captured m (off + 3), isDigitChar c = true := by
  unfold DBCFile.sgMatch at h
  cases h1 : sg_regexp.search line with
  | some m1 =>
    simp only [h1, Option.some.injEq, Prod.mk.injEq] at h
    obtain ⟨hm, ho⟩ := h
    subst hm
    subst ho
    obtain ⟨N, t, j, rest, -, -, hwf, hcaps⟩ := sg_regexp_shape line m1 h1
    have hc : captured m1 (0 + 3) = t.size := by rw [hcaps]; rfl
    rw [hc]
    exact ((SgTokens.wellFormed_iff t).mp hwf).2.1
  | none =>
    simp only [h1] at h
    cases h2 : sgm_regexp.search line with
    | none => simp [h2] at h
    | some m2 =>
      simp only [h2, Option.some.injEq, Prod.mk.injEq] at h
      obtain ⟨hm, ho⟩ := h
      subst hm
      subst ho
      obtain ⟨N, I, t, j, rest, -, -, -, hwf, hcaps⟩ := sgm_regexp_shape line m2 h2
      have hc : captured m2 (1 + 3) = t.size := by rw [hcaps]; rfl
      rw [hc]
      exact ((SgTokens.wellFormed_iff t).mp hwf).2.1

namespace DBCFile

/-- The size of the signal an accepted `SG_` line appends is what `toInt` reads from the size
group. -/
theorem statement_SG_size (env : LibC) (content : Str) (st st1 : ParseState) (l : Line)
    (seen : Bool) (hk : kindOf (Qt.trimmed l.raw_line) = .SG)
    (h : statement env content st l = .ok (st1, seen)) :
    ∃ c s m off, sgMatch (Qt.trimmed l.raw_line) = some (m, off) ∧
      st1.msgs = mapInsert st.msgs c
        { ((mapFind st.msgs c).getD ({} : cabana.Msg)) with
          sigs := ((mapFind st.msgs c).getD ({} : cabana.Msg)).sigs ++ [s] } ∧
      s.size = Qt.toInt (captured m (off + 3)) := by
  unfold statement at h
  simp only [hk] at h
  cases hb : parseSG env st.msgs (Qt.trimmed l.raw_line) st.current_msg st.multiplexor_cnt with
  | error e => simp [hb] at h
  | ok r =>
    obtain ⟨msgs, cnt1⟩ := r
    simp only [hb, Except.ok.injEq, Prod.mk.injEq] at h
    obtain ⟨h, _⟩ := h
    subst h
    unfold parseSG at hb
    cases hc : st.current_msg with
    | none => simp [hc] at hb
    | some c =>
      simp only [hc] at hb
      cases hm : sgMatch (Qt.trimmed l.raw_line) with
      | none => simp [hm] at hb
      | some mo =>
        obtain ⟨m, off⟩ := mo
        simp only [hm] at hb
        by_cases hdup : (((mapFind st.msgs c).getD ({} : cabana.Msg)).sig (captured m 1)).isSome
        · simp [hdup] at hb
        · simp only [hdup, Bool.false_eq_true, if_false] at hb
          by_cases hM : (decide (off = 1) && decide (captured m 2 = "M".toList)) = true
          · simp only [hM, if_true, Bool.true_and] at hb
            by_cases h2 : st.multiplexor_cnt + 1 ≥ 2
            · simp [h2] at hb
            · simp only [h2, decide_False, Bool.false_eq_true, if_false, Except.ok.injEq,
                Prod.mk.injEq] at hb
              obtain ⟨hb1, hb2⟩ := hb
              subst hb1
              exact ⟨c, _, m, off, rfl, rfl, rfl⟩
          · simp only [hM, Bool.false_eq_true, if_false, Bool.false_and, Except.ok.injEq,
              Prod.mk.injEq] at hb
            obtain ⟨hb1, hb2⟩ := hb
            subst hb1
            exact ⟨c, _, m, off, rfl, rfl, rfl⟩

/-- What a comment or value statement does to the map: nothing, or it assigns to a message that
is there a message whose signals have the same sizes. -/
theorem annotation_sizes (env : LibC) (content : Str) (st st1 : ParseState) (l : Line)
    (seen : Bool) (hk : kindOf (Qt.trimmed l.raw_line) ≠ .BO)
    (hk2 : kindOf (Qt.trimmed l.raw_line) ≠ .SG)
    (h : statement env content st l = .ok (st1, seen)) :
    st1.msgs = st.msgs ∨ ∃ k msg v, mapFind st.msgs k = some msg ∧
      st1.msgs = mapInsert st.msgs k v ∧
      v.sigs.map (fun s => s.size) = msg.sigs.map (fun s => s.size) := by
  unfold statement at h
  simp only at h
  cases hkk : kindOf (Qt.trimmed l.raw_line) with
  | BO => exact absurd hkk hk
  | SG => exact absurd hkk hk2
  | VAL =>
    simp only [hkk] at h
    cases hb : parseVAL env st.msgs (Qt.trimmed l.raw_line) with
    | error e => simp [hb] at h
    | ok r =>
      simp only [hb, Except.ok.injEq, Prod.mk.injEq] at h
      obtain ⟨h, _⟩ := h
      subst h
      unfold parseVAL at hb
      cases hs : val_regexp.search (Qt.trimmed l.raw_line) with
      | none => simp [hs] at hb
      | some m =>
        simp only [hs] at hb
        cases hm : mapFind st.msgs (Qt.toUInt (captured m 1)) with
        | none =>
          simp only [hm, Except.ok.injEq] at hb
          subst hb
          exact Or.inl rfl
        | some msg =>
          simp only [hm] at hb
          cases hsig : msg.sig (captured m 2) with
          | none =>
            simp only [hsig, Except.ok.injEq] at hb
            subst hb
            exact Or.inl rfl
          | some s =>
            simp only [hsig, Except.ok.injEq] at hb
            subst hb
            exact Or.inr ⟨_, msg, _, hm, rfl, by apply modifySig_map; intro s; rfl⟩
  | CM_BO =>
    simp only [hkk] at h
    cases hb : parseCM_BO st.msgs (Qt.trimmed l.raw_line) content l.raw_line l.streamPos with
    | error e => simp [hb] at h
    | ok r =>
      simp only [hb, Except.ok.injEq, Prod.mk.injEq] at h
      obtain ⟨h, _⟩ := h
      subst h
      unfold parseCM_BO at hb
      cases hs : msg_comment_regexp.search
          (commentText (Qt.trimmed l.raw_line) content l.raw_line l.streamPos) with
      | none => simp [hs] at hb
      | some m =>
        simp only [hs] at hb
        cases hm : mapFind st.msgs (Qt.toUInt (captured m 1)) with
        | none =>
          simp only [hm, Except.ok.injEq] at hb
          subst hb
          exact Or.inl rfl
        | some msg =>
          simp only [hm, Except.ok.injEq] at hb
          subst hb
          exact Or.inr ⟨_, msg, _, hm, rfl, rfl⟩
  | CM_SG =>
    simp only [hkk] at h
    cases hb : parseCM_SG st.msgs (Qt.trimmed l.raw_line) content l.raw_line l.streamPos with
    | error e => simp [hb] at h
    | ok r =>
      simp only [hb, Except.ok.injEq, Prod.mk.injEq] at h
      obtain ⟨h, _⟩ := h
      subst h
      unfold parseCM_SG at hb
      cases hs : sg_comment_regexp.search
          (commentText (Qt.trimmed l.raw_line) content l.raw_line l.streamPos) with
      | none => simp [hs] at hb
      | some m =>
        simp only [hs] at hb
        cases hm : mapFind st.msgs (Qt.toUInt (captured m 1)) with
        | none =>
          simp only [hm, Except.ok.injEq] at hb
          subst hb
          exact Or.inl rfl
        | some msg =>
          simp only [hm] at hb
          cases hsig : msg.sig (captured m 2) with
          | none =>
            simp only [hsig, Except.ok.injEq] at hb
            subst hb
            exact Or.inl rfl
          | some s =>
            simp only [hsig, Except.ok.injEq] at hb
            subst hb
            exact Or.inr ⟨_, msg, _, hm, rfl, by apply modifySig_map; intro s; rfl⟩
  | other =>
    simp only [hkk, Except.ok.injEq, Prod.mk.injEq] at h
    obtain ⟨h, _⟩ := h
    subst h
    exact Or.inl rfl

theorem sizes_of_map (a b : List cabana.Signal)
    (h : a.map (fun s => s.size) = b.map (fun s => s.size))
    (hb : ∀ s ∈ b, sizeInInt s) : ∀ s ∈ a, sizeInInt s := by
  intro s hs
  have hmem : s.size ∈ a.map (fun s => s.size) := List.mem_map.mpr ⟨s, hs, rfl⟩
  rw [h] at hmem
  obtain ⟨s0, hs0, he⟩ := List.mem_map.mp hmem
  have := hb s0 hs0
  unfold sizeInInt at this ⊢
  have he2 : s0.size = s.size := he
  rw [← he2]
  exact this

/-- The invariant of the loop of `parse`: every size is in the range of the numbers `toInt`
reads from digits. -/
theorem parseLine_size_inv (env : LibC) (fn content : Str) (st st1 : ParseState)
    (l : Line) (h : parseLine env fn content st l = .ok st1)
    (inv : ∀ e ∈ st.msgs, ∀ s ∈ e.2.sigs, sizeInInt s) :
    ∀ e ∈ st1.msgs, ∀ s ∈ e.2.sigs, sizeInInt s := by
  obtain ⟨st2, seen, hs, hm, -, -⟩ := parseLine_msgs env fn content st st1 l h
  rw [hm]
  by_cases hk : kindOf (Qt.trimmed l.raw_line) = .BO
  · obtain ⟨a, v, h1, h2, -, -⟩ := statement_BO_shape env content st st2 l seen hk hs
    rw [h1]
    intro e he
    rcases mem_mapInsert _ _ _ _ he with he | he
    · subst he
      intro s hsm
      rw [h2] at hsm
      simp at hsm
    · exact inv e he
  · by_cases hk2 : kindOf (Qt.trimmed l.raw_line) = .SG
    · obtain ⟨c, s, m, off, hmatch, h1, hsize⟩ := statement_SG_size env content st st2 l seen hk2 hs
      have hd := sgMatch_size_digits _ m off hmatch
      have hnew : sizeInInt s := by
        unfold sizeInInt
        rw [hsize]
        refine ⟨Qt.toInt_nonneg _ ?_, (Qt.toInt_range _).2⟩
        intro x hx e
        have := hd.2 x hx
        rw [e] at this
        exact absurd this (by decide)
      rw [h1]
      intro e he
      rcases mem_mapInsert _ _ _ _ he with he | he
      · subst he
        intro s1 hs1
        simp only [List.mem_append, List.mem_singleton] at hs1
        rcases hs1 with hs1 | hs1
        · cases hf : mapFind st.msgs c with
          | none =>
            rw [hf] at hs1
            simp at hs1
          | some msg =>
            rw [hf] at hs1
            exact inv (c, msg) (mem_of_mapFind _ _ _ hf) s1 hs1
        · rw [hs1]
          exact hnew
      · exact inv e he
    · rcases annotation_sizes env content st st2 l seen hk hk2 hs with h3 | ⟨k, msg, v, f1, f2, f3⟩
      · rw [h3]
        exact inv
      · rw [f2]
        intro e he
        rcases mem_mapInsert _ _ _ _ he with he | he
        · subst he
          exact sizes_of_map _ _ f3 (inv (k, msg) (mem_of_mapFind _ _ _ f1))
        · exact inv e he

theorem parseLines_size_inv (env : LibC) (fn content : Str) (ls : List Line)
    (st st1 : ParseState) (h : parseLines env fn content st ls = .ok st1)
    (inv : ∀ e ∈ st.msgs, ∀ s ∈ e.2.sigs, sizeInInt s) :
    ∀ e ∈ st1.msgs, ∀ s ∈ e.2.sigs, sizeInInt s := by
  induction ls generalizing st with
  | nil =>
    simp only [parseLines, Except.ok.injEq] at h
    subst h
    exact inv
  | cons l ls ih =>
    simp only [parseLines] at h
    cases hl : parseLine env fn content st l with
    | error e => simp [hl] at h
    | ok st2 =>
      simp only [hl] at h
      exact ih st2 h (parseLine_size_inv env fn content st st2 l hl inv)

set_option maxRecDepth 100000 in
/-- C22, where it fails: the text with `SG_ S : 0|0@1+ ...` and `SG_ T : 0|100@1+ ...` behind
`BO_ 100 TEST: 8 XXX` is parsed without error, and the two signals of message 100 have the
sizes 0 and 100. -/
theorem signal_of_size_0_or_100_accepted :
    ∃ db, fromContent sampleLibC "n".toList
        "BO_ 100 TEST: 8 XXX\n SG_ S : 0|0@1+ (1,0) [0|0] \"\" XXX\n SG_ T : 0|100@1+ (1,0) [0|0] \"\" XXX\n".toList
        = .ok db ∧
      (db.msg 100).map (fun m => m.sigs.map (fun s => (s.name, s.size))) =
        some [("S".toList, 0), ("T".toList, 100)] :=
  ⟨_, rfl, by decide!⟩

/-- C22, amended: every signal of a successfully parsed database has a size between 0 and
`2^31 - 1`. The size is the number `toInt` reads from the digits of the size token of the
`SG_` statement (0 when they denote `2^31` or more); `parseSG` sets no other bound, so a
statement declaring a size of 0 or above 64 enters the model. -/
theorem signal_size_within_int (env : LibC) (fn name_ content : Str) (db : DBCFile)
    (h : parse env fn name_ content = .ok db) :
    (∀ e ∈ db.msgs, ∀ s ∈ e.2.sigs, 0 ≤ s.size ∧ s.size < 2 ^ 31) ∧
    (∀ (msgs : Msgs) (N : Str) (t : SgTokens) (j cur cnt : Nat),
      (N ≠ [] ∧ ∀ c ∈ N, isWordChar c = true) → t.wellFormed = true →
      (∀ c ∈ t.receiver, c ≠ '"') →
      ((mapFind msgs cur).getD ({} : cabana.Msg)).sig N = none →
      parseSG env msgs (sgStatement N none j t) (some cur) cnt =
        .ok (pushSignal msgs cur (signalOfTokens env N none t), cnt) ∧
      (signalOfTokens env N none t).size = Qt.toInt t.size ∧
      0 ≤ Qt.toInt t.size ∧ Qt.toInt t.size < 2 ^ 31) := by
  constructor
  · unfold parse at h
    cases hp : parseLines env fn content {} (readLines content) with
    | error e => simp [hp] at h
    | ok st =>
      simp only [hp, Except.ok.injEq] at h
      subst h
      have hinv := parseLines_size_inv env fn content _ _ st hp (by intro e he; simp at he)
      intro e he s hs
      simp only [List.mem_map] at he
      obtain ⟨e0, he0, rfl⟩ := he
      simp only [cabana.Msg.update, List.mem_map] at hs
      obtain ⟨s0, hs0, rfl⟩ := hs
      exact hinv e0 he0 s0 hs0
  · intro msgs N t j cur cnt hN hwf hq hnew
    have hdup : ¬ ((((mapFind msgs cur).getD ({} : cabana.Msg)).sig N).isSome = true) := by
      rw [hnew]; simp
    refine ⟨?_, rfl, ?_, (Qt.toInt_range _).2⟩
    · rw [parseSG_statement env msgs N none t j cur cnt hN (fun I h => by simp at h) hwf hq]
      simp only [hdup, if_false]
      rfl
    · apply Qt.toInt_nonneg
      intro x hx e
      have := ((SgTokens.wellFormed_iff t).mp hwf).2.1.2 x hx
      rw [e] at this
      exact absurd this (by decide)

set_option maxRecDepth 100000 in
/-- C22, amended, at the text with the sizes 0 and 100. -/
theorem signal_size_within_int_witness :
    ∃ db, parse sampleLibC [] []
        "BO_ 100 TEST: 8 XXX\n SG_ S : 0|0@1+ (1,0) [0|0] \"\" XXX\n SG_ T : 0|100@1+ (1,0) [0|0] \"\" XXX\n".toList
        = .ok db ∧
      (∀ e ∈ db.msgs, ∀ s ∈ e.2.sigs, 0 ≤ s.size ∧ s.size < 2 ^ 31) :=
  ⟨_, rfl, (signal_size_within_int sampleLibC [] []
    "BO_ 100 TEST: 8 XXX\n SG_ S : 0|0@1+ (1,0) [0|0] \"\" XXX\n SG_ T : 0|100@1+ (1,0) [0|0] \"\" XXX\n".toList
    _ rfl).1⟩

end DBCFile

/-! ## The same name, and the `M` indicator, under different messages -/

namespace DBCFile

theorem kindOf_sgStatement (N : Str) (ind : Option Str) (j : Nat) (t : SgTokens) :
    kindOf (sgStatement N ind j t) = .SG := by
  simp [sgStatement, kindOf, Qt.startsWith, String.toList, List.isPrefixOf]

theorem mapFind_map_update (msgs : Msgs) (a : Nat) :
    mapFind (msgs.map (fun e => (e.1, e.2.update))) a =
      (mapFind msgs a).map (fun m => m.update) := by
  unfold mapFind
  induction msgs with
  | nil => rfl
  | cons e t ih =>
    by_cases h : e.1 = a
    · simp [List.find?, h]
    · simp only [List.map_cons, List.find?, h, decide_False]
      exact ih

theorem update_sigNames (m : cabana.Msg) : m.update.sigNames = m.sigNames := by
  simp [cabana.Msg.update, cabana.Msg.sigNames, Function.comp_def]

theorem update_sig_isSome (m : cabana.Msg) (n : Str) :
    (m.update.sig n).isSome = (m.sig n).isSome := by
  have h1 := cabana.Msg.sig_isSome_iff m.update n
  have h2 := cabana.Msg.sig_isSome_iff m n
  rw [update_sigNames] at h1
  cases ha : (m.update.sig n).isSome <;> cases hb : (m.sig n).isSome <;> simp_all

theorem update_names_types (m : cabana.Msg) :
    m.update.sigs.map (fun s => (s.name, s.type)) = m.sigs.map (fun s => (s.name, s.type)) := by
  simp [cabana.Msg.update, Function.comp_def]

/-- The value of `parse` when its loop ran through. -/
theorem parse_of_loop_ok (env : LibC) (fn name_ content : Str) (st : ParseState)
    (h : parseLines env fn content {} (readLines content) = .ok st) :
    parse env fn name_ content =
      .ok { filename := fn, header := st.header,
            msgs := st.msgs.map (fun e => (e.1, e.2.update)), name_ := name_ } := by
  unfold parse
  rw [h]

theorem mapFind_pushSignal (msgs : Msgs) (c x : Nat) (s : cabana.Signal) :
    mapFind (pushSignal msgs c s) x =
      if x = c then some { ((mapFind msgs c).getD ({} : cabana.Msg)) with
        sigs := ((mapFind msgs c).getD ({} : cabana.Msg)).sigs ++ [s] }
      else mapFind msgs x := by
  unfold pushSignal
  rw [mapFind_mapInsert]

/-- An `SG_` statement of well-formed tokens read by the loop while message `c` is open: it is
accepted when its name is new in message `c` and it is not a second `M` of that message. -/
theorem parseLine_sgStatement (env : LibC) (fn content : Str) (st : ParseState) (l : Line)
    (c : Nat) (N : Str) (ind : Option Str) (j : Nat) (t : SgTokens)
    (hl : lineText l = sgStatement N ind j t)
    (hN : N ≠ [] ∧ ∀ x ∈ N, isWordChar x = true)
    (hI : ∀ I, ind = some I → I ≠ [] ∧ ∀ x ∈ I, isWordChar x = true)
    (hwf : t.wellFormed = true) (hq : ∀ x ∈ t.receiver, x ≠ '"')
    (hcur : st.current_msg = some c)
    (hnew : ((mapFind st.msgs c).getD ({} : cabana.Msg)).sig N = none)
    (hM : ¬ (ind = some "M".toList ∧ 1 ≤ st.multiplexor_cnt)) :
    parseLine env fn content st l =
      .ok { st with msgs := pushSignal st.msgs c (signalOfTokens env N ind t)
                    multiplexor_cnt := if ind = some "M".toList then st.multiplexor_cnt + 1
                                       else st.multiplexor_cnt
                    seen_first := true } := by
  have hk : lineKind l = .SG := by
    unfold lineKind
    unfold lineText at hl
    rw [hl]
    exact kindOf_sgStatement N ind j t
  rw [parseLine_SG env fn content st l hk, hl, hcur,
    parseSG_statement env st.msgs N ind t j c st.multiplexor_cnt hN hI hwf hq]
  have hdup : ¬ ((((mapFind st.msgs c).getD ({} : cabana.Msg)).sig N).isSome = true) := by
    rw [hnew]; simp
  have hM2 : ¬ (ind = some "M".toList ∧ st.multiplexor_cnt + 1 ≥ 2) := by
    intro h
    exact hM ⟨h.1, by omega⟩
  simp only [hdup, if_false, hM2]
  rfl

end DBCFile

namespace DBCFile

/-- C3. Two `SG_` lines under the same `BO_` message (no `BO_` line between them) that declare
the same signal name make `parse` throw. The same name under two different messages is accepted:
for every text and every line of it that is an `SG_` statement of well-formed tokens declaring
the name `N` while message `c` is open, the lines in front of it being accepted and message `c`
not having the name (nor the statement being a second `M` of message `c`), the line is accepted
although another message `a` has a signal named `N`: both messages have one in the state with
which the loop goes on to the lines behind, and when the line is the last one `parse` succeeds
with a database in which both messages have one. -/
theorem duplicate_signal_name_rejected (env : LibC) (fn name_ content : Str)
    (pre mid post : List Line) (li lj : Line) (n : Str)
    (hlines : readLines content = pre ++ li :: (mid ++ lj :: post))
    (hi : lineKind li = .SG) (hj : lineKind lj = .SG)
    (hmid : ∀ l ∈ mid, lineKind l ≠ .BO)
    (hni : sgName (lineText li) = some n) (hnj : sgName (lineText lj) = some n) :
    (∃ e, parse env fn name_ content = .error e) ∧
    (∀ (content1 : Str) (pre1 post1 : List Line) (l : Line) (st : ParseState) (c a : Nat)
        (ma : cabana.Msg) (N : Str) (ind : Option Str) (j : Nat) (t : SgTokens),
      readLines content1 = pre1 ++ l :: post1 →
      parseLines env fn content1 {} pre1 = .ok st →
      lineText l = sgStatement N ind j t →
      (N ≠ [] ∧ ∀ x ∈ N, isWordChar x = true) →
      (∀ I, ind = some I → I ≠ [] ∧ ∀ x ∈ I, isWordChar x = true) →
      t.wellFormed = true → (∀ x ∈ t.receiver, x ≠ '"') →
      ¬ (ind = some "M".toList ∧ 1 ≤ st.multiplexor_cnt) →
      st.current_msg = some c → a ≠ c →
      mapFind st.msgs a = some ma → (ma.sig N).isSome = true →
      ((mapFind st.msgs c).getD ({} : cabana.Msg)).sig N = none →
      ∃ st2 mc, parseLine env fn content1 st l = .ok st2 ∧
        st2.msgs = pushSignal st.msgs c (signalOfTokens env N ind t) ∧
        mapFind st2.msgs a = some ma ∧
        mapFind st2.msgs c = some mc ∧ (mc.sig N).isSome = true ∧
        parseLines env fn content1 {} (readLines content1) =
          parseLines env fn content1 st2 post1 ∧
        (post1 = [] → ∃ db ma1 mc1, parse env fn name_ content1 = .ok db ∧
          db.msgs = (pushSignal st.msgs c (signalOfTokens env N ind t)).map
            (fun e => (e.1, e.2.update)) ∧
          db.msg a = some ma1 ∧ (ma1.sig N).isSome = true ∧
          db.msg c = some mc1 ∧ (mc1.sig N).isSome = true)) := by
  refine ⟨?_, ?_⟩
  swap
  · intro content1 pre1 post1 l st c a ma N ind j t hl1 hpre1 hl hN hI hwf hq hM hcur hac hma
      hmaN hnew
    have hstep := parseLine_sgStatement env fn content1 st l c N ind j t hl hN hI hwf hq hcur
      hnew hM
    have hgo := parseLines_split_ok env fn content1 _ st _ pre1 post1 l hpre1 hstep
    have hNc : (({ ((mapFind st.msgs c).getD ({} : cabana.Msg)) with
        sigs := ((mapFind st.msgs c).getD ({} : cabana.Msg)).sigs ++
          [signalOfTokens env N ind t] } : cabana.Msg).sig N).isSome = true := by
      rw [cabana.Msg.sig_isSome_iff]
      simp [cabana.Msg.sigNames, signalOfTokens]
    refine ⟨_, _, hstep, rfl, ?_, ?_, hNc, ?_, ?_⟩
    · show mapFind (pushSignal _ _ _) a = _
      rw [mapFind_pushSignal, if_neg hac, hma]
    · show mapFind (pushSignal _ _ _) c = _
      rw [mapFind_pushSignal, if_pos rfl]
    · rw [hl1]
      exact hgo
    · intro hpost
      subst hpost
      have hloop : parseLines env fn content1 {} (readLines content1) = .ok
          { st with msgs := pushSignal st.msgs c (signalOfTokens env N ind t)
                    multiplexor_cnt := if ind = some "M".toList then st.multiplexor_cnt + 1
                                       else st.multiplexor_cnt
                    seen_first := true } := by
        rw [hl1, hgo]
        rfl
      refine ⟨_, ma.update,
        ({ ((mapFind st.msgs c).getD ({} : cabana.Msg)) with
          sigs := ((mapFind st.msgs c).getD ({} : cabana.Msg)).sigs ++
            [signalOfTokens env N ind t] } : cabana.Msg).update,
        parse_of_loop_ok env fn name_ content1 _ hloop, rfl, ?_, ?_, ?_, ?_⟩
      · show mapFind _ a = _
        rw [mapFind_map_update, mapFind_pushSignal, if_neg hac, hma]
        rfl
      · rw [update_sig_isSome]
        exact hmaN
      · show mapFind _ c = _
        rw [mapFind_map_update, mapFind_pushSignal, if_pos rfl]
        rfl
      · rw [update_sig_isSome]
        exact hNc
  · suffices h : ∃ e, parseLines env fn content {} (readLines content) = .error e by
      obtain ⟨e, he⟩ := h
      exact ⟨e, parse_error_of_loop env fn name_ content e he⟩
    rw [hlines]
    cases h1 : parseLines env fn content {} pre with
    | error e => exact ⟨e, parseLines_split_error_pre env fn content _ pre _ li e h1⟩
    | ok st1 =>
      cases h2 : parseLine env fn content st1 li with
      | error e => exact ⟨e, parseLines_split_error_line env fn content _ st1 pre _ li e h1 h2⟩
      | ok st2 =>
        rw [parseLines_split_ok env fn content _ st1 st2 pre _ li h1 h2]
        cases h3 : parseLines env fn content st2 mid with
        | error e => exact ⟨e, parseLines_split_error_pre env fn content _ mid _ lj e h3⟩
        | ok st3 =>
          refine ⟨errorText fn lj.line_num "Duplicate signal name".toList (lineText lj),
            parseLines_split_error_line env fn content _ st3 mid _ lj _ h3 ?_⟩
          -- the state after line `li`: the open message has a signal named `n`
          rw [parseLine_SG env fn content st1 li hi] at h2
          cases hb : parseSG env st1.msgs (lineText li) st1.current_msg st1.multiplexor_cnt with
          | error e => simp [hb] at h2
          | ok r =>
            obtain ⟨msgs, c1⟩ := r
            simp only [hb, Except.ok.injEq] at h2
            subst h2
            obtain ⟨c, m, off, s, hc, hm, hnew, hname, hr, hcnt, hmux⟩ :=
              parseSG_ok_inv env _ _ _ _ _ hb
            simp only at hr
            have hn1 : captured m 1 = n := by
              unfold sgName at hni
              simpa [hm] using hni
            have hfind : mapFind msgs c = some
                { ((mapFind st1.msgs c).getD ({} : cabana.Msg)) with
                  sigs := ((mapFind st1.msgs c).getD ({} : cabana.Msg)).sigs ++ [s] } := by
              rw [hr, mapFind_mapInsert]
              simp
            obtain ⟨i1, i2, i3⟩ := parseLines_frame env fn content mid _ st3 hmid h3
            obtain ⟨msg3, hm3, hn3⟩ := i3 c _ hfind
            have hin : n ∈ msg3.sigNames := by
              apply hn3
              simp only [cabana.Msg.sigNames, List.map_append, List.mem_append, List.map_cons,
                List.map_nil, List.mem_singleton]
              right
              rw [hname, hn1]
            simp only at i1
            rw [parseLine_SG env fn content st3 lj hj, i1, hc]
            unfold sgName at hnj
            cases hmj : sgMatch (lineText lj) with
            | none => simp [hmj] at hnj
            | some mo =>
              obtain ⟨mj, offj⟩ := mo
              have hnj1 : captured mj 1 = n := by simpa [hmj] using hnj
              rw [parseSG_duplicate env st3.msgs (lineText lj) c st3.multiplexor_cnt mj offj hmj]
              rw [hm3, Option.getD_some, hnj1, cabana.Msg.sig_isSome_iff]
              exact hin

set_option maxRecDepth 100000 in
/-- C3, at a text whose message 100 declares the signal `S` twice, and at the text that
declares `S` in message 1 and in message 2. -/
theorem duplicate_signal_name_rejected_witness :
    (∃ e, parse sampleLibC [] []
      ("BO_ 100 A: 8 XXX\n SG_ S : 0|8@1+ (1,0) [0|1] \"\" XXX\n" ++
       " SG_ S : 8|8@1+ (1,0) [0|1] \"\" XXX\n").toList = .error e) ∧
    (∃ db, parse sampleLibC [] []
        ("BO_ 1 A: 8 XXX\n SG_ S : 0|8@1+ (1,0) [0|1] \"\" XXX\n" ++
         "BO_ 2 B: 8 XXX\n SG_ S : 0|8@1+ (1,0) [0|1] \"\" XXX\n").toList = .ok db ∧
      db.msgs.map (fun e => (e.1, e.2.sigNames)) = [(1, ["S".toList]), (2, ["S".toList])]) := by
  have h := duplicate_signal_name_rejected sampleLibC [] []
    ("BO_ 100 A: 8 XXX\n SG_ S : 0|8@1+ (1,0) [0|1] \"\" XXX\n" ++
     " SG_ S : 8|8@1+ (1,0) [0|1] \"\" XXX\n").toList
    [⟨1, "BO_ 100 A: 8 XXX".toList, 17⟩] [] []
    ⟨2, " SG_ S : 0|8@1+ (1,0) [0|1] \"\" XXX".toList, 52⟩
    ⟨3, " SG_ S : 8|8@1+ (1,0) [0|1] \"\" XXX".toList, 87⟩ "S".toList
    (by decide!) (by decide!) (by decide!) (by decide!) (by decide!) (by decide!)
  refine ⟨h.1, ?_⟩
  obtain ⟨st2, mc, -, -, -, -, -, -, hlast⟩ := h.2
    ("BO_ 1 A: 8 XXX\n SG_ S : 0|8@1+ (1,0) [0|1] \"\" XXX\n" ++
     "BO_ 2 B: 8 XXX\n SG_ S : 0|8@1+ (1,0) [0|1] \"\" XXX\n").toList
    [⟨1, "BO_ 1 A: 8 XXX".toList, 15⟩,
     ⟨2, " SG_ S : 0|8@1+ (1,0) [0|1] \"\" XXX".toList, 50⟩,
     ⟨3, "BO_ 2 B: 8 XXX".toList, 65⟩] []
    ⟨4, " SG_ S : 0|8@1+ (1,0) [0|1] \"\" XXX".toList, 100⟩ _ 2 1 _ "S".toList none 1
    ⟨"0".toList, "8".toList, "1".toList, '+', "1".toList, "0".toList, "0".toList, "1".toList,
      [], "XXX".toList⟩
    (by decide!) rfl (by decide!) (by decide) (by decide) (by decide) (by decide) (by decide)
    rfl (by decide) rfl (by decide!) (by decide!)
  obtain ⟨db, ma1, mc1, hp, hm, -⟩ := hlast rfl
  exact ⟨db, hp, by rw [hm]; decide!⟩

end DBCFile

namespace DBCFile

set_option maxRecDepth 100000 in
/-- C4, where it fails: under `BO_ 100` the statement `SG_ S M` comes twice. The second one is
rejected, and the reason is `Duplicate signal name`, not `Multiple multiplexor`: `parseSG`
looks the name up before it counts the indicator. -/
theorem second_multiplexor_of_same_name :
    parse sampleLibC [] []
      ("BO_ 100 A: 8 XXX\n SG_ S M : 0|8@1+ (1,0) [0|1] \"\" XXX\n" ++
       " SG_ S M : 8|8@1+ (1,0) [0|1] \"\" XXX\n").toList =
      .error "[:3]Duplicate signal name: SG_ S M : 8|8@1+ (1,0) [0|1] \"\" XXX".toList :=
  rfl

/-- C4, amended. A second `SG_` line with the `M` indicator under the same `BO_` message (no
`BO_` line between the two) makes `parse` throw. When the lines in front of it were accepted,
the exception is the annotated reason `Multiple multiplexor` if the name of the line is new in
the open message, and the annotated reason `Duplicate signal name` if the message has the name
already. One `M` signal in each of several different messages is accepted, because the count
restarts at every `BO_`: for every text and every accepted `BO_` line of it that is followed by
an `SG_` statement of well-formed tokens with the `M` indicator, the lines in front being
accepted (whatever messages and `M` signals they declare), the count is 0 behind the `BO_`
line, the statement is accepted, and the new message has the one signal, of type Multiplexor,
in the state with which the loop goes on; when the statement is the last line, `parse`
succeeds with a database in which the message has this one signal. -/
theorem second_multiplexor_rejected (env : LibC) (fn name_ content : Str)
    (pre mid post : List Line) (li lj : Line)
    (hlines : readLines content = pre ++ li :: (mid ++ lj :: post))
    (hi : lineKind li = .SG) (hj : lineKind lj = .SG)
    (hmid : ∀ l ∈ mid, lineKind l ≠ .BO)
    (hMi : isMultiplexorLine (lineText li) = true)
    (hMj : isMultiplexorLine (lineText lj) = true) :
    (∃ e, parse env fn name_ content = .error e) ∧
    (∀ st, parseLines env fn content {} (pre ++ li :: mid) = .ok st →
      ∃ c n, st.current_msg = some c ∧ sgName (lineText lj) = some n ∧
        parse env fn name_ content =
          .error (errorText fn lj.line_num
            (if ((mapFind st.msgs c).getD ({} : cabana.Msg)).sig n = none
             then "Multiple multiplexor".toList else "Duplicate signal name".toList)
            (lineText lj))) ∧
    (∀ (content1 : Str) (pre1 post1 : List Line) (lb ls : Line) (st st1 : ParseState)
        (N : Str) (j : Nat) (t : SgTokens),
      readLines content1 = pre1 ++ lb :: ls :: post1 →
      parseLines env fn content1 {} pre1 = .ok st →
      lineKind lb = .BO → parseLine env fn content1 st lb = .ok st1 →
      lineText ls = sgStatement N (some "M".toList) j t →
      (N ≠ [] ∧ ∀ x ∈ N, isWordChar x = true) →
      t.wellFormed = true → (∀ x ∈ t.receiver, x ≠ '"') →
      ∃ a st2 m2, st1.current_msg = some a ∧ st1.multiplexor_cnt = 0 ∧
        parseLine env fn content1 st1 ls = .ok st2 ∧
        st2.msgs = pushSignal st1.msgs a (signalOfTokens env N (some "M".toList) t) ∧
        mapFind st2.msgs a = some m2 ∧
        m2.sigs.map (fun s => (s.name, s.type)) = [(N, .Multiplexor)] ∧
        parseLines env fn content1 {} (readLines content1) =
          parseLines env fn content1 st2 post1 ∧
        (post1 = [] → ∃ db m, parse env fn name_ content1 = .ok db ∧
          db.msgs = (pushSignal st1.msgs a (signalOfTokens env N (some "M".toList) t)).map
            (fun e => (e.1, e.2.update)) ∧
          db.msg a = some m ∧
          m.sigs.map (fun s => (s.name, s.type)) = [(N, .Multiplexor)])) := by
  have hl2 : readLines content = (pre ++ li :: mid) ++ lj :: post := by
    rw [hlines]; simp
  refine ⟨?_, ?_, ?_⟩
  · suffices h : ∃ e, parseLines env fn content {} (readLines content) = .error e by
      obtain ⟨e, he⟩ := h
      exact ⟨e, parse_error_of_loop env fn name_ content e he⟩
    rw [hl2]
    cases h1 : parseLines env fn content {} (pre ++ li :: mid) with
    | error e => exact ⟨e, parseLines_split_error_pre env fn content _ _ post lj e h1⟩
    | ok st3 =>
      obtain ⟨st1, st2, p1, p2, p3⟩ := parseLines_split_ok_inv env fn content _ st3 pre mid li h1
      obtain ⟨⟨c, hc⟩, hcnt⟩ := multiplexor_counted env fn content st1 st2 st3 li mid hi hMi hmid p2 p3
      cases hl : parseLine env fn content st3 lj with
      | error e => exact ⟨e, parseLines_split_error_line env fn content _ st3 _ post lj e h1 hl⟩
      | ok st4 =>
        exfalso
        rw [parseLine_SG env fn content st3 lj hj] at hl
        cases hb : parseSG env st3.msgs (lineText lj) st3.current_msg st3.multiplexor_cnt with
        | error e => simp [hb] at hl
        | ok r =>
          have hb1 := hb
          rw [hc] at hb1
          obtain ⟨c1, m, off, s, hc1, hm, hnew, hname, hr, hcnt1, hmux⟩ :=
            parseSG_ok_inv env _ _ _ _ _ hb1
          simp only [Option.some.injEq] at hc1
          subst hc1
          have hmm := parseSG_multiple env st3.msgs (lineText lj) c st3.multiplexor_cnt hMj hcnt
            (by
              intro m1 off1 hm1
              rw [hm] at hm1
              simp only [Option.some.injEq, Prod.mk.injEq] at hm1
              rw [← hm1.1]
              exact hnew)
          rw [hmm] at hb1
          simp at hb1
  · intro st hst
    obtain ⟨st1, st2, p1, p2, p3⟩ := parseLines_split_ok_inv env fn content _ st pre mid li hst
    obtain ⟨⟨c, hc⟩, hcnt⟩ := multiplexor_counted env fn content st1 st2 st li mid hi hMi hmid p2 p3
    have hMj2 := hMj
    unfold isMultiplexorLine at hMj2
    cases hm : sgMatch (lineText lj) with
    | none => simp [hm] at hMj2
    | some mo =>
      obtain ⟨m, off⟩ := mo
      have hn : sgName (lineText lj) = some (captured m 1) := by
        unfold sgName
        rw [hm]
        rfl
      refine ⟨c, captured m 1, hc, hn, ?_⟩
      apply parse_error_of_loop
      rw [hl2]
      apply parseLines_split_error_line env fn content _ st _ post lj _ hst
      rw [parseLine_SG env fn content st lj hj, hc]
      cases hsig : ((mapFind st.msgs c).getD ({} : cabana.Msg)).sig (captured m 1) with
      | none =>
        rw [parseSG_multiple env st.msgs (lineText lj) c st.multiplexor_cnt hMj hcnt]
        · simp
        · intro m1 off1 hm1
          rw [hm] at hm1
          simp only [Option.some.injEq, Prod.mk.injEq] at hm1
          rw [← hm1.1]
          exact hsig
      | some s =>
        rw [parseSG_duplicate env st.msgs (lineText lj) c st.multiplexor_cnt m off hm
          (by rw [hsig]; rfl)]
        simp
  · intro content1 pre1 post1 lb ls st st1 N j t hl1 hpre1 hkb hb hls hN hwf hq
    obtain ⟨st2, seen, hs, hm, hc, hn⟩ := parseLine_msgs env fn content1 st st1 lb hb
    unfold lineKind at hkb
    obtain ⟨a, v, h1, h2, h3, h4⟩ := statement_BO_shape env content1 st st2 lb seen hkb hs
    have hcur : st1.current_msg = some a := by rw [hc, h3]
    have hcnt : st1.multiplexor_cnt = 0 := by rw [hn, h4]
    have hfind : mapFind st1.msgs a = some v := by
      rw [hm, h1, mapFind_mapInsert, if_pos rfl]
    have hnew : ((mapFind st1.msgs a).getD ({} : cabana.Msg)).sig N = none := by
      rw [hfind, Option.getD_some]
      unfold cabana.Msg.sig
      rw [h2]
      rfl
    have hstep := parseLine_sgStatement env fn content1 st1 ls a N (some "M".toList) j t hls hN
      (fun I h => by
        simp only [Option.some.injEq] at h
        subst h
        exact ⟨by decide, by decide⟩) hwf hq hcur hnew (by rw [hcnt]; simp)
    have hgo : parseLines env fn content1 {} (pre1 ++ lb :: ls :: post1) =
        parseLines env fn content1
          { st1 with msgs := pushSignal st1.msgs a (signalOfTokens env N (some "M".toList) t)
                     multiplexor_cnt := if (some "M".toList : Option Str) = some "M".toList
                                        then st1.multiplexor_cnt + 1 else st1.multiplexor_cnt
                     seen_first := true } post1 := by
      rw [parseLines_split_ok env fn content1 _ st _ pre1 (ls :: post1) lb hpre1 hb]
      simp only [parseLines, hstep]
    have htypes : (({ ((mapFind st1.msgs a).getD ({} : cabana.Msg)) with
        sigs := ((mapFind st1.msgs a).getD ({} : cabana.Msg)).sigs ++
          [signalOfTokens env N (some "M".toList) t] } : cabana.Msg).sigs.map
          (fun s => (s.name, s.type))) = [(N, .Multiplexor)] := by
      rw [hfind, Option.getD_some]
      simp [h2, signalOfTokens]
    refine ⟨a, _, _, hcur, hcnt, hstep, rfl, ?_, htypes, ?_, ?_⟩
    · show mapFind (pushSignal _ _ _) a = _
      rw [mapFind_pushSignal, if_pos rfl]
    · rw [hl1]
      exact hgo
    · intro hpost
      subst hpost
      have hloop : parseLines env fn content1 {} (readLines content1) = .ok
          { st1 with msgs := pushSignal st1.msgs a (signalOfTokens env N (some "M".toList) t)
                     multiplexor_cnt := if (some "M".toList : Option Str) = some "M".toList
                                        then st1.multiplexor_cnt + 1 else st1.multiplexor_cnt
                     seen_first := true } := by
        rw [hl1, hgo]
        rfl
      refine ⟨_,
        ({ ((mapFind st1.msgs a).getD ({} : cabana.Msg)) with
          sigs := ((mapFind st1.msgs a).getD ({} : cabana.Msg)).sigs ++
            [signalOfTokens env N (some "M".toList) t] } : cabana.Msg).update,
        parse_of_loop_ok env fn name_ content1 _ hloop, rfl, ?_, ?_⟩
      · show mapFind _ a = _
        rw [mapFind_map_update, mapFind_pushSignal, if_pos rfl]
        rfl
      · rw [update_names_types]
        exact htypes

set_option maxRecDepth 100000 in
/-- C4, amended, at a text whose message 100 has the `M` indicator on its signals `S` and `T`,
and at the text with one `M` signal in each of the messages 1 and 2. -/
theorem second_multiplexor_rejected_witness :
    parse sampleLibC [] []
      ("BO_ 100 A: 8 XXX\n SG_ S M : 0|8@1+ (1,0) [0|1] \"\" XXX\n" ++
       " SG_ T M : 8|8@1+ (1,0) [0|1] \"\" XXX\n").toList =
      .error "[:3]Multiple multiplexor: SG_ T M : 8|8@1+ (1,0) [0|1] \"\" XXX".toList ∧
    (∃ db, parse sampleLibC [] []
        ("BO_ 1 A: 8 XXX\n SG_ S M : 0|8@1+ (1,0) [0|1] \"\" XXX\n" ++
         "BO_ 2 B: 8 XXX\n SG_ T M : 0|8@1+ (1,0) [0|1] \"\" XXX\n").toList = .ok db ∧
      db.msgs.map (fun e => (e.1, e.2.sigs.map (fun s => (s.name, s.type)))) =
        [(1, [("S".toList, .Multiplexor)]), (2, [("T".toList, .Multiplexor)])]) := by
  have h := second_multiplexor_rejected sampleLibC [] []
    ("BO_ 100 A: 8 XXX\n SG_ S M : 0|8@1+ (1,0) [0|1] \"\" XXX\n" ++
     " SG_ T M : 8|8@1+ (1,0) [0|1] \"\" XXX\n").toList
    [⟨1, "BO_ 100 A: 8 XXX".toList, 17⟩] [] []
    ⟨2, " SG_ S M : 0|8@1+ (1,0) [0|1] \"\" XXX".toList, 54⟩
    ⟨3, " SG_ T M : 8|8@1+ (1,0) [0|1] \"\" XXX".toList, 91⟩
    (by decide!) (by decide!) (by decide!) (by decide!) (by decide!) (by decide!)
  constructor
  · obtain ⟨c, n, hc, hn, hp⟩ := h.2.1 _ rfl
    rw [hp]
    have hT : sgName (lineText ⟨3, " SG_ T M : 8|8@1+ (1,0) [0|1] \"\" XXX".toList, 91⟩)
        = some "T".toList := by decide!
    rw [hT] at hn
    simp only [Option.some.injEq] at hn hc
    subst hn
    subst hc
    exact congrArg Except.error (by decide!)
  · obtain ⟨a, st2, m2, hcur, -, -, -, -, -, -, hlast⟩ := h.2.2
      ("BO_ 1 A: 8 XXX\n SG_ S M : 0|8@1+ (1,0) [0|1] \"\" XXX\n" ++
       "BO_ 2 B: 8 XXX\n SG_ T M : 0|8@1+ (1,0) [0|1] \"\" XXX\n").toList
      [⟨1, "BO_ 1 A: 8 XXX".toList, 15⟩,
       ⟨2, " SG_ S M : 0|8@1+ (1,0) [0|1] \"\" XXX".toList, 52⟩] []
      ⟨3, "BO_ 2 B: 8 XXX".toList, 67⟩
      ⟨4, " SG_ T M : 0|8@1+ (1,0) [0|1] \"\" XXX".toList, 104⟩ _ _ "T".toList 1
      ⟨"0".toList, "8".toList, "1".toList, '+', "1".toList, "0".toList, "0".toList, "1".toList,
        [], "XXX".toList⟩
      (by decide!) rfl (by decide!) rfl (by decide!) (by decide) (by decide) (by decide)
    have ha : some 2 = some a := hcur
    simp only [Option.some.injEq] at ha
    subst ha
    obtain ⟨db, m, hp, hm, -⟩ := hlast rfl
    refine ⟨db, hp, ?_⟩
    rw [hm]
    decide!

end DBCFile

/-! ## A comment statement left open on its line -/

/-- A text the comment pattern takes whole is a sequence of its items. -/
theorem isCommentBodyAux_items (b : Str) :
    (isCommentBodyAux false b = true →
      ∃ items : List Str, items.flatten = b ∧
        ∀ i ∈ items, (∃ x, i = [x] ∧ isPlainCommentChar x = true) ∨
          (∃ y, i = ['\\', y] ∧ isDot y = true)) ∧
    (isCommentBodyAux true b = true →
      ∃ (y : Char) (items : List Str), isDot y = true ∧ y :: items.flatten = b ∧
        ∀ i ∈ items, (∃ x, i = [x] ∧ isPlainCommentChar x = true) ∨
          (∃ y, i = ['\\', y] ∧ isDot y = true)) := by
  induction b with
  | nil =>
    refine ⟨fun _ => ⟨[], rfl, fun i hi => absurd hi (List.not_mem_nil _)⟩, ?_⟩
    intro h
    simp [isCommentBodyAux] at h
  | cons x t ih =>
    constructor
    · intro h
      by_cases hx : x = '\\'
      · subst hx
        have h2 : isCommentBodyAux true t = true := by
          simpa [isCommentBodyAux] using h
        obtain ⟨y, items, hy, hfl, hit⟩ := ih.2 h2
        refine ⟨['\\', y] :: items, ?_, ?_⟩
        · rw [List.flatten_cons, ← hfl]
          rfl
        · intro i hi
          rcases List.mem_cons.mp hi with e | e
          · exact Or.inr ⟨y, e, hy⟩
          · exact hit i e
      · have h2 : (x != '"') = true ∧ isCommentBodyAux false t = true := by
          simpa [isCommentBodyAux, hx] using h
        obtain ⟨items, hfl, hit⟩ := ih.1 h2.2
        refine ⟨[x] :: items, ?_, ?_⟩
        · rw [List.flatten_cons, hfl]
          rfl
        · intro i hi
          rcases List.mem_cons.mp hi with e | e
          · refine Or.inl ⟨x, e, ?_⟩
            have hq : x ≠ '"' := by simpa using h2.1
            simp [isPlainCommentChar, hq, hx]
          · exact hit i e
    · intro h
      have h2 : isDot x = true ∧ isCommentBodyAux false t = true := by
        simpa [isCommentBodyAux] using h
      obtain ⟨items, hfl, hit⟩ := ih.1 h2.2
      exact ⟨x, items, h2.1, by rw [hfl], hit⟩

/-- The comment pattern `(?:[^"\\]|\\.)*` takes a text of its items whole, up to the closing
quote. -/
theorem commentBody_takes (b r : Str) (caps : Caps) (hb : isCommentBody b = true) :
    Re.First commentBody (b ++ '"' :: r) caps ('"' :: r) caps := by
  obtain ⟨items, hfl, hit⟩ := (isCommentBodyAux_items b).1 hb
  rw [← hfl]
  unfold commentBody
  apply Re.First.star
  · intro i hi
    rcases hit i hi with ⟨x, rfl, hx⟩ | ⟨y, rfl, hy⟩
    · refine ⟨by simp, ?_⟩
      intro t
      simp [Re.run, hx]
    · refine ⟨by simp, ?_⟩
      intro t
      simp [Re.run, isPlainCommentChar, hy]
  · simp [Re.run, isPlainCommentChar]

/-- What `msg_comment_regexp` finds in a `CM_ BO_` statement with one blank after the keyword
and after the address, around a comment of items of the comment pattern, whatever follows the
statement. -/
theorem msg_comment_search_body (D b tail : Str) (hD : D ≠ [])
    (hDw : ∀ x ∈ D, isWordChar x = true) (hb : isCommentBody b = true) :
    msg_comment_regexp.search
      ("CM_ BO_".toList ++ (List.replicate 1 ' ' ++ (D ++ (List.replicate 1 ' ' ++
        ('"' :: (b ++ '"' :: ([] ++ ';' :: tail)))))))
      = some [(2, b), (1, D)] := by
  apply Re.search_of_first _ _ tail _
  unfold msg_comment_regexp
  simp only [Re.seqs]
  apply Re.first_after_bos
  refine Re.First.seq (Re.First.lits _ _ _) ?_
  refine Re.First.seq (Re.First.star_lit ' ' _ 1 _ ?_) ?_
  · cases D with
    | nil => exact absurd rfl hD
    | cons d t =>
      have hd := hDw d (List.mem_cons_self _ _)
      simp only [List.cons_append, List.head?_cons, ne_eq, Option.some.injEq]
      intro h
      subst h
      simp [isWordChar] at hd
  refine Re.First.seq (Re.First.group 1 (Re.First.plus_cls isWordChar _ D _ hD hDw ?_)) ?_
  · simp [isWordChar]
  refine Re.First.seq (Re.First.star_lit ' ' _ 1 _ ?_) ?_
  · simp
  refine Re.First.seq (Re.First.lit '"' _ _) ?_
  refine Re.First.seq (Re.First.group 2 (commentBody_takes b _ _ hb)) ?_
  refine Re.First.seq (Re.First.lit '"' _ _) ?_
  refine Re.First.seq (Re.First.star_cls isReSpace _ [] _ ?_ ?_) ?_
  · intro x hx
    simp at hx
  · simp [isReSpace]
  exact Re.First.lit ';' _ _

/-- What `sg_comment_regexp` finds in a `CM_ SG_` statement with one blank after the keyword,
the address and the name, around a comment of items of the comment pattern, whatever follows
the statement. -/
theorem sg_comment_search_body (D N b tail : Str) (hD : D ≠ [])
    (hDw : ∀ x ∈ D, isWordChar x = true) (hN : N ≠ []) (hNw : ∀ x ∈ N, isWordChar x = true)
    (hb : isCommentBody b = true) :
    sg_comment_regexp.search
      ("CM_ SG_".toList ++ (List.replicate 1 ' ' ++ (D ++ (List.replicate 1 ' ' ++
        (N ++ (List.replicate 1 ' ' ++
          ('"' :: (b ++ '"' :: ([] ++ ';' :: tail)))))))))
      = some [(3, b), (2, N), (1, D)] := by
  apply Re.search_of_first _ _ tail _
  unfold sg_comment_regexp
  simp only [Re.seqs]
  apply Re.first_after_bos
  have hhead : ∀ (W r : Str), W ≠ [] → (∀ x ∈ W, isWordChar x = true) →
      (W ++ r).head? ≠ some ' ' := by
    intro W r hW hWw
    cases W with
    | nil => exact absurd rfl hW
    | cons d t =>
      have hd := hWw d (List.mem_cons_self _ _)
      simp only [List.cons_append, List.head?_cons, ne_eq, Option.some.injEq]
      intro h
      subst h
      simp [isWordChar] at hd
  refine Re.First.seq (Re.First.lits _ _ _) ?_
  refine Re.First.seq (Re.First.star_lit ' ' _ 1 _ (hhead D _ hD hDw)) ?_
  refine Re.First.seq (Re.First.group 1 (Re.First.plus_cls isWordChar _ D _ hD hDw ?_)) ?_
  · simp [isWordChar]
  refine Re.First.seq (Re.First.star_lit ' ' _ 1 _ (hhead N _ hN hNw)) ?_
  refine Re.First.seq (Re.First.group 2 (Re.First.plus_cls isWordChar _ N _ hN hNw ?_)) ?_
  · simp [isWordChar]
  refine Re.First.seq (Re.First.star_lit ' ' _ 1 _ ?_) ?_
  · simp
  refine Re.First.seq (Re.First.lit '"' _ _) ?_
  refine Re.First.seq (Re.First.group 3 (commentBody_takes b _ _ hb)) ?_
  refine Re.First.seq (Re.First.lit '"' _ _) ?_
  refine Re.First.seq (Re.First.star_cls isReSpace _ [] _ ?_ ?_) ?_
  · intro x hx
    simp at hx
  · simp [isReSpace]
  exact Re.First.lit ';' _ _

namespace Qt

/-- The offset found from a base is the offset found from 0, moved by the base. -/
theorem findFrom_base (p s : Str) (b : Nat) :
    findFrom p s b = (findFrom p s 0).map (fun i => i + b) := by
  induction s generalizing b with
  | nil =>
    unfold findFrom
    split <;> simp
  | cons c t ih =>
    unfold findFrom
    split
    · simp
    · rw [ih (b + 1), ih (0 + 1), Option.map_map]
      congr 1
      funext i
      simp only [Function.comp]
      omega

/-- The index of the first occurrence of `p` at or after the start of a part of the text is its
index in the part, moved by the offset of the part. -/
theorem indexOf_part (pre s p : Str) (k : Nat) (h : indexOf s p 0 = (k : Int)) :
    indexOf (pre ++ s) p (pre.length : Int) = ((pre.length + k : Nat) : Int) := by
  unfold indexOf at h ⊢
  simp only [lt_self_iff_false, if_false, false_or, Int.toNat_zero, List.drop_zero,
    add_zero] at h
  have h0 : ¬ ((pre.length : Int) < 0) := by omega
  simp only [h0, if_false, false_or, Int.toNat_ofNat, List.drop_left, List.length_append]
  by_cases hc : (p.length : Int) > (s.length : Int)
  · rw [if_pos hc] at h
    omega
  · rw [if_neg hc] at h
    have hc2 : ¬ ((p.length : Int) + (pre.length : Int) >
        ((pre.length + s.length : Nat) : Int)) := by
      push_cast
      omega
    rw [if_neg hc2, findFrom_base p s pre.length]
    cases hf : findFrom p s 0 with
    | none =>
      rw [hf] at h
      simp only at h
      omega
    | some i =>
      rw [hf] at h
      simp only at h
      have hi : i = k := by omega
      subst hi
      simp only [Option.map_some']
      push_cast
      omega

end Qt

namespace DBCFile

/-- The text a comment statement left open on its first raw line `raw` is matched against: the
statement from its start through the closing `";`, and possibly more, when the length that
`mid` is given (the index in the content of the first `";` at or after the start of the
statement) reaches the end of the statement. -/
theorem commentText_open (pre raw rest tail : Str) (streamPos k : Nat)
    (hpos : streamPos = pre.length + raw.length + 1)
    (hopen : Qt.endsWith (Qt.trimmed raw) "\";".toList = false)
    (hk : Qt.indexOf (raw ++ '\n' :: (rest ++ '"' :: ';' :: tail)) "\";".toList 0 = (k : Int))
    (hcover : (raw ++ '\n' :: rest).length + 2 ≤ pre.length + k) :
    ∃ tail1, commentText (Qt.trimmed raw)
        (pre ++ (raw ++ '\n' :: (rest ++ '"' :: ';' :: tail))) raw streamPos =
      (raw ++ '\n' :: rest) ++ '"' :: ';' :: tail1 := by
  have hposI : ((streamPos : Int) - (raw.length : Int) - 1) = (pre.length : Int) := by
    rw [hpos]
    push_cast
    ring
  unfold commentText
  rw [hopen]
  simp only [Bool.false_eq_true, if_false]
  rw [hposI, Qt.indexOf_part pre _ _ k hk]
  have hY : pre ++ (raw ++ '\n' :: (rest ++ '"' :: ';' :: tail)) =
      pre ++ (((raw ++ '\n' :: rest) ++ ['"', ';']) ++ tail) := by
    simp [List.append_assoc]
  rw [hY]
  obtain ⟨tail1, ht⟩ := Qt.mid_covers pre ((raw ++ '\n' :: rest) ++ ['"', ';']) tail
    (pre.length + k) (by
      simp only [List.length_append, List.length_cons, List.length_nil] at hcover ⊢
      omega)
  refine ⟨tail1, ?_⟩
  rw [ht]
  simp [List.append_assoc]

/-- A `CM_ BO_` statement left open on its first line `cmBoOpen D b1`, as `parseCM_BO` reads
it: the comment set is the text between the quotes, newline included, trimmed and with `\"`
replaced by the quote. -/
theorem parseCM_BO_open (msgs : Msgs) (pre D b1 b2 tail : Str) (streamPos k : Nat)
    (hpos : streamPos = pre.length + (cmBoOpen D b1).length + 1)
    (hopen : Qt.endsWith (Qt.trimmed (cmBoOpen D b1)) "\";".toList = false)
    (hk : Qt.indexOf (cmBoOpen D b1 ++ '\n' :: (b2 ++ '"' :: ';' :: tail)) "\";".toList 0 =
      (k : Int))
    (hcover : (cmBoOpen D b1 ++ '\n' :: b2).length + 2 ≤ pre.length + k)
    (hD : D ≠ []) (hDw : ∀ x ∈ D, isWordChar x = true)
    (hbody : isCommentBody (b1 ++ '\n' :: b2) = true) :
    parseCM_BO msgs (Qt.trimmed (cmBoOpen D b1))
      (pre ++ (cmBoOpen D b1 ++ '\n' :: (b2 ++ '"' :: ';' :: tail)))
      (cmBoOpen D b1) streamPos =
    .ok (setMsgComment msgs (Qt.toUInt D)
      (Qt.replace (Qt.trimmed (b1 ++ '\n' :: b2)) "\\\"".toList "\"".toList)) := by
  obtain ⟨tail1, ht⟩ := commentText_open pre (cmBoOpen D b1) b2 tail streamPos k hpos hopen
    hk hcover
  have hform : (cmBoOpen D b1 ++ '\n' :: b2) ++ '"' :: ';' :: tail1 =
      "CM_ BO_".toList ++ (List.replicate 1 ' ' ++ (D ++ (List.replicate 1 ' ' ++
        ('"' :: ((b1 ++ '\n' :: b2) ++ '"' :: ([] ++ ';' :: tail1)))))) := by
    simp [cmBoOpen, String.toList, List.append_assoc]
  unfold parseCM_BO
  rw [ht, hform, msg_comment_search_body D (b1 ++ '\n' :: b2) tail1 hD hDw hbody]
  simp only [captured, List.lookup, Option.getD_some]
  have e1 : ((1 : Nat) == 2) = false := rfl
  have e2 : ((1 : Nat) == 1) = true := rfl
  have e3 : ((2 : Nat) == 2) = true := rfl
  simp only [e1, e2, e3, Option.getD_some]
  unfold setMsgComment
  cases mapFind msgs (Qt.toUInt D) <;> rfl

/-- A `CM_ SG_` statement left open on its first line `cmSgOpen D N b1`, as `parseCM_SG` reads
it: the comment set is the text between the quotes, newline included, trimmed and with `\"`
replaced by the quote. -/
theorem parseCM_SG_open (msgs : Msgs) (pre D N b1 b2 tail : Str) (streamPos k : Nat)
    (hpos : streamPos = pre.length + (cmSgOpen D N b1).length + 1)
    (hopen : Qt.endsWith (Qt.trimmed (cmSgOpen D N b1)) "\";".toList = false)
    (hk : Qt.indexOf (cmSgOpen D N b1 ++ '\n' :: (b2 ++ '"' :: ';' :: tail)) "\";".toList 0 =
      (k : Int))
    (hcover : (cmSgOpen D N b1 ++ '\n' :: b2).length + 2 ≤ pre.length + k)
    (hD : D ≠ []) (hDw : ∀ x ∈ D, isWordChar x = true)
    (hN : N ≠ []) (hNw : ∀ x ∈ N, isWordChar x = true)
    (hbody : isCommentBody (b1 ++ '\n' :: b2) = true) :
    parseCM_SG msgs (Qt.trimmed (cmSgOpen D N b1))
      (pre ++ (cmSgOpen D N b1 ++ '\n' :: (b2 ++ '"' :: ';' :: tail)))
      (cmSgOpen D N b1) streamPos =
    .ok (setSigComment msgs (Qt.toUInt D) N
      (Qt.replace (Qt.trimmed (b1 ++ '\n' :: b2)) "\\\"".toList "\"".toList)) := by
  obtain ⟨tail1, ht⟩ := commentText_open pre (cmSgOpen D N b1) b2 tail streamPos k hpos hopen
    hk hcover
  have hform : (cmSgOpen D N b1 ++ '\n' :: b2) ++ '"' :: ';' :: tail1 =
      "CM_ SG_".toList ++ (List.replicate 1 ' ' ++ (D ++ (List.replicate 1 ' ' ++
        (N ++ (List.replicate 1 ' ' ++
          ('"' :: ((b1 ++ '\n' :: b2) ++ '"' :: ([] ++ ';' :: tail1)))))))) := by
    simp [cmSgOpen, String.toList, List.append_assoc]
  unfold parseCM_SG
  rw [ht, hform, sg_comment_search_body D N (b1 ++ '\n' :: b2) tail1 hD hDw hN hNw hbody]
  simp only [captured, List.lookup, Option.getD_some]
  have e1 : ((1 : Nat) == 3) = false := rfl
  have e2 : ((1 : Nat) == 2) = false := rfl
  have e3 : ((1 : Nat) == 1) = true := rfl
  have e4 : ((2 : Nat) == 3) = false := rfl
  have e5 : ((2 : Nat) == 2) = true := rfl
  have e6 : ((3 : Nat) == 3) = true := rfl
  simp only [e1, e2, e3, e4, e5, e6, Option.getD_some]
  unfold setSigComment
  cases mapFind msgs (Qt.toUInt D) with
  | none => rfl
  | some m =>
    simp only []
    cases m.sig N <;> rfl

end DBCFile

namespace DBCFile

set_option maxRecDepth 100000 in
/-- C7, refuted. The comment of message 1 is not terminated on its own line and its second line
reads `BO_ 2 B: 8 XXX`: the comment receives the three lines, and the loop still reads the
second line as a statement, which defines message 2. With a second line `SG_ second";` the
loop reads that line as an `SG_` statement and throws. The comment ` first` / `second ` is
stored without the blanks at its two ends. An open statement at offset 0 or 1 of the text, one
whose line ends with `\r\n`, and one with a `";` inside the comment that lies too far in front
of the closing one, make `parse` throw. -/
theorem continuation_line_is_a_statement :
    (∃ db, fromContent sampleLibC []
        "BO_ 1 A: 8 XXX\nCM_ BO_ 1 \"first\nBO_ 2 B: 8 XXX\nend\";\n".toList = .ok db ∧
      (db.msg 1).map (fun m => m.comment) = some "first\nBO_ 2 B: 8 XXX\nend".toList ∧
      (db.msg 2).map (fun m => m.name) = some "B".toList) ∧
    fromContent sampleLibC [] "BO_ 1 A: 8 XXX\nCM_ BO_ 1 \"first\nSG_ second\";\n".toList =
      .error "[:3]Invalid SG_ line format: SG_ second\";".toList ∧
    (∃ db, fromContent sampleLibC []
        "BO_ 1 A: 8 XXX\nCM_ BO_ 1 \" first\nsecond \";\n".toList = .ok db ∧
      (db.msg 1).map (fun m => m.comment) = some "first\nsecond".toList) ∧
    fromContent sampleLibC [] "CM_ BO_ 1 \"first\nsecond\";\n".toList =
      .error "[:1]Invalid message comment format: CM_ BO_ 1 \"first".toList ∧
    fromContent sampleLibC [] "\nCM_ BO_ 1 \"first\nsecond\";\n".toList =
      .error "[:2]Invalid message comment format: CM_ BO_ 1 \"first".toList ∧
    fromContent sampleLibC [] "BO_ 1 A: 8 XXX\r\nCM_ BO_ 1 \"first\r\nsecond\";\r\n".toList =
      .error "[:2]Invalid message comment format: CM_ BO_ 1 \"first".toList ∧
    fromContent sampleLibC []
        "BO_ 1 A: 8 XXX\nCM_ BO_ 1 \"a\\\";bbbbbbbbbbbbbbbbbbbb\nsecond\";\n".toList =
      .error "[:2]Invalid message comment format: CM_ BO_ 1 \"a\\\";bbbbbbbbbbbbbbbbbbbb".toList :=
  ⟨(continuation_line_read sampleLibC).1, (continuation_line_read sampleLibC).2,
    ⟨_, rfl, rfl⟩, rfl, rfl, rfl, rfl⟩

/-- C7, amended. A `CM_ BO_` or `CM_ SG_` statement whose quoted comment is not terminated on
its own line (the trimmed line does not end with `";`) is matched against the content buffer
from the start of its line. The statement begins a line of the text, its own line ends with
`\n` and not with `\r\n`, and the text between its quotes is made of characters other than the
quote and the backslash and of pairs of a backslash and a character other than the newline.
When the offset of the line in the text, plus the offset `k` in the statement of the first
`";`, reaches the end of the closing `";` (any offset from 2 on does when the closing `";` is
the first one), the target receives the text between the quotes with its embedded newline, the
white space at its two ends removed and every `\"` replaced by the quote. The stream is not
moved: the text behind the first newline of the comment is read by the loop as the lines that
follow, each handled as a line of its own. -/
theorem open_comment_statement (env : LibC) (st : ParseState) (pre D N b1 b2 tail : Str)
    (hpre : pre.getLast? = some '\n')
    (hD : D ≠ []) (hDw : ∀ x ∈ D, isWordChar x = true)
    (hN : N ≠ []) (hNw : ∀ x ∈ N, isWordChar x = true)
    (hb1 : ∀ x ∈ b1, x ≠ '\n') (hb1l : b1.getLast? ≠ some '\r')
    (hbody : isCommentBody (b1 ++ '\n' :: b2) = true) :
    (∀ k : Nat, Qt.endsWith (Qt.trimmed (cmBoOpen D b1)) "\";".toList = false →
      Qt.indexOf (cmBoOpen D b1 ++ '\n' :: (b2 ++ '"' :: ';' :: tail)) "\";".toList 0 =
        (k : Int) →
      (cmBoOpen D b1 ++ '\n' :: b2).length + 2 ≤ pre.length + k →
      Qt.scanLines (openStatementText pre (cmBoOpen D b1) b2 tail) [] =
        Qt.scanLines pre [] ++ (cmBoOpen D b1, 1) :: Qt.scanLines (b2 ++ '"' :: ';' :: tail) [] ∧
      (readLines (openStatementText pre (cmBoOpen D b1) b2 tail))[(Qt.scanLines pre []).length]? =
        some (openStatementLine pre (cmBoOpen D b1)) ∧
      statement env (openStatementText pre (cmBoOpen D b1) b2 tail) st
          (openStatementLine pre (cmBoOpen D b1)) =
        .ok ({ st with msgs := (setMsgComment st.msgs (Qt.toUInt D)
          (Qt.replace (Qt.trimmed (b1 ++ '\n' :: b2)) "\\\"".toList "\"".toList)) }, true)) ∧
    (∀ k : Nat, Qt.endsWith (Qt.trimmed (cmSgOpen D N b1)) "\";".toList = false →
      Qt.indexOf (cmSgOpen D N b1 ++ '\n' :: (b2 ++ '"' :: ';' :: tail)) "\";".toList 0 =
        (k : Int) →
      (cmSgOpen D N b1 ++ '\n' :: b2).length + 2 ≤ pre.length + k →
      Qt.scanLines (openStatementText pre (cmSgOpen D N b1) b2 tail) [] =
        Qt.scanLines pre [] ++ (cmSgOpen D N b1, 1) ::
          Qt.scanLines (b2 ++ '"' :: ';' :: tail) [] ∧
      (readLines (openStatementText pre (cmSgOpen D N b1) b2 tail))[(Qt.scanLines pre []).length]? =
        some (openStatementLine pre (cmSgOpen D N b1)) ∧
      statement env (openStatementText pre (cmSgOpen D N b1) b2 tail) st
          (openStatementLine pre (cmSgOpen D N b1)) =
        .ok ({ st with msgs := (setSigComment st.msgs (Qt.toUInt D) N
          (Qt.replace (Qt.trimmed (b1 ++ '\n' :: b2)) "\\\"".toList "\"".toList)) }, true)) := by
  have hlastOf : ∀ X0 : Str, ((X0 ++ ['"']) ++ b1).getLast? ≠ some '\r' := by
    intro X0
    cases hb : b1 with
    | nil =>
      rw [List.append_nil, List.getLast?_concat]
      decide
    | cons y u =>
      rw [List.getLast?_append_of_ne_nil _ (by simp), ← hb]
      exact hb1l
  constructor
  · intro k hopen hidx hcover
    have hrawEq : cmBoOpen D b1 = (("CM_ BO_ ".toList ++ D ++ " ".toList) ++ ['"']) ++ b1 := by
      simp [cmBoOpen, String.toList, List.append_assoc]
    have hraw : ∀ x ∈ cmBoOpen D b1, x ≠ '\n' := by
      intro x hx
      rw [hrawEq] at hx
      simp only [List.mem_append] at hx
      rcases hx with (((h | h) | h) | h) | h
      · revert x; decide
      · exact (word_facts D hDw x h).2.1
      · revert x; decide
      · revert x; decide
      · exact hb1 x h
    have hlast : (cmBoOpen D b1).getLast? ≠ some '\r' := by
      rw [hrawEq]
      exact hlastOf _
    obtain ⟨h1, h2⟩ := lines_of_statement pre (cmBoOpen D b1) (b2 ++ '"' :: ';' :: tail)
      hpre hraw hlast
    refine ⟨h1, h2, ?_⟩
    have hkeep : ∃ t1, Qt.trimmed (cmBoOpen D b1) = "CM_ BO_".toList ++ t1 := by
      have e : cmBoOpen D b1 = "CM_ BO_".toList ++ (' ' :: (D ++ " \"".toList ++ b1)) := by
        simp [cmBoOpen, String.toList, List.append_assoc]
      rw [e]
      exact Qt.trimmed_keeps _ _ 'C' '_' rfl (by decide) rfl (by decide)
    obtain ⟨t1, ht1⟩ := hkeep
    have hk : kindOf (Qt.trimmed (cmBoOpen D b1)) = .CM_BO := by
      rw [ht1]
      exact kindOf_CM_BO t1
    unfold statement openStatementLine openStatementText
    simp only [hk]
    rw [parseCM_BO_open st.msgs pre D b1 b2 tail _ k rfl hopen hidx hcover hD hDw hbody]
  · intro k hopen hidx hcover
    have hrawEq : cmSgOpen D N b1 =
        (("CM_ SG_ ".toList ++ D ++ " ".toList ++ N ++ " ".toList) ++ ['"']) ++ b1 := by
      simp [cmSgOpen, String.toList, List.append_assoc]
    have hraw : ∀ x ∈ cmSgOpen D N b1, x ≠ '\n' := by
      intro x hx
      rw [hrawEq] at hx
      simp only [List.mem_append] at hx
      rcases hx with (((((h | h) | h) | h) | h) | h) | h
      · revert x; decide
      · exact (word_facts D hDw x h).2.1
      · revert x; decide
      · exact (word_facts N hNw x h).2.1
      · revert x; decide
      · revert x; decide
      · exact hb1 x h
    have hlast : (cmSgOpen D N b1).getLast? ≠ some '\r' := by
      rw [hrawEq]
      exact hlastOf _
    obtain ⟨h1, h2⟩ := lines_of_statement pre (cmSgOpen D N b1) (b2 ++ '"' :: ';' :: tail)
      hpre hraw hlast
    refine ⟨h1, h2, ?_⟩
    have hkeep : ∃ t1, Qt.trimmed (cmSgOpen D N b1) = "CM_ SG_ ".toList ++ t1 := by
      cases hDc : D with
      | nil => exact absurd hDc hD
      | cons d D1 =>
        have hd := (word_facts D hDw d (by rw [hDc]; exact List.mem_cons_self _ _)).2.2
        have e : cmSgOpen (d :: D1) N b1 =
            ("CM_ SG_ ".toList ++ [d]) ++ (D1 ++ " ".toList ++ N ++ " \"".toList ++ b1) := by
          simp [cmSgOpen, String.toList, List.append_assoc]
        rw [e]
        obtain ⟨t1, ht1⟩ := Qt.trimmed_keeps ("CM_ SG_ ".toList ++ [d])
          (D1 ++ " ".toList ++ N ++ " \"".toList ++ b1) 'C' d rfl (by decide)
          (by simp [String.toList]) hd
        exact ⟨d :: t1, by rw [ht1]; simp [String.toList]⟩
    obtain ⟨t1, ht1⟩ := hkeep
    have hk : kindOf (Qt.trimmed (cmSgOpen D N b1)) = .CM_SG := by
      rw [ht1]
      exact kindOf_CM_SG t1
    unfold statement openStatementLine openStatementText
    simp only [hk]
    rw [parseCM_SG_open st.msgs pre D N b1 b2 tail _ k rfl hopen hidx hcover hD hDw hN hNw
      hbody]

set_option maxRecDepth 100000 in
/-- C7 amended, at the text `BO_ 1 A: 8 XXX` / `CM_ BO_ 1 " say \"hi\" there` / `more ";`: the
line read second is the open statement, and message 1 receives the two lines of the comment,
without the blanks at the two ends and with the quotes in place of `\"`. -/
theorem open_comment_statement_witness :
    (readLines "BO_ 1 A: 8 XXX\nCM_ BO_ 1 \" say \\\"hi\\\" there\nmore \";\n".toList)[1]? =
      some ⟨2, "CM_ BO_ 1 \" say \\\"hi\\\" there".toList, 44⟩ ∧
    statement sampleLibC "BO_ 1 A: 8 XXX\nCM_ BO_ 1 \" say \\\"hi\\\" there\nmore \";\n".toList
      { msgs := [(1, { address := 1, name := "A".toList, size := 8 })] }
      ⟨2, "CM_ BO_ 1 \" say \\\"hi\\\" there".toList, 44⟩ =
      .ok ({ msgs := [(1, { address := 1, name := "A".toList, size := 8,
                            comment := "say \"hi\" there\nmore".toList })] }, true) := by
  have h := (open_comment_statement sampleLibC
    { msgs := [(1, { address := 1, name := "A".toList, size := 8 })] }
    "BO_ 1 A: 8 XXX\n".toList "1".toList "S".toList " say \\\"hi\\\" there".toList
    "more ".toList "\n".toList
    (by decide!) (by decide) (by decide!) (by decide) (by decide!)
    (by decide!) (by decide!) (by decide!)).1 34 (by decide!) (by decide!) (by decide!)
  exact ⟨h.2.1, h.2.2.trans (congrArg Except.ok (by decide!))⟩

end DBCFile

/-! ## The lines of the generated text -/

namespace Qt

/-- Splitting a text made of pieces that hold no separator, each followed by one, and a rest. -/
theorem split_pieces_then (sep : Char) (ls : List Str) (rest : Str) (h : ∀ l ∈ ls, sep ∉ l) :
    split sep ((ls.map (fun l => l ++ [sep])).flatten ++ rest) = ls ++ split sep rest := by
  induction ls with
  | nil => rfl
  | cons l t ih =>
    rw [List.map_cons, List.flatten_cons, List.append_assoc, List.append_assoc,
      List.singleton_append, split_piece sep l _ (h l (List.mem_cons_self _ _)),
      ih (fun x hx => h x (List.mem_cons_of_mem _ hx))]
    rfl

/-- No line that `readLine` returns holds a newline. -/
theorem scanLines_raw (s acc : Str) (hacc : '\n' ∉ acc) :
    ∀ r ∈ scanLines s acc, '\n' ∉ r.1 := by
  induction s generalizing acc with
  | nil =>
    cases acc with
    | nil =>
      intro r hr
      simp [scanLines] at hr
    | cons a acc1 =>
      intro r hr
      simp only [List.mem_cons, not_or] at hacc
      unfold scanLines at hr
      split at hr
      · simp only [List.mem_singleton] at hr
        subst hr
        simpa using hacc.2
      · simp only [List.mem_singleton] at hr
        subst hr
        simp only [List.mem_reverse, List.mem_cons, not_or]
        exact hacc
  | cons c t ih =>
    intro r hr
    unfold scanLines at hr
    split at hr
    · rcases List.mem_cons.mp hr with e | e
      · subst e
        cases acc with
        | nil => simp
        | cons a acc1 =>
          simp only [List.mem_cons, not_or] at hacc
          simp only
          split
          · simpa using hacc.2
          · simp only [List.mem_reverse, List.mem_cons, not_or]
            exact hacc
      · exact ih [] (List.not_mem_nil _) r e
    · rename_i hc
      apply ih (c :: acc) _ r hr
      simp only [List.mem_cons, not_or]
      exact ⟨fun e => hc e.symm, hacc⟩

end Qt

namespace DBCFile

/-- The raw lines that `numberLines` yields are those it is given. -/
theorem numberLines_raw (A : List (Str × Nat)) (num pos : Nat) :
    (numberLines A num pos).map (fun l => l.raw_line) = A.map (fun r => r.1) := by
  induction A generalizing num pos with
  | nil => rfl
  | cons r t ih =>
    obtain ⟨raw, delim⟩ := r
    simp only [numberLines, List.map_cons, ih]

/-- No line that the loop reads holds a newline. -/
theorem readLines_raw (content : Str) : ∀ l ∈ readLines content, '\n' ∉ l.raw_line := by
  intro l hl
  have hmem : l.raw_line ∈ (readLines content).map (fun l => l.raw_line) :=
    List.mem_map_of_mem _ hl
  unfold readLines at hmem
  rw [numberLines_raw, List.mem_map] at hmem
  obtain ⟨r, hr, he⟩ := hmem
  rw [← he]
  exact Qt.scanLines_raw content [] (List.not_mem_nil _) r hr

/-- The raw lines joined, as pieces each followed by a newline. -/
theorem joinLines_eq (ls : List Line) :
    joinLines ls = ((ls.map (fun l => l.raw_line)).map (fun l => l ++ ['\n'])).flatten := by
  induction ls with
  | nil => rfl
  | cons l t ih =>
    rw [joinLines, ih]
    rfl

/-- The message block, as pieces each followed by a newline. -/
theorem messageBlock_eq (env : LibC) (ms : Msgs) :
    messageBlock env ms =
      (((ms.map (messageLines env)).flatten).map (fun l => l ++ ['\n'])).flatten := by
  unfold messageBlock
  induction ms with
  | nil => rfl
  | cons e t ih =>
    rw [List.map_cons, List.flatten_cons, ih, List.map_cons, List.flatten_cons,
      List.map_append, List.flatten_append]
    rfl

set_option maxRecDepth 100000 in
/-- C12, where it fails. The text parsed leaves an open comment on the line of `CM_ BO_ 1`, and
the line `BO_ 2 B: 8 XXX` inside the comment also declares message 2. In the text that
`generateDBC` returns for the database, the comment block repeats that line: the lines that
begin with `BO_ ` have the addresses 1, 2, 2, which are not strictly ascending, and the last of
them is followed by the line `end";`, not by a blank line. A message name with a newline, set
through `updateMsg`, breaks the `BO_` line in two. -/
theorem bo_line_inside_comment_block :
    (∃ db, parse sampleLibC [] []
        "BO_ 1 A: 8 XXX\nCM_ BO_ 1 \"first\nBO_ 2 B: 8 XXX\nend\";\n".toList = .ok db ∧
      Qt.split '\n' (generateDBC sampleLibC db) =
        ["BO_ 1 A: 8 XXX".toList, [], "BO_ 2 B: 8 XXX".toList, [],
         "CM_ BO_ 1 \"first".toList, "BO_ 2 B: 8 XXX".toList, "end\";".toList, []] ∧
      ((Qt.split '\n' (generateDBC sampleLibC db)).filter
          (fun l => Qt.startsWith l "BO_ ".toList)).map boAddress = [some 1, some 2, some 2]) ∧
    Qt.split '\n' (generateDBC sampleLibC (updateMsg {} ⟨0, 1⟩ "A\nB".toList 8 [] [])) =
      ["BO_ 1 A".toList, "B: 8 XXX".toList, [], []] :=
  ⟨⟨_, rfl, by decide!, by decide!⟩, by decide!⟩

/-- C12, amended. The text of `generateDBC`, for a database built by `parse` and edited by any
calls of `updateMsg` and `removeMsg`, is the header, the message block, the comment block and
the value-description block. Provided no line written for a message holds a newline itself,
the lines of the text (the pieces between the newlines) are the header lines, then, message by
message in map order, the `BO_` line of the message, one ` SG_` line for each of its signals in
stored order, and one empty line, then the lines of the comment and value-description blocks;
the addresses of the messages are strictly ascending. Lines in the comment block can begin with
`BO_ ` as well; they are outside this order. -/
theorem message_lines_in_address_order (env : LibC) (fn name_ content : Str) (db0 : DBCFile)
    (ops : List Edit) (h : parse env fn name_ content = .ok db0)
    (hnl : ∀ e ∈ (applyEdits db0 ops).msgs, ∀ l ∈ messageLines env e, '\n' ∉ l) :
    generateDBC env (applyEdits db0 ops) =
      (applyEdits db0 ops).header ++ messageBlock env (applyEdits db0 ops).msgs ++
        commentBlock (applyEdits db0 ops).msgs ++ valueBlock env (applyEdits db0 ops).msgs ∧
    Qt.split '\n' (generateDBC env (applyEdits db0 ops)) =
      (headerLines (readLines content)).map (fun l => l.raw_line) ++
        ((applyEdits db0 ops).msgs.map (messageLines env)).flatten ++
        Qt.split '\n' (commentBlock (applyEdits db0 ops).msgs ++
          valueBlock env (applyEdits db0 ops).msgs) ∧
    Qt.split '\n' (messageBlock env (applyEdits db0 ops).msgs) =
      ((applyEdits db0 ops).msgs.map (messageLines env)).flatten ++ [[]] ∧
    (addresses (applyEdits db0 ops).msgs).Pairwise (fun a b => a < b) := by
  have hml : ∀ l ∈ ((applyEdits db0 ops).msgs.map (messageLines env)).flatten, '\n' ∉ l := by
    intro l hl
    rw [List.mem_flatten] at hl
    obtain ⟨ls, hls, hl⟩ := hl
    rw [List.mem_map] at hls
    obtain ⟨e, he, rfl⟩ := hls
    exact hnl e he l hl
  have hhl : ∀ l ∈ (headerLines (readLines content)).map (fun l => l.raw_line), '\n' ∉ l := by
    intro l hl
    rw [List.mem_map] at hl
    obtain ⟨x, hx, rfl⟩ := hl
    unfold headerLines at hx
    apply readLines_raw content x
    rw [← List.takeWhile_append_dropWhile (fun l => lineKind l = .other) (readLines content)]
    exact List.mem_append_left _ hx
  refine ⟨generateDBC_eq env _, ?_, ?_, ?_⟩
  · rw [generateDBC_eq, applyEdits_header, parse_header_eq env fn name_ content db0 h,
      joinLines_eq, messageBlock_eq, List.append_assoc, List.append_assoc,
      Qt.split_pieces_then '\n' _ _ hhl, Qt.split_pieces_then '\n' _ _ hml, List.append_assoc]
  · rw [messageBlock_eq]
    exact Qt.split_pieces '\n' _ hml
  · unfold addresses
    rw [List.pairwise_map]
    exact applyEdits_ordered db0 ops (parse_ordered env fn name_ content db0 h)

set_option maxRecDepth 100000 in
/-- C12 amended, at the text with a header line that declares message 2 with the signal `S`
before message 1 and gives message 1 a comment, edited by a call of `updateMsg` that creates
message 3: the lines written are the header line, those of the messages 1, 2 and 3 in this
order, and the comment statement. -/
theorem message_lines_in_address_order_witness :
    ∃ db0, parse sampleLibC [] []
        ("VERSION \"\"\nBO_ 2 B: 8 XXX\n SG_ S : 0|8@1+ (1,0) [0|255] \"\" XXX\n" ++
         "BO_ 1 A: 8 XXX\nCM_ BO_ 1 \"c\";\n").toList = .ok db0 ∧
      Qt.split '\n' (generateDBC sampleLibC
          (applyEdits db0 [Edit.updateMsg ⟨0, 3⟩ "C".toList 4 [] []])) =
        ["VERSION \"\"".toList,
         "BO_ 1 A: 8 XXX".toList, [],
         "BO_ 2 B: 8 XXX".toList, " SG_ S : 0|8@1+ (1,0) [0|255] \"\" XXX".toList, [],
         "BO_ 3 C: 4 XXX".toList, [],
         "CM_ BO_ 1 \"c\";".toList, []] ∧
      (addresses (applyEdits db0 [Edit.updateMsg ⟨0, 3⟩ "C".toList 4 [] []]).msgs).Pairwise
        (fun a b => a < b) :=
  ⟨_, rfl,
    ((message_lines_in_address_order sampleLibC [] []
      ("VERSION \"\"\nBO_ 2 B: 8 XXX\n SG_ S : 0|8@1+ (1,0) [0|255] \"\" XXX\n" ++
       "BO_ 1 A: 8 XXX\nCM_ BO_ 1 \"c\";\n").toList _
      [Edit.updateMsg ⟨0, 3⟩ "C".toList 4 [] []] rfl (by decide!)).2.1).trans (by decide!),
    (message_lines_in_address_order sampleLibC [] []
      ("VERSION \"\"\nBO_ 2 B: 8 XXX\n SG_ S : 0|8@1+ (1,0) [0|255] \"\" XXX\n" ++
       "BO_ 1 A: 8 XXX\nCM_ BO_ 1 \"c\";\n").toList _
      [Edit.updateMsg ⟨0, 3⟩ "C".toList 4 [] []] rfl (by decide!)).2.2.2⟩

end DBCFile
